import Mathlib

/-!
# Bitstream (autobase): causal ordering, fork resolution, read streams, membership batches

A shallow embedding of `src/index.js` and `src/lib/batch.js`.

Conventions of the embedding

* An input key is a `Buffer` of 32 bytes.  It is represented by the natural number its bytes
  denote, the most significant byte first (`keyBytes` gives the bytes back), and the id of a
  node (the hex string of its key) is identified with the key.  The comparison `a < b` of two
  keys in `forkInfo` is the JavaScript `<` on two Buffers: both are converted to strings by
  `Buffer.prototype.toString()` (utf-8 decoding, every ill-formed sequence read as U+FFFD), and
  the strings are compared code unit by code unit (`keyLess`).
* A JavaScript `Map` is an association list in insertion order (`JsMap`), with the `get`,
  `has`, `set` and `delete` of `Map`.
* Nodes are created afresh by every `_getInputNode` call, and the heads of one snapshot belong
  to different inputs, so object identity (`===`, `indexOf`) on the nodes of one list is
  equality of values.
* Asynchronous functions are functions of the state they read; a rejected promise is
  `Except.error`.
* The streams and `heads()` are read on an instance whose opening has completed (they await
  `_opening` first), and the logs they read are ready.
* A read stream is run in two ways: `readRounds` runs it on an instance that only the hooks of
  the stream change, and `readPulls` on an instance whose successive states are given, one
  for every call of `updateAll()`, so that nodes may be appended while the stream runs.
* The fields `this.clock` and `this.view` are handed to the functions that use them
  (`latest`, `start`) and come back with the result.
* `lib/nodes`, `lib/nodes/messages` and `lib/linearize` are not among the sources: `lte` and
  the view are modelled from the specification, under doc comments that say so, and
  `decodeHeader` is a parameter of `isBitstream`.
-/

namespace Autobase

/-! ## Maps and clocks -/

/-- Identity of an input: its key (equivalently the hex string of the key). -/
abbrev Key := Nat

/-- A JavaScript `Map` with keys of type `Key`, as its list of entries in insertion order. -/
abbrev JsMap (α : Type) := List (Key × α)

namespace JsMap

variable {α : Type}

/-- The value of `Map.prototype.get`, `none` standing for `undefined`. -/
def get (m : JsMap α) (k : Key) : Option α :=
  match m with
  | [] => none
  | (k', v) :: rest => if k' = k then some v else get rest k

/-- The value of `Map.prototype.has`. -/
def has (m : JsMap α) (k : Key) : Bool :=
  (get m k).isSome

/-- Replace the value of an existing entry, keeping its place. -/
def replace (m : JsMap α) (k : Key) (v : α) : JsMap α :=
  m.map (fun e => if e.1 = k then (k, v) else e)

/-- The effect of `Map.prototype.set`: an existing entry keeps its place, a new one goes last. -/
def set (m : JsMap α) (k : Key) (v : α) : JsMap α :=
  if has m k then replace m k v else m ++ [(k, v)]

/-- The effect of `Map.prototype.delete`. -/
def delete (m : JsMap α) (k : Key) : JsMap α :=
  m.filter (fun e => decide (e.1 ≠ k))

/-- The keys in iteration order. -/
def keys (m : JsMap α) : List Key :=
  m.map Prod.fst

/-- The values in iteration order. -/
def values (m : JsMap α) : List α :=
  m.map Prod.snd

/-- A list of entries is a `Map` when no key occurs twice. -/
def WF (m : JsMap α) : Prop :=
  (keys m).Nodup

end JsMap

/-- A causal clock: input id to the highest causally known seq of that input. -/
abbrev Clock := JsMap Nat

/-! ## Nodes -/

/-- The protocol tag of a header. -/
inductive Protocol where
  | input
  | output
  | other (tag : Nat)
  deriving DecidableEq, Repr

/-- Bytes of a value. -/
abbrev Bytes := List Nat

/-- An input node, as built by `new InputNode({ ...decoded, clock, key, seq })`. -/
structure InputNode where
  key : Key
  seq : Nat
  value : Bytes
  batch : Nat × Nat
  clock : Clock
  header : Option Protocol
  deriving DecidableEq, Repr

namespace InputNode

/-- The id of a node: the hex string of its key, identified with the key. -/
def id (n : InputNode) : Key := n.key

/-- Modelled from the spec: `lib/nodes` (the class `InputNode`) is not among the sources.
`lte(other)` holds when `other.clock.get(this.id) >= this.seq`; an absent entry compares
false.  The spec adds "or this node equals other"; `isFork` compares every head with itself
and the tests of `src/test/basic.js` find forks, so the comparison is the clock one only. -/
def lte (self other : InputNode) : Bool :=
  match other.clock.get self.id with
  | some s => decide (self.seq ≤ s)
  | none => false

end InputNode

/-! ## Logs -/

/-- The result of `NodeSchema.decode` on a block, with the clock already decompressed
(the clock codec is an opaque bijection and is taken as the identity). -/
structure NodeSchema where
  header : Option Protocol
  value : Bytes
  batch : Option (Nat × Nat)
  clock : Clock
  deriving DecidableEq, Repr

/-- A stored block: either one that decodes, or one on which `NodeSchema.decode` throws. -/
inductive Block where
  | encoded (d : NodeSchema)
  | malformed
  deriving DecidableEq, Repr

/-- The value encoding a log was configured with. -/
inductive Encoding where
  | binary
  | utf8
  | json
  deriving DecidableEq, Repr

/-- The append-only log collaborator (a "Unichain"): `blocks` holds the blocks `get` can
deliver (`none` for a block that is not available), `length` is its known length. -/
structure Unichain where
  key : Key
  length : Nat
  blocks : List (Option Block)
  valueEncoding : Option Encoding
  deriving DecidableEq, Repr

namespace Unichain

/-- The result of `input.get(seq, opts)`: the block, or `none` when it is absent. -/
def get (input : Unichain) (seq : Nat) : Option Block :=
  (input.blocks.get? seq).join

end Unichain

/-- Errors raised by the code. -/
inductive Error where
  | typeError
  | notBinary
  | outOfDate
  | unsupportedOperation
  | notAnInput
  | startTwice
  deriving DecidableEq, Repr

deriving instance DecidableEq for Except

/-- The normalisation at the end of `_getInputNode`: the clock gets the node's own
predecessor, or loses the node's own entry at seq 0. -/
def normalizeClock (clock : Clock) (id : Key) (seq : Nat) : Clock :=
  if seq > 0 then JsMap.set clock id (seq - 1) else JsMap.delete clock id

/-- The body of `_getInputNode` once the input is resolved and `seq >= 0`; the first argument
bounds the look-ahead recursion to the batch terminator, which moves forward and stops at the
first absent block.  A node appended alone is stored without batch position
(`_createInputBatch` writes `null`), which reads as `[0, 0]`. -/
def getInputNodeAux (input : Unichain) : Nat → Nat → Except Error (Option InputNode)
  | 0, _ => .ok none
  | fuel + 1, seq =>
    match input.get seq with
    | none => .ok none
    | some Block.malformed => .ok none
    | some (Block.encoded decoded) =>
      let batch := decoded.batch.getD (0, 0)
      let mk (clock : Clock) : InputNode :=
        { key := input.key, seq := seq, value := decoded.value, batch := batch,
          clock := normalizeClock clock input.key seq, header := decoded.header }
      if batch.2 ≠ 0 then
        match getInputNodeAux input fuel (seq + batch.2) with
        | .error e => .error e
        | .ok none => .error Error.typeError
        | .ok (some batchEnd) => .ok (some (mk batchEnd.clock))
      else .ok (some (mk decoded.clock))

/-- The function `_getInputNode(input, seq)` for an input given as a log. -/
def getInputNodeOf (input : Unichain) (seq : Int) : Except Error (Option InputNode) :=
  if seq < 0 then .ok none
  else getInputNodeAux input (input.blocks.length + 1 - seq.toNat) seq.toNat

/-! ## The instance -/

/-- The state of a Bitstream instance that the modelled operations read and write. -/
structure Bitstream where
  _inputsByKey : JsMap Unichain
  _outputsByKey : JsMap Unichain
  _batchId : Nat
  opened : Bool
  closed : Bool
  /-- The outcome of the promise `_opening`: `none` when it is fulfilled (or pending), the
  error when it is rejected. -/
  _opening : Option Error
  /-- The keys of the logs that carry the listener `_onappend` of this instance, one entry
  per registration. -/
  appendListeners : List Key
  /-- The keys of the logs that carry the listener `_ontruncate` of this instance, one entry
  per registration. -/
  truncateListeners : List Key
  deriving DecidableEq, Repr

namespace Bitstream

/-- The getter `inputs`. -/
def inputs (self : Bitstream) : List Unichain :=
  JsMap.values self._inputsByKey

/-- The getter `outputs`. -/
def outputs (self : Bitstream) : List Unichain :=
  JsMap.values self._outputsByKey

/-- The function `_getInputNode(id, seq)` for an input given by its id. -/
def _getInputNode (self : Bitstream) (id : Key) (seq : Int) : Except Error (Option InputNode) :=
  if seq < 0 then .ok none
  else
    match self._inputsByKey.get id with
    | none => .ok none
    | some input => getInputNodeOf input seq

/-- The function `heads()`: the newest node of every tracked input. -/
def heads (self : Bitstream) : Except Error (List (Option InputNode)) :=
  self.inputs.mapM (fun i => getInputNodeOf i ((i.length : Int) - 1))

end Bitstream

/-! ## Keys as Buffers -/

/-- The bytes of a key: 32 of them, the most significant first. -/
def keyBytes (k : Key) : List Nat :=
  (List.range 32).map (fun i => k / 256 ^ (31 - i) % 256)

/-- The state of the utf-8 decoder inside a sequence of several bytes: the code point read so
far, the number of continuation bytes still expected, and the bounds of the next byte. -/
structure Utf8State where
  codePoint : Nat
  needed : Nat
  lower : Nat
  upper : Nat
  deriving DecidableEq, Repr

/-- The UTF-16 code units of a code point: itself below U+10000, a surrogate pair above. -/
def codeUnits (codePoint : Nat) : List Nat :=
  if codePoint < 0x10000 then [codePoint]
  else [0xD800 + (codePoint - 0x10000) / 0x400, 0xDC00 + (codePoint - 0x10000) % 0x400]

/-- What the utf-8 decoder does with a byte outside a sequence: an ASCII byte is its own code
point, a lead byte opens a sequence, any other byte is read as U+FFFD. -/
def utf8Lead (byte : Nat) : List Nat × Option Utf8State :=
  if byte ≤ 0x7F then ([byte], none)
  else if 0xC2 ≤ byte ∧ byte ≤ 0xDF then
    ([], some { codePoint := byte % 0x20, needed := 1, lower := 0x80, upper := 0xBF })
  else if 0xE0 ≤ byte ∧ byte ≤ 0xEF then
    ([], some { codePoint := byte % 0x10, needed := 2,
                lower := if byte = 0xE0 then 0xA0 else 0x80,
                upper := if byte = 0xED then 0x9F else 0xBF })
  else if 0xF0 ≤ byte ∧ byte ≤ 0xF4 then
    ([], some { codePoint := byte % 0x8, needed := 3,
                lower := if byte = 0xF0 then 0x90 else 0x80,
                upper := if byte = 0xF4 then 0x8F else 0xBF })
  else ([0xFFFD], none)

/-- The utf-8 decoding of `Buffer.prototype.toString()`, as the UTF-16 code units of the
string: a well-formed sequence gives its code point; a sequence cut short by a byte that
cannot continue it, or by the end of the bytes, gives U+FFFD, and the byte that cut it is read
again outside a sequence. -/
def utf8Decode : Option Utf8State → List Nat → List Nat
  | none, [] => []
  | some _, [] => [0xFFFD]
  | none, byte :: rest => (utf8Lead byte).1 ++ utf8Decode (utf8Lead byte).2 rest
  | some st, byte :: rest =>
    if st.lower ≤ byte ∧ byte ≤ st.upper then
      if st.needed = 1 then
        codeUnits (st.codePoint * 0x40 + byte % 0x40) ++ utf8Decode none rest
      else
        utf8Decode
          (some { codePoint := st.codePoint * 0x40 + byte % 0x40, needed := st.needed - 1,
                  lower := 0x80, upper := 0xBF })
          rest
    else 0xFFFD :: ((utf8Lead byte).1 ++ utf8Decode (utf8Lead byte).2 rest)

/-- The string of a key, `key.toString()`, as its UTF-16 code units. -/
def keyString (k : Key) : List Nat :=
  utf8Decode none (keyBytes k)

/-- The JavaScript comparison `a < b` of two strings, given by their code units: the first
code unit at which they differ decides, and a string that another one continues is smaller. -/
def stringLess : List Nat → List Nat → Bool
  | [], [] => false
  | [], _ :: _ => true
  | _ :: _, [] => false
  | a :: as, b :: bs => if a < b then true else if b < a then false else stringLess as bs

/-- The JavaScript comparison `a < b` of two keys, which are Buffers: both operands are
converted to strings, and the strings are compared. -/
def keyLess (a b : Key) : Bool :=
  stringLess (keyString a) (keyString b)

/-! ## Fork resolver -/

/-- The function `isFork(head, heads)`. -/
def isFork (head : Option InputNode) (heads : List (Option InputNode)) : Bool :=
  match head with
  | none => false
  | some head =>
    heads.all (fun other =>
      match other with
      | none => true
      | some other => !head.lte other)

/-- The table `high` built by the first loop of `forkSize`: for every id the greatest
`seq + 1` recorded in the clocks of the heads other than `node`, `0` (the value of
`high[key] || 0`) when there is none. -/
def forkHigh (node : InputNode) (heads : List InputNode) : Key → Nat :=
  heads.foldl
    (fun high head =>
      if head = node then high
      else
        head.clock.foldl
          (fun high e =>
            let length := e.2 + 1
            if length > high e.1 then Function.update high e.1 length else high)
          high)
    (fun _ => 0)

/-- The function `forkSize(node, i, heads)`. -/
def forkSize (node : InputNode) (_i : Nat) (heads : List InputNode) : Nat :=
  let high := forkHigh node heads
  node.clock.foldl
    (fun s e =>
      let length := e.2 + 1
      let h := high e.1
      if length > h then s + (length - h) else s)
    0

/-- The result of `forkInfo`. -/
structure ForkInfo where
  forks : List InputNode
  clock : Clock
  smallest : Nat
  deriving DecidableEq, Repr

/-- One round of the selection loop of `forkInfo`, at index `i`.  The keys are Buffers, and
`forks[i].key < forks[smallest].key` is the comparison `keyLess` of their strings. -/
def smallestStep (sizes : List Nat) (forks : List InputNode) (smallest i : Nat) : Nat :=
  if sizes.getD i 0 = sizes.getD smallest 0 ∧
      keyLess (((forks.get? i).map InputNode.key).getD 0)
        (((forks.get? smallest).map InputNode.key).getD 0) = true
  then i
  else if sizes.getD i 0 < sizes.getD smallest 0 then i
  else smallest

/-- The function `forkInfo(heads)`.  `forks.map(forkSize)` calls `forkSize(fork, i, forks)`:
the third argument of the callback of `Array.prototype.map` is the array being mapped. -/
def forkInfo (heads : List (Option InputNode)) : ForkInfo :=
  let forks := heads.filterMap (fun head => if isFork head heads then head else none)
  let clock := heads.foldl
    (fun clock head =>
      match head with
      | none => clock
      | some head => JsMap.set clock head.id head.seq)
    ([] : Clock)
  let sizes := forks.mapIdx (fun i fork => forkSize fork i forks)
  let smallest := (List.range' 1 (sizes.length - 1)).foldl (smallestStep sizes forks) 0
  { forks := forks, clock := clock, smallest := smallest }

/-! ## Causal stream -/

/-- An output node, as built by `new OutputNode({ ...node, change: node.key, clock })`:
the fields of the input node (kept as `node`, with its causal clock), the key of the input it
comes from and the snapshot clock of `forkInfo`, which is the clock of the output node. -/
structure OutputNode where
  node : InputNode
  change : Key
  clock : Clock
  deriving DecidableEq, Repr

/-- The value of `heads.indexOf(node)` for a node of the list: the first index holding it. -/
def indexOfHead (node : Option InputNode) : List (Option InputNode) → Nat
  | [] => 0
  | head :: rest => if head = node then 0 else indexOfHead node rest + 1

/-- What one call of `read` of the causal stream does. -/
inductive CausalRead where
  | ended
  | pushed (out : OutputNode) (heads : List (Option InputNode))
  | failed (out : OutputNode) (err : Error)
  deriving DecidableEq, Repr

/-- The function `read` of `createCausalStream`, on the instance state `self` at the time of
the call and the current `heads`. -/
def causalRead (self : Bitstream) (heads : List (Option InputNode)) : CausalRead :=
  let info := forkInfo heads
  match info.forks.get? info.smallest with
  | none => .ended
  | some node =>
    let forkIndex := indexOfHead (some node) heads
    let out : OutputNode := { node := node, change := node.key, clock := info.clock }
    if node.seq = 0 then .pushed out (heads.eraseIdx forkIndex)
    else
      match self._getInputNode node.id ((node.seq : Int) - 1) with
      | .error e => .failed out e
      | .ok next => .pushed out (heads.set forkIndex next)

/-- The nodes pushed by successive calls of `read`, the instance being in the state
`selves[i]` at the `i`-th call. -/
def causalPulls : List Bitstream → List (Option InputNode) → List OutputNode
  | [], _ => []
  | self :: rest, heads =>
    match causalRead self heads with
    | .ended => []
    | .failed out _ => [out]
    | .pushed out heads' => out :: causalPulls rest heads'

/-- The sum over the heads of `seq + 1`: a bound on the number of nodes still to push. -/
def headsWeight (heads : List (Option InputNode)) : Nat :=
  (heads.map (fun head => match head with
    | none => 0
    | some head => head.seq + 1)).sum

/-- The causal stream read to its end from the heads `heads`, the instance staying in the
state `self`. -/
def causalStreamFrom (self : Bitstream) (heads : List (Option InputNode)) : List OutputNode :=
  causalPulls (List.replicate (headsWeight heads + 1) self) heads

/-- The function `createCausalStream()` read to its end: `open` takes the heads. -/
def createCausalStream (self : Bitstream) : Except Error (List OutputNode) :=
  match self.heads with
  | .error e => .error e
  | .ok heads => .ok (causalStreamFrom self heads)

/-! ## Membership -/

namespace Bitstream

/-- The function `_validateInput(input)`. -/
def _validateInput (input : Unichain) : Except Error Unit :=
  match input.valueEncoding with
  | none => .ok ()
  | some enc => if enc ≠ Encoding.binary then .error Error.notBinary else .ok ()

/-- The function `_addInput(input)`. -/
def _addInput (self : Bitstream) (input : Unichain) : Except Error Bitstream :=
  match _validateInput input with
  | .error e => .error e
  | .ok () =>
    let id := input.key
    if self._inputsByKey.has id then .ok self
    else
      .ok { self with
        _inputsByKey := JsMap.set self._inputsByKey id input
        appendListeners := self.appendListeners ++ [id] }

/-- The function `_addOutput(output)`; `this.outputs.push(output)` pushes on the fresh array
made by the getter and has no effect. -/
def _addOutput (self : Bitstream) (output : Unichain) : Bitstream :=
  let id := output.key
  if self._outputsByKey.has id then self
  else
    { self with
      _outputsByKey := JsMap.set self._outputsByKey id output
      truncateListeners := self.truncateListeners ++ [id] }

/-- The function `_removeInput(input)`, the input given by its key (a buffer or a log). -/
def _removeInput (self : Bitstream) (id : Key) : Bitstream :=
  if !self._inputsByKey.has id then self
  else
    { self with
      _inputsByKey := JsMap.delete self._inputsByKey id
      appendListeners := self.appendListeners.erase id }

/-- The function `_removeOutput(output)`, the output given by its key (a buffer or a log). -/
def _removeOutput (self : Bitstream) (id : Key) : Bitstream :=
  if !self._outputsByKey.has id then self
  else
    { self with
      _outputsByKey := JsMap.delete self._outputsByKey id
      truncateListeners := self.truncateListeners.erase id }

/-- The function `ready()`: the outcome of `_opening`. -/
def ready (self : Bitstream) : Except Error Unit :=
  match self._opening with
  | some e => .error e
  | none => .ok ()

end Bitstream

/-- An operation of a membership batch (`MemberBatch.ADD_INPUT`, ...). -/
inductive MemberOp where
  | ADD_INPUT (chain : Unichain)
  | ADD_OUTPUT (chain : Unichain)
  | REMOVE_INPUT (chain : Key)
  | REMOVE_OUTPUT (chain : Key)
  deriving DecidableEq, Repr

/-- A membership batch: the version it was created at and its operations. -/
structure MemberBatch where
  batchId : Nat
  _ops : List MemberOp
  deriving DecidableEq, Repr

namespace MemberBatch

/-- The function `memberBatch()`: the constructor of `MemberBatch`. -/
def create (bitstream : Bitstream) : MemberBatch :=
  { batchId := bitstream._batchId, _ops := [] }

/-- The function `addInput(chain)` of a batch. -/
def addInput (batch : MemberBatch) (chain : Unichain) : MemberBatch :=
  { batch with _ops := batch._ops ++ [MemberOp.ADD_INPUT chain] }

/-- The function `addOutput(chain)` of a batch. -/
def addOutput (batch : MemberBatch) (chain : Unichain) : MemberBatch :=
  { batch with _ops := batch._ops ++ [MemberOp.ADD_OUTPUT chain] }

/-- The function `removeInput(chain)` of a batch. -/
def removeInput (batch : MemberBatch) (chain : Key) : MemberBatch :=
  { batch with _ops := batch._ops ++ [MemberOp.REMOVE_INPUT chain] }

/-- The function `removeOutput(chain)` of a batch. -/
def removeOutput (batch : MemberBatch) (chain : Key) : MemberBatch :=
  { batch with _ops := batch._ops ++ [MemberOp.REMOVE_OUTPUT chain] }

/-- One case of the `switch` of `commit`. -/
def applyOp (bitstream : Bitstream) (op : MemberOp) : Except Error Bitstream :=
  match op with
  | .ADD_INPUT chain => bitstream._addInput chain
  | .ADD_OUTPUT chain => .ok (bitstream._addOutput chain)
  | .REMOVE_INPUT chain => .ok (bitstream._removeInput chain)
  | .REMOVE_OUTPUT chain => .ok (bitstream._removeOutput chain)

/-- The loop of `commit` over the operations: the state it leaves, and the error that stopped
it if there is one. -/
def applyOps : Bitstream → List MemberOp → Bitstream × Option Error
  | bitstream, [] => (bitstream, none)
  | bitstream, op :: rest =>
    match applyOp bitstream op with
    | .error e => (bitstream, some e)
    | .ok bitstream' => applyOps bitstream' rest

/-- The function `commit()`: the state of the instance after the call, and the error the
returned promise is rejected with (`none` when it is fulfilled).  The logs of the operations
are ready. -/
def commit (batch : MemberBatch) (bitstream : Bitstream) : Bitstream × Option Error :=
  match bitstream.ready with
  | .error e => (bitstream, some e)
  | .ok () =>
    if batch.batchId ≠ bitstream._batchId then (bitstream, some Error.outOfDate)
    else applyOps { bitstream with _batchId := bitstream._batchId + 1 } batch._ops

end MemberBatch

/-! ## Read stream -/

/-- A JavaScript value returned by a hook. -/
inductive JsValue where
  | undefined
  | null
  | boolean (b : Bool)
  | number (n : Nat)
  | object
  deriving DecidableEq, Repr

namespace JsValue

/-- Truthiness of a value. -/
def truthy : JsValue → Bool
  | undefined => false
  | null => false
  | boolean b => b
  | number n => decide (n ≠ 0)
  | object => true

end JsValue

/-- The options of `createReadStream`.  A hook runs on the instance and may change it (add
an input).  The option `map` transforms what is pushed and nothing else; the stream is
modelled by the nodes it takes, before `map`. -/
structure ReadOpts where
  live : Bool
  tail : Bool
  wait : Bool
  checkpoint : Option (JsMap Nat)
  onresolve : Option (Bitstream → InputNode → Bitstream × JsValue)
  onwait : Option (Bitstream → InputNode → Bitstream)

/-- The maps a read stream owns. -/
structure ReadState where
  positionsByKey : JsMap Nat
  nodesByKey : JsMap (Option InputNode)
  snapshotLengthsByKey : JsMap Nat
  deriving DecidableEq, Repr

/-- The function `maybeSnapshot()`. -/
def maybeSnapshot (self : Bitstream) (opts : ReadOpts) (st : ReadState) : ReadState :=
  self._inputsByKey.foldl
    (fun st e =>
      if !opts.live then
        { st with snapshotLengthsByKey := JsMap.set st.snapshotLengthsByKey e.1 e.2.length }
      else st)
    st

/-- The call `self._getInputNode(input, pos, { wait })` of `updateAll`, where `input` is what
`self._inputsByKey.get(key)` gave: on `undefined` the call throws. -/
def loadNode (input : Option Unichain) (pos : Nat) : Except Error (Option InputNode) :=
  match input with
  | none => .error Error.typeError
  | some input => getInputNodeOf input pos

/-- The start of the body of the first loop of `updateAll()`: the position of `key`, set to
`input.length` (with `tail`) or `0` when the map has none.  An input that is no longer
tracked is `undefined`, and reading its length throws. -/
def positionOf (opts : ReadOpts) (input : Option Unichain) (positionsByKey : JsMap Nat)
    (key : Key) : Except Error (Nat × JsMap Nat) :=
  match positionsByKey.get key with
  | some pos => .ok (pos, positionsByKey)
  | none =>
    if opts.tail then
      match input with
      | none => .error Error.typeError
      | some input => .ok (input.length, JsMap.set positionsByKey key input.length)
    else .ok (0, JsMap.set positionsByKey key 0)

/-- The first loop of `updateAll()`, over the keys still to visit: the positions it sets and
the loads it starts.  `input.update()` changes nothing in a given state of the logs. -/
def updateAllLoop (self : Bitstream) (opts : ReadOpts) (snapshotLengthsByKey : JsMap Nat) :
    List Key → JsMap Nat → List (Key × Except Error (Option InputNode)) →
    Except Error (JsMap Nat × List (Key × Except Error (Option InputNode)))
  | [], positionsByKey, loads => .ok (positionsByKey, loads)
  | key :: rest, positionsByKey, loads =>
    let input := self._inputsByKey.get key
    match positionOf opts input positionsByKey key with
    | .error e => .error e
    | .ok (pos, positionsByKey) =>
      let snapshotLength := (snapshotLengthsByKey.get key).getD 0
      if snapshotLength ≠ 0 then
        if pos ≥ snapshotLength then
          updateAllLoop self opts snapshotLengthsByKey rest positionsByKey loads
        else
          updateAllLoop self opts snapshotLengthsByKey rest positionsByKey
            (loads ++ [(key, loadNode input pos)])
      else
        match input with
        | none => .error Error.typeError
        | some input =>
          if pos ≥ input.length then
            updateAllLoop self opts snapshotLengthsByKey rest positionsByKey loads
          else
            updateAllLoop self opts snapshotLengthsByKey rest positionsByKey
              (loads ++ [(key, loadNode (some input) pos)])

/-- The call `await Promise.all(loadPromises)`: rejected if a load is, otherwise the pairs
`[key, node]` in the order of the loads. -/
def awaitAll : List (Key × Except Error (Option InputNode)) →
    Except Error (List (Key × Option InputNode))
  | [] => .ok []
  | (key, load) :: rest =>
    match load with
    | .error e => .error e
    | .ok node =>
      match awaitAll rest with
      | .error e => .error e
      | .ok loaded => .ok ((key, node) :: loaded)

/-- The keys `updateAll()` visits: those of the tracked inputs when updates are allowed (a live
stream, or one with a hook), those of the snapshot otherwise. -/
def inputKeys (self : Bitstream) (opts : ReadOpts) (snapshotLengthsByKey : JsMap Nat) :
    List Key :=
  let allowUpdates := opts.live || opts.onresolve.isSome || opts.onwait.isSome
  if allowUpdates then JsMap.keys self._inputsByKey else JsMap.keys snapshotLengthsByKey

/-- The function `updateAll()`. -/
def updateAll (self : Bitstream) (opts : ReadOpts) (st : ReadState) : Except Error ReadState :=
  match updateAllLoop self opts st.snapshotLengthsByKey
      (inputKeys self opts st.snapshotLengthsByKey) st.positionsByKey [] with
  | .error e => .error e
  | .ok (positionsByKey, loads) =>
    match awaitAll loads with
    | .error e => .error e
    | .ok loaded =>
      .ok { st with
        positionsByKey := positionsByKey
        nodesByKey := loaded.foldl (fun nodesByKey e => JsMap.set nodesByKey e.1 e.2) st.nodesByKey }

/-- The function `findOldestNode(nodesByKey)`, on the values of the map. -/
def findOldestNode (nodes : List (Option InputNode)) : Option InputNode :=
  (nodes.filterMap fun node => node).find? (fun node =>
    nodes.all (fun n2 =>
      match n2 with
      | none => true
      | some n2 => if n2 = node then true else !n2.lte node))

/-- The function `hasUnsatisfiedInputs(node, inputsByKey)`. -/
def hasUnsatisfiedInputs (node : InputNode) (inputsByKey : JsMap Unichain) : Bool :=
  (JsMap.keys node.clock).any (fun key => !inputsByKey.has key)

/-- What one round of the loop of `_read` does. -/
inductive ReadRound where
  | failed (err : Error)
  | ended (st : ReadState)
  | suspended (st : ReadState)
  | again (self : Bitstream) (st : ReadState)
  | pushed (node : InputNode) (self : Bitstream) (st : ReadState)
  deriving DecidableEq, Repr

/-- The state after the chosen node is taken: `nodesByKey.delete(oldest.id)` and
`positionsByKey.set(oldest.id, pos + 1)`, where `pos` is the recorded position of the input
(`nodesByKey` only holds keys to which `updateAll()` gave a position). -/
def ReadState.advance (st : ReadState) (oldest : InputNode) : ReadState :=
  let pos := (st.positionsByKey.get oldest.id).getD 0
  { st with
    nodesByKey := JsMap.delete st.nodesByKey oldest.id
    positionsByKey := JsMap.set st.positionsByKey oldest.id (pos + 1) }

/-- The end of a round that pushes the chosen node: the node is taken and pushed, then
`onwait` runs. -/
def pushOldest (self : Bitstream) (opts : ReadOpts) (st : ReadState) (oldest : InputNode) :
    ReadRound :=
  match opts.onwait with
  | none => .pushed oldest self (st.advance oldest)
  | some onwait => .pushed oldest (onwait self oldest) (st.advance oldest)

/-- One round of the `while` loop of `_read`, on the instance state `self` at the start of
the round: the hooks run on the instance and hand back its new state. -/
def readRound (self : Bitstream) (opts : ReadOpts) (st : ReadState) : ReadRound :=
  match updateAll self opts st with
  | .error e => .failed e
  | .ok st =>
    match findOldestNode (JsMap.values st.nodesByKey) with
    | none => if opts.live then .suspended st else .ended st
    | some oldest =>
      match hasUnsatisfiedInputs oldest self._inputsByKey, opts.onresolve with
      | true, some onresolve =>
        let (self, resolved) := onresolve self oldest
        if resolved ≠ JsValue.boolean false then .again self st
        else pushOldest self opts st oldest
      | _, _ => pushOldest self opts st oldest

/-- The state of a read stream after `_open`: `maybeSnapshot()` then `updateAll()`. -/
def openReadStream (self : Bitstream) (opts : ReadOpts) : Except Error ReadState :=
  updateAll self opts
    (maybeSnapshot self opts
      { positionsByKey := opts.checkpoint.getD [], nodesByKey := [], snapshotLengthsByKey := [] })

/-- Why the rounds of a read stream stop. -/
inductive ReadStop where
  | ended
  | suspended
  | failed (err : Error)
  | unfinished
  deriving DecidableEq, Repr

/-- The nodes pushed by at most `fuel` rounds of `_read`, with the state of the stream
(its `positionsByKey` is the checkpoint) when the rounds stop, and why they stop: the stream
has ended (`push(null)`), is suspended (live, nothing to read), has failed, or has rounds
left to run. -/
def readRounds (opts : ReadOpts) : Nat → Bitstream → ReadState →
    List InputNode × ReadState × ReadStop
  | 0, _, st => ([], st, .unfinished)
  | fuel + 1, self, st =>
    match readRound self opts st with
    | .failed e => ([], st, .failed e)
    | .ended st => ([], st, .ended)
    | .suspended st => ([], st, .suspended)
    | .again self st => readRounds opts fuel self st
    | .pushed node self st =>
      let r := readRounds opts fuel self st
      (node :: r.1, r.2)

/-! ## Concrete logs and instances, as the tests build them -/

namespace Sample

/-- A block that decodes to a single (non-batch) node with the given clock. -/
def block (clock : Clock) : Option Block :=
  some (Block.encoded { header := none, value := [], batch := none, clock := clock })

/-- A binary log whose blocks carry the given clocks, all available. -/
def chain (key : Key) (clocks : List Clock) : Unichain :=
  { key := key, length := clocks.length, blocks := clocks.map block, valueEncoding := none }

/-- An opened instance tracking the given inputs, in that order. -/
def bitstream (inputs : List Unichain) : Bitstream :=
  { _inputsByKey := inputs.map (fun c => (c.key, c)), _outputsByKey := [], _batchId := 0,
    opened := true, closed := false, _opening := none,
    appendListeners := inputs.map Unichain.key, truncateListeners := [] }

/-- The options of `createReadStream()` called without argument. -/
def plain : ReadOpts :=
  { live := false, tail := false, wait := true, checkpoint := none, onresolve := none,
    onwait := none }

/-- The id and seq of a node. -/
def tag (n : InputNode) : Key × Nat := (n.key, n.seq)

/-- A log configured with the `utf-8` value encoding. -/
def utf8Chain (key : Key) : Unichain :=
  { key := key, length := 0, blocks := [], valueEncoding := some Encoding.utf8 }

/-- A hook `onresolve` that returns `v` and leaves the instance as it is. -/
def hook (v : JsValue) : Bitstream → InputNode → Bitstream × JsValue :=
  fun self _ => (self, v)

/-- The options `{ onresolve }` with a hook returning `v`. -/
def withHook (v : JsValue) : ReadOpts :=
  { plain with onresolve := some (hook v) }

/-- An instance with no input and no output. -/
def fresh : Bitstream := bitstream []

/-- A batch created on `fresh` that adds an output and then a `utf-8` input. -/
def mixedBatch : MemberBatch :=
  ((MemberBatch.create fresh).addOutput (chain 7 [])).addInput (utf8Chain 8)

/-- The instance `bstream2` of the test 'read stream - onresolve hook, not resolvable': it tracks
the log B (key 20) only, whose two nodes were written with the clock `{A: 0}` (A has key 10). -/
def onlyB : Bitstream := bitstream [chain 20 [[(10, 0)], [(10, 0)]]]

/-- A single log A (key 10) with two independent nodes. -/
def twoNodes : Bitstream := bitstream [chain 10 [[], []]]

/-- A single log A (key 10), empty. -/
def emptyA : Bitstream := bitstream [chain 10 []]

/-- The log A (key 10) after one append. -/
def oneNodeA : Bitstream := bitstream [chain 10 [[]]]

/-- A resolved node of a sample log. -/
def node (key : Key) (seq : Nat) (clock : Clock) : InputNode :=
  { key := key, seq := seq, value := [], batch := (0, 0), clock := clock, header := none }

/-- Two logs: A (key 10) with two independent nodes, and B (key 20) with three nodes of which
the last two were written with the clock `{A: 0}`. -/
def crossed : Bitstream :=
  bitstream [chain 10 [[], []], chain 20 [[], [(10, 0)], [(10, 0)]]]

/-- The node `b0` of `onlyB`, as `_getInputNode` resolves it. -/
def b0 : InputNode :=
  { key := 20, seq := 0, value := [], batch := (0, 0), clock := [(10, 0)], header := none }

/-- The state of a non-live read stream on `onlyB` once it is open. -/
def openedOnlyB : ReadState :=
  { positionsByKey := [(20, 0)], nodesByKey := [(20, some b0)],
    snapshotLengthsByKey := [(20, 2)] }

end Sample

namespace ReadRound

/-- The node a round pushes, if it pushes one. -/
def node? : ReadRound → Option InputNode
  | pushed node _ _ => some node
  | _ => none

end ReadRound

/-! ## Well-formed states -/

/-- The entry a resolved clock has for the node's own id: the predecessor, none at seq 0. -/
def ownEntry (seq : Nat) : Option Nat := if seq > 0 then some (seq - 1) else none

namespace Bitstream

/-- The tracked inputs form a `Map` whose keys are the ids of the logs they map to, as
`_addInput` builds it. -/
def WF (self : Bitstream) : Prop :=
  JsMap.WF self._inputsByKey ∧ ∀ e ∈ self._inputsByKey, e.2.key = e.1

instance (self : Bitstream) : Decidable (WF self) := by
  unfold WF JsMap.WF
  infer_instance

end Bitstream

/-! ## Notions used to state the properties of the fork resolver -/

/-- The greatest `seq + 1` among the entries of a clock for the id `k`, `0` when it has
none. -/
def Clock.lengthAt (c : Clock) (k : Key) : Nat :=
  c.foldl (fun m e => if e.1 = k then max m (e.2 + 1) else m) 0

/-- The greatest `seq + 1` recorded for the id `k` in the clocks of the nodes of `heads` other
than `node`, `0` when none of them records `k`. -/
def highOf (node : InputNode) (heads : List InputNode) (k : Key) : Nat :=
  heads.foldl (fun m head => if head = node then m else max m (Clock.lengthAt head.clock k)) 0

/-- The order by which `forkInfo` selects: a smaller weight, or the same weight and a key that
compares smaller. -/
def forkLess (w : InputNode → Nat) (a b : InputNode) : Prop :=
  (w a = w b ∧ keyLess a.key b.key = true) ∨ w a < w b

/-- The non-null heads of a list. -/
def liveHeads (heads : List (Option InputNode)) : List InputNode :=
  heads.filterMap (fun head => head)

/-- The non-null heads of a list belong to pairwise distinct inputs. -/
def DistinctKeys (heads : List (Option InputNode)) : Prop :=
  ((liveHeads heads).map InputNode.key).Nodup

instance (heads : List (Option InputNode)) : Decidable (DistinctKeys heads) := by
  unfold DistinctKeys
  infer_instance

/-- The weight `forkInfo` gives a fork: `forks.map(forkSize)` calls `forkSize` with the list of
forks. -/
def forkWeight (forks : List InputNode) (fork : InputNode) : Nat :=
  forkSize fork 0 forks

/-- The comparison of the keys decides between any two forks of the same weight: their keys
do not have the same string. -/
def TiesDecided (heads : List (Option InputNode)) : Prop :=
  ∀ a ∈ (forkInfo heads).forks, ∀ b ∈ (forkInfo heads).forks, a ≠ b →
    forkWeight (forkInfo heads).forks a = forkWeight (forkInfo heads).forks b →
      keyString a.key ≠ keyString b.key

instance (heads : List (Option InputNode)) : Decidable (TiesDecided heads) := by
  unfold TiesDecided
  infer_instance

/-- The keys of a list have pairwise different strings, so that the comparison of any two of
them has a smaller side. -/
def ComparableKeys (keys : List Key) : Prop :=
  (keys.map keyString).Nodup

instance (keys : List Key) : Decidable (ComparableKeys keys) := by
  unfold ComparableKeys
  infer_instance

/-! ## Notions used to state the properties of the streams -/

/-- The heads are nodes of pairwise distinct inputs, each the node the instance resolves at
its id and seq. -/
def HeadsOf (self : Bitstream) (heads : List (Option InputNode)) : Prop :=
  DistinctKeys heads ∧
    ∀ h, some h ∈ heads → self._getInputNode h.key (h.seq : Int) = .ok (some h)

/-- The clock of `h` has, for every input other than that of `y`, an entry at least that of
the clock of `y`. -/
def Dominates (h y : InputNode) : Prop :=
  ∀ x v, x ≠ y.key → y.clock.get x = some v → ∃ v', h.clock.get x = some v' ∧ v ≤ v'

/-- The node of a log at a seq, when `_getInputNode` resolves one. -/
def nodeAt (input : Unichain) (seq : Nat) : Option InputNode :=
  match getInputNodeOf input (seq : Int) with
  | .ok (some n) => some n
  | _ => none

/-- Clocks are inherited forward: along every tracked input, the resolved clock of a node has,
for every other input its predecessor's clock names, an entry that is at least the
predecessor's. -/
def InheritsForward (self : Bitstream) : Prop :=
  ∀ e ∈ self._inputsByKey, ∀ s ∈ List.range e.2.blocks.length,
    ∀ n ∈ nodeAt e.2 s, ∀ n' ∈ nodeAt e.2 (s + 1),
      ∀ x ∈ JsMap.keys n.clock, x ≠ n.key →
        ∀ v ∈ n.clock.get x, ∃ v' ∈ n'.clock.get x, v ≤ v'

instance (self : Bitstream) : Decidable (InheritsForward self) := by
  unfold InheritsForward
  infer_instance

/-- The instance of the first half of the test 'causal writes', without C: A (key 10) holds
a0, and B (key 20) holds b0 and b1, both written with the clock `{A: 0}`. -/
def Sample.causal : Bitstream :=
  Sample.bitstream [Sample.chain 10 [[]], Sample.chain 20 [[(10, 0)], [(10, 0)]]]

/-- What the causal stream of `Sample.causal` pushes: b1, b0, a0. -/
def Sample.causalOut : List OutputNode :=
  [{ node := Sample.node 20 1 [(10, 0), (20, 0)], change := 20, clock := [(10, 0), (20, 1)] },
   { node := Sample.node 20 0 [(10, 0)], change := 20, clock := [(10, 0), (20, 0)] },
   { node := Sample.node 10 0 [], change := 10, clock := [(10, 0)] }]

/-- Two output nodes carry the same node and the same `change`, and snapshot clocks with the
same entries (a `Map` filled in another order). -/
def OutputNode.same (a b : OutputNode) : Prop :=
  a.node = b.node ∧ a.change = b.change ∧ a.clock.Perm b.clock

/-- The instance `Sample.causal` with its inputs added in the other order. -/
def Sample.causalSwapped : Bitstream :=
  Sample.bitstream [Sample.chain 20 [[(10, 0)], [(10, 0)]], Sample.chain 10 [[]]]

/-! ## Notions used to state the order of independent branches -/

/-- The resolved clock of a node without cross-input link: its own predecessor only. -/
def ownClock (key : Key) (seq : Nat) : Clock :=
  if seq = 0 then [] else [(key, seq - 1)]

/-- No node of a tracked input carries a cross-input link: every seq below the length of the
input resolves to a node whose clock is `ownClock`. -/
def Independent (self : Bitstream) : Prop :=
  ∀ e ∈ self._inputsByKey, ∀ s ∈ List.range e.2.length,
    ∃ n ∈ nodeAt e.2 s, n.clock = ownClock e.2.key s

instance (self : Bitstream) : Decidable (Independent self) := by
  unfold Independent
  infer_instance

/-- The order of branches: by length, and among branches of the same length a branch comes
no later than another when the key of the other does not compare smaller.  A branch is given
by its length and the key of its input. -/
def branchLe (a b : Nat × Key) : Prop :=
  a.1 < b.1 ∨ (a.1 = b.1 ∧ keyLess b.2 a.2 = false)

instance : DecidableRel branchLe := fun a b => by
  unfold branchLe
  infer_instance

/-- The ids and seqs of a whole branch, from its newest node down to seq 0. -/
def branchDown (b : Nat × Key) : List (Key × Nat) :=
  (List.range b.1).reverse.map (fun s => (b.2, s))

/-- The branch a head stands for: its length and its key. -/
def branchOf (h : InputNode) : Nat × Key := (h.seq + 1, h.key)

/-- The heads of an instance without cross-input links: every head, and every node below it,
resolves to a node whose clock is `ownClock`. -/
def IndependentHeads (self : Bitstream) (heads : List (Option InputNode)) : Prop :=
  HeadsOf self heads ∧
    ∀ h, some h ∈ heads → ∀ s, s ≤ h.seq →
      ∃ n, self._getInputNode h.key (s : Int) = .ok (some n) ∧ n.clock = ownClock h.key s

/-- The logs of the test 'linearizes short branches on long branches': A (key 10), B (key 20)
and C (key 30) with 1, 2 and 3 independent nodes. -/
def Sample.threeForks : Bitstream :=
  Sample.bitstream [Sample.chain 10 [[]], Sample.chain 20 [[], []], Sample.chain 30 [[], [], []]]

/-- The same logs after three more appends to A. -/
def Sample.threeForksLater : Bitstream :=
  Sample.bitstream [Sample.chain 10 [[], [], [], []], Sample.chain 20 [[], []],
    Sample.chain 30 [[], [], []]]

/-- The key 80 00 .. 00: its first byte cannot start a sequence, and its string is
U+FFFD U+0000 .. U+0000. -/
def Sample.keyX : Key := 0x80 * 256 ^ 31

/-- The key 81 00 .. 00, whose string is that of `Sample.keyX`. -/
def Sample.keyQ : Key := 0x81 * 256 ^ 31

/-- The key c2 80 00 .. 00: its first two bytes are the code point U+0080, and its string is
U+0080 U+0000 .. U+0000. -/
def Sample.keyY : Key := 0xC2 * 256 ^ 31 + 0x80 * 256 ^ 30

/-- Two inputs of two independent nodes each, with the keys `Sample.keyX` and `Sample.keyY`. -/
def Sample.highKeys : Bitstream :=
  Sample.bitstream [Sample.chain Sample.keyX [[], []], Sample.chain Sample.keyY [[], []]]

/-- The logs of the test 'equal-sized forks are deterministically ordered by key', the input
with the larger key (20) added first. -/
def Sample.equalForks : Bitstream :=
  Sample.bitstream [Sample.chain 20 [[], []], Sample.chain 10 [[], []]]

/-- The instance `Sample.equalForks` with its inputs added in the other order. -/
def Sample.equalForksSwapped : Bitstream :=
  Sample.bitstream [Sample.chain 10 [[], []], Sample.chain 20 [[], []]]

/-- The heads of `Sample.equalForks`: b1 and a1, two forks of the same weight. -/
def Sample.equalHeads : List (Option InputNode) :=
  [some (Sample.node 20 1 [(20, 0)]), some (Sample.node 10 1 [(10, 0)])]

/-- What the causal stream of `Sample.equalForks` pushes: a1, a0, b1, b0. -/
def Sample.equalForksOut : List OutputNode :=
  [{ node := Sample.node 10 1 [(10, 0)], change := 10, clock := [(20, 1), (10, 1)] },
   { node := Sample.node 10 0 [], change := 10, clock := [(20, 1), (10, 0)] },
   { node := Sample.node 20 1 [(20, 0)], change := 20, clock := [(20, 1)] },
   { node := Sample.node 20 0 [], change := 20, clock := [(20, 0)] }]

/-- The heads x0 and y0 of two inputs with the keys `Sample.keyX` and `Sample.keyY`. -/
def Sample.highHeads : List (Option InputNode) :=
  [some (Sample.node Sample.keyX 0 []), some (Sample.node Sample.keyY 0 [])]

/-! ## Notions used to state the properties of the read stream -/

/-- Whether `updateAll()` loads the node of `key` when its position is `pos`: the position is
below the snapshot length when one is recorded and is not 0, below the length of the input
otherwise. -/
def wantsLoad (self : Bitstream) (snapshotLengthsByKey : JsMap Nat) (key : Key) (pos : Nat) :
    Bool :=
  if (snapshotLengthsByKey.get key).getD 0 ≠ 0 then
    decide (pos < (snapshotLengthsByKey.get key).getD 0)
  else
    match self._inputsByKey.get key with
    | none => false
    | some input => decide (pos < input.length)

/-- The position `updateAll()` gives a key that has none. -/
def startPosition (self : Bitstream) (opts : ReadOpts) (key : Key) : Nat :=
  if opts.tail then ((self._inputsByKey.get key).map Unichain.length).getD 0 else 0

/-- The hooks of a read stream leave the instance as it is. -/
def StaticHooks (opts : ReadOpts) : Prop :=
  (∀ f, opts.onresolve = some f → ∀ self n, (f self n).1 = self) ∧
    (∀ f, opts.onwait = some f → ∀ self n, f self n = self)

/-- What holds of the maps of a read stream between two rounds: `nodesByKey` is a `Map`, and
the node it holds for a key is a node of that input, at the recorded position, with a
resolved clock. -/
def ReadInv (st : ReadState) : Prop :=
  JsMap.WF st.nodesByKey ∧
    ∀ k n, st.nodesByKey.get k = some (some n) →
      n.key = k ∧ st.positionsByKey.get k = some n.seq ∧ n.clock.get k = ownEntry n.seq

/-- The state of a non-live read stream on `Sample.crossed` once it is open. -/
def Sample.crossedOpen : ReadState :=
  { positionsByKey := [(10, 0), (20, 0)],
    nodesByKey := [(10, some (Sample.node 10 0 [])), (20, some (Sample.node 20 0 []))],
    snapshotLengthsByKey := [(10, 2), (20, 3)] }

/-- Every node below the length of a tracked input resolves: its block, and the block of its
batch terminator, are available and decode. -/
def Available (self : Bitstream) : Prop :=
  ∀ e ∈ self._inputsByKey, ∀ s ∈ List.range e.2.length, (nodeAt e.2 s).isSome = true

instance (self : Bitstream) : Decidable (Available self) := by
  unfold Available
  infer_instance

/-- The relation `lte` between nodes of different tracked inputs respects the ranking `rank`:
the causal order of the logs has no cycle. -/
def AcyclicBy (rank : InputNode → Nat) (self : Bitstream) : Prop :=
  ∀ e ∈ self._inputsByKey, ∀ e' ∈ self._inputsByKey, e.1 ≠ e'.1 →
    ∀ s ∈ List.range e.2.length, ∀ s' ∈ List.range e'.2.length,
      ∀ n ∈ nodeAt e.2 s, ∀ n' ∈ nodeAt e'.2 s', n.lte n' = true → rank n < rank n'

instance (rank : InputNode → Nat) (self : Bitstream) : Decidable (AcyclicBy rank self) := by
  unfold AcyclicBy
  infer_instance

/-- The length of the tracked input with id `k`, `0` when none is tracked. -/
def lengthOf (self : Bitstream) (k : Key) : Nat :=
  ((self._inputsByKey.get k).map Unichain.length).getD 0

/-- The snapshot of a non-live stream opened on the instance: the length of every tracked
input. -/
def Snapshotted (self : Bitstream) (st : ReadState) : Prop :=
  ∀ k, st.snapshotLengthsByKey.get k = (self._inputsByKey.get k).map Unichain.length

/-- The pending nodes are nodes of the instance, at positions below the lengths of their
inputs. -/
def Loaded (self : Bitstream) (st : ReadState) : Prop :=
  ∀ k n, st.nodesByKey.get k = some (some n) →
    loadNode (self._inputsByKey.get k) n.seq = .ok (some n) ∧ n.seq < lengthOf self k

/-- The seqs of the nodes of the input `k` in a list of pushed nodes, in the order of the
list. -/
def seqsOf (k : Key) (out : List InputNode) : List Nat :=
  (out.filter (fun n => decide (n.key = k))).map InputNode.seq

/-- What holds between two rounds of a non-live read stream opened on the instance. -/
def Ready (self : Bitstream) (st : ReadState) : Prop :=
  ReadInv st ∧ Loaded self st ∧ Snapshotted self st

/-- After `updateAll()`, every tracked input whose position is below its length has its node
at that position pending. -/
def Fresh (self : Bitstream) (st : ReadState) : Prop :=
  (∀ k ∈ JsMap.keys self._inputsByKey, ∃ p, st.positionsByKey.get k = some p) ∧
    ∀ k ∈ JsMap.keys self._inputsByKey, ∀ p, st.positionsByKey.get k = some p →
      p < lengthOf self k →
      ∃ v, loadNode (self._inputsByKey.get k) p = .ok v ∧ st.nodesByKey.get k = some v

/-- The number of nodes of the tracked inputs at or past the recorded positions. -/
def remaining (self : Bitstream) (st : ReadState) : Nat :=
  ((JsMap.keys self._inputsByKey).map
    (fun k => lengthOf self k - (st.positionsByKey.get k).getD 0)).sum

/-- The options of a stream opened with `{ checkpoint: first.checkpoint }`, where the first
stream is in the state `st`: the checkpoint is its map `positionsByKey`. -/
def resume (opts : ReadOpts) (st : ReadState) : ReadOpts :=
  { opts with checkpoint := some st.positionsByKey }

/-- Two tracked logs A (key 10) and B (key 20), both empty. -/
def Sample.emptyPair : Bitstream :=
  Sample.bitstream [Sample.chain 10 [], Sample.chain 20 []]

/-- The logs of `Sample.emptyPair` after `append('a0', [[B, 0]], A)`, a clock given by hand
that names the first node of B before it exists, and `append('b0', latest(), B)`, whose clock
is `{A: 0}`: each of a0 and b0 is `lte` the other. -/
def Sample.cyclicPair : Bitstream :=
  Sample.bitstream [Sample.chain 10 [[(20, 0)]], Sample.chain 20 [[(10, 0)]]]

/-- The logs of `Sample.causal` after one more append to A. -/
def Sample.causalLater : Bitstream :=
  Sample.bitstream [Sample.chain 10 [[], []], Sample.chain 20 [[(10, 0)], [(10, 0)]]]

/-- The state of a non-live read stream on `Sample.causal` once it is open. -/
def Sample.causalOpen : ReadState :=
  { positionsByKey := [(10, 0), (20, 0)],
    nodesByKey := [(10, some (Sample.node 10 0 [])), (20, some (Sample.node 20 0 [(10, 0)]))],
    snapshotLengthsByKey := [(10, 1), (20, 2)] }

/-- A ranking of the nodes of `Sample.causal` and `Sample.causalLater` that `lte` respects. -/
def Sample.rank (n : InputNode) : Nat :=
  if n.key = 20 then n.seq + 1 else 0

/-- The logs of the second half of the test 'read stream -- not live, causally-linked writes':
A (key 10) holds a0 to a3, B (key 20) holds b0 and b1, written with the clock `{A: 0}`, and C
(key 30) holds c0 to c2. -/
def Sample.linked : Bitstream :=
  Sample.bitstream [Sample.chain 10 [[], [], [], []], Sample.chain 20 [[(10, 0)], [(10, 0)]],
    Sample.chain 30 [[], [], []]]

/-! ## Construction, public membership calls and close -/

namespace Bitstream

/-- The fields the constructor sets before `_open()` runs, for an instance without view. -/
def initial : Bitstream :=
  { _inputsByKey := [], _outputsByKey := [], _batchId := 0, opened := false, closed := false,
    _opening := none, appendListeners := [], truncateListeners := [] }

/-- The loop `for (const input of this._inputs) this._addInput(input)` of `_open()`: the state
it leaves, and the error that stopped it if there is one. -/
def _openInputs : Bitstream → List Unichain → Bitstream × Option Error
  | self, [] => (self, none)
  | self, input :: rest =>
    match self._addInput input with
    | .error e => (self, some e)
    | .ok self' => _openInputs self' rest

/-- The function `_open()` on the constructor arguments `inputs` and `outputs` (logs that are
ready): the state of the instance once the promise `_opening` is settled. -/
def _open (self : Bitstream) (inputs outputs : List Unichain) : Bitstream :=
  match _openInputs self inputs with
  | (self, some e) => { self with _opening := some e }
  | (self, none) => { outputs.foldl _addOutput self with opened := true }

/-- The constructor, `new Bitstream({ inputs, outputs })`, once `_opening` is settled. -/
def create (inputs outputs : List Unichain) : Bitstream :=
  _open initial inputs outputs

/-- The function `addInput(input)`: a batch of one operation, committed at once. -/
def addInput (self : Bitstream) (input : Unichain) : Bitstream × Option Error :=
  ((MemberBatch.create self).addInput input).commit self

/-- The function `removeInput(input)`. -/
def removeInput (self : Bitstream) (input : Key) : Bitstream × Option Error :=
  ((MemberBatch.create self).removeInput input).commit self

/-- The function `addOutput(output)`. -/
def addOutput (self : Bitstream) (output : Unichain) : Bitstream × Option Error :=
  ((MemberBatch.create self).addOutput output).commit self

/-- The function `removeOutput(output)`. -/
def removeOutput (self : Bitstream) (output : Key) : Bitstream × Option Error :=
  ((MemberBatch.create self).removeOutput output).commit self

/-- The function `close()`: `removeListener` takes one registration of the listener off the
log. -/
def close (self : Bitstream) : Bitstream :=
  if self.closed then self
  else
    { self with
      appendListeners := self.inputs.foldl (fun l input => l.erase input.key) self.appendListeners
      truncateListeners :=
        self.outputs.foldl (fun l output => l.erase output.key) self.truncateListeners
      closed := true }

/-- The state after the commits of `batches` are called one after the other, whether they
succeed or fail. -/
def commitAll (self : Bitstream) (batches : List MemberBatch) : Bitstream :=
  batches.foldl (fun self batch => (batch.commit self).1) self

end Bitstream

/-- What an operation does to the tracked inputs and outputs, in the words of the contract:
an add of a key that is not tracked puts the log last, an add of a tracked key and a remove of
an untracked key do nothing, a remove of a tracked key takes its entry out. -/
def MemberOp.effect (tracked : JsMap Unichain × JsMap Unichain) (op : MemberOp) :
    JsMap Unichain × JsMap Unichain :=
  match op with
  | .ADD_INPUT chain =>
    if chain.key ∈ JsMap.keys tracked.1 then tracked
    else (tracked.1 ++ [(chain.key, chain)], tracked.2)
  | .ADD_OUTPUT chain =>
    if chain.key ∈ JsMap.keys tracked.2 then tracked
    else (tracked.1, tracked.2 ++ [(chain.key, chain)])
  | .REMOVE_INPUT key => (tracked.1.filter (fun e => decide (e.1 ≠ key)), tracked.2)
  | .REMOVE_OUTPUT key => (tracked.1, tracked.2.filter (fun e => decide (e.1 ≠ key)))

/-- A log the validation accepts: it declares no value encoding, or the binary one. -/
def Unichain.Binary (input : Unichain) : Prop :=
  input.valueEncoding = none ∨ input.valueEncoding = some Encoding.binary

instance (input : Unichain) : Decidable input.Binary := by
  unfold Unichain.Binary
  infer_instance

/-- A batch created on `Sample.fresh` that adds a `utf-8` input. -/
def Sample.utf8Batch : MemberBatch :=
  (MemberBatch.create Sample.fresh).addInput (Sample.utf8Chain 8)

/-- A batch created on `Sample.fresh` that adds the output with key 7. -/
def Sample.outputBatch : MemberBatch :=
  (MemberBatch.create Sample.fresh).addOutput (Sample.chain 7 [])

/-! ## Notions used to state the properties of the listeners -/

/-- The listener registrations follow the membership: a log carries the listener once when
its key is tracked in `m` and not at all otherwise. -/
def ListenersFollow (m : JsMap Unichain) (listeners : List Key) : Prop :=
  ∀ k, listeners.count k = if m.has k then 1 else 0

/-- A tracked collection as `_addInput` and `_addOutput` build it, with its listeners: a `Map`
keyed by the ids of its logs, each carrying the listener once. -/
def Registered (m : JsMap Unichain) (listeners : List Key) : Prop :=
  JsMap.WF m ∧ (∀ e ∈ m, e.2.key = e.1) ∧ ListenersFollow m listeners

/-! ## Header check -/

/-- The function `isBitstream(chain)`.  `decodeHeader` (of `lib/nodes/messages`, which is not
among the sources) is a parameter: it is given what `chain.get(0)` delivers and returns the
protocol tag of the header, `none` when the block has no header or the header no tag, or it
throws.  Whatever the block of the `try` throws is caught. -/
def isBitstream (decodeHeader : Option Block → Except Error (Option Protocol))
    (chain : Unichain) : Except Error Bool :=
  if chain.length = 0 then .ok false
  else
    match decodeHeader (chain.get 0) with
    | .ok protocol =>
      .ok (protocol.isSome && (protocol = some Protocol.input || protocol = some Protocol.output))
    | .error _ => .ok false

/-- A header decoder on the blocks of the samples: the header of a block that decodes, an
error on a block that is absent or does not decode. -/
def Sample.decodeHeader : Option Block → Except Error (Option Protocol)
  | some (Block.encoded d) => .ok d.header
  | _ => .error Error.typeError

/-- A log whose first block carries the given header. -/
def Sample.headed (key : Key) (header : Option Protocol) : Unichain :=
  { key := key, length := 1,
    blocks := [some (Block.encoded { header := header, value := [], batch := none, clock := [] })],
    valueEncoding := none }

/-! ## Notions used to state the end of the causal stream -/

/-- Whether the causal stream is over within the calls of `read` made on the states
`selves`: a call found no fork and ended the stream, or a call failed. -/
def causalEnds : List Bitstream → List (Option InputNode) → Bool
  | [], _ => false
  | self :: rest, heads =>
    match causalRead self heads with
    | .ended => true
    | .failed _ _ => true
    | .pushed _ heads' => causalEnds rest heads'

/-- A log whose first node is the first of a batch of two and whose second block, the batch
terminator, is absent. -/
def Sample.cutBatch : Unichain :=
  { key := 10, length := 2,
    blocks :=
      [some (Block.encoded { header := none, value := [], batch := some (0, 1), clock := [] }),
        none],
    valueEncoding := none }

/-! ## Append -/

/-- The function `clockToMap(clock)` on the clock a caller supplies, given by its pairs: an
array of pairs gives `new Map(clock)`, and a `Map` is the map of its own entries. -/
def clockToMap (clock : List (Key × Nat)) : Clock :=
  clock.foldl (fun m e => JsMap.set m e.1 e.2) []

/-- The effect of `input.append(batch)` on a log: the blocks go to the seqs from `length`
on. -/
def Unichain.append (input : Unichain) (batch : List Block) : Unichain :=
  { input with
    blocks := (List.range input.length).map input.get ++ batch.map some
    length := input.length + batch.length }

/-- The function `_createInputBatch(input, batch, clock)`: the nodes to encode.  Only the last
node carries the clock (`null`, read as the empty clock, on the others); with an empty batch
on an empty log, `nodes[0].header = ...` throws. -/
def _createInputBatch (input : Unichain) (batch : List Bytes) (clock : Clock) :
    Except Error (List NodeSchema) :=
  let nodes : List NodeSchema := batch.mapIdx (fun i value =>
    { header := none, value := value,
      batch := if batch.length ≠ 1 then some (i, batch.length - 1 - i) else none,
      clock := if i = batch.length - 1 then clock else [] })
  if input.length = 0 then
    match nodes with
    | [] => .error Error.typeError
    | first :: rest => .ok ({ first with header := some Protocol.input } :: rest)
  else .ok nodes

namespace Bitstream

/-- The loop of `_getLatestClock(inputs)`. -/
def _getLatestClockLoop (self : Bitstream) : List Unichain → Clock → Except Error Clock
  | [], clock => .ok clock
  | input :: rest, clock =>
    if !self._inputsByKey.has input.key then .error Error.notAnInput
    else if input.length = 0 then _getLatestClockLoop self rest clock
    else _getLatestClockLoop self rest (JsMap.set clock input.key (input.length - 1))

/-- The function `_getLatestClock(inputs)`; called without argument it takes the tracked
inputs. -/
def _getLatestClock (self : Bitstream) (inputs : Option (List Unichain)) : Except Error Clock :=
  _getLatestClockLoop self (inputs.getD self.inputs) []

/-- The first step of `_append`, `clockToMap(clock || this._getLatestClock())`: the clock the
caller supplied, or the latest clock when there is none. -/
def suppliedClock (self : Bitstream) (clock : Option (List (Key × Nat))) : Except Error Clock :=
  match clock with
  | some clock => .ok (clockToMap clock)
  | none => self._getLatestClock none

/-- The merge loop of `_append`: the entries of the clock of the head go into the clock, but
for the input's own id and for the ids the clock already has. -/
def inheritClock (inputId : Key) (head : Option InputNode) (clock : Clock) : Clock :=
  match head with
  | none => clock
  | some head =>
    head.clock.foldl
      (fun clock e => if e.1 = inputId ∨ clock.has e.1 then clock else JsMap.set clock e.1 e.2)
      clock

/-- The clock `_append` hands to `_createInputBatch`, which stores it with the last node
written: the supplied clock without the entry of the input, completed from the clock of the
head. -/
def storedClock (self : Bitstream) (clock : Option (List (Key × Nat))) (input : Unichain) :
    Except Error Clock :=
  match self.suppliedClock clock with
  | .error e => .error e
  | .ok clock =>
    match getInputNodeOf input ((input.length : Int) - 1) with
    | .error e => .error e
    | .ok head =>
      let inputId := input.key
      let clock := if clock.has inputId then JsMap.delete clock inputId else clock
      .ok (inheritClock inputId head clock)

/-- The function `_append(value, clock, input)` on a list of values, a clock (or none) and the
input to write to: the log after the append. -/
def _append (self : Bitstream) (value : List Bytes) (clock : Option (List (Key × Nat)))
    (input : Unichain) : Except Error Unichain :=
  match self.storedClock clock input with
  | .error e => .error e
  | .ok clock =>
    match _createInputBatch input value clock with
    | .error e => .error e
    | .ok batch => .ok (input.append (batch.map Block.encoded))

/-- The function `append(value, clock, input)`: `_append` once the instance is open. -/
def append (self : Bitstream) (value : List Bytes) (clock : Option (List (Key × Nat)))
    (input : Unichain) : Except Error Unichain :=
  match self.ready with
  | .error e => .error e
  | .ok () => self._append value clock input

end Bitstream

/-- The logs of the test 'manually specifying clocks' after the append of b0: A (key 10) holds
a0 and a1, and B (key 20) holds b0, written with the clock `[[A, 2]]`. -/
def Sample.manual : Bitstream :=
  Sample.bitstream [Sample.chain 10 [[], []], Sample.chain 20 [[(10, 2)]]]

/-- The block `_append` writes for a single value on a log that is not empty. -/
def Sample.written (value : Bytes) (clock : Clock) : Block :=
  Block.encoded { header := none, value := value, batch := none, clock := clock }

/-! ## Notions used to state the properties of `forkInfo` -/

/-- A node as `_getInputNode` returns it: for its own id its clock has its own predecessor,
and nothing at seq 0. -/
def Normalised (n : InputNode) : Prop :=
  n.clock.get n.id = ownEntry n.seq

instance (n : InputNode) : Decidable (Normalised n) := by
  unfold Normalised
  infer_instance

/-- The weight of a fork in the words of the contract, relative to the nodes `others`: the sum
over the entries `(id, seq)` of its clock of `max(0, (seq + 1) - H(id))`, where `H(id)` is the
greatest `seq + 1` recorded for `id` in the clocks of the nodes of `others` other than the
fork, `0` when none records it. -/
def weightAgainst (others : List InputNode) (f : InputNode) : Nat :=
  (f.clock.map (fun e => (e.2 + 1) - highOf f others e.1)).sum

/-- Three logs: A (key 10) holds a0, written with the clock `[[C, 5]]`; B (key 20) holds b0,
b1, b2 and C (key 30) holds c0 to c5, all without cross-input link. -/
def Sample.shadowed : Bitstream :=
  Sample.bitstream [Sample.chain 10 [[(30, 5)]], Sample.chain 20 [[], [], []],
    Sample.chain 30 [[], [], [], [], [], []]]

/-- The heads of `Sample.shadowed`: a0, b2 and c5. -/
def Sample.shadowedHeads : List (Option InputNode) :=
  [some (Sample.node 10 0 [(30, 5)]), some (Sample.node 20 2 [(20, 1)]),
    some (Sample.node 30 5 [(30, 4)])]

/-- The logs of the test 'supports a local input and default latest clocks': A (key 10) holds
a0 to a3 and B (key 20) holds b0 and b1, each written with the latest clock at the time. -/
def Sample.localLatest : Bitstream :=
  Sample.bitstream [Sample.chain 10 [[], [], [(20, 0)], [(20, 1)]],
    Sample.chain 20 [[(10, 1)], [(10, 2)]]]

/-- The seq `_createInputBatch` hands to the clock codec when it writes,
`input.length + batch.length - 1`. -/
def compressSeq (input : Unichain) (batch : List Bytes) : Int :=
  (input.length : Int) + (batch.length : Int) - 1

/-! ## The latest clock and the arguments of append -/

/-- The argument `inputs` of `latest` and `_getLatestClock`: nothing, one log, or an array of
logs. -/
inductive InputsArg where
  | undefined
  | one (input : Unichain)
  | many (inputs : List Unichain)
  deriving DecidableEq, Repr

/-- The second argument of `append`, as `_append` tells its values apart: `undefined` (the
argument is left out), `null`, an array of pairs, a `Map` (given by its entries), or some
other value, a log. -/
inductive ClockArg where
  | undefined
  | null
  | array (clock : List (Key × Nat))
  | map (clock : List (Key × Nat))
  | log (chain : Unichain)
  deriving DecidableEq, Repr

namespace Bitstream

/-- The first two lines of `_getLatestClock(inputs)`: the tracked inputs when there is no
argument, and a one-element array for a single log. -/
def requestedInputs (self : Bitstream) (inputs : InputsArg) : List Unichain :=
  match inputs with
  | .undefined => self.inputs
  | .one input => [input]
  | .many inputs => inputs

/-- The function `latest(inputs)`, with the assignment `this.clock = clock` that ends
`_getLatestClock`: the cached clock `this.clock` is handed in and comes back with the
result. -/
def latest (self : Bitstream) (cached : Option Clock) (inputs : InputsArg) :
    Except Error Clock × Option Clock :=
  match self.ready with
  | .error e => (.error e, cached)
  | .ok () =>
    match self._getLatestClock (some (self.requestedInputs inputs)) with
    | .error e => (.error e, cached)
    | .ok clock => (.ok clock, some clock)

/-- The argument handling of `_append(value, clock, input)`: a second argument that is neither
`null`, an array nor a `Map` takes the place of `input` and the clock becomes `null`; then
`input = input || this.localInput`.  The result is the clock and the log the rest of `_append`
works with. -/
def appendArguments (localInput : Option Unichain) (clock : ClockArg)
    (input : Option Unichain) : Option (List (Key × Nat)) × Option Unichain :=
  let args : Option (List (Key × Nat)) × Option Unichain :=
    match clock with
    | .null => (none, input)
    | .array clock => (some clock, input)
    | .map clock => (some clock, input)
    | .undefined => (none, none)
    | .log chain => (none, some chain)
  (args.1, args.2.orElse (fun _ => localInput))

/-- The function `_append(value, clock, input)` on the arguments as the caller passes them;
without a log to write to, `input.length` throws. -/
def appendWith (self : Bitstream) (localInput : Option Unichain) (value : List Bytes)
    (clock : ClockArg) (input : Option Unichain) : Except Error Unichain :=
  match appendArguments localInput clock input with
  | (clock, some input) => self._append value clock input
  | (clock, none) =>
    match self.suppliedClock clock with
    | .error e => .error e
    | .ok _ => .error Error.typeError

end Bitstream

/-! ## The linearized view -/

/-- Modelled from the spec: `lib/linearize` is not among the sources.  The status of a view
holds the counts of the most recent recompute pass, the entries appended and the entries
truncated. -/
structure ViewStatus where
  added : Nat
  removed : Nat
  deriving DecidableEq, Repr

/-- Modelled from the spec: `lib/linearize` is not among the sources.  A view without `apply`
hook is its materialized output, read from index 0 upward, and its status. -/
structure LinearizedView where
  output : List OutputNode
  status : ViewStatus
  deriving DecidableEq, Repr

/-- Modelled from the spec: the matching point of a recompute pass, the number of leading
entries the output and the new order have in common. -/
def commonPrefix : List OutputNode → List OutputNode → Nat
  | a :: as, b :: bs => if a = b then commonPrefix as bs + 1 else 0
  | _, _ => 0

namespace LinearizedView

/-- Modelled from the spec: `lib/linearize` is not among the sources.  A recompute pass
(§4.5): the new order is that of the causal stream reversed, oldest first; the output is
truncated down to the point up to which it agrees with the new order and the nodes the new
order has from there on are appended; the status records the counts of appended and truncated
entries.  A pass that fails leaves the view as it is. -/
def update (view : LinearizedView) (self : Bitstream) : Except Error LinearizedView :=
  match createCausalStream self with
  | .error e => .error e
  | .ok stream =>
    let target := stream.reverse
    let keep := commonPrefix view.output target
    .ok
      { output := view.output.take keep ++ target.drop keep
        status := { added := target.length - keep, removed := view.output.length - keep } }

end LinearizedView

/-- The function `start()`, on the field `this.view` (`none` before the first call): a second
call throws; the new view has written nothing yet (modelled from the spec, as
`LinearizedView`). -/
def Bitstream.start (view : Option LinearizedView) : Except Error LinearizedView :=
  match view with
  | some _ => .error Error.startTwice
  | none => .ok { output := [], status := { added := 0, removed := 0 } }

/-- The causal stream of `Sample.threeForks`: a0, b1, b0, c2, c1, c0, each with the snapshot
of the heads at the time. -/
def Sample.threeForksStream : List OutputNode :=
  [{ node := Sample.node 10 0 [], change := 10, clock := [(10, 0), (20, 1), (30, 2)] },
   { node := Sample.node 20 1 [(20, 0)], change := 20, clock := [(20, 1), (30, 2)] },
   { node := Sample.node 20 0 [], change := 20, clock := [(20, 0), (30, 2)] },
   { node := Sample.node 30 2 [(30, 1)], change := 30, clock := [(30, 2)] },
   { node := Sample.node 30 1 [(30, 0)], change := 30, clock := [(30, 1)] },
   { node := Sample.node 30 0 [], change := 30, clock := [(30, 0)] }]

/-- The logs of the test 'linearizing - does not over-truncate' at its three stages: A, B and
C with 1, 2 and 5 independent entries; then three more entries on A; then one more on B. -/
def Sample.overTruncate (a b : Nat) : Bitstream :=
  Sample.bitstream [Sample.chain 10 (List.replicate a []), Sample.chain 20 (List.replicate b []),
    Sample.chain 30 (List.replicate 5 [])]

/-! ## Read stream over logs that change -/

/-- The calls `updateAll()` of a round before its last one: an append bumps the stream, and
the round runs `updateAll()` again for as long as the stream was bumped meanwhile, so that
nothing is appended during its last `updateAll()`.  The instance is in the state `selves[i]`
at the `i`-th of the earlier calls. -/
def updateAlls (opts : ReadOpts) : List Bitstream → ReadState → Except Error ReadState
  | [], st => .ok st
  | self :: rest, st =>
    match updateAll self opts st with
    | .error e => .error e
    | .ok st => updateAlls opts rest st

/-- The nodes pushed by successive rounds of `_read` on an instance that changes while the
stream runs.  A round is given by the states of the instance at its calls of `updateAll()`:
`round.1` for the calls before the last one, `round.2` for the last call and the rest of the
round; what the appends, the membership calls and the hooks do to the instance is in these
states.  A live stream that found nothing to read is suspended, and its next round is the
`_read` that a bump starts. -/
def readPulls (opts : ReadOpts) : List (List Bitstream × Bitstream) → ReadState →
    List InputNode × ReadState × ReadStop
  | [], st => ([], st, .unfinished)
  | round :: rest, st =>
    match updateAlls opts round.1 st with
    | .error e => ([], st, .failed e)
    | .ok st =>
      match readRound round.2 opts st with
      | .failed e => ([], st, .failed e)
      | .ended st => ([], st, .ended)
      | .suspended st =>
        match rest with
        | [] => ([], st, .suspended)
        | _ :: _ => readPulls opts rest st
      | .again _ st => readPulls opts rest st
      | .pushed node _ st =>
        let r := readPulls opts rest st
        (node :: r.1, r.2)

/-- The states of the instance at the calls of `updateAll()` of the rounds, in the order of
the calls. -/
def statesOf (rounds : List (List Bitstream × Bitstream)) : List Bitstream :=
  rounds.flatMap (fun round => round.1 ++ [round.2])

/-- From the state `s` of the instance to the later state `s'` the tracked inputs are the
same, and none is shorter. -/
def Grows (s s' : Bitstream) : Prop :=
  JsMap.keys s'._inputsByKey = JsMap.keys s._inputsByKey ∧
    ∀ k ∈ JsMap.keys s._inputsByKey, lengthOf s k ≤ lengthOf s' k

instance (s s' : Bitstream) : Decidable (Grows s s') := by
  unfold Grows
  infer_instance

/-- No clock of the state `s` runs ahead of a log that grows between `s` and the later state
`s'`: an entry of the clock of a node of a tracked input, for another tracked input, names a
node that is in its log in the state `s`, or a log that is no longer in `s'` than in `s`. -/
def NamesNoLater (s s' : Bitstream) : Prop :=
  ∀ e ∈ s._inputsByKey, ∀ t ∈ List.range e.2.length, ∀ n ∈ nodeAt e.2 t,
    ∀ k ∈ JsMap.keys s._inputsByKey, k ≠ e.1 → ∀ v ∈ n.clock.get k,
      v < lengthOf s k ∨ lengthOf s' k ≤ lengthOf s k

instance (s s' : Bitstream) : Decidable (NamesNoLater s s') := by
  unfold NamesNoLater
  infer_instance

/-- The successive states of an instance while a read stream runs: in every state the
tracked inputs form a `Map` and their blocks are available; from a state to a later one the
tracked inputs are the same and only grow, and no clock runs ahead of a log that grows
later. -/
def Steady (states : List Bitstream) : Prop :=
  (∀ s ∈ states, s.WF ∧ Available s) ∧
    states.Pairwise (fun s s' => Grows s s' ∧ NamesNoLater s s')

instance (states : List Bitstream) : Decidable (Steady states) := by
  unfold Steady
  infer_instance

/-- What holds of a read stream after an `updateAll()` on the state `self` of the instance:
`updateAll()` visits the tracked inputs, a snapshot length is at most the length of its input,
and every pending node is the node of `self` at its position, which `updateAll()` loads
again. -/
def Tracks (opts : ReadOpts) (self : Bitstream) (st : ReadState) : Prop :=
  ReadInv st ∧
    (∀ k, k ∈ inputKeys self opts st.snapshotLengthsByKey ↔ k ∈ JsMap.keys self._inputsByKey) ∧
    (∀ k ∈ JsMap.keys self._inputsByKey,
      (st.snapshotLengthsByKey.get k).getD 0 ≤ lengthOf self k) ∧
    ∀ k n, st.nodesByKey.get k = some (some n) →
      wantsLoad self st.snapshotLengthsByKey k n.seq = true ∧
        loadNode (self._inputsByKey.get k) n.seq = .ok (some n)

/-- The options of a live read stream. -/
def Sample.liveOpts : ReadOpts :=
  { live := true, tail := false, wait := true, checkpoint := none, onresolve := none,
    onwait := none }

/-- Two tracked logs: A (key 10) is empty, and B (key 20) holds b0, written with the clock
`{A: 0}` given by hand, which names the first node of A before it exists. -/
def Sample.forward : Bitstream :=
  Sample.bitstream [Sample.chain 10 [], Sample.chain 20 [[(10, 0)]]]

/-- The logs of `Sample.forward` after a0 is appended to A. -/
def Sample.forwardLater : Bitstream :=
  Sample.bitstream [Sample.chain 10 [[]], Sample.chain 20 [[(10, 0)]]]

/-- A live read stream on `Sample.forward`: two rounds, then a0 is appended and bumps the
stream, whose next round calls `updateAll()` twice. -/
def Sample.forwardRounds : List (List Bitstream × Bitstream) :=
  [([], Sample.forward), ([], Sample.forward), ([Sample.forwardLater], Sample.forwardLater)]

/-- The options of a non-live read stream opened with `tail`. -/
def Sample.tailOpts : ReadOpts :=
  { live := false, tail := true, wait := true, checkpoint := none, onresolve := none,
    onwait := none }

/-- The state of a non-live read stream opened with `tail` on `Sample.causal`. -/
def Sample.causalTail : ReadState :=
  { positionsByKey := [(10, 1), (20, 2)], nodesByKey := [],
    snapshotLengthsByKey := [(10, 1), (20, 2)] }

/-- The options of a non-live read stream opened with the checkpoint `{A: 0, B: 1}`. -/
def Sample.midway : ReadOpts :=
  { live := false, tail := false, wait := true, checkpoint := some [(10, 0), (20, 1)],
    onresolve := none, onwait := none }

/-- The options of a non-live read stream opened with the checkpoint `{A: 3}`. -/
def Sample.beyond : ReadOpts :=
  { live := false, tail := false, wait := true, checkpoint := some [(10, 3)], onresolve := none,
    onwait := none }

/-- The log A (key 10) with four independent nodes. -/
def Sample.fourNodesA : Bitstream := Sample.bitstream [Sample.chain 10 [[], [], [], []]]

/-- The state of a live read stream on `Sample.causal` once it is open. -/
def Sample.causalLive : ReadState :=
  { positionsByKey := [(10, 0), (20, 0)],
    nodesByKey := [(10, some (Sample.node 10 0 [])), (20, some (Sample.node 20 0 [(10, 0)]))],
    snapshotLengthsByKey := [] }

/-- Six rounds of a read stream on `Sample.crossed`, which stays as it is. -/
def Sample.crossedRounds : List (List Bitstream × Bitstream) :=
  List.replicate 6 ([], Sample.crossed)

/-- A live read stream on `Sample.causal`: four rounds, then a1 is appended and bumps the
stream. -/
def Sample.causalRounds : List (List Bitstream × Bitstream) :=
  [([], Sample.causal), ([], Sample.causal), ([], Sample.causal), ([], Sample.causal),
    ([Sample.causalLater], Sample.causalLater)]

/-! # Theorems -/

/-! ## Membership batches -/

namespace MemberBatch

theorem commit_stale (batch : MemberBatch) (bitstream : Bitstream)
    (h : bitstream.ready ≠ .ok () ∨ batch.batchId ≠ bitstream._batchId) :
    (commit batch bitstream).1 = bitstream ∧ (commit batch bitstream).2 ≠ none := by
  unfold commit
  cases hr : bitstream.ready with
  | error e => simp
  | ok u =>
    cases u
    rcases h with h | h
    · exact absurd hr h
    · simp [h]

theorem applyOp_error (bitstream : Bitstream) (op : MemberOp) (e : Error)
    (h : applyOp bitstream op = .error e) :
    e = Error.notBinary ∧ ∃ chain, op = MemberOp.ADD_INPUT chain ∧
      Bitstream._validateInput chain = .error Error.notBinary := by
  cases op with
  | ADD_INPUT chain =>
    simp only [applyOp, Bitstream._addInput] at h
    cases hv : Bitstream._validateInput chain with
    | error e' =>
      have he' : e' = Error.notBinary := by
        unfold Bitstream._validateInput at hv
        split at hv
        · cases hv
        · split at hv
          · cases hv; rfl
          · cases hv
      subst he'
      rw [hv] at h
      cases h
      exact ⟨rfl, chain, rfl, hv⟩
    | ok u =>
      rw [hv] at h
      simp only at h
      split at h <;> cases h
  | ADD_OUTPUT chain => cases h
  | REMOVE_INPUT chain => cases h
  | REMOVE_OUTPUT chain => cases h

theorem applyOps_error (ops : List MemberOp) (bitstream : Bitstream) (e : Error)
    (h : (applyOps bitstream ops).2 = some e) :
    e = Error.notBinary ∧ ∃ pre chain post, ops = pre ++ MemberOp.ADD_INPUT chain :: post ∧
      Bitstream._validateInput chain = .error Error.notBinary ∧
      applyOps bitstream pre = ((applyOps bitstream ops).1, none) := by
  induction ops generalizing bitstream with
  | nil => simp [applyOps] at h
  | cons op rest ih =>
    unfold applyOps at h ⊢
    cases hop : applyOp bitstream op with
    | error e' =>
      rw [hop] at h
      simp only at h
      cases h
      obtain ⟨he, chain, hc, hv⟩ := applyOp_error bitstream op _ hop
      exact ⟨he, [], chain, rest, by simp [hc], hv, by simp [applyOps]⟩
    | ok bitstream' =>
      rw [hop] at h
      simp only at h ⊢
      obtain ⟨he, pre, chain, post, hops, hv, hpre⟩ := ih bitstream' h
      refine ⟨he, op :: pre, chain, post, by simp [hops], hv, ?_⟩
      simp only [applyOps, hop]
      exact hpre

theorem applyOp_batchId (bitstream bitstream' : Bitstream) (op : MemberOp)
    (h : applyOp bitstream op = .ok bitstream') : bitstream'._batchId = bitstream._batchId := by
  cases op with
  | ADD_INPUT chain =>
    simp only [applyOp, Bitstream._addInput] at h
    split at h
    · cases h
    · split at h <;> cases h <;> rfl
  | ADD_OUTPUT chain =>
    simp only [applyOp, Bitstream._addOutput] at h
    split at h <;> cases h <;> rfl
  | REMOVE_INPUT chain =>
    simp only [applyOp, Bitstream._removeInput] at h
    split at h <;> cases h <;> rfl
  | REMOVE_OUTPUT chain =>
    simp only [applyOp, Bitstream._removeOutput] at h
    split at h <;> cases h <;> rfl

theorem applyOps_batchId (ops : List MemberOp) (bitstream : Bitstream) :
    (applyOps bitstream ops).1._batchId = bitstream._batchId := by
  induction ops generalizing bitstream with
  | nil => rfl
  | cons op rest ih =>
    unfold applyOps
    cases hop : applyOp bitstream op with
    | error e => rfl
    | ok bitstream' =>
      simp only
      rw [ih bitstream', applyOp_batchId bitstream bitstream' op hop]

/-- C10 (counterexample): a batch that adds an output and then a `utf-8` input fails with the
non-binary error, yet the output is tracked and the version is incremented afterwards. -/
theorem commit_rejected_input_leaves_effects :
    (commit Sample.mixedBatch Sample.fresh).2 = some Error.notBinary ∧
    (commit Sample.mixedBatch Sample.fresh).1 ≠ Sample.fresh ∧
    (commit Sample.mixedBatch Sample.fresh).1._batchId = Sample.fresh._batchId + 1 ∧
    (commit Sample.mixedBatch Sample.fresh).1._outputsByKey.has 7 = true ∧
    Sample.fresh._outputsByKey.has 7 = false := by
  decide

/-- C10 (amended): a commit that fails either fails on the opening or the version check, and
then the instance is exactly as before; or it fails because an added input is rejected as
non-binary, and then the version is incremented and the instance is in the state reached by
applying, in order and without error, the operations submitted before the rejected one. -/
theorem commit_failure_effect (batch : MemberBatch) (bitstream : Bitstream) (e : Error)
    (h : (commit batch bitstream).2 = some e) :
    ((bitstream.ready ≠ .ok () ∨ batch.batchId ≠ bitstream._batchId) ∧
        (commit batch bitstream).1 = bitstream) ∨
    (bitstream.ready = .ok () ∧ batch.batchId = bitstream._batchId ∧ e = Error.notBinary ∧
      (commit batch bitstream).1._batchId = bitstream._batchId + 1 ∧
      ∃ pre chain post, batch._ops = pre ++ MemberOp.ADD_INPUT chain :: post ∧
        Bitstream._validateInput chain = .error Error.notBinary ∧
        applyOps { bitstream with _batchId := bitstream._batchId + 1 } pre =
          ((commit batch bitstream).1, none)) := by
  by_cases hs : bitstream.ready ≠ .ok () ∨ batch.batchId ≠ bitstream._batchId
  · exact Or.inl ⟨hs, (commit_stale batch bitstream hs).1⟩
  · right
    simp only [not_or, not_not] at hs
    obtain ⟨hr, hb⟩ := hs
    have hc : commit batch bitstream =
        applyOps { bitstream with _batchId := bitstream._batchId + 1 } batch._ops := by
      unfold commit
      rw [hr]
      simp [hb]
    rw [hc] at h ⊢
    obtain ⟨he, pre, chain, post, hops, hv, hpre⟩ := applyOps_error _ _ e h
    exact ⟨hr, hb, he, applyOps_batchId _ _, pre, chain, post, hops, hv, hpre⟩

/-- C10 (witness): the amended statement at the batch that adds an output and then a `utf-8`
input. -/
theorem commit_failure_effect_witness :
    (commit Sample.mixedBatch Sample.fresh).2 = some Error.notBinary ∧
    (((Sample.fresh.ready ≠ .ok () ∨ Sample.mixedBatch.batchId ≠ Sample.fresh._batchId) ∧
        (commit Sample.mixedBatch Sample.fresh).1 = Sample.fresh) ∨
    (Sample.fresh.ready = .ok () ∧ Sample.mixedBatch.batchId = Sample.fresh._batchId ∧
      Error.notBinary = Error.notBinary ∧
      (commit Sample.mixedBatch Sample.fresh).1._batchId = Sample.fresh._batchId + 1 ∧
      ∃ pre chain post, Sample.mixedBatch._ops = pre ++ MemberOp.ADD_INPUT chain :: post ∧
        Bitstream._validateInput chain = .error Error.notBinary ∧
        applyOps { Sample.fresh with _batchId := Sample.fresh._batchId + 1 } pre =
          ((commit Sample.mixedBatch Sample.fresh).1, none))) :=
  ⟨by decide, commit_failure_effect Sample.mixedBatch Sample.fresh Error.notBinary (by decide)⟩

end MemberBatch

/-! ## The `onresolve` hook -/

/-- C9 (counterexample): on the instance of the test 'onresolve hook, not resolvable' the chosen
node `b0` refers to the untracked log A; with a hook that returns `undefined`, `null` or `0`
(falsy values) the round pushes nothing and goes round again, while with `false` it pushes
`b0`. -/
theorem onresolve_falsy_not_emitted :
    JsValue.undefined.truthy = false ∧ JsValue.null.truthy = false ∧
    (JsValue.number 0).truthy = false ∧
    ((openReadStream Sample.onlyB (Sample.withHook JsValue.undefined)).map fun st =>
      (readRound Sample.onlyB (Sample.withHook JsValue.undefined) st).node?) = .ok none ∧
    ((openReadStream Sample.onlyB (Sample.withHook JsValue.null)).map fun st =>
      (readRound Sample.onlyB (Sample.withHook JsValue.null) st).node?) = .ok none ∧
    ((openReadStream Sample.onlyB (Sample.withHook (JsValue.number 0))).map fun st =>
      (readRound Sample.onlyB (Sample.withHook (JsValue.number 0)) st).node?) = .ok none ∧
    ((openReadStream Sample.onlyB (Sample.withHook (JsValue.boolean false))).map fun st =>
      ((readRound Sample.onlyB (Sample.withHook (JsValue.boolean false)) st).node?).map
        Sample.tag) = .ok (some (20, 0)) := by
  decide

/-- C9 (amended): when the node chosen by a round has a clock entry for an untracked input,
a hook that returns anything but `false` makes the round push nothing and go round again on
the state the hook left; a hook that returns `false`, or no hook, makes the round push the
node. -/
theorem readRound_onresolve (self : Bitstream) (opts : ReadOpts) (st st1 : ReadState)
    (oldest : InputNode) (hu : updateAll self opts st = .ok st1)
    (ho : findOldestNode (JsMap.values st1.nodesByKey) = some oldest)
    (hun : hasUnsatisfiedInputs oldest self._inputsByKey = true) :
    (∀ f, opts.onresolve = some f → (f self oldest).2 ≠ JsValue.boolean false →
      readRound self opts st = ReadRound.again (f self oldest).1 st1) ∧
    (∀ f, opts.onresolve = some f → (f self oldest).2 = JsValue.boolean false →
      (readRound self opts st).node? = some oldest) ∧
    (opts.onresolve = none → (readRound self opts st).node? = some oldest) := by
  refine ⟨?_, ?_, ?_⟩
  · intro f hf hne
    simp only [readRound, hu, ho, hun, hf]
    simp [hne]
  · intro f hf he
    simp only [readRound, hu, ho, hun, hf]
    simp only [he, ne_eq, not_true_eq_false, if_false, pushOldest]
    cases opts.onwait <;> rfl
  · intro hf
    simp only [readRound, hu, ho, hun, hf, pushOldest]
    cases opts.onwait <;> rfl

/-- C9 (witness): the amended statement on the instance of the test 'onresolve hook, not
resolvable', with a hook that returns `undefined`. -/
theorem readRound_onresolve_witness :
    updateAll Sample.onlyB (Sample.withHook JsValue.undefined) Sample.openedOnlyB =
      .ok Sample.openedOnlyB ∧
    findOldestNode (JsMap.values Sample.openedOnlyB.nodesByKey) = some Sample.b0 ∧
    hasUnsatisfiedInputs Sample.b0 Sample.onlyB._inputsByKey = true ∧
    ((∀ f, (Sample.withHook JsValue.undefined).onresolve = some f →
        (f Sample.onlyB Sample.b0).2 ≠ JsValue.boolean false →
        readRound Sample.onlyB (Sample.withHook JsValue.undefined) Sample.openedOnlyB =
          ReadRound.again (f Sample.onlyB Sample.b0).1 Sample.openedOnlyB) ∧
      (∀ f, (Sample.withHook JsValue.undefined).onresolve = some f →
        (f Sample.onlyB Sample.b0).2 = JsValue.boolean false →
        (readRound Sample.onlyB (Sample.withHook JsValue.undefined) Sample.openedOnlyB).node? =
          some Sample.b0) ∧
      ((Sample.withHook JsValue.undefined).onresolve = none →
        (readRound Sample.onlyB (Sample.withHook JsValue.undefined) Sample.openedOnlyB).node? =
          some Sample.b0)) :=
  ⟨by decide, by decide, by decide,
    readRound_onresolve Sample.onlyB (Sample.withHook JsValue.undefined) Sample.openedOnlyB
      Sample.openedOnlyB Sample.b0 (by decide) (by decide) (by decide)⟩

/-! ## What the streams do on concrete logs -/

/-- The read stream of the test 'read stream -- not live, causally-linked writes', second
half, pushes a0, b0, c0, a1, b1, c1, a2, c2, a3; for the consecutive pair (a1, b1), which
`validateReadOrder` checks, `a1.lte(b1)` is false and the clock of b1 has an entry for A. -/
theorem read_order_test_logs :
    ((openReadStream Sample.linked Sample.plain).map fun st =>
      (readRounds Sample.plain 10 Sample.linked st).1.map Sample.tag) =
      .ok [(10, 0), (20, 0), (30, 0), (10, 1), (20, 1), (30, 1), (10, 2), (30, 2), (10, 3)] ∧
    ((openReadStream Sample.linked Sample.plain).map fun st =>
      (readRounds Sample.plain 10 Sample.linked st).1.drop 3 |>.take 2) =
      .ok [Sample.node 10 1 [(10, 0)], Sample.node 20 1 [(10, 0), (20, 0)]] ∧
    (Sample.node 10 1 [(10, 0)]).lte (Sample.node 20 1 [(10, 0), (20, 0)]) = false ∧
    (Sample.node 20 1 [(10, 0), (20, 0)]).clock.get (Sample.node 10 1 [(10, 0)]).id =
      some 0 := by
  decide

/-- C8 (failing input): the heads of a log A with two nodes are `[a1]`; read on the unchanged
instance the causal stream pushes `a1, a0`, but when A is removed after the stream has opened
the look-up of `a0` by id finds no input and the stream pushes `a1` only. -/
theorem causal_stream_cut_by_removal :
    (Sample.twoNodes.heads.map fun heads => heads.map (Option.map Sample.tag)) =
      .ok [some (10, 1)] ∧
    (Sample.twoNodes.heads.map fun heads =>
        (causalPulls [Sample.twoNodes, Sample.twoNodes, Sample.twoNodes] heads).map
          fun out => Sample.tag out.node) = .ok [(10, 1), (10, 0)] ∧
    (Sample.twoNodes.heads.map fun heads =>
        (causalPulls [Sample.twoNodes._removeInput 10, Sample.twoNodes._removeInput 10,
          Sample.twoNodes._removeInput 10] heads).map
          fun out => Sample.tag out.node) = .ok [(10, 1)] := by
  decide

/-- C7 (failing input): a non-live read stream opened while the tracked log A is empty records
the snapshot length 0 for A; once a node is appended to A, the stream pushes that node, whose
seq 0 is not below the length of A at open. -/
theorem read_stream_empty_snapshot_ignored :
    ((openReadStream Sample.emptyA Sample.plain).map fun st => st.snapshotLengthsByKey) =
      .ok [(10, 0)] ∧
    ((openReadStream Sample.emptyA Sample.plain).map fun st =>
      (readRounds Sample.plain 3 Sample.oneNodeA st).1.map Sample.tag) = .ok [(10, 0)] := by
  decide

/-! ## Maps -/
namespace JsMap
variable {α : Type}

theorem get_nil (k : Key) : get ([] : JsMap α) k = none := rfl

theorem get_cons (k' : Key) (v : α) (rest : JsMap α) (k : Key) :
    get ((k', v) :: rest) k = if k' = k then some v else get rest k := rfl

theorem replace_cons (k1 : Key) (v1 : α) (rest : JsMap α) (k : Key) (v : α) :
    replace ((k1, v1) :: rest) k v =
      (if k1 = k then (k, v) else (k1, v1)) :: replace rest k v := rfl

theorem get_eq_none_iff (m : JsMap α) (k : Key) : m.get k = none ↔ k ∉ keys m := by
  induction m with
  | nil => simp [get, keys]
  | cons e rest ih =>
    obtain ⟨k', v⟩ := e
    simp only [get, keys, List.map_cons, List.mem_cons, not_or]
    by_cases h : k' = k
    · simp [h]
    · simp only [h, if_false]
      rw [ih]
      simp only [keys]
      constructor
      · intro h1; exact ⟨fun h2 => h h2.symm, h1⟩
      · intro h1; exact h1.2

theorem has_eq_true_iff (m : JsMap α) (k : Key) : m.has k = true ↔ k ∈ keys m := by
  unfold has
  rw [Option.isSome_iff_ne_none, ne_eq, get_eq_none_iff, not_not]

theorem mem_of_get (m : JsMap α) (k : Key) (v : α) (h : m.get k = some v) : (k, v) ∈ m := by
  induction m with
  | nil => simp [get] at h
  | cons e rest ih =>
    obtain ⟨k', v'⟩ := e
    simp only [get] at h
    by_cases hk : k' = k
    · simp only [hk, if_true, Option.some.injEq] at h
      simp [hk, h]
    · simp only [hk, if_false] at h
      exact List.mem_cons_of_mem _ (ih h)

theorem get_of_mem (m : JsMap α) (hm : WF m) (k : Key) (v : α) (h : (k, v) ∈ m) :
    m.get k = some v := by
  induction m with
  | nil => simp at h
  | cons e rest ih =>
    obtain ⟨k', v'⟩ := e
    simp only [WF, keys, List.map_cons, List.nodup_cons] at hm
    simp only [List.mem_cons, Prod.mk.injEq] at h
    simp only [get]
    rcases h with ⟨h1, h2⟩ | h
    · simp [h1, h2]
    · have : k' ≠ k := by
        intro hk
        apply hm.1
        rw [hk]
        exact List.mem_map_of_mem Prod.fst h
      simp only [this, if_false]
      exact ih hm.2 h

theorem get_replace_self (m : JsMap α) (k : Key) (v : α) (h : m.has k = true) :
    (replace m k v).get k = some v := by
  induction m with
  | nil => simp [has, get] at h
  | cons e rest ih =>
    obtain ⟨k', v'⟩ := e
    rw [replace_cons]
    by_cases hk : k' = k
    · rw [if_pos hk, get_cons, if_pos rfl]
    · rw [if_neg hk, get_cons, if_neg hk]
      apply ih
      simpa [has, get_cons, hk] using h

theorem get_replace_other (m : JsMap α) (k k' : Key) (v : α) (h : k' ≠ k) :
    (replace m k v).get k' = m.get k' := by
  induction m with
  | nil => rfl
  | cons e rest ih =>
    obtain ⟨k1, v1⟩ := e
    rw [replace_cons]
    by_cases hk : k1 = k
    · have h1 : k ≠ k' := fun h' => h h'.symm
      have h2 : k1 ≠ k' := by rw [hk]; exact h1
      rw [if_pos hk, get_cons, if_neg h1, get_cons, if_neg h2]
      exact ih
    · rw [if_neg hk, get_cons, get_cons, ih]

theorem get_append (m m' : JsMap α) (k : Key) :
    get (m ++ m') k = (m.get k).orElse (fun _ => get m' k) := by
  induction m with
  | nil => simp [get]
  | cons e rest ih =>
    obtain ⟨k1, v1⟩ := e
    simp only [List.cons_append, get]
    by_cases hk : k1 = k
    · simp [hk]
    · simp [hk, ih]

theorem get_set_self (m : JsMap α) (k : Key) (v : α) : (set m k v).get k = some v := by
  unfold set
  by_cases h : m.has k = true
  · rw [if_pos h]
    exact get_replace_self m k v h
  · rw [if_neg h, get_append]
    have : m.get k = none := by
      simpa [has] using h
    simp [this, get_cons, get_nil]

theorem get_set_other (m : JsMap α) (k k' : Key) (v : α) (h : k' ≠ k) :
    (set m k v).get k' = m.get k' := by
  unfold set
  by_cases hh : m.has k = true
  · rw [if_pos hh]
    exact get_replace_other m k k' v h
  · rw [if_neg hh, get_append]
    have : k ≠ k' := fun h' => h h'.symm
    cases hg : m.get k' <;> simp [get_cons, get_nil, this]

theorem get_delete_self (m : JsMap α) (k : Key) : (delete m k).get k = none := by
  rw [get_eq_none_iff]
  simp [keys, delete]

theorem get_delete_other (m : JsMap α) (k k' : Key) (h : k' ≠ k) :
    (delete m k).get k' = m.get k' := by
  induction m with
  | nil => rfl
  | cons e rest ih =>
    obtain ⟨k1, v1⟩ := e
    simp only [delete, List.filter_cons]
    by_cases hk : k1 = k
    · have : k ≠ k' := fun h' => h h'.symm
      simp only [hk, ne_eq, not_true_eq_false, decide_False, get, this, if_false]
      exact ih
    · simp only [hk, ne_eq, not_false_eq_true, decide_True, if_true, get]
      by_cases hk' : k1 = k'
      · simp [hk']
      · simp only [hk', if_false]
        exact ih

end JsMap

/-! ## Resolved nodes -/


theorem normalizeClock_get_self (clock : Clock) (id : Key) (seq : Nat) :
    (normalizeClock clock id seq).get id = ownEntry seq := by
  unfold normalizeClock ownEntry
  split
  · exact JsMap.get_set_self _ _ _
  · exact JsMap.get_delete_self _ _

theorem normalizeClock_get_other (clock : Clock) (id k : Key) (seq : Nat) (h : k ≠ id) :
    (normalizeClock clock id seq).get k = clock.get k := by
  unfold normalizeClock
  split
  · exact JsMap.get_set_other _ _ _ _ h
  · exact JsMap.get_delete_other _ _ _ h

theorem getInputNodeAux_some (input : Unichain) (fuel seq : Nat) (n : InputNode)
    (h : getInputNodeAux input fuel seq = .ok (some n)) :
    n.key = input.key ∧ n.seq = seq ∧ n.clock.get input.key = ownEntry seq := by
  cases fuel with
  | zero => simp [getInputNodeAux] at h
  | succ fuel =>
    unfold getInputNodeAux at h
    split at h
    · cases h
    · cases h
    · simp only at h
      split at h
      · split at h
        · cases h
        · cases h
        · cases h
          exact ⟨rfl, rfl, normalizeClock_get_self _ _ _⟩
      · cases h
        exact ⟨rfl, rfl, normalizeClock_get_self _ _ _⟩

theorem getInputNodeOf_some (input : Unichain) (seq : Int) (n : InputNode)
    (h : getInputNodeOf input seq = .ok (some n)) :
    0 ≤ seq ∧ n.key = input.key ∧ (n.seq : Int) = seq ∧
      n.clock.get input.key = ownEntry n.seq := by
  unfold getInputNodeOf at h
  split at h
  · cases h
  · rename_i hs
    obtain ⟨h1, h2, h3⟩ := getInputNodeAux_some _ _ _ _ h
    refine ⟨by omega, h1, by omega, ?_⟩
    rw [h2]; exact h3

theorem Bitstream.getInputNode_some (self : Bitstream) (id : Key) (seq : Int) (n : InputNode)
    (h : self._getInputNode id seq = .ok (some n)) :
    ∃ input, self._inputsByKey.get id = some input ∧ getInputNodeOf input seq = .ok (some n) := by
  unfold Bitstream._getInputNode at h
  split at h
  · cases h
  · split at h
    · cases h
    · exact ⟨_, by assumption, h⟩

theorem mapM_ok_iff {α β : Type} (f : α → Except Error β) (l : List α) (r : List β) :
    l.mapM f = .ok r ↔ List.Forall₂ (fun a b => f a = .ok b) l r := by
  induction l generalizing r with
  | nil =>
    simp only [List.mapM_nil, List.forall₂_nil_left_iff]
    constructor
    · intro h; cases h; rfl
    · intro h; rw [h]; rfl
  | cons a rest ih =>
    rw [List.mapM_cons]
    cases hf : f a with
    | error e =>
      constructor
      · intro h; cases h
      · intro h
        cases h with
        | cons h1 _ => rw [hf] at h1; cases h1
    | ok b =>
      cases hr : rest.mapM f with
      | error e =>
        constructor
        · intro h; cases h
        · intro h
          cases h with
          | cons h1 h2 =>
            rw [← ih] at h2
            rw [hr] at h2; cases h2
      | ok r' =>
        have := (ih r').1 hr
        constructor
        · intro h
          cases h
          exact List.Forall₂.cons hf this
        · intro h
          cases h with
          | cons h1 h2 =>
            rw [hf] at h1
            cases h1
            rw [← ih, hr] at h2
            cases h2
            rfl

/-! ## Fork resolver -/

theorem mem_liveHeads (heads : List (Option InputNode)) (n : InputNode) :
    n ∈ liveHeads heads ↔ some n ∈ heads := by
  simp [liveHeads, List.mem_filterMap]

theorem isFork_some_iff (head : InputNode) (heads : List (Option InputNode)) :
    isFork (some head) heads = true ↔ ∀ other, some other ∈ heads → head.lte other = false := by
  simp only [isFork, List.all_eq_true]
  constructor
  · intro h other ho
    have := h (some other) ho
    simpa using this
  · intro h other ho
    cases other with
    | none => rfl
    | some o => simpa using h o ho

theorem isFork_none (heads : List (Option InputNode)) : isFork none heads = false := rfl

theorem isFork_perm (head : Option InputNode) (heads heads' : List (Option InputNode))
    (hp : heads.Perm heads') : isFork head heads = isFork head heads' := by
  cases head with
  | none => rfl
  | some h =>
    rw [Bool.eq_iff_iff, isFork_some_iff, isFork_some_iff]
    constructor
    · intro hh o ho; exact hh o (hp.mem_iff.2 ho)
    · intro hh o ho; exact hh o (hp.mem_iff.1 ho)

theorem mem_forks (heads : List (Option InputNode)) (n : InputNode) :
    n ∈ (forkInfo heads).forks ↔ some n ∈ heads ∧ isFork (some n) heads = true := by
  simp only [forkInfo, List.mem_filterMap]
  constructor
  · rintro ⟨a, ha, h⟩
    split at h
    · cases h
      rename_i hf
      exact ⟨ha, hf⟩
    · cases h
  · rintro ⟨h1, h2⟩
    exact ⟨some n, h1, by simp [h2]⟩

theorem filterMap_if_sublist (p : Option InputNode → Bool) (l : List (Option InputNode)) :
    (l.filterMap (fun head => if p head then head else none)).Sublist (liveHeads l) := by
  induction l with
  | nil => exact List.Sublist.slnil
  | cons a rest ih =>
    cases a with
    | none =>
      simp only [liveHeads, List.filterMap_cons, ite_self] at ih ⊢
      exact ih
    | some n =>
      simp only [liveHeads, List.filterMap_cons] at ih ⊢
      by_cases hp : p (some n) = true
      · simp only [hp, if_true]
        exact List.Sublist.cons₂ _ ih
      · simp only [hp]
        exact List.Sublist.cons _ ih

theorem forks_sublist (heads : List (Option InputNode)) :
    (forkInfo heads).forks.Sublist (liveHeads heads) :=
  filterMap_if_sublist (fun head => isFork head heads) heads

theorem forks_perm (heads heads' : List (Option InputNode)) (hp : heads.Perm heads') :
    (forkInfo heads).forks.Perm (forkInfo heads').forks := by
  simp only [forkInfo]
  have : (fun head => if isFork head heads = true then head else none) =
      (fun head => if isFork head heads' = true then head else none) := by
    funext head
    rw [isFork_perm head heads heads' hp]
  rw [this]
  exact hp.filterMap _

/-! ### The weight of a fork -/

theorem clock_foldl_high (clock : Clock) (high : Key → Nat) (k : Key) :
    (clock.foldl
      (fun high e =>
        let length := e.2 + 1
        if length > high e.1 then Function.update high e.1 length else high) high) k =
    clock.foldl (fun m e => if e.1 = k then max m (e.2 + 1) else m) (high k) := by
  induction clock generalizing high with
  | nil => rfl
  | cons e rest ih =>
    simp only [List.foldl_cons]
    rw [ih]
    congr 1
    by_cases hk : e.1 = k
    · rw [if_pos hk]
      by_cases hl : e.2 + 1 > high e.1
      · rw [if_pos hl, ← hk, Function.update_same, max_eq_right (le_of_lt hl)]
      · rw [if_neg hl]
        rw [hk] at hl
        rw [max_eq_left (by omega)]
    · rw [if_neg hk]
      split
      · rw [Function.update_noteq (fun h => hk h.symm)]
      · rfl

theorem foldl_max_init (clock : Clock) (k : Key) (a : Nat) :
    clock.foldl (fun m e => if e.1 = k then max m (e.2 + 1) else m) a =
      max a (Clock.lengthAt clock k) := by
  unfold Clock.lengthAt
  induction clock generalizing a with
  | nil => simp
  | cons e rest ih =>
    simp only [List.foldl_cons]
    rw [ih, ih (if e.1 = k then max 0 (e.2 + 1) else 0)]
    split <;> simp [max_assoc]

theorem forkHigh_foldl (node : InputNode) (heads : List InputNode) (high : Key → Nat) (k : Key) :
    (heads.foldl
      (fun high head =>
        if head = node then high
        else
          head.clock.foldl
            (fun high e =>
              let length := e.2 + 1
              if length > high e.1 then Function.update high e.1 length else high)
            high) high) k =
    heads.foldl (fun m head => if head = node then m else max m (Clock.lengthAt head.clock k))
      (high k) := by
  induction heads generalizing high with
  | nil => rfl
  | cons h rest ih =>
    simp only [List.foldl_cons]
    rw [ih]
    congr 1
    by_cases hn : h = node
    · simp [hn]
    · simp only [hn, if_false]
      rw [clock_foldl_high, foldl_max_init]

theorem forkHigh_eq (node : InputNode) (heads : List InputNode) (k : Key) :
    forkHigh node heads k = highOf node heads k :=
  forkHigh_foldl node heads (fun _ => 0) k

theorem highOf_perm (node : InputNode) (heads heads' : List InputNode) (hp : heads.Perm heads')
    (k : Key) : highOf node heads k = highOf node heads' k := by
  unfold highOf
  have : RightCommutative
      (fun (m : Nat) (head : InputNode) =>
        if head = node then m else max m (Clock.lengthAt head.clock k)) := by
    constructor
    intro m a b
    by_cases ha : a = node <;> by_cases hb : b = node <;> simp only [ha, hb, if_true, if_false]
    rw [max_assoc, max_assoc, max_comm (Clock.lengthAt a.clock k)]
  exact hp.foldl_eq 0

theorem forkSize_perm (node : InputNode) (i j : Nat) (heads heads' : List InputNode)
    (hp : heads.Perm heads') : forkSize node i heads = forkSize node j heads' := by
  unfold forkSize
  have : forkHigh node heads = forkHigh node heads' := by
    funext k
    rw [forkHigh_eq, forkHigh_eq, highOf_perm node heads heads' hp]
  rw [this]

/-! ### The selection loop -/

theorem stringLess_irrefl (a : List Nat) : stringLess a a = false := by
  induction a with
  | nil => rfl
  | cons x xs ih => simp [stringLess, ih]

theorem stringLess_trans (a b c : List Nat) (h1 : stringLess a b = true)
    (h2 : stringLess b c = true) : stringLess a c = true := by
  induction a generalizing b c with
  | nil =>
    cases b with
    | nil => simp [stringLess] at h1
    | cons y ys =>
      cases c with
      | nil => simp [stringLess] at h2
      | cons z zs => rfl
  | cons x xs ih =>
    cases b with
    | nil => simp [stringLess] at h1
    | cons y ys =>
      cases c with
      | nil => simp [stringLess] at h2
      | cons z zs =>
        simp only [stringLess] at h1 h2 ⊢
        by_cases hxy : x < y
        · by_cases hyz : y < z
          · rw [if_pos (Nat.lt_trans hxy hyz)]
          · rw [if_neg hyz] at h2
            by_cases hzy : z < y
            · rw [if_pos hzy] at h2
              cases h2
            · have : y = z := by omega
              subst this
              rw [if_pos hxy]
        · rw [if_neg hxy] at h1
          by_cases hyx : y < x
          · rw [if_pos hyx] at h1
            cases h1
          · rw [if_neg hyx] at h1
            have : x = y := by omega
            subst this
            by_cases hxz : x < z
            · rw [if_pos hxz]
            · rw [if_neg hxz] at h2 ⊢
              by_cases hzx : z < x
              · rw [if_pos hzx] at h2
                cases h2
              · rw [if_neg hzx] at h2 ⊢
                exact ih ys zs h1 h2

theorem stringLess_total (a b : List Nat) :
    stringLess a b = true ∨ a = b ∨ stringLess b a = true := by
  induction a generalizing b with
  | nil =>
    cases b with
    | nil => exact Or.inr (Or.inl rfl)
    | cons y ys => exact Or.inl rfl
  | cons x xs ih =>
    cases b with
    | nil => exact Or.inr (Or.inr rfl)
    | cons y ys =>
      simp only [stringLess]
      rcases Nat.lt_trichotomy x y with h | h | h
      · left
        rw [if_pos h]
      · subst h
        simp only [Nat.lt_irrefl, if_false]
        rcases ih ys with h | h | h
        · exact Or.inl h
        · exact Or.inr (Or.inl (by rw [h]))
        · exact Or.inr (Or.inr h)
      · right
        right
        rw [if_pos h]

theorem keyLess_irrefl (a : Key) : keyLess a a = false :=
  stringLess_irrefl _

theorem keyLess_trans (a b c : Key) (h1 : keyLess a b = true) (h2 : keyLess b c = true) :
    keyLess a c = true :=
  stringLess_trans _ _ _ h1 h2

theorem keyLess_total (a b : Key) :
    keyLess a b = true ∨ keyString a = keyString b ∨ keyLess b a = true :=
  stringLess_total _ _

theorem keyLess_of_keyString (a b c : Key) (h : keyString a = keyString b) :
    keyLess a c = keyLess b c ∧ keyLess c a = keyLess c b := by
  unfold keyLess
  rw [h]
  exact ⟨rfl, rfl⟩

/-- A key that compares smaller than another compares smaller than any third key, or the
third compares smaller than the other. -/
theorem keyLess_between (a b c : Key) (h : keyLess a c = true) :
    keyLess a b = true ∨ keyLess b c = true := by
  rcases keyLess_total a b with h1 | h1 | h1
  · exact Or.inl h1
  · right
    rw [← (keyLess_of_keyString a b c h1).1]
    exact h
  · exact Or.inr (keyLess_trans _ _ _ h1 h)

theorem utf8Decode_ascii (bytes : List Nat) (h : ∀ b ∈ bytes, b ≤ 0x7F) :
    utf8Decode none bytes = bytes := by
  induction bytes with
  | nil => rfl
  | cons b rest ih =>
    have hb := h b (List.mem_cons_self _ _)
    simp only [utf8Decode, utf8Lead, if_pos hb]
    rw [ih (fun x hx => h x (List.mem_cons_of_mem _ hx))]
    rfl

/-- On keys whose bytes are all below 0x80 the comparison of `forkInfo` is the lexicographic
comparison of the bytes. -/
theorem keyLess_ascii (a b : Key) (ha : ∀ x ∈ keyBytes a, x ≤ 0x7F)
    (hb : ∀ x ∈ keyBytes b, x ≤ 0x7F) :
    keyLess a b = stringLess (keyBytes a) (keyBytes b) := by
  unfold keyLess keyString
  rw [utf8Decode_ascii _ ha, utf8Decode_ascii _ hb]

theorem forkLess_trans (w : InputNode → Nat) (a b c : InputNode)
    (h1 : forkLess w a b) (h2 : forkLess w b c) : forkLess w a c := by
  unfold forkLess at *
  rcases h1 with ⟨e1, l1⟩ | l1 <;> rcases h2 with ⟨e2, l2⟩ | l2
  · exact Or.inl ⟨e1.trans e2, keyLess_trans _ _ _ l1 l2⟩
  · exact Or.inr (e1 ▸ l2)
  · exact Or.inr (e2 ▸ l1)
  · exact Or.inr (Nat.lt_trans l1 l2)

theorem forkLess_irrefl (w : InputNode → Nat) (a : InputNode) : ¬ forkLess w a a := by
  unfold forkLess
  rintro (⟨_, l⟩ | l)
  · rw [keyLess_irrefl] at l
    cases l
  · exact Nat.lt_irrefl _ l

theorem forkLess_total (w : InputNode → Nat) (a b : InputNode)
    (h : keyString a.key ≠ keyString b.key) : forkLess w a b ∨ forkLess w b a := by
  unfold forkLess
  rcases Nat.lt_trichotomy (w a) (w b) with hw | hw | hw
  · exact Or.inl (Or.inr hw)
  · rcases keyLess_total a.key b.key with hk | hk | hk
    · exact Or.inl (Or.inl ⟨hw, hk⟩)
    · exact absurd hk h
    · exact Or.inr (Or.inl ⟨hw.symm, hk⟩)
  · exact Or.inr (Or.inr hw)

/-- A fork that is less than another is less than any third fork, or the third is less than
the other. -/
theorem forkLess_between (w : InputNode → Nat) (a b c : InputNode) (h : forkLess w a c) :
    forkLess w a b ∨ forkLess w b c := by
  unfold forkLess at *
  rcases h with ⟨e, l⟩ | l
  · rcases Nat.lt_trichotomy (w a) (w b) with hw | hw | hw
    · exact Or.inl (Or.inr hw)
    · rcases keyLess_between a.key b.key c.key l with hk | hk
      · exact Or.inl (Or.inl ⟨hw, hk⟩)
      · exact Or.inr (Or.inl ⟨hw.symm.trans e, hk⟩)
    · exact Or.inr (Or.inr (by omega))
  · rcases Nat.lt_or_ge (w a) (w b) with hw | hw
    · exact Or.inl (Or.inr hw)
    · exact Or.inr (Or.inr (by omega))

theorem sizes_getD (forks : List InputNode) (i : Nat) (f : InputNode)
    (hi : forks.get? i = some f) :
    (forks.mapIdx (fun i fork => forkSize fork i forks)).getD i 0 = forkWeight forks f := by
  rw [List.getD_eq_getElem?_getD, List.getElem?_mapIdx]
  rw [List.get?_eq_getElem?] at hi
  rw [hi]
  rfl

theorem smallestStep_less (forks : List InputNode) (s i : Nat) (fs fi : InputNode)
    (hs : forks.get? s = some fs) (hi : forks.get? i = some fi)
    (h : forkLess (forkWeight forks) fi fs) :
    smallestStep (forks.mapIdx (fun i fork => forkSize fork i forks)) forks s i = i := by
  unfold smallestStep
  rw [sizes_getD forks i fi hi, sizes_getD forks s fs hs, hi, hs]
  simp only [Option.map_some', Option.getD_some]
  unfold forkLess at h
  rcases h with h | h
  · rw [if_pos h]
  · split
    all_goals rfl

theorem smallestStep_not_less (forks : List InputNode) (s i : Nat) (fs fi : InputNode)
    (hs : forks.get? s = some fs) (hi : forks.get? i = some fi)
    (h : ¬ forkLess (forkWeight forks) fi fs) :
    smallestStep (forks.mapIdx (fun i fork => forkSize fork i forks)) forks s i = s := by
  unfold smallestStep
  rw [sizes_getD forks i fi hi, sizes_getD forks s fs hs, hi, hs]
  simp only [Option.map_some', Option.getD_some]
  unfold forkLess at h
  rw [if_neg (fun h' => h (Or.inl h')), if_neg (fun h' => h (Or.inr h'))]

theorem smallest_loop (forks : List InputNode) (m : Nat) (hm : m < forks.length) :
    ∃ fs, forks.get?
        ((List.range' 1 m).foldl
          (smallestStep (forks.mapIdx (fun i fork => forkSize fork i forks)) forks) 0) = some fs ∧
      (List.range' 1 m).foldl
          (smallestStep (forks.mapIdx (fun i fork => forkSize fork i forks)) forks) 0 ≤ m ∧
      (∀ j fj, j ≤ m → forks.get? j = some fj → ¬ forkLess (forkWeight forks) fj fs) ∧
      ∀ j fj, j < (List.range' 1 m).foldl
          (smallestStep (forks.mapIdx (fun i fork => forkSize fork i forks)) forks) 0 →
        forks.get? j = some fj → forkLess (forkWeight forks) fs fj := by
  induction m with
  | zero =>
    obtain ⟨f0, hf0⟩ : ∃ f0, forks.get? 0 = some f0 := by
      cases forks with
      | nil => simp at hm
      | cons a rest => exact ⟨a, rfl⟩
    refine ⟨f0, by simpa using hf0, by simp, ?_, ?_⟩
    · intro j fj hj hfj
      have : j = 0 := by omega
      subst this
      rw [hf0] at hfj
      cases hfj
      exact forkLess_irrefl _ _
    · intro j fj hj
      simp at hj
  | succ m ih =>
    obtain ⟨fs, hfs, hle, hmin, hfirst⟩ := ih (by omega)
    rw [List.range'_concat, List.foldl_append]
    simp only [List.foldl_cons, List.foldl_nil, one_mul]
    obtain ⟨fi, hfi⟩ : ∃ fi, forks.get? (1 + m) = some fi := by
      have : 1 + m < forks.length := by omega
      exact ⟨forks.get ⟨1 + m, this⟩, List.get?_eq_get this⟩
    by_cases hl : forkLess (forkWeight forks) fi fs
    · rw [smallestStep_less forks _ _ fs fi hfs hfi hl]
      refine ⟨fi, hfi, by omega, ?_, ?_⟩
      · intro j fj hj hfj
        by_cases hjm : j ≤ m
        · intro hc
          exact hmin j fj hjm hfj (forkLess_trans _ _ _ _ hc hl)
        · have : j = 1 + m := by omega
          subst this
          rw [hfi] at hfj
          cases hfj
          exact forkLess_irrefl _ _
      · intro j fj hj hfj
        rcases forkLess_between _ fi fj fs hl with h | h
        · exact h
        · exact absurd h (hmin j fj (by omega) hfj)
    · rw [smallestStep_not_less forks _ _ fs fi hfs hfi hl]
      refine ⟨fs, hfs, by omega, ?_, hfirst⟩
      intro j fj hj hfj
      by_cases hjm : j ≤ m
      · exact hmin j fj hjm hfj
      · have : j = 1 + m := by omega
        subst this
        rw [hfi] at hfj
        cases hfj
        exact hl

/-- The node `forkInfo` selects, `forks[smallest]`. -/
theorem selected_minimal (heads : List (Option InputNode)) (n : InputNode)
    (h : (forkInfo heads).forks.get? (forkInfo heads).smallest = some n) :
    n ∈ (forkInfo heads).forks ∧
      ∀ f ∈ (forkInfo heads).forks, ¬ forkLess (forkWeight (forkInfo heads).forks) f n := by
  have hmem : n ∈ (forkInfo heads).forks := List.get?_mem h
  refine ⟨hmem, ?_⟩
  have hlen : (forkInfo heads).forks.length - 1 < (forkInfo heads).forks.length := by
    have := List.length_pos_of_mem hmem
    omega
  obtain ⟨fs, hfs, _, hmin, _⟩ := smallest_loop (forkInfo heads).forks _ hlen
  have hsm : (forkInfo heads).smallest =
      (List.range' 1 ((forkInfo heads).forks.length - 1)).foldl
        (smallestStep ((forkInfo heads).forks.mapIdx
          (fun i fork => forkSize fork i (forkInfo heads).forks)) (forkInfo heads).forks) 0 := by
    simp only [forkInfo, List.length_mapIdx]
  rw [← hsm, h] at hfs
  cases hfs
  intro f hf
  obtain ⟨j, hj⟩ := List.get?_of_mem hf
  have hjl : j < (forkInfo heads).forks.length := by
    rw [List.get?_eq_some] at hj
    exact hj.1
  exact hmin j f (by omega) hj

theorem selected_exists (heads : List (Option InputNode)) (f : InputNode)
    (hf : f ∈ (forkInfo heads).forks) :
    ∃ n, (forkInfo heads).forks.get? (forkInfo heads).smallest = some n := by
  have hlen : (forkInfo heads).forks.length - 1 < (forkInfo heads).forks.length := by
    have := List.length_pos_of_mem hf
    omega
  obtain ⟨fs, hfs, _, _, _⟩ := smallest_loop (forkInfo heads).forks _ hlen
  refine ⟨fs, ?_⟩
  rw [← hfs]
  simp only [forkInfo, List.length_mapIdx]

/-- The node `forkInfo` selects is less than every fork that stands before it. -/
theorem selected_first (heads : List (Option InputNode)) (n : InputNode)
    (h : (forkInfo heads).forks.get? (forkInfo heads).smallest = some n) (j : Nat)
    (fj : InputNode) (hj : j < (forkInfo heads).smallest)
    (hfj : (forkInfo heads).forks.get? j = some fj) :
    forkLess (forkWeight (forkInfo heads).forks) n fj := by
  have hmem : n ∈ (forkInfo heads).forks := List.get?_mem h
  have hlen : (forkInfo heads).forks.length - 1 < (forkInfo heads).forks.length := by
    have := List.length_pos_of_mem hmem
    omega
  obtain ⟨fs, hfs, _, _, hfirst⟩ := smallest_loop (forkInfo heads).forks _ hlen
  have hsm : (forkInfo heads).smallest =
      (List.range' 1 ((forkInfo heads).forks.length - 1)).foldl
        (smallestStep ((forkInfo heads).forks.mapIdx
          (fun i fork => forkSize fork i (forkInfo heads).forks)) (forkInfo heads).forks) 0 := by
    simp only [forkInfo, List.length_mapIdx]
  rw [← hsm] at hfs hfirst
  rw [h] at hfs
  cases hfs
  exact hfirst j fj hj hfj

theorem minimal_unique (forks : List InputNode) (w : InputNode → Nat)
    (hd : ∀ a ∈ forks, ∀ b ∈ forks, a ≠ b → w a = w b → keyString a.key ≠ keyString b.key)
    (a b : InputNode) (ha : a ∈ forks) (hb : b ∈ forks)
    (hamin : ∀ f ∈ forks, ¬ forkLess w f a) (hbmin : ∀ f ∈ forks, ¬ forkLess w f b) : a = b := by
  by_contra hne
  rcases Nat.lt_trichotomy (w a) (w b) with hw | hw | hw
  · exact hbmin a ha (Or.inr hw)
  · rcases forkLess_total w a b (hd a ha b hb hne hw) with h | h
    · exact hbmin a ha h
    · exact hamin b hb h
  · exact hamin b hb (Or.inr hw)

theorem selected_perm (heads heads' : List (Option InputNode)) (hp : heads.Perm heads')
    (hd : TiesDecided heads) :
    (forkInfo heads).forks.get? (forkInfo heads).smallest =
      (forkInfo heads').forks.get? (forkInfo heads').smallest := by
  have hfp := forks_perm heads heads' hp
  have hw : forkWeight (forkInfo heads).forks = forkWeight (forkInfo heads').forks := by
    funext f
    exact forkSize_perm f 0 0 _ _ hfp
  cases h : (forkInfo heads).forks.get? (forkInfo heads).smallest with
  | none =>
    cases h' : (forkInfo heads').forks.get? (forkInfo heads').smallest with
    | none => rfl
    | some n' =>
      have hn' := List.get?_mem h'
      obtain ⟨n, hn⟩ := selected_exists heads n' (hfp.mem_iff.2 hn')
      rw [hn] at h
      cases h
  | some n =>
    obtain ⟨hn, hmin⟩ := selected_minimal heads n h
    obtain ⟨n', h'⟩ := selected_exists heads' n (hfp.mem_iff.1 hn)
    obtain ⟨hn', hmin'⟩ := selected_minimal heads' n' h'
    rw [h']
    congr 1
    refine minimal_unique _ _ hd n n' hn (hfp.mem_iff.2 hn') hmin ?_
    intro f hf
    rw [hw]
    exact hmin' f (hfp.mem_iff.1 hf)

/-- Heads whose keys have pairwise different strings: the comparison of the keys decides
between any two forks. -/
theorem tiesDecided_of_comparable (heads : List (Option InputNode))
    (hc : ComparableKeys ((liveHeads heads).map InputNode.key)) : TiesDecided heads := by
  intro a ha b hb hne _ hk
  have ha' := (mem_liveHeads _ _).2 ((mem_forks heads a).1 ha).1
  have hb' := (mem_liveHeads _ _).2 ((mem_forks heads b).1 hb).1
  unfold ComparableKeys at hc
  rw [List.map_map] at hc
  exact hne (List.inj_on_of_nodup_map hc ha' hb' hk)

/-! ## Causal stream: one pull -/

theorem set_indexOfHead_perm (l : List (Option InputNode)) (a b : Option InputNode)
    (ha : a ∈ l) : (l.set (indexOfHead a l) b).Perm (b :: l.eraseIdx (indexOfHead a l)) := by
  induction l with
  | nil => simp at ha
  | cons x xs ih =>
    unfold indexOfHead
    by_cases hx : x = a
    · rw [if_pos hx]
      simp
    · have hmem : a ∈ xs := by
        rcases List.mem_cons.1 ha with h | h
        · exact absurd h.symm hx
        · exact h
      rw [if_neg hx]
      simp only [List.set_cons_succ, List.eraseIdx_cons_succ]
      exact ((ih hmem).cons x).trans (List.Perm.swap b x _)

theorem eraseIdx_indexOfHead_perm (l : List (Option InputNode)) (a : Option InputNode)
    (ha : a ∈ l) : l.Perm (a :: l.eraseIdx (indexOfHead a l)) := by
  induction l with
  | nil => simp at ha
  | cons x xs ih =>
    unfold indexOfHead
    by_cases hx : x = a
    · rw [if_pos hx]
      simp [hx]
    · have hmem : a ∈ xs := by
        rcases List.mem_cons.1 ha with h | h
        · exact absurd h.symm hx
        · exact h
      rw [if_neg hx]
      simp only [List.eraseIdx_cons_succ]
      exact ((ih hmem).cons x).trans (List.Perm.swap a x _)

theorem liveHeads_cons_some (n : InputNode) (l : List (Option InputNode)) :
    liveHeads (some n :: l) = n :: liveHeads l := by
  simp [liveHeads, List.filterMap_cons]

theorem liveHeads_cons_none (l : List (Option InputNode)) :
    liveHeads (none :: l) = liveHeads l := by
  simp [liveHeads, List.filterMap_cons]

theorem liveHeads_perm (l l' : List (Option InputNode)) (h : l.Perm l') :
    (liveHeads l).Perm (liveHeads l') :=
  h.filterMap _

theorem distinctKeys_perm {l l' : List (Option InputNode)} (hd : DistinctKeys l)
    (h : l.Perm l') : DistinctKeys l' :=
  (((liveHeads_perm l l' h).map InputNode.key).nodup_iff).1 hd

theorem liveHeads_erase_perm (l : List (Option InputNode)) (n : InputNode)
    (hn : some n ∈ l) :
    (liveHeads l).Perm (n :: liveHeads (l.eraseIdx (indexOfHead (some n) l))) := by
  have := liveHeads_perm _ _ (eraseIdx_indexOfHead_perm l (some n) hn)
  rw [liveHeads_cons_some] at this
  exact this

theorem key_not_mem_erase (l : List (Option InputNode)) (n : InputNode)
    (hd : DistinctKeys l) (hn : some n ∈ l) :
    n.key ∉ (liveHeads (l.eraseIdx (indexOfHead (some n) l))).map InputNode.key ∧
      ((liveHeads (l.eraseIdx (indexOfHead (some n) l))).map InputNode.key).Nodup := by
  have h := ((liveHeads_erase_perm l n hn).map InputNode.key).nodup_iff.1 hd
  simpa using h

/-- The heads after a pull, up to their order: the chosen node is replaced by `next`. -/
theorem causalRead_pushed (self : Bitstream) (heads heads' : List (Option InputNode))
    (out : OutputNode) (h : causalRead self heads = .pushed out heads') :
    (forkInfo heads).forks.get? (forkInfo heads).smallest = some out.node ∧
    out.change = out.node.key ∧ out.clock = (forkInfo heads).clock ∧
    some out.node ∈ heads ∧
    ((out.node.seq = 0 ∧ heads' = heads.eraseIdx (indexOfHead (some out.node) heads)) ∨
      (0 < out.node.seq ∧ ∃ next,
        self._getInputNode out.node.key ((out.node.seq : Int) - 1) = .ok next ∧
        heads' = heads.set (indexOfHead (some out.node) heads) next)) := by
  unfold causalRead at h
  simp only at h
  split at h
  · cases h
  · rename_i node hnode
    have hmem : some node ∈ heads := ((mem_forks heads node).1 (List.get?_mem hnode)).1
    split at h
    · rename_i h0
      cases h
      exact ⟨hnode, rfl, rfl, hmem, Or.inl ⟨h0, rfl⟩⟩
    · rename_i h0
      split at h
      · cases h
      · rename_i next hnext
        cases h
        exact ⟨hnode, rfl, rfl, hmem, Or.inr ⟨Nat.pos_of_ne_zero h0, next, hnext, rfl⟩⟩

theorem causalRead_failed (self : Bitstream) (heads : List (Option InputNode))
    (out : OutputNode) (e : Error) (h : causalRead self heads = .failed out e) :
    (forkInfo heads).forks.get? (forkInfo heads).smallest = some out.node := by
  unfold causalRead at h
  simp only at h
  split at h
  · cases h
  · rename_i node hnode
    split at h
    · cases h
    · split at h
      · cases h
        exact hnode
      · cases h

theorem selected_is_fork (heads : List (Option InputNode)) (n : InputNode)
    (h : (forkInfo heads).forks.get? (forkInfo heads).smallest = some n) :
    some n ∈ heads ∧ ∀ other, some other ∈ heads → n.lte other = false := by
  have := (mem_forks heads n).1 (List.get?_mem h)
  exact ⟨this.1, (isFork_some_iff n heads).1 this.2⟩

theorem Bitstream.getInputNode_key_seq (self : Bitstream) (hwf : self.WF) (id : Key) (seq : Int)
    (n : InputNode) (h : self._getInputNode id seq = .ok (some n)) :
    n.key = id ∧ (n.seq : Int) = seq ∧ n.clock.get n.key = ownEntry n.seq := by
  obtain ⟨input, hget, hnode⟩ := self.getInputNode_some id seq n h
  obtain ⟨_, hk, hs, hc⟩ := getInputNodeOf_some input seq n hnode
  have hik : input.key = id := hwf.2 (id, input) (JsMap.mem_of_get _ _ _ hget)
  refine ⟨hk.trans hik, hs, ?_⟩
  rw [hk]
  exact hc

theorem headsOf_step (self : Bitstream) (hwf : self.WF) (heads heads' : List (Option InputNode))
    (out : OutputNode) (hH : HeadsOf self heads)
    (h : causalRead self heads = .pushed out heads') : HeadsOf self heads' := by
  obtain ⟨_, _, _, hmem, hcase⟩ := causalRead_pushed self heads heads' out h
  obtain ⟨hnot, hnd⟩ := key_not_mem_erase heads out.node hH.1 hmem
  rcases hcase with ⟨_, rfl⟩ | ⟨_, next, hnext, rfl⟩
  · refine ⟨hnd, ?_⟩
    intro x hx
    exact hH.2 x (List.mem_of_mem_eraseIdx hx)
  · have hperm := set_indexOfHead_perm heads (some out.node) next hmem
    constructor
    · apply distinctKeys_perm _ hperm.symm
      cases next with
      | none =>
        unfold DistinctKeys
        rw [liveHeads_cons_none]
        exact hnd
      | some m =>
        unfold DistinctKeys
        rw [liveHeads_cons_some, List.map_cons, List.nodup_cons]
        have hm := self.getInputNode_key_seq hwf _ _ m hnext
        rw [hm.1]
        exact ⟨hnot, hnd⟩
    · intro x hx
      rcases List.mem_cons.1 (hperm.mem_iff.1 hx) with hx | hx
      · cases next with
        | none => cases hx
        | some m =>
          cases hx
          have hm := self.getInputNode_key_seq hwf _ _ x hnext
          rw [hm.1, hm.2.1]
          exact hnext
      · exact hH.2 x (List.mem_of_mem_eraseIdx hx)

theorem getInputNodeAux_none_of_le (input : Unichain) (fuel seq : Nat)
    (h : input.blocks.length ≤ seq) : getInputNodeAux input fuel seq = .ok none := by
  cases fuel with
  | zero => rfl
  | succ fuel =>
    unfold getInputNodeAux
    have : input.get seq = none := by
      unfold Unichain.get
      rw [List.get?_eq_none.2 h]
      rfl
    rw [this]

theorem InheritsForward.dominates {self : Bitstream} (hmono : InheritsForward self)
    (k : Key) (s : Nat) (n n' : InputNode)
    (h1 : self._getInputNode k (s : Int) = .ok (some n))
    (h2 : self._getInputNode k ((s : Int) + 1) = .ok (some n')) : Dominates n' n := by
  obtain ⟨input, hget, hn⟩ := self.getInputNode_some k _ n h1
  obtain ⟨input', hget', hn'⟩ := self.getInputNode_some k _ n' h2
  rw [hget] at hget'
  cases hget'
  have hs : s < input.blocks.length := by
    by_contra hc
    have hle : input.blocks.length ≤ s + 1 := by omega
    have : getInputNodeOf input ((s : Int) + 1) = .ok none := by
      unfold getInputNodeOf
      rw [if_neg (by omega)]
      exact getInputNodeAux_none_of_le _ _ _ (by omega)
    rw [this] at hn'
    cases hn'
  intro x v hx hv
  have h := hmono (k, input) (JsMap.mem_of_get _ _ _ hget) s (List.mem_range.2 hs) n
    (by simp [nodeAt, hn]) n' (by
      have : ((s + 1 : Nat) : Int) = (s : Int) + 1 := by omega
      simp [nodeAt, this, hn'])
    x (by
      have := JsMap.mem_of_get _ _ _ hv
      exact List.mem_map_of_mem Prod.fst this) hx v hv
  obtain ⟨v', hv', hle⟩ := h
  exact ⟨v', hv', hle⟩

theorem dominates_refl (y : InputNode) : Dominates y y :=
  fun _ v _ hv => ⟨v, hv, le_refl v⟩

theorem dominates_trans {a b c : InputNode} (hk : b.key = c.key) (h1 : Dominates a b)
    (h2 : Dominates b c) : Dominates a c := by
  intro x v hx hv
  obtain ⟨v', hv', hle⟩ := h2 x v hx hv
  obtain ⟨v'', hv'', hle'⟩ := h1 x v' (hk ▸ hx) hv'
  exact ⟨v'', hv'', le_trans hle hle'⟩

/-- Every node a causal stream pushes lies on the branch below one of the heads, whose clock
dominates its clock. -/
theorem causalPulls_below_head (self : Bitstream) (hwf : self.WF) (hmono : InheritsForward self)
    (fuel : Nat) (heads : List (Option InputNode)) (hH : HeadsOf self heads) (y : OutputNode)
    (hy : y ∈ causalPulls (List.replicate fuel self) heads) :
    ∃ h, some h ∈ heads ∧ h.key = y.node.key ∧ y.node.seq ≤ h.seq ∧ Dominates h y.node ∧
      self._getInputNode y.node.key (y.node.seq : Int) = .ok (some y.node) := by
  induction fuel generalizing heads with
  | zero => simp [causalPulls] at hy
  | succ fuel ih =>
    rw [List.replicate_succ] at hy
    unfold causalPulls at hy
    split at hy
    · simp at hy
    · rename_i out e hfail
      have hsel := causalRead_failed self heads out e hfail
      have hmem := (selected_is_fork heads out.node hsel).1
      simp only [List.mem_singleton] at hy
      subst hy
      exact ⟨y.node, hmem, rfl, le_refl _, dominates_refl _, hH.2 _ hmem⟩
    · rename_i out heads' hpush
      obtain ⟨_, _, _, hmem, hcase⟩ := causalRead_pushed self heads heads' out hpush
      rcases List.mem_cons.1 hy with hy | hy
      · subst hy
        exact ⟨y.node, hmem, rfl, le_refl _, dominates_refl _, hH.2 _ hmem⟩
      · obtain ⟨h', hh', hk, hs, hdom, hres⟩ :=
          ih heads' (headsOf_step self hwf heads heads' out hH hpush) hy
        rcases hcase with ⟨_, rfl⟩ | ⟨hpos, next, hnext, rfl⟩
        · exact ⟨h', List.mem_of_mem_eraseIdx hh', hk, hs, hdom, hres⟩
        · have hperm := set_indexOfHead_perm heads (some out.node) next hmem
          rcases List.mem_cons.1 (hperm.mem_iff.1 hh') with hx | hx
          · subst hx
            have hm := self.getInputNode_key_seq hwf _ _ h' hnext
            have hseq : h'.seq + 1 = out.node.seq := by omega
            refine ⟨out.node, hmem, hm.1.symm ▸ hk, by omega, ?_, hres⟩
            have hadj : Dominates out.node h' := by
              apply hmono.dominates out.node.key h'.seq h' out.node
              · have : (h'.seq : Int) = (out.node.seq : Int) - 1 := by omega
                rw [this]
                exact hnext
              · have : (h'.seq : Int) + 1 = (out.node.seq : Int) := by omega
                rw [this]
                exact hH.2 _ hmem
            exact dominates_trans hk hadj hdom
          · exact ⟨h', List.mem_of_mem_eraseIdx hx, hk, hs, hdom, hres⟩


theorem lte_eq_false_iff (a b : InputNode) :
    a.lte b = false ↔ ∀ v, b.clock.get a.key = some v → v < a.seq := by
  unfold InputNode.lte InputNode.id
  cases h : b.clock.get a.key with
  | none => simp
  | some s => simp

/-- In the order a causal stream pushes its nodes, no node is `lte` a later one. -/
theorem causalPulls_pairwise (self : Bitstream) (hwf : self.WF) (hmono : InheritsForward self)
    (fuel : Nat) (heads : List (Option InputNode)) (hH : HeadsOf self heads) :
    ((causalPulls (List.replicate fuel self) heads).map OutputNode.node).Pairwise
      (fun x y => x.lte y = false) := by
  induction fuel generalizing heads with
  | zero => simp [causalPulls]
  | succ fuel ih =>
    rw [List.replicate_succ]
    unfold causalPulls
    split
    · simp
    · simp
    · rename_i out heads' hpush
      rw [List.map_cons, List.pairwise_cons]
      have hH' := headsOf_step self hwf heads heads' out hH hpush
      refine ⟨?_, ih heads' hH'⟩
      intro y' hy'
      obtain ⟨y, hy, rfl⟩ := List.mem_map.1 hy'
      obtain ⟨hsel, _, _, hmem, hcase⟩ := causalRead_pushed self heads heads' out hpush
      obtain ⟨h', hh', hk, hs, hdom, hres⟩ :=
        causalPulls_below_head self hwf hmono fuel heads' hH' y hy
      obtain ⟨hnot, _⟩ := key_not_mem_erase heads out.node hH.1 hmem
      have hfork := (selected_is_fork heads out.node hsel).2
      have hyn := self.getInputNode_key_seq hwf _ _ y.node hres
      rw [lte_eq_false_iff]
      intro v hv
      have hin : ∀ x, some x ∈ heads.eraseIdx (indexOfHead (some out.node) heads) →
          x.key ≠ out.node.key := by
        intro x hx hxk
        apply hnot
        rw [← hxk]
        exact List.mem_map_of_mem _ ((mem_liveHeads _ _).2 hx)
      by_cases hkey : y.node.key = out.node.key
      · rw [← hkey, hyn.2.2] at hv
        rcases hcase with ⟨_, rfl⟩ | ⟨hpos, next, hnext, rfl⟩
        · exact absurd (hk.trans hkey) (hin h' hh')
        · have hperm := set_indexOfHead_perm heads (some out.node) next hmem
          rcases List.mem_cons.1 (hperm.mem_iff.1 hh') with hx | hx
          · subst hx
            have hm := self.getInputNode_key_seq hwf _ _ h' hnext
            unfold ownEntry at hv
            split at hv
            · cases hv
              omega
            · cases hv
          · exact absurd (hk.trans hkey) (hin h' hx)
      · have hh : some h' ∈ heads := by
          rcases hcase with ⟨_, rfl⟩ | ⟨hpos, next, hnext, rfl⟩
          · exact List.mem_of_mem_eraseIdx hh'
          · have hperm := set_indexOfHead_perm heads (some out.node) next hmem
            rcases List.mem_cons.1 (hperm.mem_iff.1 hh') with hx | hx
            · subst hx
              have hm := self.getInputNode_key_seq hwf _ _ h' hnext
              exact absurd (hk.symm.trans hm.1) hkey
            · exact List.mem_of_mem_eraseIdx hx
        obtain ⟨v', hv', hle⟩ := hdom out.node.key v (fun h => hkey h.symm) hv
        have := (lte_eq_false_iff out.node h').1 (hfork h' hh) v' hv'
        omega

theorem pairwise_order {α : Type} (R : α → α → Prop) (l : List α) (hp : l.Pairwise R)
    (a b : α) (ha : a ∈ l) (hb : b ∈ l) (hne : a ≠ b) (hR : ¬ R a b) :
    ∃ l1 l2 l3, l = l1 ++ b :: l2 ++ a :: l3 := by
  induction l with
  | nil => simp at ha
  | cons x xs ih =>
    rw [List.pairwise_cons] at hp
    rcases List.mem_cons.1 ha with hax | hax
    · rcases List.mem_cons.1 hb with hbx | hbx
      · exact absurd (hax.trans hbx.symm) hne
      · rw [← hax] at hp
        exact absurd (hp.1 b hbx) hR
    · rcases List.mem_cons.1 hb with hbx | hbx
      · obtain ⟨l2, l3, hxs⟩ := List.append_of_mem hax
        exact ⟨[], l2, l3, by simp [hxs, hbx]⟩
      · obtain ⟨l1, l2, l3, hxs⟩ := ih hp.2 hax hbx
        exact ⟨x :: l1, l2, l3, by simp [hxs]⟩
/-! ## Causal stream: the heads taken at open -/

theorem Bitstream.inputs_keys (self : Bitstream) (hwf : self.WF) :
    self.inputs.map Unichain.key = JsMap.keys self._inputsByKey := by
  unfold Bitstream.inputs JsMap.values JsMap.keys
  rw [List.map_map]
  apply List.map_congr_left
  intro e he
  exact hwf.2 e he

theorem Bitstream.get_of_mem_inputs (self : Bitstream) (hwf : self.WF) (i : Unichain)
    (hi : i ∈ self.inputs) : self._inputsByKey.get i.key = some i := by
  unfold Bitstream.inputs JsMap.values at hi
  obtain ⟨e, he, rfl⟩ := List.mem_map.1 hi
  apply JsMap.get_of_mem _ hwf.1
  rw [hwf.2 e he]
  exact he

theorem forall₂_heads_sublist (f : Unichain → Except Error (Option InputNode))
    (hf : ∀ i n, f i = .ok (some n) → n.key = i.key)
    (l : List Unichain) (r : List (Option InputNode))
    (h : List.Forall₂ (fun a b => f a = .ok b) l r) :
    ((liveHeads r).map InputNode.key).Sublist (l.map Unichain.key) ∧
      ∀ n, some n ∈ r → ∃ i ∈ l, f i = .ok (some n) := by
  induction h with
  | nil => exact ⟨List.Sublist.slnil, by simp⟩
  | @cons a b l' r' hab _ ih =>
    constructor
    · cases b with
      | none =>
        rw [liveHeads_cons_none, List.map_cons]
        exact List.Sublist.cons _ ih.1
      | some n =>
        rw [liveHeads_cons_some, List.map_cons, List.map_cons, hf a n hab]
        exact List.Sublist.cons₂ _ ih.1
    · intro n hn
      rcases List.mem_cons.1 hn with hn | hn
      · subst hn
        exact ⟨a, List.mem_cons_self _ _, hab⟩
      · obtain ⟨i, hi, hfi⟩ := ih.2 n hn
        exact ⟨i, List.mem_cons_of_mem _ hi, hfi⟩

theorem Bitstream.heads_spec (self : Bitstream) (hwf : self.WF)
    (heads : List (Option InputNode)) (h : self.heads = .ok heads) :
    HeadsOf self heads ∧
      ∀ n, some n ∈ heads → ∃ i ∈ self.inputs, n.key = i.key ∧ n.seq + 1 = i.length := by
  unfold Bitstream.heads at h
  rw [mapM_ok_iff] at h
  have hf : ∀ (i : Unichain) (n : InputNode),
      getInputNodeOf i ((i.length : Int) - 1) = .ok (some n) → n.key = i.key :=
    fun i n hn => (getInputNodeOf_some i _ n hn).2.1
  obtain ⟨hsub, hall⟩ := forall₂_heads_sublist _ hf _ _ h
  refine ⟨⟨?_, ?_⟩, ?_⟩
  · apply List.Nodup.sublist hsub
    rw [self.inputs_keys hwf]
    exact hwf.1
  · intro n hn
    obtain ⟨i, hi, hfi⟩ := hall n hn
    obtain ⟨h0, hk, hs, _⟩ := getInputNodeOf_some i _ n hfi
    unfold Bitstream._getInputNode
    rw [if_neg (by omega), hk, self.get_of_mem_inputs hwf i hi]
    simp only
    rw [hs]
    exact hfi
  · intro n hn
    obtain ⟨i, hi, hfi⟩ := hall n hn
    obtain ⟨h0, hk, hs, _⟩ := getInputNodeOf_some i _ n hfi
    exact ⟨i, hi, hk, by omega⟩

/-! ## Causal consistency of the causal stream -/

/-- C2: on an instance whose tracked inputs form a map keyed by their ids and whose clocks are
inherited forward, any two distinct nodes A and B pushed by one causal stream with
`A.lte(B)` are pushed B first: A stands before B in the reversed linearization. -/
theorem causal_stream_consistent (self : Bitstream) (hwf : self.WF)
    (hmono : InheritsForward self) (out : List OutputNode)
    (hout : createCausalStream self = .ok out) (A B : InputNode)
    (hA : A ∈ out.map OutputNode.node) (hB : B ∈ out.map OutputNode.node) (hne : A ≠ B)
    (hlte : A.lte B = true) :
    ∃ l1 l2 l3, out.map OutputNode.node = l1 ++ B :: l2 ++ A :: l3 := by
  unfold createCausalStream at hout
  split at hout
  · cases hout
  · rename_i heads hheads
    cases hout
    have hH := (self.heads_spec hwf heads hheads).1
    have hp := causalPulls_pairwise self hwf hmono (headsWeight heads + 1) heads hH
    exact pairwise_order _ _ hp A B hA hB hne (by simp [hlte])

/-- C2 (witness): on the logs of the test 'causal writes' (A and B), `a0.lte(b1)` holds and the
stream pushes b1, b0, a0. -/
theorem causal_stream_consistent_witness :
    Sample.causal.WF ∧ InheritsForward Sample.causal ∧
    createCausalStream Sample.causal = .ok Sample.causalOut ∧
    Sample.node 10 0 [] ∈ Sample.causalOut.map OutputNode.node ∧
    Sample.node 20 1 [(10, 0), (20, 0)] ∈ Sample.causalOut.map OutputNode.node ∧
    Sample.node 10 0 [] ≠ Sample.node 20 1 [(10, 0), (20, 0)] ∧
    (Sample.node 10 0 []).lte (Sample.node 20 1 [(10, 0), (20, 0)]) = true ∧
    ∃ l1 l2 l3, Sample.causalOut.map OutputNode.node =
      l1 ++ Sample.node 20 1 [(10, 0), (20, 0)] :: l2 ++ Sample.node 10 0 [] :: l3 :=
  ⟨by decide, by decide, by decide, by decide, by decide, by decide, by decide,
    causal_stream_consistent Sample.causal (by decide) (by decide) Sample.causalOut (by decide)
      (Sample.node 10 0 []) (Sample.node 20 1 [(10, 0), (20, 0)]) (by decide) (by decide)
      (by decide) (by decide)⟩

/-! ## Fork selection does not depend on the order of the inputs -/

theorem JsMap.get_perm {α : Type} (m m' : JsMap α) (hp : m.Perm m') (hwf : JsMap.WF m)
    (k : Key) : m.get k = m'.get k := by
  have hwf' : JsMap.WF m' := ((hp.map Prod.fst).nodup_iff).1 hwf
  cases h : m.get k with
  | none =>
    symm
    rw [JsMap.get_eq_none_iff] at h ⊢
    intro hk
    exact h (((hp.map Prod.fst).mem_iff).2 hk)
  | some v =>
    symm
    exact JsMap.get_of_mem m' hwf' k v (hp.mem_iff.1 (JsMap.mem_of_get m k v h))

theorem wf_perm {self self' : Bitstream} (hwf : self.WF)
    (hp : self'._inputsByKey.Perm self._inputsByKey) : self'.WF :=
  ⟨((hp.map Prod.fst).nodup_iff).2 hwf.1, fun e he => hwf.2 e (hp.mem_iff.1 he)⟩

theorem Bitstream.getInputNode_perm (self self' : Bitstream) (hwf : self.WF)
    (hp : self'._inputsByKey.Perm self._inputsByKey) (id : Key) (seq : Int) :
    self'._getInputNode id seq = self._getInputNode id seq := by
  unfold Bitstream._getInputNode
  rw [JsMap.get_perm _ _ hp (wf_perm hwf hp).1 id]

theorem snapshot_clock_foldl (heads : List (Option InputNode)) (c0 : Clock)
    (hd : DistinctKeys heads)
    (hdis : ∀ k ∈ (liveHeads heads).map InputNode.key, k ∉ JsMap.keys c0) :
    heads.foldl
      (fun clock head =>
        match head with
        | none => clock
        | some head => JsMap.set clock head.id head.seq) c0 =
    c0 ++ (liveHeads heads).map (fun h => (h.key, h.seq)) := by
  induction heads generalizing c0 with
  | nil => simp [liveHeads]
  | cons a rest ih =>
    cases a with
    | none =>
      rw [List.foldl_cons, liveHeads_cons_none]
      unfold DistinctKeys at hd
      rw [liveHeads_cons_none] at hd hdis
      exact ih c0 hd hdis
    | some n =>
      rw [List.foldl_cons, liveHeads_cons_some]
      unfold DistinctKeys at hd
      rw [liveHeads_cons_some, List.map_cons, List.nodup_cons] at hd
      rw [liveHeads_cons_some, List.map_cons] at hdis
      have hnot : JsMap.has c0 n.key = false := by
        rw [← Bool.not_eq_true, JsMap.has_eq_true_iff]
        exact hdis n.key (List.mem_cons_self _ _)
      have hset : JsMap.set c0 n.id n.seq = c0 ++ [(n.key, n.seq)] := by
        simp [InputNode.id, JsMap.set, hnot]
      simp only
      rw [hset, ih (c0 ++ [(n.key, n.seq)]) hd.2]
      · simp
      · intro k hk hk'
        simp only [JsMap.keys, List.map_append, List.map_cons, List.map_nil, List.mem_append,
          List.mem_singleton] at hk'
        rcases hk' with hk' | hk'
        · exact hdis k (List.mem_cons_of_mem _ hk) hk'
        · rw [hk'] at hk
          exact hd.1 hk

theorem snapshot_clock_eq (heads : List (Option InputNode)) (hd : DistinctKeys heads) :
    (forkInfo heads).clock = (liveHeads heads).map (fun h => (h.key, h.seq)) := by
  have := snapshot_clock_foldl heads [] hd (by simp [JsMap.keys])
  simpa [forkInfo] using this

theorem snapshot_clock_perm (heads heads' : List (Option InputNode)) (hp : heads.Perm heads')
    (hd : DistinctKeys heads) : (forkInfo heads).clock.Perm (forkInfo heads').clock := by
  rw [snapshot_clock_eq heads hd, snapshot_clock_eq heads' (distinctKeys_perm hd hp)]
  exact (liveHeads_perm _ _ hp).map _

theorem headsOf_perm {self : Bitstream} {heads heads' : List (Option InputNode)}
    (hH : HeadsOf self heads) (hp : heads.Perm heads') : HeadsOf self heads' :=
  ⟨distinctKeys_perm hH.1 hp, fun h hh => hH.2 h (hp.mem_iff.2 hh)⟩

theorem headsWeight_perm (heads heads' : List (Option InputNode)) (hp : heads.Perm heads') :
    headsWeight heads = headsWeight heads' := by
  unfold headsWeight
  exact (hp.map _).sum_eq

theorem eraseIdx_perm_of_perm (heads heads' : List (Option InputNode)) (hp : heads.Perm heads')
    (a : Option InputNode) (ha : a ∈ heads) :
    (heads.eraseIdx (indexOfHead a heads)).Perm (heads'.eraseIdx (indexOfHead a heads')) := by
  have h1 := eraseIdx_indexOfHead_perm heads a ha
  have h2 := eraseIdx_indexOfHead_perm heads' a (hp.mem_iff.1 ha)
  exact List.Perm.cons_inv ((h1.symm.trans hp).trans h2)

/-- The heads of an instance whose keys have pairwise different strings. -/
theorem headsOf_comparable (self : Bitstream) (heads : List (Option InputNode))
    (hH : HeadsOf self heads) (hc : ComparableKeys (JsMap.keys self._inputsByKey)) :
    ComparableKeys ((liveHeads heads).map InputNode.key) := by
  unfold ComparableKeys at hc ⊢
  refine List.Nodup.map_on ?_ hH.1
  intro x hx y hy hxy
  have htracked : ∀ k ∈ (liveHeads heads).map InputNode.key,
      k ∈ JsMap.keys self._inputsByKey := by
    intro k hk
    obtain ⟨h, hh, rfl⟩ := List.mem_map.1 hk
    obtain ⟨input, hin, _⟩ :=
      self.getInputNode_some _ _ h (hH.2 h ((mem_liveHeads _ _).1 hh))
    by_contra hnot
    rw [(JsMap.get_eq_none_iff _ _).2 hnot] at hin
    cases hin
  exact List.inj_on_of_nodup_map hc (htracked x hx) (htracked y hy) hxy

/-- Permuted heads, read on instances whose inputs are permuted, give the same nodes. -/
theorem causalPulls_perm (self self' : Bitstream) (hwf : self.WF)
    (hc : ComparableKeys (JsMap.keys self._inputsByKey))
    (hp : self'._inputsByKey.Perm self._inputsByKey) (fuel : Nat)
    (heads heads' : List (Option InputNode)) (hH : HeadsOf self heads)
    (hperm : heads.Perm heads') :
    List.Forall₂ OutputNode.same (causalPulls (List.replicate fuel self) heads)
      (causalPulls (List.replicate fuel self') heads') := by
  induction fuel generalizing heads heads' with
  | zero => simp [causalPulls]
  | succ fuel ih =>
    rw [List.replicate_succ, List.replicate_succ]
    have hsel := selected_perm heads heads' hperm
      (tiesDecided_of_comparable heads (headsOf_comparable self heads hH hc))
    have hclock := snapshot_clock_perm heads heads' hperm hH.1
    unfold causalPulls
    cases hs : (forkInfo heads).forks.get? (forkInfo heads).smallest with
    | none =>
      have h1 : causalRead self heads = .ended := by
        simp only [causalRead, hs]
      have h2 : causalRead self' heads' = .ended := by
        simp only [causalRead, ← hsel, hs]
      rw [h1, h2]
      exact List.Forall₂.nil
    | some n =>
      have hmem := (selected_is_fork heads n hs).1
      by_cases h0 : n.seq = 0
      · have h1 : causalRead self heads =
            .pushed { node := n, change := n.key, clock := (forkInfo heads).clock }
              (heads.eraseIdx (indexOfHead (some n) heads)) := by
          simp only [causalRead, hs, h0, if_true]
        have h2 : causalRead self' heads' =
            .pushed { node := n, change := n.key, clock := (forkInfo heads').clock }
              (heads'.eraseIdx (indexOfHead (some n) heads')) := by
          simp only [causalRead, ← hsel, hs, h0, if_true]
        rw [h1, h2]
        simp only
        refine List.Forall₂.cons ⟨rfl, rfl, hclock⟩ ?_
        exact ih _ _ (headsOf_step self hwf _ _ _ hH h1)
          (eraseIdx_perm_of_perm heads heads' hperm _ hmem)
      · cases hnext : self._getInputNode n.id ((n.seq : Int) - 1) with
        | error e =>
          have h1 : causalRead self heads =
              .failed { node := n, change := n.key, clock := (forkInfo heads).clock } e := by
            simp only [causalRead, hs, h0, if_false, hnext]
          have h2 : causalRead self' heads' =
              .failed { node := n, change := n.key, clock := (forkInfo heads').clock } e := by
            simp only [causalRead, ← hsel, hs, h0, if_false,
              self.getInputNode_perm self' hwf hp, hnext]
          rw [h1, h2]
          exact List.Forall₂.cons ⟨rfl, rfl, hclock⟩ List.Forall₂.nil
        | ok next =>
          have h1 : causalRead self heads =
              .pushed { node := n, change := n.key, clock := (forkInfo heads).clock }
                (heads.set (indexOfHead (some n) heads) next) := by
            simp only [causalRead, hs, h0, if_false, hnext]
          have h2 : causalRead self' heads' =
              .pushed { node := n, change := n.key, clock := (forkInfo heads').clock }
                (heads'.set (indexOfHead (some n) heads') next) := by
            simp only [causalRead, ← hsel, hs, h0, if_false,
              self.getInputNode_perm self' hwf hp, hnext]
          rw [h1, h2]
          simp only
          refine List.Forall₂.cons ⟨rfl, rfl, hclock⟩ ?_
          apply ih _ _ (headsOf_step self hwf _ _ _ hH h1)
          have p1 := set_indexOfHead_perm heads (some n) next hmem
          have p2 := set_indexOfHead_perm heads' (some n) next (hperm.mem_iff.1 hmem)
          exact (p1.trans ((eraseIdx_perm_of_perm heads heads' hperm _ hmem).cons next)).trans
            p2.symm

theorem Bitstream.heads_perm (self self' : Bitstream)
    (hp : self'._inputsByKey.Perm self._inputsByKey) (heads : List (Option InputNode))
    (h : self.heads = .ok heads) : ∃ heads', self'.heads = .ok heads' ∧ heads.Perm heads' := by
  unfold Bitstream.heads at h ⊢
  rw [mapM_ok_iff] at h
  have hin : self'.inputs.Perm self.inputs := hp.map _
  obtain ⟨heads', h1, h2⟩ := List.perm_comp_forall₂ hin h
  exact ⟨heads', (mapM_ok_iff _ _ _).2 h1, h2.symm⟩

/-- C3 (counterexample): the keys X = 80 00 .. 00 and Q = 81 00 .. 00 both have the string
U+FFFD U+0000 .. U+0000, so neither compares smaller than the other.  With the heads x0 and
q0, two forks of weight 0, `forkInfo` selects x0 from `[x0, q0]` and q0 from `[q0, x0]`; and
the causal stream of the instance that tracks X then Q pushes x0, q0, while that of the
instance that tracks Q then X pushes q0, x0. -/
theorem fork_selection_follows_head_order :
    [some (Sample.node Sample.keyX 0 []), some (Sample.node Sample.keyQ 0 [])].Perm
      [some (Sample.node Sample.keyQ 0 []), some (Sample.node Sample.keyX 0 [])] ∧
    DistinctKeys [some (Sample.node Sample.keyX 0 []), some (Sample.node Sample.keyQ 0 [])] ∧
    keyLess Sample.keyX Sample.keyQ = false ∧ keyLess Sample.keyQ Sample.keyX = false ∧
    (forkInfo [some (Sample.node Sample.keyX 0 []),
        some (Sample.node Sample.keyQ 0 [])]).forks.get?
      (forkInfo [some (Sample.node Sample.keyX 0 []),
        some (Sample.node Sample.keyQ 0 [])]).smallest = some (Sample.node Sample.keyX 0 []) ∧
    (forkInfo [some (Sample.node Sample.keyQ 0 []),
        some (Sample.node Sample.keyX 0 [])]).forks.get?
      (forkInfo [some (Sample.node Sample.keyQ 0 []),
        some (Sample.node Sample.keyX 0 [])]).smallest = some (Sample.node Sample.keyQ 0 []) ∧
    ((createCausalStream (Sample.bitstream
        [Sample.chain Sample.keyX [[]], Sample.chain Sample.keyQ [[]]])).map fun out =>
      out.map fun o => (o.node.key, o.node.seq)) = .ok [(Sample.keyX, 0), (Sample.keyQ, 0)] ∧
    ((createCausalStream (Sample.bitstream
        [Sample.chain Sample.keyQ [[]], Sample.chain Sample.keyX [[]]])).map fun out =>
      out.map fun o => (o.node.key, o.node.seq)) = .ok [(Sample.keyQ, 0), (Sample.keyX, 0)] :=
  ⟨List.Perm.swap _ _ _, by decide, by decide, by decide, by decide, by decide, by decide,
    by decide⟩

/-- C3 (amended): `forkInfo` selects the same node `forks[smallest]` for a list of heads and
for any permutation of it, when the comparison of the keys decides between any two forks of
the same weight; and on two instances that track the same inputs, added in different orders,
whose keys have pairwise different strings, the causal streams push the same nodes in the
same order (with the same `change`, and snapshot clocks that hold the same entries). -/
theorem fork_selection_replica_independent (heads heads' : List (Option InputNode))
    (hperm : heads.Perm heads') (hd : TiesDecided heads) (self self' : Bitstream)
    (hwf : self.WF) (hc : ComparableKeys (JsMap.keys self._inputsByKey))
    (hp : self'._inputsByKey.Perm self._inputsByKey) (out : List OutputNode)
    (hout : createCausalStream self = .ok out) :
    (forkInfo heads).forks.get? (forkInfo heads).smallest =
      (forkInfo heads').forks.get? (forkInfo heads').smallest ∧
    ∃ out', createCausalStream self' = .ok out' ∧ List.Forall₂ OutputNode.same out out' := by
  refine ⟨selected_perm heads heads' hperm hd, ?_⟩
  unfold createCausalStream at hout ⊢
  split at hout
  · cases hout
  · rename_i hs hheads
    cases hout
    obtain ⟨hs', hheads', hpm⟩ := self.heads_perm self' hp hs hheads
    rw [hheads']
    refine ⟨_, rfl, ?_⟩
    unfold causalStreamFrom
    rw [← headsWeight_perm hs hs' hpm]
    exact causalPulls_perm self self' hwf hc hp _ hs hs' (self.heads_spec hwf hs hheads).1 hpm

/-- C3 (witness): the heads b1 and a1 of the logs of the test 'equal-sized forks are
deterministically ordered by key', two forks of the same weight, and their swap; and the two
instances that track A and B in either order. -/
theorem fork_selection_replica_independent_witness :
    Sample.equalHeads.Perm Sample.equalHeads.reverse ∧ TiesDecided Sample.equalHeads ∧
    Sample.equalForks.WF ∧ ComparableKeys (JsMap.keys Sample.equalForks._inputsByKey) ∧
    Sample.equalForksSwapped._inputsByKey.Perm Sample.equalForks._inputsByKey ∧
    createCausalStream Sample.equalForks = .ok Sample.equalForksOut ∧
    ((forkInfo Sample.equalHeads).forks.get? (forkInfo Sample.equalHeads).smallest =
      (forkInfo Sample.equalHeads.reverse).forks.get?
        (forkInfo Sample.equalHeads.reverse).smallest ∧
    ∃ out', createCausalStream Sample.equalForksSwapped = .ok out' ∧
      List.Forall₂ OutputNode.same Sample.equalForksOut out') :=
  ⟨List.Perm.swap _ _ _, by decide, by decide, by decide, List.Perm.swap _ _ _, by decide,
    fork_selection_replica_independent _ _ (List.Perm.swap _ _ _) (by decide) Sample.equalForks
      Sample.equalForksSwapped (by decide) (by decide) (List.Perm.swap _ _ _)
      Sample.equalForksOut (by decide)⟩

/-! ## Independent branches -/

theorem IndependentHeads.clock {self : Bitstream} {heads : List (Option InputNode)}
    (hI : IndependentHeads self heads) (h : InputNode) (hh : some h ∈ heads) :
    h.clock = ownClock h.key h.seq := by
  obtain ⟨n, hn, hc⟩ := hI.2 h hh h.seq (le_refl _)
  rw [hI.1.2 h hh] at hn
  cases hn
  exact hc

theorem ownClock_get_other (k k' : Key) (s : Nat) (h : k ≠ k') :
    (ownClock k s).get k' = none := by
  unfold ownClock
  split
  · rfl
  · rw [JsMap.get_cons, if_neg h]
    rfl

theorem ownClock_get_self (k : Key) (s : Nat) : (ownClock k s).get k = ownEntry s := by
  unfold ownClock ownEntry
  by_cases hs : s = 0
  · simp [hs, JsMap.get_nil]
  · rw [if_neg hs, if_pos (by omega), JsMap.get_cons, if_pos rfl]

theorem ownClock_lengthAt_other (k k' : Key) (s : Nat) (h : k ≠ k') :
    Clock.lengthAt (ownClock k s) k' = 0 := by
  unfold ownClock Clock.lengthAt
  split
  · rfl
  · simp [h]

theorem IndependentHeads.lte_false {self : Bitstream} {heads : List (Option InputNode)}
    (hI : IndependentHeads self heads) (h o : InputNode) (hh : some h ∈ heads)
    (ho : some o ∈ heads) : h.lte o = false := by
  rw [lte_eq_false_iff, hI.clock o ho]
  intro v hv
  by_cases hk : o.key = h.key
  · have : o = h :=
      List.inj_on_of_nodup_map hI.1.1 ((mem_liveHeads _ _).2 ho) ((mem_liveHeads _ _).2 hh) hk
    subst this
    rw [ownClock_get_self] at hv
    unfold ownEntry at hv
    split at hv
    · cases hv
      omega
    · cases hv
  · rw [ownClock_get_other _ _ _ hk] at hv
    cases hv

theorem filterMap_if_all (p : Option InputNode → Bool) (l : List (Option InputNode))
    (h : ∀ n, some n ∈ l → p (some n) = true) :
    l.filterMap (fun head => if p head then head else none) = liveHeads l := by
  induction l with
  | nil => rfl
  | cons a rest ih =>
    have ih' := ih (fun n hn => h n (List.mem_cons_of_mem _ hn))
    cases a with
    | none =>
      rw [liveHeads_cons_none, List.filterMap_cons]
      simp only [ite_self]
      exact ih'
    | some n =>
      rw [liveHeads_cons_some, List.filterMap_cons, h n (List.mem_cons_self _ _)]
      simp only [if_true]
      rw [ih']

theorem IndependentHeads.forks_eq {self : Bitstream} {heads : List (Option InputNode)}
    (hI : IndependentHeads self heads) : (forkInfo heads).forks = liveHeads heads := by
  have : (forkInfo heads).forks =
      heads.filterMap (fun head => if isFork head heads then head else none) := rfl
  rw [this]
  apply filterMap_if_all
  intro n hn
  rw [isFork_some_iff]
  intro o ho
  exact hI.lte_false n o hn ho

theorem highOf_eq_zero (node : InputNode) (heads : List InputNode) (k : Key)
    (h : ∀ head ∈ heads, head ≠ node → Clock.lengthAt head.clock k = 0) :
    highOf node heads k = 0 := by
  unfold highOf
  induction heads with
  | nil => rfl
  | cons a rest ih =>
    rw [List.foldl_cons]
    have : (if a = node then 0 else max 0 (Clock.lengthAt a.clock k)) = 0 := by
      split
      · rfl
      · rename_i hne
        rw [h a (List.mem_cons_self _ _) hne]
        rfl
    rw [this]
    exact ih (fun head hh => h head (List.mem_cons_of_mem _ hh))

theorem IndependentHeads.weight_eq {self : Bitstream} {heads : List (Option InputNode)}
    (hI : IndependentHeads self heads) (f : InputNode) (hf : some f ∈ heads) :
    forkWeight (forkInfo heads).forks f = f.seq := by
  rw [hI.forks_eq]
  unfold forkWeight forkSize
  rw [hI.clock f hf]
  unfold ownClock
  by_cases hs : f.seq = 0
  · rw [if_pos hs, hs]
    rfl
  · rw [if_neg hs]
    have hhigh : forkHigh f (liveHeads heads) f.key = 0 := by
      rw [forkHigh_eq]
      apply highOf_eq_zero
      intro head hhead hne
      have hmem := (mem_liveHeads _ _).1 hhead
      rw [hI.clock head hmem]
      apply ownClock_lengthAt_other
      intro hk
      exact hne (List.inj_on_of_nodup_map hI.1.1 hhead ((mem_liveHeads _ _).2 hf) hk)
    simp only [List.foldl_cons, List.foldl_nil, hhigh]
    rw [if_pos (by omega)]
    omega

theorem branchLe_iff (n x : InputNode) :
    branchLe (branchOf n) (branchOf x) ↔ ¬ forkLess (fun h => h.seq) x n := by
  unfold branchLe branchOf forkLess
  simp only
  constructor
  · rintro (h | ⟨h1, h2⟩)
    · rintro (⟨e, _⟩ | l) <;> omega
    · rintro (⟨_, l⟩ | l)
      · rw [h2] at l
        cases l
      · omega
  · intro h
    rcases Nat.lt_trichotomy n.seq x.seq with h1 | h1 | h1
    · left; omega
    · right
      refine ⟨by omega, ?_⟩
      cases hk : keyLess x.key n.key with
      | false => rfl
      | true => exact absurd (Or.inl ⟨h1.symm, hk⟩) h
    · exact absurd (Or.inr h1) h

theorem IndependentHeads.forkLess_iff {self : Bitstream} {heads : List (Option InputNode)}
    (hI : IndependentHeads self heads) (a b : InputNode) (ha : some a ∈ heads)
    (hb : some b ∈ heads) :
    forkLess (forkWeight (forkInfo heads).forks) a b ↔ forkLess (fun h => h.seq) a b := by
  unfold forkLess
  rw [hI.weight_eq a ha, hI.weight_eq b hb]

/-- The live heads around the first place of a head, and what removing or replacing the head
at that place leaves. -/
theorem liveHeads_at (heads : List (Option InputNode)) (n : InputNode) (hn : some n ∈ heads) :
    ∃ l1 l2, liveHeads heads = l1 ++ n :: l2 ∧ n ∉ l1 ∧
      liveHeads (heads.eraseIdx (indexOfHead (some n) heads)) = l1 ++ l2 ∧
      ∀ m, liveHeads (heads.set (indexOfHead (some n) heads) (some m)) = l1 ++ m :: l2 := by
  induction heads with
  | nil => simp at hn
  | cons a rest ih =>
    by_cases ha : a = some n
    · subst ha
      refine ⟨[], liveHeads rest, ?_, by simp, ?_, ?_⟩
      · rw [liveHeads_cons_some]
        rfl
      · simp [indexOfHead]
      · intro m
        simp [indexOfHead, liveHeads_cons_some]
    · have hr : some n ∈ rest := by
        rcases List.mem_cons.1 hn with h | h
        · exact absurd h.symm ha
        · exact h
      obtain ⟨l1, l2, h1, h2, h3, h4⟩ := ih hr
      have hidx : indexOfHead (some n) (a :: rest) = indexOfHead (some n) rest + 1 := by
        simp [indexOfHead, ha]
      rw [hidx]
      cases a with
      | none =>
        refine ⟨l1, l2, ?_, h2, ?_, ?_⟩
        · rw [liveHeads_cons_none, h1]
        · rw [List.eraseIdx_cons_succ, liveHeads_cons_none, h3]
        · intro m
          rw [List.set_cons_succ, liveHeads_cons_none, h4 m]
      | some x =>
        have hx : x ≠ n := fun h => ha (by rw [h])
        refine ⟨x :: l1, l2, ?_, ?_, ?_, ?_⟩
        · rw [liveHeads_cons_some, h1]
          rfl
        · intro hmem
          rcases List.mem_cons.1 hmem with h | h
          · exact hx h.symm
          · exact h2 h
        · rw [List.eraseIdx_cons_succ, liveHeads_cons_some, h3]
          rfl
        · intro m
          rw [List.set_cons_succ, liveHeads_cons_some, h4 m]
          rfl

/-- The first of the elements that none is strictly below comes first in the insertion sort,
before the sort of the others. -/
theorem insertionSort_first {α : Type} (r : α → α → Prop) [DecidableRel r] (l1 l2 : List α)
    (n : α) (h1 : ∀ x ∈ l1, ¬ r x n) (h2 : ∀ x ∈ l1 ++ l2, r n x) :
    (l1 ++ n :: l2).insertionSort r = n :: (l1 ++ l2).insertionSort r := by
  induction l1 with
  | nil => exact List.insertionSort_cons r h2
  | cons a l1 ih =>
    have ih' := ih (fun x hx => h1 x (List.mem_cons_of_mem _ hx))
      (fun x hx => h2 x (List.mem_cons_of_mem _ hx))
    rw [List.cons_append, List.insertionSort, ih', List.orderedInsert,
      if_neg (h1 a (List.mem_cons_self _ _))]
    rfl

theorem filter_orderedInsert_neg {α : Type} (r : α → α → Prop) [DecidableRel r]
    (p : α → Bool) (a : α) (hp : p a = false) (l : List α) :
    (l.orderedInsert r a).filter p = l.filter p := by
  induction l with
  | nil => simp [hp]
  | cons b t ih =>
    rw [List.orderedInsert]
    split
    · rw [List.filter_cons, hp]
      rfl
    · rw [List.filter_cons, List.filter_cons, ih]

theorem orderedInsert_of_forall {α : Type} (r : α → α → Prop) [DecidableRel r] (a : α)
    (l : List α) (h : ∀ x ∈ l, r a x) : l.orderedInsert r a = a :: l := by
  cases l with
  | nil => rfl
  | cons b t => exact List.orderedInsert_of_le r t (h b (List.mem_cons_self _ _))

theorem filter_orderedInsert_pos {α : Type} (r : α → α → Prop) [DecidableRel r] [IsTrans α r]
    (p : α → Bool) (a : α) (hp : p a = true) (l : List α) (hs : l.Sorted r) :
    (l.orderedInsert r a).filter p = (l.filter p).orderedInsert r a := by
  induction l with
  | nil => simp [hp]
  | cons b t ih =>
    rw [List.sorted_cons] at hs
    rw [List.orderedInsert]
    by_cases hab : r a b
    · rw [if_pos hab, List.filter_cons, hp, if_pos rfl]
      symm
      apply orderedInsert_of_forall
      intro x hx
      rcases List.mem_cons.1 (List.mem_of_mem_filter hx) with h | h
      · rw [h]
        exact hab
      · exact IsTrans.trans _ _ _ hab (hs.1 x h)
    · rw [if_neg hab, List.filter_cons, List.filter_cons, ih hs.2]
      cases hb : p b with
      | true =>
        simp only [if_true]
        rw [List.orderedInsert, if_neg hab]
      | false => simp

theorem headsWeight_cons_some (n : InputNode) (l : List (Option InputNode)) :
    headsWeight (some n :: l) = n.seq + 1 + headsWeight l := by
  simp [headsWeight]

theorem headsWeight_erase (heads : List (Option InputNode)) (n : InputNode)
    (hn : some n ∈ heads) :
    headsWeight heads =
      n.seq + 1 + headsWeight (heads.eraseIdx (indexOfHead (some n) heads)) := by
  rw [headsWeight_perm _ _ (eraseIdx_indexOfHead_perm heads (some n) hn), headsWeight_cons_some]

theorem headsWeight_set (heads : List (Option InputNode)) (n m : InputNode)
    (hn : some n ∈ heads) :
    headsWeight (heads.set (indexOfHead (some n) heads) (some m)) =
      m.seq + 1 + headsWeight (heads.eraseIdx (indexOfHead (some n) heads)) := by
  rw [headsWeight_perm _ _ (set_indexOfHead_perm heads (some n) (some m) hn),
    headsWeight_cons_some]

theorem independentHeads_step (self : Bitstream) (hwf : self.WF)
    (heads heads' : List (Option InputNode)) (out : OutputNode)
    (hI : IndependentHeads self heads) (h : causalRead self heads = .pushed out heads') :
    IndependentHeads self heads' := by
  refine ⟨headsOf_step self hwf heads heads' out hI.1 h, ?_⟩
  obtain ⟨_, _, _, hmem, hcase⟩ := causalRead_pushed self heads heads' out h
  intro x hx s hs
  rcases hcase with ⟨_, rfl⟩ | ⟨hpos, next, hnext, rfl⟩
  · exact hI.2 x (List.mem_of_mem_eraseIdx hx) s hs
  · have hperm := set_indexOfHead_perm heads (some out.node) next hmem
    rcases List.mem_cons.1 (hperm.mem_iff.1 hx) with hx | hx
    · subst hx
      have hm := self.getInputNode_key_seq hwf _ _ x hnext
      rw [hm.1]
      exact hI.2 out.node hmem s (by omega)
    · exact hI.2 x (List.mem_of_mem_eraseIdx hx) s hs

theorem branchDown_succ (h : InputNode) :
    branchDown (branchOf h) = (h.key, h.seq) :: branchDown (h.seq, h.key) := by
  simp [branchDown, branchOf, List.range_succ]

instance : IsTotal (Nat × Key) branchLe :=
  ⟨fun a b => by
    unfold branchLe
    rcases Nat.lt_trichotomy a.1 b.1 with h | h | h
    · exact Or.inl (Or.inl h)
    · by_cases hk : keyLess b.2 a.2 = false
      · exact Or.inl (Or.inr ⟨h, hk⟩)
      · right
        right
        refine ⟨h.symm, ?_⟩
        by_contra hk'
        have := keyLess_trans _ _ _ (Bool.eq_true_of_not_eq_false hk)
          (Bool.eq_true_of_not_eq_false hk')
        rw [keyLess_irrefl] at this
        cases this
    · exact Or.inr (Or.inl h)⟩

instance : IsTrans (Nat × Key) branchLe :=
  ⟨fun a b c h1 h2 => by
    unfold branchLe at *
    rcases h1 with l1 | ⟨e1, k1⟩ <;> rcases h2 with l2 | ⟨e2, k2⟩
    · exact Or.inl (Nat.lt_trans l1 l2)
    · exact Or.inl (e2 ▸ l1)
    · exact Or.inl (e1 ▸ l2)
    · refine Or.inr ⟨e1.trans e2, ?_⟩
      by_contra hk
      rcases keyLess_between c.2 b.2 a.2 (Bool.eq_true_of_not_eq_false hk) with h | h
      · rw [k2] at h
        cases h
      · rw [k1] at h
        cases h⟩

/-- The causal stream over independent heads pushes whole branches, the shortest first and
among branches of the same length the one whose key compares smaller first, in the order of
the heads when neither key compares smaller; each branch from its head down to seq 0. -/
theorem independent_pulls (self : Bitstream) (hwf : self.WF) (fuel : Nat)
    (heads : List (Option InputNode)) (hI : IndependentHeads self heads)
    (hfuel : headsWeight heads < fuel) :
    (causalPulls (List.replicate fuel self) heads).map (fun o => (o.node.key, o.node.seq)) =
      (((liveHeads heads).map branchOf).insertionSort branchLe).flatMap branchDown := by
  induction fuel generalizing heads with
  | zero => omega
  | succ fuel ih =>
    rw [List.replicate_succ]
    unfold causalPulls
    cases hs : (forkInfo heads).forks.get? (forkInfo heads).smallest with
    | none =>
      have hempty : liveHeads heads = [] := by
        by_contra hne
        obtain ⟨f, hf⟩ := List.exists_mem_of_ne_nil _ hne
        rw [← hI.forks_eq] at hf
        obtain ⟨n, hn⟩ := selected_exists heads f hf
        rw [hs] at hn
        cases hn
      have h1 : causalRead self heads = .ended := by
        simp only [causalRead, hs]
      rw [h1, hempty]
      rfl
    | some n =>
      have hmem := (selected_is_fork heads n hs).1
      obtain ⟨l1, l2, hsplit, hnot, herase, hset⟩ := liveHeads_at heads n hmem
      have hnd : (liveHeads heads).Nodup := List.Nodup.of_map _ hI.1.1
      have hsm : (forkInfo heads).smallest = l1.length := by
        have hlt : (forkInfo heads).smallest < (liveHeads heads).length := by
          rw [← hI.forks_eq]
          exact (List.get?_eq_some.1 hs).1
        have hlt' : l1.length < (liveHeads heads).length := by
          rw [hsplit]
          simp
        have e1 : (liveHeads heads).get ⟨(forkInfo heads).smallest, hlt⟩ = n := by
          have := hs
          rw [hI.forks_eq, List.get?_eq_get hlt] at this
          exact Option.some.inj this
        have e2 : (liveHeads heads).get ⟨l1.length, hlt'⟩ = n := by
          have : (liveHeads heads).get? l1.length = some n := by
            rw [hsplit, List.get?_eq_getElem?, List.getElem?_append_right (le_refl _)]
            simp
          rw [List.get?_eq_get hlt'] at this
          exact Option.some.inj this
        have := (List.Nodup.get_inj_iff hnd).1 (e1.trans e2.symm)
        exact congrArg Fin.val this
      have hbefore : ∀ b ∈ l1.map branchOf, ¬ branchLe b (branchOf n) := by
        intro b hb
        obtain ⟨x, hx, rfl⟩ := List.mem_map.1 hb
        obtain ⟨j, hj⟩ := List.get?_of_mem hx
        have hjl : j < l1.length := (List.get?_eq_some.1 hj).1
        have hxj : (forkInfo heads).forks.get? j = some x := by
          rw [hI.forks_eq, hsplit, List.get?_eq_getElem?, List.getElem?_append_left hjl,
            ← List.get?_eq_getElem?]
          exact hj
        have hxm : some x ∈ heads := by
          apply (mem_liveHeads _ _).1
          rw [hsplit]
          exact List.mem_append_left _ hx
        have := selected_first heads n hs j x (by omega) hxj
        rw [hI.forkLess_iff n x hmem hxm] at this
        rw [branchLe_iff]
        exact fun h => h this
      have hall : ∀ x, some x ∈ heads → branchLe (branchOf n) (branchOf x) := by
        intro x hx
        rw [branchLe_iff, ← hI.forkLess_iff x n hx hmem]
        apply (selected_minimal heads n hs).2
        rw [hI.forks_eq]
        exact (mem_liveHeads _ _).2 hx
      have hothers : ∀ b ∈ l1.map branchOf ++ l2.map branchOf, branchLe (branchOf n) b := by
        intro b hb
        rw [← List.map_append] at hb
        obtain ⟨x, hx, rfl⟩ := List.mem_map.1 hb
        apply hall x
        apply (mem_liveHeads _ _).1
        rw [hsplit]
        rcases List.mem_append.1 hx with h | h
        · exact List.mem_append_left _ h
        · exact List.mem_append_right _ (List.mem_cons_of_mem _ h)
      have hsort : ((liveHeads heads).map branchOf).insertionSort branchLe =
          branchOf n :: ((l1 ++ l2).map branchOf).insertionSort branchLe := by
        rw [hsplit, List.map_append, List.map_cons, List.map_append]
        exact insertionSort_first branchLe _ _ _ hbefore hothers
      have hw := headsWeight_erase heads n hmem
      rw [hsort, List.flatMap_cons]
      by_cases h0 : n.seq = 0
      · have h1 : causalRead self heads =
            .pushed { node := n, change := n.key, clock := (forkInfo heads).clock }
              (heads.eraseIdx (indexOfHead (some n) heads)) := by
          simp only [causalRead, hs, h0, if_true]
        rw [h1]
        simp only
        rw [List.map_cons, ih _ (independentHeads_step self hwf _ _ _ hI h1) (by omega), herase,
          branchDown_succ, h0]
        rfl
      · obtain ⟨m, hm, hmc⟩ := hI.2 n hmem (n.seq - 1) (by omega)
        have hcast : ((n.seq - 1 : Nat) : Int) = (n.seq : Int) - 1 := by omega
        rw [hcast] at hm
        have hmk := self.getInputNode_key_seq hwf _ _ m hm
        have h1 : causalRead self heads =
            .pushed { node := n, change := n.key, clock := (forkInfo heads).clock }
              (heads.set (indexOfHead (some n) heads) (some m)) := by
          simp only [causalRead, hs, h0, if_false, InputNode.id, hm]
        rw [h1]
        simp only
        have hw' := headsWeight_set heads n m hmem
        have hmseq : m.seq + 1 = n.seq := by omega
        have hbm : branchOf m = (n.seq, n.key) := by
          unfold branchOf
          rw [hmseq, hmk.1]
        have hsort' : ((l1 ++ m :: l2).map branchOf).insertionSort branchLe =
            branchOf m :: ((l1 ++ l2).map branchOf).insertionSort branchLe := by
          rw [List.map_append, List.map_cons, List.map_append]
          apply insertionSort_first
          · intro b hb hle
            have hnb := hothers b (List.mem_append_left _ hb)
            rw [hbm] at hle
            simp only [branchLe, branchOf] at hle hnb
            omega
          · intro b hb
            have hnb := hothers b hb
            rw [hbm]
            simp only [branchLe, branchOf] at hnb ⊢
            left
            omega
        rw [List.map_cons, ih _ (independentHeads_step self hwf _ _ _ hI h1) (by omega), hset m,
          hsort', List.flatMap_cons, branchDown_succ n, hbm]
        rfl

theorem flatMap_filter_of_nil {α β : Type} (f : α → List β) (p : α → Bool) (l : List α)
    (h : ∀ x, p x = false → f x = []) : l.flatMap f = (l.filter p).flatMap f := by
  induction l with
  | nil => rfl
  | cons a rest ih =>
    rw [List.flatMap_cons, List.filter_cons, ih]
    cases hp : p a with
    | true => simp
    | false => simp [h a hp]

theorem getInputNodeOf_of_nodeAt (input : Unichain) (s : Nat) (n : InputNode)
    (h : n ∈ nodeAt input s) : getInputNodeOf input (s : Int) = .ok (some n) := by
  unfold nodeAt at h
  split at h
  · rename_i n' hn'
    cases h
    exact hn'
  · cases h

/-- The heads of an instance without cross-input links. -/
theorem Independent.heads (self : Bitstream) (hwf : self.WF) (hind : Independent self) :
    ∃ heads, self.heads = .ok heads ∧ IndependentHeads self heads ∧
      ((self.inputs.map (fun i => (i.length, i.key))).filter (fun b => decide (b.1 ≠ 0))) =
        (liveHeads heads).map branchOf := by
  have hres : ∀ i ∈ self.inputs, ∀ s, s < i.length →
      ∃ n, getInputNodeOf i (s : Int) = .ok (some n) ∧ n.clock = ownClock i.key s := by
    intro i hi s hs
    obtain ⟨e, he, rfl⟩ := List.mem_map.1 hi
    obtain ⟨n, hn, hc⟩ := hind e he s (List.mem_range.2 hs)
    exact ⟨n, getInputNodeOf_of_nodeAt _ _ _ hn, hc⟩
  have hex : ∀ l : List Unichain, (∀ i ∈ l, i ∈ self.inputs) →
      ∃ heads, List.Forall₂ (fun a b => getInputNodeOf a ((a.length : Int) - 1) = .ok b) l heads ∧
        ((l.map (fun i => (i.length, i.key))).filter (fun b => decide (b.1 ≠ 0))) =
          (liveHeads heads).map branchOf := by
    intro l
    induction l with
    | nil => exact fun _ => ⟨[], List.Forall₂.nil, rfl⟩
    | cons i rest ih =>
      intro hl
      obtain ⟨heads, hf, heq⟩ := ih (fun j hj => hl j (List.mem_cons_of_mem _ hj))
      by_cases h0 : i.length = 0
      · refine ⟨none :: heads, List.Forall₂.cons ?_ hf, ?_⟩
        · unfold getInputNodeOf
          rw [if_pos (by omega)]
        · rw [liveHeads_cons_none, List.map_cons, List.filter_cons, ← heq]
          simp [h0]
      · obtain ⟨n, hn, _⟩ := hres i (hl i (List.mem_cons_self _ _)) (i.length - 1) (by omega)
        have hcast : ((i.length - 1 : Nat) : Int) = (i.length : Int) - 1 := by omega
        rw [hcast] at hn
        obtain ⟨_, hk, hs, _⟩ := getInputNodeOf_some i _ n hn
        refine ⟨some n :: heads, List.Forall₂.cons hn hf, ?_⟩
        rw [liveHeads_cons_some, List.map_cons, List.map_cons, List.filter_cons, ← heq]
        have : branchOf n = (i.length, i.key) := by
          unfold branchOf
          rw [hk]
          congr 1
          omega
        simp [h0, this]
  obtain ⟨heads, hf, heq⟩ := hex self.inputs (fun i hi => hi)
  have hheads : self.heads = .ok heads := (mapM_ok_iff _ _ _).2 hf
  obtain ⟨hH, hin⟩ := self.heads_spec hwf heads hheads
  refine ⟨heads, hheads, ⟨hH, ?_⟩, heq⟩
  intro h hh s hs
  obtain ⟨i, hi, hk, hlen⟩ := hin h hh
  obtain ⟨n, hn, hc⟩ := hres i hi s (by omega)
  refine ⟨n, ?_, by rw [hk]; exact hc⟩
  unfold Bitstream._getInputNode
  rw [if_neg (by omega), hk, self.get_of_mem_inputs hwf i hi]
  exact hn

/-- The insertion sort of the branches, without the branches of length 0. -/
theorem insertionSort_filter {α : Type} (r : α → α → Prop) [DecidableRel r] [IsTotal α r]
    [IsTrans α r] (p : α → Bool) (l : List α) :
    (l.insertionSort r).filter p = (l.filter p).insertionSort r := by
  induction l with
  | nil => rfl
  | cons a t ih =>
    rw [List.insertionSort, List.filter_cons]
    cases hp : p a with
    | true =>
      rw [filter_orderedInsert_pos r p a hp _ (List.sorted_insertionSort r t), ih]
      rfl
    | false =>
      rw [filter_orderedInsert_neg r p a hp, ih]
      rfl

/-- C1 (counterexample): X = 80 00 .. 00 and Y = c2 80 00 .. 00 hold two independent nodes
each.  X is the lexicographically smaller key, but its string starts with U+FFFD and that of Y
with U+0080, so Y compares smaller: the causal stream pushes y1, y0, x1, x0. -/
theorem independent_branches_smaller_key_last :
    Sample.highKeys.WF ∧ Independent Sample.highKeys ∧ Sample.keyX < Sample.keyY ∧
    keyLess Sample.keyY Sample.keyX = true ∧
    ((createCausalStream Sample.highKeys).map fun out =>
      out.map fun o => (o.node.key, o.node.seq)) =
      .ok [(Sample.keyY, 1), (Sample.keyY, 0), (Sample.keyX, 1), (Sample.keyX, 0)] := by
  decide

/-- C1 (amended): on an instance whose nodes carry no cross-input causal link, the causal
stream pushes the branches of the inputs one whole branch after another, each from its newest
node down to seq 0, in ascending order of branch length; among branches of the same length the
branch of the input whose key compares smaller (as `forkInfo` compares two keys) comes first,
and the branch of the input that comes first in the list of inputs when neither key compares
smaller: the insertion sort keeps the order of the inputs between branches that `branchLe`
relates both ways. -/
theorem independent_branches_order (self : Bitstream) (hwf : self.WF)
    (hind : Independent self) :
    ∃ out, createCausalStream self = .ok out ∧
      out.map (fun o => (o.node.key, o.node.seq)) =
        ((self.inputs.map (fun i => (i.length, i.key))).insertionSort branchLe).flatMap
          branchDown := by
  obtain ⟨heads, hheads, hI, heq⟩ := Independent.heads self hwf hind
  have hout := independent_pulls self hwf (headsWeight heads + 1) heads hI (by omega)
  refine ⟨causalStreamFrom self heads, by simp [createCausalStream, hheads], ?_⟩
  unfold causalStreamFrom
  have hsort : ((self.inputs.map (fun i => (i.length, i.key))).insertionSort branchLe).flatMap
        branchDown =
      (((liveHeads heads).map branchOf).insertionSort branchLe).flatMap branchDown := by
    rw [flatMap_filter_of_nil branchDown (fun b => decide (b.1 ≠ 0))
      ((self.inputs.map (fun i => (i.length, i.key))).insertionSort branchLe),
      insertionSort_filter, heq]
    intro b hb
    have : b.1 = 0 := by simpa using hb
    simp [branchDown, this]
  rw [hout, hsort]

/-- C1 (witness): the logs of the test 'equal-sized forks are deterministically ordered by
key', two branches of the same length. -/
theorem independent_branches_order_witness :
    Sample.equalForks.WF ∧ Independent Sample.equalForks ∧
    ∃ out, createCausalStream Sample.equalForks = .ok out ∧
      out.map (fun o => (o.node.key, o.node.seq)) =
        ((Sample.equalForks.inputs.map (fun i => (i.length, i.key))).insertionSort
          branchLe).flatMap branchDown :=
  ⟨by decide, by decide, independent_branches_order Sample.equalForks (by decide) (by decide)⟩

/-- The three streams named by C1: lengths 1, 2, 3 give a0, b1, b0, c2, c1, c0; after three
more appends to A the order is b1, b0, c2, c1, c0, a3, a2, a1, a0; two inputs of length 2,
with the keys 10 and 20, give both nodes of the key 10 first.  And two inputs of length 2 with
the keys X = 80 00 .. 00 and Q = 81 00 .. 00, neither of which compares smaller, give both
nodes of the input added first. -/
theorem independent_branches_tests :
    ((createCausalStream Sample.threeForks).map fun out =>
      out.map fun o => (o.node.key, o.node.seq)) =
      .ok [(10, 0), (20, 1), (20, 0), (30, 2), (30, 1), (30, 0)] ∧
    ((createCausalStream Sample.threeForksLater).map fun out =>
      out.map fun o => (o.node.key, o.node.seq)) =
      .ok [(20, 1), (20, 0), (30, 2), (30, 1), (30, 0), (10, 3), (10, 2), (10, 1), (10, 0)] ∧
    ((createCausalStream Sample.equalForks).map fun out =>
      out.map fun o => (o.node.key, o.node.seq)) =
      .ok [(10, 1), (10, 0), (20, 1), (20, 0)] ∧
    ((createCausalStream (Sample.bitstream
        [Sample.chain Sample.keyX [[], []], Sample.chain Sample.keyQ [[], []]])).map fun out =>
      out.map fun o => (o.node.key, o.node.seq)) =
      .ok [(Sample.keyX, 1), (Sample.keyX, 0), (Sample.keyQ, 1), (Sample.keyQ, 0)] ∧
    ((createCausalStream (Sample.bitstream
        [Sample.chain Sample.keyQ [[], []], Sample.chain Sample.keyX [[], []]])).map fun out =>
      out.map fun o => (o.node.key, o.node.seq)) =
      .ok [(Sample.keyQ, 1), (Sample.keyQ, 0), (Sample.keyX, 1), (Sample.keyX, 0)] :=
  ⟨by decide, by decide, by decide, by decide, by decide⟩

/-! ## Read stream: `updateAll` -/

theorem positionOf_spec (self : Bitstream) (opts : ReadOpts) (positionsByKey pos1 : JsMap Nat)
    (key : Key) (p : Nat)
    (h : positionOf opts (self._inputsByKey.get key) positionsByKey key = .ok (p, pos1)) :
    pos1.get key = some p ∧
      (∀ k q, positionsByKey.get k = some q → pos1.get k = some q) ∧
      (∀ k, k ≠ key → pos1.get k = positionsByKey.get k) ∧
      (positionsByKey.get key = none → p = startPosition self opts key) := by
  unfold positionOf at h
  cases hg : positionsByKey.get key with
  | some q =>
    rw [hg] at h
    cases h
    exact ⟨hg, fun _ _ hq => hq, fun _ _ => rfl, fun hn => by cases hn⟩
  | none =>
    rw [hg] at h
    simp only at h
    have hpres : ∀ v k q, positionsByKey.get k = some q →
        (JsMap.set positionsByKey key v).get k = some q := by
      intro v k q hq
      have : k ≠ key := by
        intro hk
        rw [hk, hg] at hq
        cases hq
      rw [JsMap.get_set_other _ _ _ _ this]
      exact hq
    split at h
    · rename_i ht
      split at h
      · cases h
      · rename_i input hin
        cases h
        refine ⟨JsMap.get_set_self _ _ _, hpres _, fun k hk => JsMap.get_set_other _ _ _ _ hk, ?_⟩
        intro _
        simp [startPosition, ht, hin]
    · rename_i ht
      cases h
      refine ⟨JsMap.get_set_self _ _ _, hpres _, fun k hk => JsMap.get_set_other _ _ _ _ hk, ?_⟩
      intro _
      simp [startPosition, ht]

theorem updateAllLoop_cons (self : Bitstream) (opts : ReadOpts) (snap : JsMap Nat)
    (key : Key) (rest : List Key) (pos pos' : JsMap Nat)
    (loads loads' : List (Key × Except Error (Option InputNode)))
    (h : updateAllLoop self opts snap (key :: rest) pos loads = .ok (pos', loads')) :
    ∃ p pos1, positionOf opts (self._inputsByKey.get key) pos key = .ok (p, pos1) ∧
      ((wantsLoad self snap key p = false ∧
          updateAllLoop self opts snap rest pos1 loads = .ok (pos', loads')) ∨
        (wantsLoad self snap key p = true ∧
          updateAllLoop self opts snap rest pos1
            (loads ++ [(key, loadNode (self._inputsByKey.get key) p)]) = .ok (pos', loads'))) := by
  unfold updateAllLoop at h
  simp only at h
  split at h
  · cases h
  · rename_i p pos1 hpos
    refine ⟨p, pos1, hpos, ?_⟩
    unfold wantsLoad
    split at h
    · rename_i hs
      rw [if_pos hs]
      split at h
      · rename_i hge
        exact Or.inl ⟨by simpa using hge, h⟩
      · rename_i hge
        exact Or.inr ⟨by simpa using hge, h⟩
    · rename_i hs
      rw [if_neg hs]
      split at h
      · cases h
      · rename_i input hin
        rw [hin]
        split at h
        · rename_i hge
          exact Or.inl ⟨by simpa using hge, h⟩
        · rename_i hge
          exact Or.inr ⟨by simpa using hge, h⟩

theorem updateAllLoop_spec (self : Bitstream) (opts : ReadOpts) (snap : JsMap Nat)
    (keys : List Key) (pos pos' : JsMap Nat)
    (loads loads' : List (Key × Except Error (Option InputNode)))
    (h : updateAllLoop self opts snap keys pos loads = .ok (pos', loads')) :
    (∀ k r, (k, r) ∈ loads' → (k, r) ∈ loads ∨
      (k ∈ keys ∧ ∃ p, pos'.get k = some p ∧ wantsLoad self snap k p = true ∧
        r = loadNode (self._inputsByKey.get k) p)) ∧
    (∀ k ∈ keys, ∀ p, pos'.get k = some p → wantsLoad self snap k p = true →
      (k, loadNode (self._inputsByKey.get k) p) ∈ loads') ∧
    (∀ k ∈ keys, ∃ p, pos'.get k = some p) ∧
    (∀ k p, pos.get k = some p → pos'.get k = some p) ∧
    (∀ e ∈ loads, e ∈ loads') ∧
    (∀ k, k ∉ keys → pos'.get k = pos.get k) ∧
    (∀ k ∈ keys, pos.get k = none → pos'.get k = some (startPosition self opts k)) := by
  induction keys generalizing pos loads with
  | nil =>
    unfold updateAllLoop at h
    cases h
    exact ⟨fun k r hr => Or.inl hr, by simp, by simp, fun _ _ hp => hp, fun _ he => he,
      fun _ _ => rfl, by simp⟩
  | cons key rest ih =>
    obtain ⟨p, pos1, hpos, hcase⟩ := updateAllLoop_cons self opts snap key rest pos pos' loads
      loads' h
    obtain ⟨hp1, hp2, hp3, hp4⟩ := positionOf_spec self opts pos pos1 key p hpos
    have hrec : ∃ loads1, updateAllLoop self opts snap rest pos1 loads1 = .ok (pos', loads') ∧
        (∀ e ∈ loads, e ∈ loads1) ∧
        (∀ k r, (k, r) ∈ loads1 → (k, r) ∈ loads ∨
          (k = key ∧ wantsLoad self snap key p = true ∧
            r = loadNode (self._inputsByKey.get key) p)) ∧
        (wantsLoad self snap key p = true →
          (key, loadNode (self._inputsByKey.get key) p) ∈ loads1) := by
      rcases hcase with ⟨hw, hl⟩ | ⟨hw, hl⟩
      · exact ⟨loads, hl, fun _ he => he, fun k r hr => Or.inl hr,
          fun hw' => by rw [hw] at hw'; cases hw'⟩
      · refine ⟨_, hl, fun e he => List.mem_append_left _ he, ?_, fun _ => by simp⟩
        intro k r hr
        rcases List.mem_append.1 hr with hr | hr
        · exact Or.inl hr
        · simp only [List.mem_singleton, Prod.mk.injEq] at hr
          exact Or.inr ⟨hr.1, hw, hr.2⟩
    obtain ⟨loads1, hl, hsub, hnew, hadd⟩ := hrec
    obtain ⟨i1, i2, i3, i4, i5, i6, i7⟩ := ih pos1 loads1 hl
    have hkey : pos'.get key = some p := i4 key p hp1
    refine ⟨?_, ?_, ?_, ?_, ?_, ?_, ?_⟩
    · intro k r hr
      rcases i1 k r hr with h1 | ⟨hk, q, hq, hw, hrq⟩
      · rcases hnew k r h1 with h2 | ⟨rfl, hw, hrp⟩
        · exact Or.inl h2
        · exact Or.inr ⟨List.mem_cons_self _ _, p, hkey, hw, hrp⟩
      · exact Or.inr ⟨List.mem_cons_of_mem _ hk, q, hq, hw, hrq⟩
    · intro k hk q hq hw
      rcases List.mem_cons.1 hk with rfl | hk
      · rw [hkey] at hq
        cases hq
        exact i5 _ (hadd hw)
      · exact i2 k hk q hq hw
    · intro k hk
      rcases List.mem_cons.1 hk with rfl | hk
      · exact ⟨p, hkey⟩
      · exact i3 k hk
    · intro k q hq
      exact i4 k q (hp2 k q hq)
    · intro e he
      exact i5 e (hsub e he)
    · intro k hk
      rw [List.mem_cons, not_or] at hk
      rw [i6 k hk.2, hp3 k hk.1]
    · intro k hk hnone
      rcases List.mem_cons.1 hk with rfl | hk'
      · rw [hkey, hp4 hnone]
      · by_cases hkk : k = key
        · subst hkk
          rw [hkey, hp4 hnone]
        · have : pos1.get k = none := by rw [hp3 k hkk]; exact hnone
          exact i7 k hk' this

theorem awaitAll_spec (loads : List (Key × Except Error (Option InputNode)))
    (loaded : List (Key × Option InputNode)) (h : awaitAll loads = .ok loaded) :
    ∀ k v, (k, v) ∈ loaded ↔ (k, Except.ok v) ∈ loads := by
  induction loads generalizing loaded with
  | nil =>
    unfold awaitAll at h
    cases h
    simp
  | cons e rest ih =>
    obtain ⟨key, load⟩ := e
    unfold awaitAll at h
    cases load with
    | error err => cases h
    | ok node =>
      simp only at h
      cases hr : awaitAll rest with
      | error err =>
        rw [hr] at h
        cases h
      | ok loaded' =>
        rw [hr] at h
        cases h
        intro k v
        simp only [List.mem_cons, Prod.mk.injEq, Except.ok.injEq]
        rw [ih loaded' hr]

theorem awaitAll_no_error (loads : List (Key × Except Error (Option InputNode)))
    (loaded : List (Key × Option InputNode)) (h : awaitAll loads = .ok loaded) (k : Key)
    (e : Error) : (k, Except.error e) ∉ loads := by
  induction loads generalizing loaded with
  | nil => simp
  | cons x rest ih =>
    obtain ⟨kx, rx⟩ := x
    unfold awaitAll at h
    cases rx with
    | error e' => cases h
    | ok node =>
      simp only at h
      cases hr : awaitAll rest with
      | error e' =>
        rw [hr] at h
        cases h
      | ok loaded' =>
        intro hm
        rcases List.mem_cons.1 hm with hm | hm
        · cases hm
        · exact ih loaded' hr hm

theorem JsMap.keys_replace {α : Type} (m : JsMap α) (k : Key) (v : α) :
    JsMap.keys (JsMap.replace m k v) = JsMap.keys m := by
  induction m with
  | nil => rfl
  | cons e rest ih =>
    obtain ⟨k1, v1⟩ := e
    rw [JsMap.replace_cons]
    simp only [JsMap.keys, List.map_cons] at ih ⊢
    rw [ih]
    by_cases hk : k1 = k
    · rw [if_pos hk, hk]
    · rw [if_neg hk]

theorem JsMap.wf_set {α : Type} (m : JsMap α) (k : Key) (v : α) (h : JsMap.WF m) :
    JsMap.WF (JsMap.set m k v) := by
  unfold JsMap.set
  by_cases hh : m.has k = true
  · rw [if_pos hh]
    unfold JsMap.WF
    rw [JsMap.keys_replace]
    exact h
  · rw [if_neg hh]
    unfold JsMap.WF JsMap.keys
    rw [List.map_append, List.nodup_append]
    refine ⟨h, by simp, ?_⟩
    intro a ha hb
    simp only [List.map_cons, List.map_nil, List.mem_singleton] at hb
    subst hb
    exact hh ((JsMap.has_eq_true_iff m a).2 ha)

theorem JsMap.wf_delete {α : Type} (m : JsMap α) (k : Key) (h : JsMap.WF m) :
    JsMap.WF (JsMap.delete m k) := by
  unfold JsMap.WF JsMap.keys JsMap.delete
  exact List.Nodup.sublist ((List.filter_sublist m).map _) h

theorem setAll_spec (loaded : List (Key × Option InputNode)) (nodes : JsMap (Option InputNode)) :
    (∀ k, (∀ v, (k, v) ∉ loaded) →
      (loaded.foldl (fun m e => JsMap.set m e.1 e.2) nodes).get k = nodes.get k) ∧
    (∀ k v, (k, v) ∈ loaded → (∀ v', (k, v') ∈ loaded → v' = v) →
      (loaded.foldl (fun m e => JsMap.set m e.1 e.2) nodes).get k = some v) ∧
    (JsMap.WF nodes → JsMap.WF (loaded.foldl (fun m e => JsMap.set m e.1 e.2) nodes)) := by
  induction loaded generalizing nodes with
  | nil => exact ⟨fun _ _ => rfl, by simp, fun h => h⟩
  | cons e rest ih =>
    obtain ⟨k0, v0⟩ := e
    rw [List.foldl_cons]
    obtain ⟨i1, i2, i3⟩ := ih (JsMap.set nodes k0 v0)
    refine ⟨?_, ?_, ?_⟩
    · intro k hk
      have hne : k ≠ k0 := by
        intro hkk
        exact hk v0 (by rw [hkk]; exact List.mem_cons_self _ _)
      rw [i1 k (fun v hv => hk v (List.mem_cons_of_mem _ hv)), JsMap.get_set_other _ _ _ _ hne]
    · intro k v hv hall
      by_cases hin : ∃ v', (k, v') ∈ rest
      · obtain ⟨v', hv'⟩ := hin
        have := hall v' (List.mem_cons_of_mem _ hv')
        subst this
        exact i2 k v' hv' (fun v'' hv'' => hall v'' (List.mem_cons_of_mem _ hv''))
      · have hnot : ∀ v', (k, v') ∉ rest := fun v' hv' => hin ⟨v', hv'⟩
        rw [i1 k hnot]
        rcases List.mem_cons.1 hv with h | h
        · cases h
          exact JsMap.get_set_self _ _ _
        · exact absurd h (hnot v)
    · intro hwf
      exact i3 (JsMap.wf_set _ _ _ hwf)

/-- What `updateAll()` leaves: the recorded positions are kept and every visited key has one;
the node of a visited key whose position is below its bound is the freshly loaded one, and
the other entries of `nodesByKey` are as before. -/
theorem updateAll_spec (self : Bitstream) (opts : ReadOpts) (st st1 : ReadState)
    (h : updateAll self opts st = .ok st1) :
    st1.snapshotLengthsByKey = st.snapshotLengthsByKey ∧
    (∀ k p, st.positionsByKey.get k = some p → st1.positionsByKey.get k = some p) ∧
    (∀ k ∈ inputKeys self opts st.snapshotLengthsByKey, ∃ p, st1.positionsByKey.get k = some p) ∧
    (∀ k, k ∉ inputKeys self opts st.snapshotLengthsByKey →
      st1.positionsByKey.get k = st.positionsByKey.get k) ∧
    (∀ k ∈ inputKeys self opts st.snapshotLengthsByKey, st.positionsByKey.get k = none →
      st1.positionsByKey.get k = some (startPosition self opts k)) ∧
    (∀ k p, k ∈ inputKeys self opts st.snapshotLengthsByKey →
      st1.positionsByKey.get k = some p →
      wantsLoad self st.snapshotLengthsByKey k p = true →
      ∃ v, loadNode (self._inputsByKey.get k) p = .ok v ∧ st1.nodesByKey.get k = some v) ∧
    (∀ k, (k ∉ inputKeys self opts st.snapshotLengthsByKey ∨
        ∀ p, st1.positionsByKey.get k = some p →
          wantsLoad self st.snapshotLengthsByKey k p = false) →
      st1.nodesByKey.get k = st.nodesByKey.get k) ∧
    (JsMap.WF st.nodesByKey → JsMap.WF st1.nodesByKey) := by
  unfold updateAll at h
  split at h
  · cases h
  · rename_i pos' loads hloop
    split at h
    · cases h
    · rename_i loaded hawait
      cases h
      obtain ⟨l1, l2, l3, l4, _, l6, l7⟩ := updateAllLoop_spec self opts _ _ _ _ _ _ hloop
      have ha := awaitAll_spec loads loaded hawait
      obtain ⟨s1, s2, s3⟩ := setAll_spec loaded st.nodesByKey
      refine ⟨rfl, l4, l3, l6, l7, ?_, ?_, s3⟩
      · intro k p hk hp hw
        have hmem := l2 k hk p hp hw
        have hex : ∃ v, (k, v) ∈ loaded ∧ loadNode (self._inputsByKey.get k) p = .ok v := by
          cases hl : loadNode (self._inputsByKey.get k) p with
          | error e =>
            rw [hl] at hmem
            exact absurd hmem (awaitAll_no_error loads loaded hawait k e)
          | ok v =>
            rw [hl] at hmem
            exact ⟨v, (ha k v).2 hmem, rfl⟩
        obtain ⟨v, hv, hl⟩ := hex
        refine ⟨v, hl, s2 k v hv ?_⟩
        intro v' hv'
        rcases l1 k (.ok v') ((ha k v').1 hv') with h0 | ⟨_, q, hq, _, hr⟩
        · simp at h0
        · rw [hp] at hq
          cases hq
          rw [hl] at hr
          cases hr
          rfl
      · intro k hk
        apply s1
        intro v hv
        rcases l1 k (.ok v) ((ha k v).1 hv) with h0 | ⟨hin, q, hq, hw, _⟩
        · simp at h0
        · rcases hk with hk | hk
          · exact hk hin
          · rw [hk q hq] at hw
            cases hw

/-! ## Read stream: one round -/

theorem loadNode_some (self : Bitstream) (hwf : self.WF) (k : Key) (p : Nat) (n : InputNode)
    (h : loadNode (self._inputsByKey.get k) p = .ok (some n)) :
    n.key = k ∧ n.seq = p ∧ n.clock.get k = ownEntry n.seq := by
  unfold loadNode at h
  split at h
  · cases h
  · rename_i input hin
    obtain ⟨_, hk, hs, hc⟩ := getInputNodeOf_some input _ n h
    have hik : input.key = k := hwf.2 (k, input) (JsMap.mem_of_get _ _ _ hin)
    refine ⟨hk.trans hik, by omega, ?_⟩
    rw [← hik]
    exact hc

theorem readInv_update (self : Bitstream) (hwf : self.WF) (opts : ReadOpts) (st st1 : ReadState)
    (hinv : ReadInv st) (h : updateAll self opts st = .ok st1) : ReadInv st1 := by
  obtain ⟨_, p1, p2, _, _, n1, n2, n3⟩ := updateAll_spec self opts st st1 h
  refine ⟨n3 hinv.1, ?_⟩
  intro k n hn
  by_cases hc : k ∈ inputKeys self opts st.snapshotLengthsByKey ∧
      ∃ p, st1.positionsByKey.get k = some p ∧ wantsLoad self st.snapshotLengthsByKey k p = true
  · obtain ⟨hk, p, hp, hw⟩ := hc
    obtain ⟨v, hl, hv⟩ := n1 k p hk hp hw
    rw [hn] at hv
    cases hv
    obtain ⟨h1, h2, h3⟩ := loadNode_some self hwf k p n hl
    exact ⟨h1, by rw [h2]; exact hp, h3⟩
  · have : k ∉ inputKeys self opts st.snapshotLengthsByKey ∨
        ∀ p, st1.positionsByKey.get k = some p →
          wantsLoad self st.snapshotLengthsByKey k p = false := by
      by_cases hk : k ∈ inputKeys self opts st.snapshotLengthsByKey
      · right
        intro p hp
        by_contra hw
        exact hc ⟨hk, p, hp, by simpa using hw⟩
      · exact Or.inl hk
    rw [n2 k this] at hn
    obtain ⟨h1, h2, h3⟩ := hinv.2 k n hn
    exact ⟨h1, p1 k _ h2, h3⟩

theorem advance_get_nodes (st : ReadState) (n : InputNode) (k : Key) (hk : k ≠ n.key) :
    (st.advance n).nodesByKey.get k = st.nodesByKey.get k :=
  JsMap.get_delete_other _ _ _ hk

theorem advance_get_positions (st : ReadState) (n : InputNode) (k : Key) (hk : k ≠ n.key) :
    (st.advance n).positionsByKey.get k = st.positionsByKey.get k :=
  JsMap.get_set_other _ _ _ _ hk

theorem advance_position_self (st : ReadState) (n : InputNode)
    (h : st.positionsByKey.get n.key = some n.seq) :
    (st.advance n).positionsByKey.get n.key = some (n.seq + 1) := by
  unfold ReadState.advance InputNode.id
  simp only
  rw [JsMap.get_set_self, h]
  rfl

theorem readInv_advance (st : ReadState) (n : InputNode) (hinv : ReadInv st) :
    ReadInv (st.advance n) := by
  refine ⟨JsMap.wf_delete _ _ hinv.1, ?_⟩
  intro k m hm
  have hk : k ≠ n.key := by
    intro hk
    rw [hk] at hm
    unfold ReadState.advance InputNode.id at hm
    simp only at hm
    rw [JsMap.get_delete_self] at hm
    cases hm
  rw [advance_get_nodes st n k hk] at hm
  rw [advance_get_positions st n k hk]
  exact hinv.2 k m hm

theorem mem_values_iff {α : Type} (m : JsMap α) (hwf : JsMap.WF m) (v : α) :
    v ∈ JsMap.values m ↔ ∃ k, m.get k = some v := by
  unfold JsMap.values
  rw [List.mem_map]
  constructor
  · rintro ⟨⟨k, v'⟩, he, rfl⟩
    exact ⟨k, JsMap.get_of_mem m hwf k v' he⟩
  · rintro ⟨k, hk⟩
    exact ⟨(k, v), JsMap.mem_of_get m k v hk, rfl⟩

theorem findOldestNode_some (nodes : List (Option InputNode)) (n : InputNode)
    (h : findOldestNode nodes = some n) :
    some n ∈ nodes ∧ ∀ n2, some n2 ∈ nodes → n2 ≠ n → n2.lte n = false := by
  unfold findOldestNode at h
  have hmem := List.mem_of_find?_eq_some h
  have hp := List.find?_some h
  refine ⟨by simpa [List.mem_filterMap] using hmem, ?_⟩
  intro n2 hn2 hne
  rw [List.all_eq_true] at hp
  have := hp (some n2) hn2
  simpa [hne] using this

theorem findOldestNode_none (nodes : List (Option InputNode))
    (h : findOldestNode nodes = none) (n : InputNode) (hn : some n ∈ nodes) :
    ∃ n2, some n2 ∈ nodes ∧ n2 ≠ n ∧ n2.lte n = true := by
  unfold findOldestNode at h
  rw [List.find?_eq_none] at h
  have := h n (by simpa [List.mem_filterMap] using hn)
  simp only [List.all_eq_true, not_forall] at this
  obtain ⟨x, hx, hnot⟩ := this
  cases x with
  | none => exact absurd rfl hnot
  | some n2 =>
    by_cases hne : n2 = n
    · simp [hne] at hnot
    · refine ⟨n2, hx, hne, ?_⟩
      simpa [hne] using hnot

/-- The outcomes of a round when the hooks leave the instance as it is. -/
theorem readRound_cases (self : Bitstream) (opts : ReadOpts) (hst : StaticHooks opts)
    (st : ReadState) :
    (∃ e, updateAll self opts st = .error e ∧ readRound self opts st = .failed e) ∨
    (∃ st1, updateAll self opts st = .ok st1 ∧
      findOldestNode (JsMap.values st1.nodesByKey) = none ∧
      (readRound self opts st = .ended st1 ∨ readRound self opts st = .suspended st1)) ∨
    (∃ st1 n, updateAll self opts st = .ok st1 ∧
      findOldestNode (JsMap.values st1.nodesByKey) = some n ∧
      ((readRound self opts st = .again self st1 ∧
          ∃ f, opts.onresolve = some f ∧ (f self n).2 ≠ JsValue.boolean false) ∨
        readRound self opts st = .pushed n self (st1.advance n))) := by
  cases hu : updateAll self opts st with
  | error e => exact Or.inl ⟨e, rfl, by simp [readRound, hu]⟩
  | ok st1 =>
    right
    cases ho : findOldestNode (JsMap.values st1.nodesByKey) with
    | none =>
      left
      refine ⟨st1, rfl, ho, ?_⟩
      simp only [readRound, hu, ho]
      cases opts.live <;> simp
    | some n =>
      right
      refine ⟨st1, n, rfl, ho, ?_⟩
      have hpush : pushOldest self opts st1 n = .pushed n self (st1.advance n) := by
        unfold pushOldest
        cases hw : opts.onwait with
        | none => rfl
        | some f => simp only [hst.2 f hw]
      simp only [readRound, hu, ho]
      cases hun : hasUnsatisfiedInputs n self._inputsByKey with
      | false => exact Or.inr hpush
      | true =>
        cases hr : opts.onresolve with
        | none => exact Or.inr hpush
        | some f =>
          simp only
          have hself := hst.1 f hr self n
          by_cases hres : (f self n).2 = JsValue.boolean false
          · right
            rw [if_neg (by simpa using hres)]
            rw [show (f self n).1 = self from hself]
            exact hpush
          · left
            rw [if_pos hres]
            rw [show (f self n).1 = self from hself]
            exact ⟨rfl, f, rfl, hres⟩

/-! ## Read stream: the positions of the pushed nodes -/

/-- A node a read stream pushes is at or past the recorded position of its input. -/
theorem readRounds_position_le (self : Bitstream) (hwf : self.WF) (opts : ReadOpts)
    (hst : StaticHooks opts) (fuel : Nat) (st : ReadState) (hinv : ReadInv st)
    (y : InputNode) (hy : y ∈ (readRounds opts fuel self st).1) (p : Nat)
    (hp : st.positionsByKey.get y.key = some p) : p ≤ y.seq := by
  induction fuel generalizing st p with
  | zero => simp [readRounds] at hy
  | succ fuel ih =>
    rcases readRound_cases self opts hst st with ⟨e, _, hr⟩ | ⟨st1, _, _, hr | hr⟩ |
      ⟨st1, n, hu, ho, ⟨hr, _⟩ | hr⟩
    · simp [readRounds, hr] at hy
    · simp [readRounds, hr] at hy
    · simp [readRounds, hr] at hy
    · simp only [readRounds, hr] at hy
      have hinv1 := readInv_update self hwf opts st st1 hinv hu
      exact ih st1 hinv1 hy p ((updateAll_spec self opts st st1 hu).2.1 _ _ hp)
    · simp only [readRounds, hr, List.mem_cons] at hy
      have hinv1 := readInv_update self hwf opts st st1 hinv hu
      have hp1 := (updateAll_spec self opts st st1 hu).2.1 _ _ hp
      obtain ⟨hn, _⟩ := findOldestNode_some _ n ho
      obtain ⟨kn, hkn⟩ := (mem_values_iff _ hinv1.1 _).1 hn
      obtain ⟨hnk, hnp, _⟩ := hinv1.2 kn n hkn
      subst hnk
      rcases hy with hy | hy
      · subst hy
        rw [hnp] at hp1
        cases hp1
        exact le_refl _
      · by_cases hk : y.key = n.key
        · have := ih (st1.advance n) (readInv_advance st1 n hinv1) hy (n.seq + 1)
            (by rw [hk]; exact advance_position_self st1 n hnp)
          rw [hk, hnp] at hp1
          cases hp1
          omega
        · exact ih (st1.advance n) (readInv_advance st1 n hinv1) hy p
            (by rw [advance_get_positions st1 n _ hk]; exact hp1)

theorem foldl_keeps_maps {α : Type} (f : ReadState → α → ReadState)
    (hf : ∀ st a, (f st a).nodesByKey = st.nodesByKey ∧
      (f st a).positionsByKey = st.positionsByKey) (l : List α) (st : ReadState) :
    (l.foldl f st).nodesByKey = st.nodesByKey ∧
      (l.foldl f st).positionsByKey = st.positionsByKey := by
  induction l generalizing st with
  | nil => exact ⟨rfl, rfl⟩
  | cons a rest ih =>
    rw [List.foldl_cons]
    obtain ⟨h1, h2⟩ := ih (f st a)
    exact ⟨h1.trans (hf st a).1, h2.trans (hf st a).2⟩

theorem maybeSnapshot_maps (self : Bitstream) (opts : ReadOpts) (st : ReadState) :
    (maybeSnapshot self opts st).nodesByKey = st.nodesByKey ∧
      (maybeSnapshot self opts st).positionsByKey = st.positionsByKey := by
  unfold maybeSnapshot
  apply foldl_keeps_maps
  intro st a
  split <;> exact ⟨rfl, rfl⟩

theorem staticHooks_plain : StaticHooks Sample.plain :=
  ⟨fun f h => by simp [Sample.plain] at h, fun f h => by simp [Sample.plain] at h⟩

/-! ## Read stream: resuming from a checkpoint -/

theorem foldl_set_get {α β : Type} (f : α → β) (m : JsMap α) (hwf : JsMap.WF m) (s0 : JsMap β)
    (k : Key) :
    (m.foldl (fun s e => JsMap.set s e.1 (f e.2)) s0).get k =
      ((m.get k).map f).orElse (fun _ => s0.get k) := by
  induction m generalizing s0 with
  | nil => simp [JsMap.get_nil]
  | cons e rest ih =>
    obtain ⟨k1, v1⟩ := e
    simp only [JsMap.WF, JsMap.keys, List.map_cons, List.nodup_cons] at hwf
    rw [List.foldl_cons, ih hwf.2, JsMap.get_cons]
    by_cases hk : k1 = k
    · subst hk
      have : JsMap.get rest k1 = none := (JsMap.get_eq_none_iff rest k1).2 hwf.1
      simp [this, JsMap.get_set_self]
    · rw [if_neg hk, JsMap.get_set_other _ _ _ _ (fun h => hk h.symm)]

theorem maybeSnapshot_snapshot (self : Bitstream) (hwf : self.WF) (opts : ReadOpts)
    (hlive : opts.live = false) (st : ReadState) (hst : st.snapshotLengthsByKey = []) :
    Snapshotted self (maybeSnapshot self opts st) := by
  intro k
  have hfold : ∀ (m : JsMap Unichain) (s : ReadState),
      (m.foldl (fun st e =>
        if !opts.live then
          { st with snapshotLengthsByKey := JsMap.set st.snapshotLengthsByKey e.1 e.2.length }
        else st) s).snapshotLengthsByKey =
      m.foldl (fun s e => JsMap.set s e.1 (Unichain.length e.2)) s.snapshotLengthsByKey := by
    intro m
    induction m with
    | nil => intro s; rfl
    | cons e rest ih =>
      intro s
      rw [List.foldl_cons, List.foldl_cons, ih]
      simp [hlive]
  unfold maybeSnapshot
  rw [hfold, foldl_set_get Unichain.length _ hwf.1, hst]
  cases self._inputsByKey.get k <;> simp [JsMap.get_nil]

theorem snapshotted_wantsLoad (self : Bitstream) (st : ReadState) (hs : Snapshotted self st)
    (k : Key) (p : Nat) :
    wantsLoad self st.snapshotLengthsByKey k p = decide (p < lengthOf self k) := by
  unfold wantsLoad lengthOf
  rw [hs k]
  cases hg : self._inputsByKey.get k with
  | none => simp
  | some input =>
    simp only [Option.map_some', Option.getD_some]
    by_cases h0 : input.length = 0
    · simp [h0]
    · simp [h0]

theorem snapshotted_inputKeys (self : Bitstream) (opts : ReadOpts) (st : ReadState)
    (hs : Snapshotted self st) (k : Key) :
    k ∈ inputKeys self opts st.snapshotLengthsByKey ↔ k ∈ JsMap.keys self._inputsByKey := by
  unfold inputKeys
  simp only
  split
  · rfl
  · rw [← JsMap.has_eq_true_iff, ← JsMap.has_eq_true_iff]
    unfold JsMap.has
    rw [hs k]
    cases self._inputsByKey.get k <;> simp

theorem lengthOf_of_mem (self : Bitstream) (k : Key) (hk : k ∈ JsMap.keys self._inputsByKey) :
    ∃ input, self._inputsByKey.get k = some input ∧ lengthOf self k = input.length := by
  rw [← JsMap.has_eq_true_iff] at hk
  unfold JsMap.has at hk
  cases hg : self._inputsByKey.get k with
  | none => simp [hg] at hk
  | some input => exact ⟨input, rfl, by simp [lengthOf, hg]⟩

theorem loaded_update (self : Bitstream) (opts : ReadOpts) (st st1 : ReadState)
    (hs : Snapshotted self st) (hinv : ReadInv st1) (hl : Loaded self st)
    (h : updateAll self opts st = .ok st1) : Loaded self st1 := by
  obtain ⟨_, _, _, _, _, n1, n2, _⟩ := updateAll_spec self opts st st1 h
  intro k n hn
  obtain ⟨_, hp, _⟩ := hinv.2 k n hn
  by_cases hc : k ∈ inputKeys self opts st.snapshotLengthsByKey ∧
      wantsLoad self st.snapshotLengthsByKey k n.seq = true
  · obtain ⟨v, hv, hv'⟩ := n1 k n.seq hc.1 hp hc.2
    rw [hn] at hv'
    cases hv'
    refine ⟨hv, ?_⟩
    have := hc.2
    rw [snapshotted_wantsLoad self st hs] at this
    simpa using this
  · have : k ∉ inputKeys self opts st.snapshotLengthsByKey ∨
        ∀ p, st1.positionsByKey.get k = some p →
          wantsLoad self st.snapshotLengthsByKey k p = false := by
      by_cases hk : k ∈ inputKeys self opts st.snapshotLengthsByKey
      · right
        intro p hp'
        rw [hp] at hp'
        cases hp'
        by_contra hw
        exact hc ⟨hk, by simpa using hw⟩
      · exact Or.inl hk
    rw [n2 k this] at hn
    exact hl k n hn

theorem loaded_advance (self : Bitstream) (st : ReadState) (n : InputNode)
    (hl : Loaded self st) : Loaded self (st.advance n) := by
  intro k m hm
  have hk : k ≠ n.key := by
    intro hk
    rw [hk] at hm
    unfold ReadState.advance InputNode.id at hm
    simp only at hm
    rw [JsMap.get_delete_self] at hm
    cases hm
  rw [advance_get_nodes st n k hk] at hm
  exact hl k m hm

theorem ready_update (self : Bitstream) (hwf : self.WF) (opts : ReadOpts) (st st1 : ReadState)
    (hr : Ready self st) (h : updateAll self opts st = .ok st1) :
    Ready self st1 ∧ Fresh self st1 := by
  have hinv1 := readInv_update self hwf opts st st1 hr.1 h
  obtain ⟨hsnap, _, p2, _, _, n1, _, _⟩ := updateAll_spec self opts st st1 h
  refine ⟨⟨hinv1, loaded_update self opts st st1 hr.2.2 hinv1 hr.2.1 h, ?_⟩, ?_, ?_⟩
  · intro k
    rw [hsnap]
    exact hr.2.2 k
  · intro k hk
    exact p2 k ((snapshotted_inputKeys self opts st hr.2.2 k).2 hk)
  · intro k hk p hp hlt
    apply n1 k p ((snapshotted_inputKeys self opts st hr.2.2 k).2 hk) hp
    rw [snapshotted_wantsLoad self st hr.2.2]
    simpa using hlt

theorem ready_advance (self : Bitstream) (st : ReadState) (n : InputNode)
    (hr : Ready self st) : Ready self (st.advance n) :=
  ⟨readInv_advance st n hr.1, loaded_advance self st n hr.2.1, hr.2.2⟩

theorem oldest_entry (self : Bitstream) (st1 : ReadState) (hr : Ready self st1) (n : InputNode)
    (ho : findOldestNode (JsMap.values st1.nodesByKey) = some n) :
    st1.nodesByKey.get n.key = some (some n) ∧ st1.positionsByKey.get n.key = some n.seq ∧
      n.seq < lengthOf self n.key := by
  obtain ⟨hn, _⟩ := findOldestNode_some _ n ho
  obtain ⟨kn, hkn⟩ := (mem_values_iff _ hr.1.1 _).1 hn
  obtain ⟨hnk, hnp, _⟩ := hr.1.2 kn n hkn
  subst hnk
  exact ⟨hkn, hnp, (hr.2.1 _ n hkn).2⟩

theorem seqsOf_cons_self (n : InputNode) (out : List InputNode) :
    seqsOf n.key (n :: out) = n.seq :: seqsOf n.key out := by
  simp [seqsOf]

theorem seqsOf_cons_other (n : InputNode) (out : List InputNode) (k : Key) (hk : k ≠ n.key) :
    seqsOf k (n :: out) = seqsOf k out := by
  have : ¬ n.key = k := fun h => hk h.symm
  simp [seqsOf, this]

/-- The nodes a read stream pushes for an input are consecutive from its recorded position,
and its position in the checkpoint is that position plus their number. -/
theorem readRounds_count (self : Bitstream) (hwf : self.WF) (opts : ReadOpts)
    (hst : StaticHooks opts) (fuel : Nat) (st : ReadState) (hr : Ready self st) (k : Key)
    (p : Nat) (hp : st.positionsByKey.get k = some p) :
    seqsOf k (readRounds opts fuel self st).1 =
        List.range' p (seqsOf k (readRounds opts fuel self st).1).length ∧
      (readRounds opts fuel self st).2.1.positionsByKey.get k =
        some (p + (seqsOf k (readRounds opts fuel self st).1).length) ∧
      p + (seqsOf k (readRounds opts fuel self st).1).length ≤ max p (lengthOf self k) := by
  induction fuel generalizing st p with
  | zero => simp [readRounds, seqsOf, hp]
  | succ fuel ih =>
    rcases readRound_cases self opts hst st with ⟨e, _, hro⟩ | ⟨st1, hu, _, hro | hro⟩ |
      ⟨st1, n, hu, ho, ⟨hro, _⟩ | hro⟩
    · simp [readRounds, hro, seqsOf, hp]
    · have hp1 := (updateAll_spec self opts st st1 hu).2.1 _ _ hp
      simp [readRounds, hro, seqsOf, hp1]
    · have hp1 := (updateAll_spec self opts st st1 hu).2.1 _ _ hp
      simp [readRounds, hro, seqsOf, hp1]
    · have hp1 := (updateAll_spec self opts st st1 hu).2.1 _ _ hp
      simp only [readRounds, hro]
      exact ih st1 (ready_update self hwf opts st st1 hr hu).1 p hp1
    · have hp1 := (updateAll_spec self opts st st1 hu).2.1 _ _ hp
      have hr1 := (ready_update self hwf opts st st1 hr hu).1
      obtain ⟨_, hnp, hnl⟩ := oldest_entry self st1 hr1 n ho
      simp only [readRounds, hro]
      by_cases hk : k = n.key
      · subst hk
        rw [hnp] at hp1
        cases hp1
        obtain ⟨i1, i2, i3⟩ := ih (st1.advance n) (ready_advance self st1 n hr1) (n.seq + 1)
          (advance_position_self st1 n hnp)
        rw [seqsOf_cons_self, List.length_cons, List.range'_succ]
        refine ⟨by rw [← i1], by rw [i2]; congr 1; omega, ?_⟩
        omega
      · rw [seqsOf_cons_other n _ k hk]
        exact ih (st1.advance n) (ready_advance self st1 n hr1) p
          (by rw [advance_get_positions st1 n k hk]; exact hp1)

/-- Every node a read stream pushes is the node of a tracked input at a seq below its
length. -/
theorem readRounds_loaded (self : Bitstream) (hwf : self.WF) (opts : ReadOpts)
    (hst : StaticHooks opts) (fuel : Nat) (st : ReadState) (hr : Ready self st)
    (y : InputNode) (hy : y ∈ (readRounds opts fuel self st).1) :
    y.seq < lengthOf self y.key := by
  induction fuel generalizing st with
  | zero => simp [readRounds] at hy
  | succ fuel ih =>
    rcases readRound_cases self opts hst st with ⟨e, _, hro⟩ | ⟨st1, hu, _, hro | hro⟩ |
      ⟨st1, n, hu, ho, ⟨hro, _⟩ | hro⟩
    · simp [readRounds, hro] at hy
    · simp [readRounds, hro] at hy
    · simp [readRounds, hro] at hy
    · simp only [readRounds, hro] at hy
      exact ih st1 (ready_update self hwf opts st st1 hr hu).1 hy
    · have hr1 := (ready_update self hwf opts st st1 hr hu).1
      simp only [readRounds, hro, List.mem_cons] at hy
      rcases hy with hy | hy
      · subst hy
        exact (oldest_entry self st1 hr1 y ho).2.2
      · exact ih _ (ready_advance self st1 n hr1) hy

/-- When a read stream has ended, it is in an updated state with no node to take. -/
theorem readRounds_ended (self : Bitstream) (hwf : self.WF) (opts : ReadOpts)
    (hst : StaticHooks opts) (fuel : Nat) (st : ReadState) (hr : Ready self st)
    (h : (readRounds opts fuel self st).2.2 = .ended) :
    Ready self (readRounds opts fuel self st).2.1 ∧ Fresh self (readRounds opts fuel self st).2.1 ∧
      findOldestNode (JsMap.values (readRounds opts fuel self st).2.1.nodesByKey) = none := by
  induction fuel generalizing st with
  | zero => simp [readRounds] at h
  | succ fuel ih =>
    rcases readRound_cases self opts hst st with ⟨e, _, hro⟩ | ⟨st1, hu, ho, hro | hro⟩ |
      ⟨st1, n, hu, ho, ⟨hro, _⟩ | hro⟩
    · simp [readRounds, hro] at h
    · simp only [readRounds, hro]
      obtain ⟨h1, h2⟩ := ready_update self hwf opts st st1 hr hu
      exact ⟨h1, h2, ho⟩
    · simp [readRounds, hro] at h
    · simp only [readRounds, hro] at h ⊢
      exact ih st1 (ready_update self hwf opts st st1 hr hu).1 h
    · simp only [readRounds, hro] at h ⊢
      exact ih _ (ready_advance self st1 n (ready_update self hwf opts st st1 hr hu).1) h

theorem nodeAt_of_getInputNodeOf (input : Unichain) (s : Nat) (n : InputNode)
    (h : getInputNodeOf input (s : Int) = .ok (some n)) : nodeAt input s = some n := by
  simp [nodeAt, h]

theorem available_load (self : Bitstream) (hav : Available self) (k : Key)
    (p : Nat) (hk : k ∈ JsMap.keys self._inputsByKey) (hp : p < lengthOf self k) :
    ∃ n, loadNode (self._inputsByKey.get k) p = .ok (some n) := by
  obtain ⟨input, hin, hlen⟩ := lengthOf_of_mem self k hk
  have hmem := JsMap.mem_of_get _ _ _ hin
  have := hav (k, input) hmem p (List.mem_range.2 (by rw [← hlen]; exact hp))
  obtain ⟨n, hn⟩ := Option.isSome_iff_exists.1 this
  exact ⟨n, by rw [hin]; exact getInputNodeOf_of_nodeAt input p n hn⟩

theorem loaded_nodeAt (self : Bitstream) (st : ReadState) (hl : Loaded self st) (k : Key)
    (n : InputNode) (hn : st.nodesByKey.get k = some (some n)) :
    ∃ input, (k, input) ∈ self._inputsByKey ∧ n.seq ∈ List.range input.length ∧
      n ∈ nodeAt input n.seq := by
  obtain ⟨hload, hlt⟩ := hl k n hn
  unfold loadNode at hload
  cases hin : self._inputsByKey.get k with
  | none =>
    rw [hin] at hload
    cases hload
  | some input =>
    rw [hin] at hload
    simp only at hload
    refine ⟨input, JsMap.mem_of_get _ _ _ hin, ?_, nodeAt_of_getInputNodeOf input _ n hload⟩
    rw [List.mem_range]
    simpa [lengthOf, hin] using hlt

theorem exists_min_rank (rank : InputNode → Nat) (l : List InputNode) (a : InputNode)
    (ha : a ∈ l) : ∃ m ∈ l, ∀ x ∈ l, rank m ≤ rank x := by
  induction l generalizing a with
  | nil => simp at ha
  | cons b rest ih =>
    cases rest with
    | nil => exact ⟨b, List.mem_cons_self _ _, by simp⟩
    | cons c rest' =>
      obtain ⟨m, hm, hmin⟩ := ih c (List.mem_cons_self _ _)
      by_cases hb : rank b ≤ rank m
      · refine ⟨b, List.mem_cons_self _ _, ?_⟩
        intro x hx
        rcases List.mem_cons.1 hx with hx | hx
        · rw [hx]
        · exact le_trans hb (hmin x hx)
      · refine ⟨m, List.mem_cons_of_mem _ hm, ?_⟩
        intro x hx
        rcases List.mem_cons.1 hx with hx | hx
        · rw [hx]; omega
        · exact hmin x hx

/-- While a tracked input has a node left, and the causal order has no cycle, an updated
state has a node to take. -/
theorem findOldestNode_progress (self : Bitstream) (rank : InputNode → Nat)
    (hac : AcyclicBy rank self) (hav : Available self) (st1 : ReadState)
    (hr : Ready self st1) (hf : Fresh self st1) (k : Key)
    (hk : k ∈ JsMap.keys self._inputsByKey) (p : Nat)
    (hp : st1.positionsByKey.get k = some p) (hlt : p < lengthOf self k) :
    ∃ n, findOldestNode (JsMap.values st1.nodesByKey) = some n := by
  obtain ⟨v, hv, hget⟩ := hf.2 k hk p hp hlt
  obtain ⟨n0, hn0⟩ := available_load self hav k p hk hlt
  rw [hv] at hn0
  cases hn0
  have hn0mem : n0 ∈ liveHeads (JsMap.values st1.nodesByKey) :=
    (mem_liveHeads _ _).2 ((mem_values_iff _ hr.1.1 _).2 ⟨k, hget⟩)
  obtain ⟨m, hm, hmin⟩ := exists_min_rank rank _ n0 hn0mem
  cases ho : findOldestNode (JsMap.values st1.nodesByKey) with
  | some n => exact ⟨n, rfl⟩
  | none =>
    exfalso
    have hmv := (mem_liveHeads _ _).1 hm
    obtain ⟨n2, hn2, hne, hlte⟩ := findOldestNode_none _ ho m hmv
    obtain ⟨km, hkm⟩ := (mem_values_iff _ hr.1.1 _).1 hmv
    obtain ⟨k2, hk2⟩ := (mem_values_iff _ hr.1.1 _).1 hn2
    have hkne : k2 ≠ km := by
      intro h
      rw [h, hkm] at hk2
      cases hk2
      exact hne rfl
    obtain ⟨im, him, hsm, hnm⟩ := loaded_nodeAt self st1 hr.2.1 km m hkm
    obtain ⟨i2, hi2, hs2, hnn2⟩ := loaded_nodeAt self st1 hr.2.1 k2 n2 hk2
    have := hac (k2, i2) hi2 (km, im) him hkne n2.seq hs2 m.seq hsm n2 hnn2 m hnm hlte
    have := hmin n2 ((mem_liveHeads _ _).2 hn2)
    omega

theorem updateAllLoop_ok (self : Bitstream) (opts : ReadOpts) (snap : JsMap Nat)
    (keys : List Key) (hk : ∀ k ∈ keys, ∃ i, self._inputsByKey.get k = some i)
    (pos : JsMap Nat) (loads : List (Key × Except Error (Option InputNode))) :
    ∃ r, updateAllLoop self opts snap keys pos loads = .ok r := by
  induction keys generalizing pos loads with
  | nil => exact ⟨_, rfl⟩
  | cons key rest ih =>
    obtain ⟨i, hi⟩ := hk key (List.mem_cons_self _ _)
    have hrest : ∀ k ∈ rest, ∃ i, self._inputsByKey.get k = some i :=
      fun k hk' => hk k (List.mem_cons_of_mem _ hk')
    unfold updateAllLoop
    simp only [hi]
    have hpos : ∃ p pos1, positionOf opts (some i) pos key = .ok (p, pos1) := by
      unfold positionOf
      cases pos.get key with
      | some q => exact ⟨_, _, rfl⟩
      | none =>
        simp only
        split
        · exact ⟨_, _, rfl⟩
        · exact ⟨_, _, rfl⟩
    obtain ⟨p, pos1, hp⟩ := hpos
    rw [hp]
    simp only
    split
    · split
      · exact ih hrest _ _
      · exact ih hrest _ _
    · split
      · exact ih hrest _ _
      · exact ih hrest _ _

theorem awaitAll_ok (loads : List (Key × Except Error (Option InputNode)))
    (h : ∀ e ∈ loads, ∃ v, e.2 = .ok v) : ∃ loaded, awaitAll loads = .ok loaded := by
  induction loads with
  | nil => exact ⟨[], rfl⟩
  | cons e rest ih =>
    obtain ⟨k, r⟩ := e
    obtain ⟨v, hv⟩ := h (k, r) (List.mem_cons_self _ _)
    simp only at hv
    subst hv
    obtain ⟨loaded, hl⟩ := ih (fun e he => h e (List.mem_cons_of_mem _ he))
    exact ⟨(k, v) :: loaded, by simp [awaitAll, hl]⟩

/-- On an instance all of whose blocks are available, `updateAll()` succeeds. -/
theorem updateAll_ok (self : Bitstream) (opts : ReadOpts) (st : ReadState)
    (hs : Snapshotted self st) (hav : Available self) :
    ∃ st1, updateAll self opts st = .ok st1 := by
  have hkeys : ∀ k ∈ inputKeys self opts st.snapshotLengthsByKey,
      ∃ i, self._inputsByKey.get k = some i := by
    intro k hk
    obtain ⟨i, hi, _⟩ :=
      lengthOf_of_mem self k ((snapshotted_inputKeys self opts st hs k).1 hk)
    exact ⟨i, hi⟩
  obtain ⟨⟨pos', loads⟩, hloop⟩ :=
    updateAllLoop_ok self opts st.snapshotLengthsByKey _ hkeys st.positionsByKey []
  obtain ⟨l1, _⟩ := updateAllLoop_spec self opts _ _ _ _ _ _ hloop
  have hall : ∀ e ∈ loads, ∃ v, e.2 = .ok v := by
    intro e he
    obtain ⟨k, r⟩ := e
    rcases l1 k r he with h0 | ⟨hk, p, _, hw, hr⟩
    · simp at h0
    · rw [snapshotted_wantsLoad self st hs] at hw
      obtain ⟨n, hn⟩ := available_load self hav k p
        ((snapshotted_inputKeys self opts st hs k).1 hk) (by simpa using hw)
      exact ⟨some n, by rw [hr, hn]⟩
  obtain ⟨loaded, hloaded⟩ := awaitAll_ok loads hall
  simp only [updateAll, hloop, hloaded]
  exact ⟨_, rfl⟩

theorem sum_change_one (l : List Key) (hl : l.Nodup) (f g : Key → Nat) (k0 : Key)
    (hk0 : k0 ∈ l) (hsame : ∀ k ∈ l, k ≠ k0 → g k = f k) (hone : g k0 + 1 = f k0) :
    (l.map g).sum + 1 = (l.map f).sum := by
  induction l with
  | nil => simp at hk0
  | cons a rest ih =>
    rw [List.nodup_cons] at hl
    rw [List.map_cons, List.map_cons, List.sum_cons, List.sum_cons]
    by_cases ha : a = k0
    · subst ha
      have : rest.map g = rest.map f := by
        apply List.map_congr_left
        intro k hk
        exact hsame k (List.mem_cons_of_mem _ hk) (fun h => hl.1 (h ▸ hk))
      rw [this]
      omega
    · have hmem : k0 ∈ rest := by
        rcases List.mem_cons.1 hk0 with h | h
        · exact absurd h.symm ha
        · exact h
      have := ih hl.2 hmem (fun k hk => hsame k (List.mem_cons_of_mem _ hk))
      rw [hsame a (List.mem_cons_self _ _) ha]
      omega

theorem remaining_update (self : Bitstream) (opts : ReadOpts) (st st1 : ReadState)
    (hpos : ∀ k ∈ JsMap.keys self._inputsByKey, ∃ p, st.positionsByKey.get k = some p)
    (h : updateAll self opts st = .ok st1) : remaining self st1 = remaining self st := by
  unfold remaining
  congr 1
  apply List.map_congr_left
  intro k hk
  obtain ⟨p, hp⟩ := hpos k hk
  rw [hp, (updateAll_spec self opts st st1 h).2.1 k p hp]

theorem remaining_advance (self : Bitstream) (hwf : self.WF) (st1 : ReadState) (n : InputNode)
    (hp : st1.positionsByKey.get n.key = some n.seq) (hlt : n.seq < lengthOf self n.key) :
    remaining self (st1.advance n) + 1 = remaining self st1 := by
  unfold remaining
  have hk : n.key ∈ JsMap.keys self._inputsByKey := by
    by_contra hc
    have : self._inputsByKey.get n.key = none := (JsMap.get_eq_none_iff _ _).2 hc
    simp [lengthOf, this] at hlt
  apply sum_change_one _ hwf.1 _ _ n.key hk
  · intro k _ hne
    rw [advance_get_positions st1 n k hne]
  · rw [advance_position_self st1 n hp, hp]
    simp only [Option.getD_some]
    omega

/-- A non-live read stream whose `onresolve` hook, if it has one, always answers `false`,
over available logs, ends once it has run as many rounds as there are nodes left, and one
more. -/
theorem readRounds_ends (self : Bitstream) (hwf : self.WF) (opts : ReadOpts)
    (hst : StaticHooks opts) (hlive : opts.live = false)
    (hres : ∀ f, opts.onresolve = some f → ∀ s n, (f s n).2 = JsValue.boolean false)
    (hav : Available self) (fuel : Nat)
    (st : ReadState) (hr : Ready self st)
    (hpos : ∀ k ∈ JsMap.keys self._inputsByKey, ∃ p, st.positionsByKey.get k = some p)
    (hfuel : remaining self st < fuel) : (readRounds opts fuel self st).2.2 = .ended := by
  induction fuel generalizing st with
  | zero => omega
  | succ fuel ih =>
    obtain ⟨st1', hok⟩ := updateAll_ok self opts st hr.2.2 hav
    rcases readRound_cases self opts hst st with ⟨e, hu, _⟩ | ⟨st1, hu, _, hro | hro⟩ |
      ⟨st1, n, hu, ho, ⟨_, hsome⟩ | hro⟩
    · rw [hok] at hu
      cases hu
    · simp [readRounds, hro]
    · exfalso
      have hround : readRound self opts st = .ended st1 := by
        simp [readRound, hu, ‹findOldestNode (JsMap.values st1.nodesByKey) = none›, hlive]
      rw [hround] at hro
      cases hro
    · obtain ⟨f, hf, hne⟩ := hsome
      exact absurd (hres f hf self n) hne
    · simp only [readRounds, hro]
      have hr1 := (ready_update self hwf opts st st1 hr hu).1
      obtain ⟨_, hnp, hnl⟩ := oldest_entry self st1 hr1 n ho
      apply ih _ (ready_advance self st1 n hr1)
      · intro k hk
        by_cases hkn : k = n.key
        · rw [hkn]
          exact ⟨_, advance_position_self st1 n hnp⟩
        · obtain ⟨p, hp⟩ := hpos k hk
          exact ⟨p, by
            rw [advance_get_positions st1 n k hkn]
            exact (updateAll_spec self opts st st1 hu).2.1 k p hp⟩
      · have h1 := remaining_update self opts st st1 hpos hu
        have h2 := remaining_advance self hwf st1 n hnp hnl
        omega

theorem ended_complete (self : Bitstream) (rank : InputNode → Nat)
    (hac : AcyclicBy rank self) (hav : Available self) (stf : ReadState)
    (hr : Ready self stf) (hf : Fresh self stf)
    (hnone : findOldestNode (JsMap.values stf.nodesByKey) = none) (k : Key)
    (hk : k ∈ JsMap.keys self._inputsByKey) (p : Nat)
    (hp : stf.positionsByKey.get k = some p) : lengthOf self k ≤ p := by
  by_contra hlt
  obtain ⟨n, hn⟩ := findOldestNode_progress self rank hac hav stf hr hf k hk p hp (by omega)
  rw [hnone] at hn
  cases hn

/-- A read stream that has ended over available logs without causal cycle has pushed, for
every tracked input, exactly the nodes from its recorded position up to its length. -/
theorem readRounds_complete (self : Bitstream) (hwf : self.WF) (opts : ReadOpts)
    (hst : StaticHooks opts) (rank : InputNode → Nat) (hac : AcyclicBy rank self)
    (hav : Available self) (fuel : Nat) (st : ReadState) (hr : Ready self st)
    (hend : (readRounds opts fuel self st).2.2 = .ended) (k : Key)
    (hk : k ∈ JsMap.keys self._inputsByKey) (p : Nat)
    (hp : st.positionsByKey.get k = some p) :
    seqsOf k (readRounds opts fuel self st).1 = List.range' p (lengthOf self k - p) ∧
      (readRounds opts fuel self st).2.1.positionsByKey.get k =
        some (max p (lengthOf self k)) := by
  obtain ⟨c1, c2, c3⟩ := readRounds_count self hwf opts hst fuel st hr k p hp
  obtain ⟨e1, e2, e3⟩ := readRounds_ended self hwf opts hst fuel st hr hend
  have hge := ended_complete self rank hac hav _ e1 e2 e3 k hk _ c2
  have hc : (seqsOf k (readRounds opts fuel self st).1).length = lengthOf self k - p := by
    omega
  rw [hc] at c1 c2
  refine ⟨c1, ?_⟩
  rw [c2]
  congr 1
  omega

theorem readRounds_untracked (self : Bitstream) (hwf : self.WF) (opts : ReadOpts)
    (hst : StaticHooks opts) (fuel : Nat) (st : ReadState) (hr : Ready self st) (k : Key)
    (hk : k ∉ JsMap.keys self._inputsByKey) : seqsOf k (readRounds opts fuel self st).1 = [] := by
  unfold seqsOf
  rw [List.map_eq_nil_iff, List.filter_eq_nil_iff]
  intro y hy hyk
  have hyk' : y.key = k := by simpa using hyk
  have := readRounds_loaded self hwf opts hst fuel st hr y hy
  have hnone : self._inputsByKey.get k = none := (JsMap.get_eq_none_iff _ _).2 hk
  rw [hyk'] at this
  simp [lengthOf, hnone] at this

/-- The state of a non-live read stream once it is open. -/
theorem open_ready (self : Bitstream) (hwf : self.WF) (opts : ReadOpts)
    (hlive : opts.live = false) (st0 : ReadState) (hopen : openReadStream self opts = .ok st0) :
    Ready self st0 ∧ Fresh self st0 ∧
      (∀ k p, (opts.checkpoint.getD []).get k = some p → st0.positionsByKey.get k = some p) ∧
      (∀ k ∈ JsMap.keys self._inputsByKey, (opts.checkpoint.getD []).get k = none →
        st0.positionsByKey.get k = some (startPosition self opts k)) := by
  unfold openReadStream at hopen
  have hsnap := maybeSnapshot_snapshot self hwf opts hlive
    { positionsByKey := opts.checkpoint.getD [], nodesByKey := [], snapshotLengthsByKey := [] }
    rfl
  obtain ⟨hn, hp⟩ := maybeSnapshot_maps self opts
    { positionsByKey := opts.checkpoint.getD [], nodesByKey := [], snapshotLengthsByKey := [] }
  have hready : Ready self (maybeSnapshot self opts
      { positionsByKey := opts.checkpoint.getD [], nodesByKey := [],
        snapshotLengthsByKey := [] }) := by
    refine ⟨⟨?_, ?_⟩, ?_, hsnap⟩
    · rw [hn]
      exact List.nodup_nil
    · intro k n hkn
      rw [hn] at hkn
      cases hkn
    · intro k n hkn
      rw [hn] at hkn
      cases hkn
  obtain ⟨h1, h2⟩ := ready_update self hwf opts _ st0 hready hopen
  obtain ⟨_, p1, _, _, p4, _⟩ := updateAll_spec self opts _ st0 hopen
  refine ⟨h1, h2, ?_, ?_⟩
  · intro k p hkp
    apply p1
    rw [hp]
    exact hkp
  · intro k hk hnone
    apply p4 k ((snapshotted_inputKeys self opts _ hsnap k).2 hk)
    rw [hp]
    exact hnone

theorem lengthOf_untracked (self : Bitstream) (k : Key)
    (hk : k ∉ JsMap.keys self._inputsByKey) : lengthOf self k = 0 := by
  have : self._inputsByKey.get k = none := (JsMap.get_eq_none_iff _ _).2 hk
  simp [lengthOf, this]

/-- A non-live stream opened on available logs without causal cycle, with a checkpoint that
maps every tracked input to a position `start k`. -/
theorem resumed_stream (self : Bitstream) (hwf : self.WF) (opts : ReadOpts)
    (hlive : opts.live = false)
    (hres : ∀ f, opts.onresolve = some f → ∀ s n, (f s n).2 = JsValue.boolean false)
    (hst : StaticHooks opts)
    (rank : InputNode → Nat) (hac : AcyclicBy rank self) (hav : Available self)
    (start : Key → Nat)
    (hcp : ∀ k ∈ JsMap.keys self._inputsByKey,
      (opts.checkpoint.getD []).get k = some (start k)) :
    ∃ st0, openReadStream self opts = .ok st0 ∧
      (∀ fuel, remaining self st0 < fuel →
        (readRounds opts fuel self st0).2.2 = .ended ∧
          ∀ k ∈ JsMap.keys self._inputsByKey, seqsOf k (readRounds opts fuel self st0).1 =
            List.range' (start k) (lengthOf self k - start k)) ∧
      (∀ fuel,
        (∀ k, k ∉ JsMap.keys self._inputsByKey → seqsOf k (readRounds opts fuel self st0).1 = []) ∧
        (∀ n ∈ (readRounds opts fuel self st0).1,
          n.key ∈ JsMap.keys self._inputsByKey ∧ start n.key ≤ n.seq) ∧
        ∀ k ∈ JsMap.keys self._inputsByKey,
          (readRounds opts fuel self st0).2.1.positionsByKey.get k =
            some (start k + (seqsOf k (readRounds opts fuel self st0).1).length)) := by
  have hsnap := maybeSnapshot_snapshot self hwf opts hlive
    { positionsByKey := opts.checkpoint.getD [], nodesByKey := [], snapshotLengthsByKey := [] }
    rfl
  obtain ⟨st0, hopen⟩ := updateAll_ok self opts _ hsnap hav
  have hopen' : openReadStream self opts = .ok st0 := hopen
  obtain ⟨hr, hf, hkeep, _⟩ := open_ready self hwf opts hlive st0 hopen'
  have hpos : ∀ k ∈ JsMap.keys self._inputsByKey, st0.positionsByKey.get k = some (start k) :=
    fun k hk => hkeep k _ (hcp k hk)
  refine ⟨st0, hopen', ?_, ?_⟩
  · intro fuel hfuel
    have hended := readRounds_ends self hwf opts hst hlive hres hav fuel st0 hr hf.1 hfuel
    refine ⟨hended, ?_⟩
    intro k hk
    exact (readRounds_complete self hwf opts hst rank hac hav fuel st0 hr hended k hk _
      (hpos k hk)).1
  · intro fuel
    refine ⟨fun k hk => readRounds_untracked self hwf opts hst fuel st0 hr k hk, ?_, ?_⟩
    · intro n hn
      have h2 := readRounds_loaded self hwf opts hst fuel st0 hr n hn
      have hk : n.key ∈ JsMap.keys self._inputsByKey := by
        by_contra hc
        rw [lengthOf_untracked self _ hc] at h2
        omega
      exact ⟨hk, readRounds_position_le self hwf opts hst fuel st0 hr.1 n hn _ (hpos _ hk)⟩
    · intro k hk
      exact (readRounds_count self hwf opts hst fuel st0 hr k _ (hpos k hk)).2.1

theorem startPosition_le (self : Bitstream) (opts : ReadOpts) (k : Key) :
    startPosition self opts k ≤ lengthOf self k := by
  unfold startPosition lengthOf
  split
  · exact le_refl _
  · exact Nat.zero_le _

theorem staticHooks_tail : StaticHooks Sample.tailOpts :=
  ⟨fun f h => by simp [Sample.tailOpts] at h, fun f h => by simp [Sample.tailOpts] at h⟩

/-- C6 (amended): let a non-live read stream S1 run to its end on available logs without
causal cycle, the instance staying as it is meanwhile (hooks included); S1 may be opened with
`tail` or with a checkpoint that holds, for a tracked input, a position at most its length.
The checkpoint of S1 then maps every tracked input to its length.  Let nodes be appended to
the tracked inputs, the logs staying available and without causal cycle, and let a non-live
stream S2 be opened with that checkpoint, with an `onresolve` hook, if any, that always
answers `false`, the instance staying as it is while S2 runs.  Then S2 ends, and when it has
ended it has pushed, for every input, exactly the nodes from the old length up to the new one,
each once and in order; S2 pushes none of the nodes S1 pushed; and at any moment the
checkpoint of S1 or S2 maps each tracked input to its starting position plus the number of its
nodes already pushed. -/
theorem checkpoint_round_trip (self0 self1 : Bitstream) (hwf0 : self0.WF) (hwf1 : self1.WF)
    (hkeys : JsMap.keys self1._inputsByKey = JsMap.keys self0._inputsByKey)
    (opts1 opts2 : ReadOpts) (hlive1 : opts1.live = false) (hlive2 : opts2.live = false)
    (hres : ∀ f, opts2.onresolve = some f → ∀ s n, (f s n).2 = JsValue.boolean false)
    (hst1 : StaticHooks opts1) (hst2 : StaticHooks opts2)
    (hcp : ∀ e ∈ opts1.checkpoint.getD [], e.1 ∈ JsMap.keys self0._inputsByKey →
      e.2 ≤ lengthOf self0 e.1)
    (rank0 rank1 : InputNode → Nat) (hac0 : AcyclicBy rank0 self0) (hav0 : Available self0)
    (hac1 : AcyclicBy rank1 self1) (hav1 : Available self1) (st0 : ReadState)
    (hopen : openReadStream self0 opts1 = .ok st0) (fuel1 : Nat)
    (hend : (readRounds opts1 fuel1 self0 st0).2.2 = .ended)
    (hck : opts2.checkpoint = some (readRounds opts1 fuel1 self0 st0).2.1.positionsByKey) :
    (∀ k ∈ JsMap.keys self0._inputsByKey,
      (readRounds opts1 fuel1 self0 st0).2.1.positionsByKey.get k = some (lengthOf self0 k)) ∧
    (∀ fuel, ∀ k ∈ JsMap.keys self0._inputsByKey,
      (readRounds opts1 fuel self0 st0).2.1.positionsByKey.get k =
        some (((opts1.checkpoint.getD []).get k).getD (startPosition self0 opts1 k) +
          (seqsOf k (readRounds opts1 fuel self0 st0).1).length)) ∧
    ∃ st0', openReadStream self1 opts2 = .ok st0' ∧
      (∀ fuel2, remaining self1 st0' < fuel2 →
        (readRounds opts2 fuel2 self1 st0').2.2 = .ended ∧
          ∀ k, seqsOf k (readRounds opts2 fuel2 self1 st0').1 =
            List.range' (lengthOf self0 k) (lengthOf self1 k - lengthOf self0 k)) ∧
      (∀ fuel2,
        (∀ n1 ∈ (readRounds opts1 fuel1 self0 st0).1,
          ∀ n2 ∈ (readRounds opts2 fuel2 self1 st0').1, (n1.key, n1.seq) ≠ (n2.key, n2.seq)) ∧
        ∀ k ∈ JsMap.keys self0._inputsByKey,
          (readRounds opts2 fuel2 self1 st0').2.1.positionsByKey.get k =
            some (lengthOf self0 k +
              (seqsOf k (readRounds opts2 fuel2 self1 st0').1).length)) := by
  obtain ⟨hr0, _, hkeep0, hstart0⟩ := open_ready self0 hwf0 opts1 hlive1 st0 hopen
  have hpos0 : ∀ k ∈ JsMap.keys self0._inputsByKey,
      st0.positionsByKey.get k =
        some (((opts1.checkpoint.getD []).get k).getD (startPosition self0 opts1 k)) ∧
      ((opts1.checkpoint.getD []).get k).getD (startPosition self0 opts1 k) ≤
        lengthOf self0 k := by
    intro k hk
    cases hc : (opts1.checkpoint.getD []).get k with
    | none => exact ⟨hstart0 k hk hc, startPosition_le self0 opts1 k⟩
    | some p => exact ⟨hkeep0 k p hc, hcp (k, p) (JsMap.mem_of_get _ _ _ hc) hk⟩
  have hcheck : ∀ k ∈ JsMap.keys self0._inputsByKey,
      (readRounds opts1 fuel1 self0 st0).2.1.positionsByKey.get k = some (lengthOf self0 k) := by
    intro k hk
    obtain ⟨hp, hle⟩ := hpos0 k hk
    have := (readRounds_complete self0 hwf0 opts1 hst1 rank0 hac0 hav0 fuel1 st0 hr0 hend k hk _
      hp).2
    rw [this]
    congr 1
    omega
  refine ⟨hcheck, ?_, ?_⟩
  · intro fuel k hk
    exact (readRounds_count self0 hwf0 opts1 hst1 fuel st0 hr0 k _ (hpos0 k hk).1).2.1
  obtain ⟨st0', hopen2, hrun, hany⟩ := resumed_stream self1 hwf1 opts2 hlive2 hres hst2 rank1
    hac1 hav1 (lengthOf self0) (fun k hk => by
      rw [hck]
      exact hcheck k (hkeys ▸ hk))
  refine ⟨st0', hopen2, ?_, ?_⟩
  · intro fuel2 hfuel
    obtain ⟨hended, hseqs⟩ := hrun fuel2 hfuel
    refine ⟨hended, ?_⟩
    intro k
    by_cases hk : k ∈ JsMap.keys self1._inputsByKey
    · exact hseqs k hk
    · rw [(hany fuel2).1 k hk, lengthOf_untracked self1 k hk]
      simp
  · intro fuel2
    obtain ⟨_, hge, hposn⟩ := hany fuel2
    constructor
    · intro n1 hn1 n2 hn2 heq
      have h1 := readRounds_loaded self0 hwf0 opts1 hst1 fuel1 st0 hr0 n1 hn1
      have h3 := (hge n2 hn2).2
      simp only [Prod.mk.injEq] at heq
      rw [heq.1, heq.2] at h1
      omega
    · intro k hk
      exact hposn k (hkeys ▸ hk)

/-- C6 (counterexample): S1 runs to its end over the empty logs A and B, with the checkpoint
`{A: 0, B: 0}`; then a0 is appended with the clock `{B: 0}` and b0 with the clock `{A: 0}`
(N = 2).  S2, opened with that checkpoint, ends without pushing any node.  And S1 opened on
A = a0 with the checkpoint `{A: 3}`, which is past the end of A, ends with that checkpoint;
after three appends to A (N = 3), S2 opened with it pushes a3 only. -/
theorem checkpoint_resume_misses_nodes :
    ((openReadStream Sample.emptyPair Sample.plain).map fun st0 =>
      ((readRounds Sample.plain 3 Sample.emptyPair st0).1,
        (readRounds Sample.plain 3 Sample.emptyPair st0).2.1.positionsByKey,
        (readRounds Sample.plain 3 Sample.emptyPair st0).2.2)) =
      .ok ([], [(10, 0), (20, 0)], ReadStop.ended) ∧
    Sample.cyclicPair.inputs.map Unichain.length = [1, 1] ∧
    ((openReadStream Sample.cyclicPair
        (resume Sample.plain
          { positionsByKey := [(10, 0), (20, 0)], nodesByKey := [],
            snapshotLengthsByKey := [] })).map fun st =>
      ((readRounds (resume Sample.plain
          { positionsByKey := [(10, 0), (20, 0)], nodesByKey := [],
            snapshotLengthsByKey := [] }) 5 Sample.cyclicPair st).1,
        (readRounds (resume Sample.plain
          { positionsByKey := [(10, 0), (20, 0)], nodesByKey := [],
            snapshotLengthsByKey := [] }) 5 Sample.cyclicPair st).2.2)) =
      .ok ([], ReadStop.ended) ∧
    ((openReadStream Sample.oneNodeA Sample.beyond).map fun st0 =>
      ((readRounds Sample.beyond 3 Sample.oneNodeA st0).1,
        (readRounds Sample.beyond 3 Sample.oneNodeA st0).2.1.positionsByKey,
        (readRounds Sample.beyond 3 Sample.oneNodeA st0).2.2)) =
      .ok ([], [(10, 3)], ReadStop.ended) ∧
    Sample.fourNodesA.inputs.map Unichain.length = [4] ∧
    ((openReadStream Sample.fourNodesA Sample.beyond).map fun st =>
      ((readRounds Sample.beyond 6 Sample.fourNodesA st).1.map Sample.tag,
        (readRounds Sample.beyond 6 Sample.fourNodesA st).2.2)) =
      .ok ([(10, 3)], ReadStop.ended) :=
  ⟨by decide, by decide, by decide, by decide, by decide, by decide⟩

/-- C6 (witness): S1 is opened with `tail` on the logs of the test 'causal writes' (A and B)
and ends with the checkpoint `{A: 1, B: 2}`; then a1 is appended to A. -/
theorem checkpoint_round_trip_witness :
    Sample.causal.WF ∧ Sample.causalLater.WF ∧
    JsMap.keys Sample.causalLater._inputsByKey = JsMap.keys Sample.causal._inputsByKey ∧
    Sample.tailOpts.live = false ∧
    (resume Sample.plain
      (readRounds Sample.tailOpts 1 Sample.causal Sample.causalTail).2.1).live = false ∧
    (∀ e ∈ Sample.tailOpts.checkpoint.getD [], e.1 ∈ JsMap.keys Sample.causal._inputsByKey →
      e.2 ≤ lengthOf Sample.causal e.1) ∧
    AcyclicBy Sample.rank Sample.causal ∧ Available Sample.causal ∧
    AcyclicBy Sample.rank Sample.causalLater ∧ Available Sample.causalLater ∧
    openReadStream Sample.causal Sample.tailOpts = .ok Sample.causalTail ∧
    (readRounds Sample.tailOpts 1 Sample.causal Sample.causalTail).2.2 = .ended ∧
    ((∀ k ∈ JsMap.keys Sample.causal._inputsByKey,
      (readRounds Sample.tailOpts 1 Sample.causal Sample.causalTail).2.1.positionsByKey.get k =
        some (lengthOf Sample.causal k)) ∧
    (∀ fuel, ∀ k ∈ JsMap.keys Sample.causal._inputsByKey,
      (readRounds Sample.tailOpts fuel Sample.causal Sample.causalTail).2.1.positionsByKey.get k =
        some (((Sample.tailOpts.checkpoint.getD []).get k).getD
            (startPosition Sample.causal Sample.tailOpts k) +
          (seqsOf k (readRounds Sample.tailOpts fuel Sample.causal Sample.causalTail).1).length)) ∧
    ∃ st0', openReadStream Sample.causalLater
        (resume Sample.plain
          (readRounds Sample.tailOpts 1 Sample.causal Sample.causalTail).2.1) = .ok st0' ∧
      (∀ fuel2, remaining Sample.causalLater st0' < fuel2 →
        (readRounds
            (resume Sample.plain
              (readRounds Sample.tailOpts 1 Sample.causal Sample.causalTail).2.1)
            fuel2 Sample.causalLater st0').2.2 = .ended ∧
          ∀ k, seqsOf k
              (readRounds
                (resume Sample.plain
                  (readRounds Sample.tailOpts 1 Sample.causal Sample.causalTail).2.1)
                fuel2 Sample.causalLater st0').1 =
            List.range' (lengthOf Sample.causal k)
              (lengthOf Sample.causalLater k - lengthOf Sample.causal k)) ∧
      (∀ fuel2,
        (∀ n1 ∈ (readRounds Sample.tailOpts 1 Sample.causal Sample.causalTail).1,
          ∀ n2 ∈ (readRounds
              (resume Sample.plain
                (readRounds Sample.tailOpts 1 Sample.causal Sample.causalTail).2.1)
              fuel2 Sample.causalLater st0').1, (n1.key, n1.seq) ≠ (n2.key, n2.seq)) ∧
        ∀ k ∈ JsMap.keys Sample.causal._inputsByKey,
          (readRounds
              (resume Sample.plain
                (readRounds Sample.tailOpts 1 Sample.causal Sample.causalTail).2.1)
              fuel2 Sample.causalLater st0').2.1.positionsByKey.get k =
            some (lengthOf Sample.causal k +
              (seqsOf k (readRounds
                (resume Sample.plain
                  (readRounds Sample.tailOpts 1 Sample.causal Sample.causalTail).2.1)
                fuel2 Sample.causalLater st0').1).length))) :=
  ⟨by decide, by decide, by decide, rfl, rfl, by decide, by decide, by decide, by decide,
    by decide, by decide, by decide,
    checkpoint_round_trip Sample.causal Sample.causalLater (by decide) (by decide) (by decide)
      Sample.tailOpts
      (resume Sample.plain (readRounds Sample.tailOpts 1 Sample.causal Sample.causalTail).2.1)
      rfl rfl (fun f h => by simp [resume, Sample.plain] at h) staticHooks_tail
      staticHooks_plain (by decide) Sample.rank Sample.rank (by decide) (by decide) (by decide)
      (by decide) Sample.causalTail (by decide) 1 (by decide) rfl⟩

/-- The test 'read stream - resume from checkpoint', on A and B: the first stream pushes a0,
b0, b1 and the stream resumed from its checkpoint after one more append to A pushes a1.  The
same holds when the first stream is opened with `tail`, and then pushes nothing, or with the
checkpoint `{A: 0, B: 1}`, and then pushes a0 and b1. -/
theorem checkpoint_resume_test :
    (readRounds Sample.plain 5 Sample.causal Sample.causalOpen).1.map Sample.tag =
      [(10, 0), (20, 0), (20, 1)] ∧
    ((openReadStream Sample.causalLater
        (resume Sample.plain
          (readRounds Sample.plain 5 Sample.causal Sample.causalOpen).2.1)).map fun st =>
      (readRounds (resume Sample.plain
        (readRounds Sample.plain 5 Sample.causal Sample.causalOpen).2.1) 5
        Sample.causalLater st).1.map Sample.tag) = .ok [(10, 1)] ∧
    ((openReadStream Sample.causal Sample.tailOpts).map fun st0 =>
      ((readRounds Sample.tailOpts 2 Sample.causal st0).1.map Sample.tag,
        (readRounds Sample.tailOpts 2 Sample.causal st0).2.1.positionsByKey)) =
      .ok ([], [(10, 1), (20, 2)]) ∧
    ((openReadStream Sample.causalLater
        (resume Sample.plain Sample.causalTail)).map fun st =>
      (readRounds (resume Sample.plain Sample.causalTail) 5 Sample.causalLater st).1.map
        Sample.tag) = .ok [(10, 1)] ∧
    ((openReadStream Sample.causal Sample.midway).map fun st0 =>
      ((readRounds Sample.midway 4 Sample.causal st0).1.map Sample.tag,
        (readRounds Sample.midway 4 Sample.causal st0).2.1.positionsByKey)) =
      .ok ([(10, 0), (20, 1)], [(10, 1), (20, 2)]) :=
  ⟨by decide, by decide, by decide, by decide, by decide⟩

/-! ## Read stream over logs that change -/

theorem pushOldest_eq (self : Bitstream) (opts : ReadOpts) (st : ReadState) (n : InputNode) :
    ∃ self', pushOldest self opts st n = .pushed n self' (st.advance n) := by
  unfold pushOldest
  cases opts.onwait with
  | none => exact ⟨_, rfl⟩
  | some f => exact ⟨_, rfl⟩

/-- The outcomes of a round, whatever the hooks do to the instance. -/
theorem readRound_shape (self : Bitstream) (opts : ReadOpts) (st : ReadState) :
    (∃ e, updateAll self opts st = .error e ∧ readRound self opts st = .failed e) ∨
    (∃ st1, updateAll self opts st = .ok st1 ∧
      findOldestNode (JsMap.values st1.nodesByKey) = none ∧
      (readRound self opts st = .ended st1 ∨ readRound self opts st = .suspended st1)) ∨
    (∃ st1 n, updateAll self opts st = .ok st1 ∧
      findOldestNode (JsMap.values st1.nodesByKey) = some n ∧
      ((∃ self', readRound self opts st = .again self' st1) ∨
        ∃ self', readRound self opts st = .pushed n self' (st1.advance n))) := by
  cases hu : updateAll self opts st with
  | error e => exact Or.inl ⟨e, rfl, by simp [readRound, hu]⟩
  | ok st1 =>
    right
    cases ho : findOldestNode (JsMap.values st1.nodesByKey) with
    | none =>
      left
      refine ⟨st1, rfl, ho, ?_⟩
      simp only [readRound, hu, ho]
      cases opts.live <;> simp
    | some n =>
      right
      refine ⟨st1, n, rfl, ho, ?_⟩
      simp only [readRound, hu, ho]
      cases hun : hasUnsatisfiedInputs n self._inputsByKey with
      | false => exact Or.inr (pushOldest_eq self opts st1 n)
      | true =>
        cases hr : opts.onresolve with
        | none => exact Or.inr (pushOldest_eq self opts st1 n)
        | some f =>
          simp only
          by_cases hres : (f self n).2 = JsValue.boolean false
          · right
            rw [if_neg (by simpa using hres)]
            exact pushOldest_eq _ opts st1 n
          · left
            rw [if_pos hres]
            exact ⟨_, rfl⟩

/-- What a round of a stream over changing logs pushes. -/
theorem readPulls_cons (opts : ReadOpts) (round : List Bitstream × Bitstream)
    (rest : List (List Bitstream × Bitstream)) (st : ReadState) :
    (readPulls opts (round :: rest) st).1 = [] ∨
    ∃ st' st1, updateAlls opts round.1 st = .ok st' ∧ updateAll round.2 opts st' = .ok st1 ∧
      ((readPulls opts (round :: rest) st).1 = (readPulls opts rest st1).1 ∨
        ∃ n, findOldestNode (JsMap.values st1.nodesByKey) = some n ∧
          (readPulls opts (round :: rest) st).1 =
            n :: (readPulls opts rest (st1.advance n)).1) := by
  cases hb : updateAlls opts round.1 st with
  | error e =>
    left
    simp [readPulls, hb]
  | ok st' =>
    rcases readRound_shape round.2 opts st' with ⟨e, _, hr⟩ | ⟨st1, hu, _, hr | hr⟩ |
      ⟨st1, n, hu, ho, ⟨self', hr⟩ | ⟨self', hr⟩⟩
    · left
      simp [readPulls, hb, hr]
    · left
      simp [readPulls, hb, hr]
    · cases rest with
      | nil =>
        left
        simp [readPulls, hb, hr]
      | cons r rest' =>
        right
        exact ⟨st', st1, rfl, hu, Or.inl (by simp only [readPulls, hb, hr])⟩
    · right
      exact ⟨st', st1, rfl, hu, Or.inl (by simp only [readPulls, hb, hr])⟩
    · right
      exact ⟨st', st1, rfl, hu, Or.inr ⟨n, ho, by simp only [readPulls, hb, hr]⟩⟩

theorem wantsLoad_lt (self : Bitstream) (snap : JsMap Nat) (k : Key) (p : Nat)
    (hsnap : (snap.get k).getD 0 ≤ lengthOf self k)
    (h : wantsLoad self snap k p = true) : p < lengthOf self k := by
  unfold wantsLoad at h
  split at h
  · have : p < (snap.get k).getD 0 := by simpa using h
    omega
  · unfold lengthOf
    cases hin : self._inputsByKey.get k with
    | none => simp [hin] at h
    | some input => simpa [hin] using h

theorem wantsLoad_of_lt (self : Bitstream) (snap : JsMap Nat) (k : Key) (p : Nat)
    (hp : p < lengthOf self k)
    (hs : (snap.get k).getD 0 ≠ 0 → p < (snap.get k).getD 0) :
    wantsLoad self snap k p = true := by
  unfold wantsLoad
  split
  · rename_i h0
    simpa using hs h0
  · unfold lengthOf at hp
    cases hin : self._inputsByKey.get k with
    | none => simp [hin] at hp
    | some input => simpa [hin] using hp

theorem wantsLoad_snap (self : Bitstream) (snap : JsMap Nat) (k : Key) (p : Nat)
    (h : wantsLoad self snap k p = true) (hs : (snap.get k).getD 0 ≠ 0) :
    p < (snap.get k).getD 0 := by
  unfold wantsLoad at h
  rw [if_pos hs] at h
  simpa using h

theorem inputKeys_congr (s s' : Bitstream) (opts : ReadOpts) (snap : JsMap Nat)
    (h : JsMap.keys s'._inputsByKey = JsMap.keys s._inputsByKey) :
    inputKeys s' opts snap = inputKeys s opts snap := by
  unfold inputKeys
  rw [h]

theorem tracks_update (opts : ReadOpts) (s s' : Bitstream) (st st1 : ReadState)
    (ht : Tracks opts s st) (hg : Grows s s') (hwf : s'.WF)
    (h : updateAll s' opts st = .ok st1) : Tracks opts s' st1 := by
  obtain ⟨hinv, hvis, hsnap, hpend⟩ := ht
  obtain ⟨hs, p1, p2, _, _, n1, n2, _⟩ := updateAll_spec s' opts st st1 h
  have hinv1 := readInv_update s' hwf opts st st1 hinv h
  have hvis' : ∀ k, k ∈ inputKeys s' opts st.snapshotLengthsByKey ↔
      k ∈ JsMap.keys s'._inputsByKey := by
    intro k
    rw [inputKeys_congr s s' opts _ hg.1, hg.1]
    exact hvis k
  have hsnap' : ∀ k ∈ JsMap.keys s'._inputsByKey,
      (st.snapshotLengthsByKey.get k).getD 0 ≤ lengthOf s' k := by
    intro k hk
    rw [hg.1] at hk
    exact le_trans (hsnap k hk) (hg.2 k hk)
  refine ⟨hinv1, by rw [hs]; exact hvis', by rw [hs]; exact hsnap', ?_⟩
  intro k n hn
  rw [hs]
  obtain ⟨hnk, hnp, _⟩ := hinv1.2 k n hn
  by_cases hc : k ∈ inputKeys s' opts st.snapshotLengthsByKey ∧
      wantsLoad s' st.snapshotLengthsByKey k n.seq = true
  · obtain ⟨v, hl, hv⟩ := n1 k n.seq hc.1 hnp hc.2
    rw [hn] at hv
    cases hv
    exact ⟨hc.2, hl⟩
  · exfalso
    have hkeep : st1.nodesByKey.get k = st.nodesByKey.get k := by
      apply n2
      by_cases hk : k ∈ inputKeys s' opts st.snapshotLengthsByKey
      · right
        intro p hp
        rw [hnp] at hp
        cases hp
        by_contra hw
        exact hc ⟨hk, by simpa using hw⟩
      · exact Or.inl hk
    rw [hkeep] at hn
    obtain ⟨hw, hl⟩ := hpend k n hn
    have hk : k ∈ JsMap.keys s._inputsByKey := by
      by_contra hnot
      rw [(JsMap.get_eq_none_iff _ _).2 hnot] at hl
      simp [loadNode] at hl
    have hlt := wantsLoad_lt s _ k n.seq (hsnap k hk) hw
    apply hc
    refine ⟨(hvis' k).2 (by rw [hg.1]; exact hk), ?_⟩
    apply wantsLoad_of_lt
    · exact lt_of_lt_of_le hlt (hg.2 k hk)
    · intro h0
      exact wantsLoad_snap s _ k n.seq hw h0

theorem tracks_advance (opts : ReadOpts) (s : Bitstream) (st : ReadState) (n : InputNode)
    (ht : Tracks opts s st) : Tracks opts s (st.advance n) := by
  obtain ⟨hinv, hvis, hsnap, hpend⟩ := ht
  refine ⟨readInv_advance st n hinv, hvis, hsnap, ?_⟩
  intro k m hm
  have hk : k ≠ n.key := by
    intro hk
    rw [hk] at hm
    unfold ReadState.advance InputNode.id at hm
    simp only at hm
    rw [JsMap.get_delete_self] at hm
    cases hm
  rw [advance_get_nodes st n k hk] at hm
  exact hpend k m hm

theorem grows_refl (s : Bitstream) : Grows s s :=
  ⟨rfl, fun _ _ => le_refl _⟩

theorem tracks_open (opts : ReadOpts) (s : Bitstream) (hwf : s.WF) (st0 : ReadState)
    (hopen : openReadStream s opts = .ok st0) : Tracks opts s st0 := by
  unfold openReadStream at hopen
  apply tracks_update opts s s _ st0 _ (grows_refl s) hwf hopen
  obtain ⟨hn, _⟩ := maybeSnapshot_maps s opts
    { positionsByKey := opts.checkpoint.getD [], nodesByKey := [], snapshotLengthsByKey := [] }
  refine ⟨⟨by rw [hn]; exact List.nodup_nil, ?_⟩, ?_, ?_, ?_⟩
  · intro k n hkn
    rw [hn] at hkn
    cases hkn
  · cases hlive : opts.live with
    | true =>
      intro k
      simp [inputKeys, hlive]
    | false =>
      exact snapshotted_inputKeys s opts _ (maybeSnapshot_snapshot s hwf opts hlive _ rfl)
  · cases hlive : opts.live with
    | true =>
      intro k _
      have : (maybeSnapshot s opts
          { positionsByKey := opts.checkpoint.getD [], nodesByKey := [],
            snapshotLengthsByKey := [] }).snapshotLengthsByKey = [] := by
        unfold maybeSnapshot
        simp only [hlive, Bool.not_true, Bool.false_eq_true, if_false]
        induction s._inputsByKey with
        | nil => rfl
        | cons a rest ih => simp [ih]
      rw [this]
      simp [JsMap.get]
    | false =>
      intro k _
      have := maybeSnapshot_snapshot s hwf opts hlive
        { positionsByKey := opts.checkpoint.getD [], nodesByKey := [],
          snapshotLengthsByKey := [] } rfl k
      rw [this]
      exact le_refl _
  · intro k n hkn
    rw [hn] at hkn
    cases hkn

theorem steady_sublist {l l' : List Bitstream} (h : Steady l) (hs : l'.Sublist l) :
    Steady l' :=
  ⟨fun s hs' => h.1 s (hs.subset hs'), h.2.sublist hs⟩

theorem steady_cons {s : Bitstream} {l : List Bitstream} (h : Steady (s :: l)) (x : Bitstream)
    (hx : x ∈ l) : Grows s x ∧ NamesNoLater s x :=
  (List.pairwise_cons.1 h.2).1 x hx

theorem updateAlls_tracks (opts : ReadOpts) (bumps : List Bitstream) :
    ∀ (s : Bitstream) (st st' : ReadState), Tracks opts s st → Steady (s :: bumps) →
      updateAlls opts bumps st = .ok st' →
      ∃ s', s' ∈ s :: bumps ∧ Tracks opts s' st' ∧
        st'.snapshotLengthsByKey = st.snapshotLengthsByKey ∧
        ∀ k p, st.positionsByKey.get k = some p → st'.positionsByKey.get k = some p := by
  induction bumps with
  | nil =>
    intro s st st' ht _ h
    simp only [updateAlls] at h
    cases h
    exact ⟨s, List.mem_cons_self _ _, ht, rfl, fun _ _ hp => hp⟩
  | cons b rest ih =>
    intro s st st' ht hsteady h
    unfold updateAlls at h
    cases hu : updateAll b opts st with
    | error e =>
      rw [hu] at h
      cases h
    | ok st1 =>
      rw [hu] at h
      simp only at h
      have hb := steady_cons hsteady b (List.mem_cons_self _ _)
      have ht1 := tracks_update opts s b st st1 ht hb.1
        (hsteady.1 b (List.mem_cons_of_mem _ (List.mem_cons_self _ _))).1 hu
      obtain ⟨s', hs', ht', hsn, hpos⟩ :=
        ih b st1 st' ht1 (steady_sublist hsteady (List.sublist_cons_self _ _)) h
      obtain ⟨hs1, p1, _⟩ := updateAll_spec b opts st st1 hu
      exact ⟨s', List.mem_cons_of_mem _ hs', ht', hsn.trans hs1,
        fun k p hp => hpos k p (p1 k p hp)⟩

theorem statesOf_cons (round : List Bitstream × Bitstream)
    (rest : List (List Bitstream × Bitstream)) :
    statesOf (round :: rest) = round.1 ++ round.2 :: statesOf rest := by
  simp [statesOf]

/-- The state of a stream after the calls of `updateAll()` of a round. -/
theorem round_tracks (opts : ReadOpts) (s : Bitstream) (round : List Bitstream × Bitstream)
    (rest : List (List Bitstream × Bitstream)) (st st' st1 : ReadState)
    (ht : Tracks opts s st) (hsteady : Steady (s :: statesOf (round :: rest)))
    (hb : updateAlls opts round.1 st = .ok st') (hu : updateAll round.2 opts st' = .ok st1) :
    Tracks opts round.2 st1 ∧ Steady (round.2 :: statesOf rest) ∧
      st'.snapshotLengthsByKey = st.snapshotLengthsByKey ∧
      st1.snapshotLengthsByKey = st.snapshotLengthsByKey ∧
      (∀ k p, st.positionsByKey.get k = some p → st1.positionsByKey.get k = some p) ∧
      ∀ k, k ∈ inputKeys round.2 opts st'.snapshotLengthsByKey ↔
        k ∈ JsMap.keys round.2._inputsByKey := by
  rw [statesOf_cons] at hsteady
  have hsub1 : (s :: round.1).Sublist (s :: (round.1 ++ round.2 :: statesOf rest)) :=
    (List.sublist_append_left _ _).cons₂ _
  obtain ⟨s', hs', ht', hsn, hpos⟩ :=
    updateAlls_tracks opts round.1 s st st' ht (steady_sublist hsteady hsub1) hb
  have hrel : Grows s' round.2 := by
    have hp : ((s :: round.1) ++ (round.2 :: statesOf rest)).Pairwise
        (fun s s' => Grows s s' ∧ NamesNoLater s s') := hsteady.2
    rw [List.pairwise_append] at hp
    exact (hp.2.2 s' hs' round.2 (List.mem_cons_self _ _)).1
  have hwf : round.2.WF :=
    (hsteady.1 round.2 (List.mem_cons_of_mem _
      (List.mem_append_right _ (List.mem_cons_self _ _)))).1
  have ht1 := tracks_update opts s' round.2 st' st1 ht' hrel hwf hu
  obtain ⟨hs1, p1, _⟩ := updateAll_spec round.2 opts st' st1 hu
  refine ⟨ht1, ?_, hsn, hs1.trans hsn, fun k p hp => p1 k p (hpos k p hp), ?_⟩
  · apply steady_sublist hsteady
    exact (List.sublist_append_right _ _).cons _
  · rw [← hs1]
    exact ht1.2.1

/-- A node pushed by a stream over changing logs is at or past the recorded position of its
input. -/
theorem readPulls_position_le (opts : ReadOpts) (rounds : List (List Bitstream × Bitstream)) :
    ∀ (s : Bitstream) (st : ReadState), Tracks opts s st → Steady (s :: statesOf rounds) →
      ∀ y ∈ (readPulls opts rounds st).1, ∀ p, st.positionsByKey.get y.key = some p →
        p ≤ y.seq := by
  induction rounds with
  | nil =>
    intro s st _ _ y hy
    simp [readPulls] at hy
  | cons round rest ih =>
    intro s st ht hsteady y hy p hp
    rcases readPulls_cons opts round rest st with h | ⟨st', st1, hb, hu, h | ⟨n, ho, h⟩⟩
    · rw [h] at hy
      cases hy
    · obtain ⟨ht1, hst1, _, _, hpos, _⟩ := round_tracks opts s round rest st st' st1 ht hsteady hb hu
      rw [h] at hy
      exact ih round.2 st1 ht1 hst1 y hy p (hpos _ _ hp)
    · obtain ⟨ht1, hst1, _, _, hpos, _⟩ := round_tracks opts s round rest st st' st1 ht hsteady hb hu
      rw [h] at hy
      have hp1 := hpos _ _ hp
      obtain ⟨hn, _⟩ := findOldestNode_some _ n ho
      obtain ⟨kn, hkn⟩ := (mem_values_iff _ ht1.1.1 _).1 hn
      obtain ⟨hnk, hnp, _⟩ := ht1.1.2 kn n hkn
      subst hnk
      rcases List.mem_cons.1 hy with hy | hy
      · subst hy
        rw [hnp] at hp1
        cases hp1
        exact le_refl _
      · by_cases hk : y.key = n.key
        · have := ih round.2 (st1.advance n) (tracks_advance opts _ st1 n ht1) hst1 y hy
            (n.seq + 1) (by rw [hk]; exact advance_position_self st1 n hnp)
          rw [hk, hnp] at hp1
          cases hp1
          omega
        · exact ih round.2 (st1.advance n) (tracks_advance opts _ st1 n ht1) hst1 y hy p
            (by rw [advance_get_positions st1 n _ hk]; exact hp1)

/-- A node pushed by a stream over changing logs is the node, at its seq, of one of the states
the stream reads, where `updateAll()` loads it. -/
theorem readPulls_loaded (opts : ReadOpts) (rounds : List (List Bitstream × Bitstream)) :
    ∀ (s : Bitstream) (st : ReadState), Tracks opts s st → Steady (s :: statesOf rounds) →
      ∀ y ∈ (readPulls opts rounds st).1, ∃ s' ∈ statesOf rounds,
        wantsLoad s' st.snapshotLengthsByKey y.key y.seq = true ∧
          y.seq < lengthOf s' y.key := by
  induction rounds with
  | nil =>
    intro s st _ _ y hy
    simp [readPulls] at hy
  | cons round rest ih =>
    intro s st ht hsteady y hy
    rw [statesOf_cons]
    rcases readPulls_cons opts round rest st with h | ⟨st', st1, hb, hu, h | ⟨n, ho, h⟩⟩
    · rw [h] at hy
      cases hy
    · obtain ⟨ht1, hst1, _, hs1, _, _⟩ := round_tracks opts s round rest st st' st1 ht hsteady hb hu
      rw [h] at hy
      obtain ⟨s', hs', hw⟩ := ih round.2 st1 ht1 hst1 y hy
      rw [hs1] at hw
      exact ⟨s', List.mem_append_right _ (List.mem_cons_of_mem _ hs'), hw⟩
    · obtain ⟨ht1, hst1, _, hs1, _, _⟩ := round_tracks opts s round rest st st' st1 ht hsteady hb hu
      rw [h] at hy
      rcases List.mem_cons.1 hy with hy | hy
      · subst hy
        obtain ⟨hn, _⟩ := findOldestNode_some _ y ho
        obtain ⟨kn, hkn⟩ := (mem_values_iff _ ht1.1.1 _).1 hn
        obtain ⟨hnk, _, _⟩ := ht1.1.2 kn y hkn
        subst hnk
        obtain ⟨hw, hl⟩ := ht1.2.2.2 y.key y hkn
        have hk : y.key ∈ JsMap.keys round.2._inputsByKey := by
          by_contra hnot
          rw [(JsMap.get_eq_none_iff _ _).2 hnot] at hl
          simp [loadNode] at hl
        refine ⟨round.2, List.mem_append_right _ (List.mem_cons_self _ _), ?_, ?_⟩
        · rw [← hs1]
          exact hw
        · exact wantsLoad_lt _ _ _ _ (ht1.2.2.1 _ hk) hw
      · obtain ⟨s', hs', hw⟩ := ih round.2 (st1.advance n) (tracks_advance opts _ st1 n ht1)
          hst1 y hy
        have : (st1.advance n).snapshotLengthsByKey = st.snapshotLengthsByKey := hs1
        rw [this] at hw
        exact ⟨s', List.mem_append_right _ (List.mem_cons_of_mem _ hs'), hw⟩

theorem lengthOf_pos_mem (self : Bitstream) (k : Key) (p : Nat) (h : p < lengthOf self k) :
    k ∈ JsMap.keys self._inputsByKey := by
  by_contra hnot
  rw [lengthOf_untracked self k hnot] at h
  omega

theorem loadNode_nodeAt (self : Bitstream) (k : Key) (p : Nat) (n : InputNode)
    (h : loadNode (self._inputsByKey.get k) p = .ok (some n)) :
    ∃ input, (k, input) ∈ self._inputsByKey ∧ n ∈ nodeAt input p := by
  unfold loadNode at h
  cases hin : self._inputsByKey.get k with
  | none =>
    rw [hin] at h
    cases h
  | some input =>
    rw [hin] at h
    exact ⟨input, JsMap.mem_of_get _ _ _ hin, nodeAt_of_getInputNodeOf input _ n h⟩

/-- In the order a read stream pushes its nodes over logs that only grow, where no clock
runs ahead of a log that grows later, no node is `lte` an earlier one. -/
theorem readPulls_pairwise (opts : ReadOpts) (rounds : List (List Bitstream × Bitstream)) :
    ∀ (s : Bitstream) (st : ReadState), Tracks opts s st → Steady (s :: statesOf rounds) →
      (readPulls opts rounds st).1.Pairwise (fun x y => y.lte x = false) := by
  induction rounds with
  | nil =>
    intro s st _ _
    simp [readPulls]
  | cons round rest ih =>
    intro s st ht hsteady
    rcases readPulls_cons opts round rest st with h | ⟨st', st1, hb, hu, h | ⟨n, ho, h⟩⟩
    · rw [h]
      exact List.Pairwise.nil
    · obtain ⟨ht1, hst1, _⟩ := round_tracks opts s round rest st st' st1 ht hsteady hb hu
      rw [h]
      exact ih round.2 st1 ht1 hst1
    · obtain ⟨ht1, hst1, hs', hs1, _, hvis⟩ :=
        round_tracks opts s round rest st st' st1 ht hsteady hb hu
      have ht2 := tracks_advance opts _ st1 n ht1
      rw [h, List.pairwise_cons]
      refine ⟨?_, ih round.2 _ ht2 hst1⟩
      intro y hy
      obtain ⟨hn, hold⟩ := findOldestNode_some _ n ho
      obtain ⟨kn, hkn⟩ := (mem_values_iff _ ht1.1.1 _).1 hn
      obtain ⟨hnk, hnp, hnc⟩ := ht1.1.2 kn n hkn
      subst hnk
      rw [lte_eq_false_iff]
      intro v hv
      by_cases hk : y.key = n.key
      · have := readPulls_position_le opts rest round.2 _ ht2 hst1 y hy (n.seq + 1)
          (by rw [hk]; exact advance_position_self st1 n hnp)
        rw [hk, hnc] at hv
        unfold ownEntry at hv
        split at hv
        · cases hv
          omega
        · cases hv
      · by_contra hge
        have hge' : y.seq ≤ v := by omega
        -- the node pushed now is a node of the state of this round
        obtain ⟨hwn, hln⟩ := ht1.2.2.2 n.key n hkn
        have hnlt : n.seq < lengthOf round.2 n.key := by
          apply wantsLoad_lt _ _ _ _ (ht1.2.2.1 _ _) hwn
          by_contra hnot
          rw [(JsMap.get_eq_none_iff _ _).2 hnot] at hln
          simp [loadNode] at hln
        obtain ⟨input, hin, hnode⟩ := loadNode_nodeAt round.2 n.key n.seq n hln
        have hwfr := (hst1.1 round.2 (List.mem_cons_self _ _)).1
        have hget := JsMap.get_of_mem _ hwfr.1 _ _ hin
        have hlen : lengthOf round.2 n.key = input.length := by
          simp [lengthOf, hget]
        -- the later node is a node of a later state
        obtain ⟨s2, hs2, hw2, hlt2⟩ := readPulls_loaded opts rest round.2 _ ht2 hst1 y hy
        have hrel := steady_cons hst1 s2 hs2
        have hyk2 : y.key ∈ JsMap.keys s2._inputsByKey := lengthOf_pos_mem s2 _ _ hlt2
        have hyk : y.key ∈ JsMap.keys round.2._inputsByKey := by
          rw [← hrel.1.1]
          exact hyk2
        have hylt : y.seq < lengthOf round.2 y.key := by
          rcases hrel.2 (n.key, input) hin n.seq (List.mem_range.2 (by rw [← hlen]; exact hnlt))
            n hnode y.key hyk hk v hv with h1 | h1
          · omega
          · omega
        -- so a node of its input is pending in this round
        obtain ⟨p, hp⟩ : ∃ p, st1.positionsByKey.get y.key = some p :=
          (updateAll_spec round.2 opts st' st1 hu).2.2.1 y.key ((hvis y.key).2 hyk)
        have hple : p ≤ y.seq :=
          readPulls_position_le opts rest round.2 _ ht2 hst1 y hy p
            (by rw [advance_get_positions st1 n _ hk]; exact hp)
        have hwp : wantsLoad round.2 st'.snapshotLengthsByKey y.key p = true := by
          apply wantsLoad_of_lt
          · omega
          · intro h0
            have hsnap : (st1.advance n).snapshotLengthsByKey = st'.snapshotLengthsByKey := by
              rw [hs']
              exact hs1
            rw [hsnap] at hw2
            have := wantsLoad_snap s2 _ y.key y.seq hw2 h0
            omega
        obtain ⟨v', hl', hv'⟩ := (updateAll_spec round.2 opts st' st1 hu).2.2.2.2.2.1 y.key p
          ((hvis y.key).2 hyk) hp hwp
        obtain ⟨m, hm⟩ := available_load round.2 (hst1.1 round.2 (List.mem_cons_self _ _)).2
          y.key p hyk (by omega)
        rw [hm] at hl'
        cases hl'
        obtain ⟨hmk, hms, _⟩ := loadNode_some round.2 hwfr y.key p m hm
        have hmem : some m ∈ JsMap.values st1.nodesByKey :=
          (mem_values_iff _ ht1.1.1 _).2 ⟨y.key, hv'⟩
        have hne : m ≠ n := by
          intro h
          rw [h] at hmk
          exact hk hmk.symm
        have := (lte_eq_false_iff m n).1 (hold m hmem hne) v (by rw [hmk]; exact hv)
        omega

/-- C4 (counterexample): a live read stream is opened on A (empty) and B, whose node b0
carries the clock `{A: 0}`, and pushes b0; then a0 is appended to A, the stream is bumped and
pushes a0.  The tracked inputs are the same throughout and every block is available, and
`a0.lte(b0)` holds, but a0 is pushed after b0. -/
theorem read_stream_late_cause_pushed_after :
    JsMap.keys Sample.forwardLater._inputsByKey = JsMap.keys Sample.forward._inputsByKey ∧
    Available Sample.forward ∧ Available Sample.forwardLater ∧
    ((openReadStream Sample.forward Sample.liveOpts).map fun st0 =>
      (readPulls Sample.liveOpts Sample.forwardRounds st0).1) =
      .ok [Sample.node 20 0 [(10, 0)], Sample.node 10 0 []] ∧
    (Sample.node 10 0 []).lte (Sample.node 20 0 [(10, 0)]) = true := by
  decide

/-- C4 (amended): a read stream, live or not, over tracked inputs that stay the same and only
grow while it runs, whose blocks are all available and where every entry of a clock for
another tracked input names a node that is already in its log, or an input to which nothing
is appended any more, pushes oldest-causal-first: of two distinct pushed nodes A and B with
`A.lte(B)`, A is pushed before B. -/
theorem read_stream_oldest_first (opts : ReadOpts) (self : Bitstream)
    (rounds : List (List Bitstream × Bitstream)) (hsteady : Steady (self :: statesOf rounds))
    (st0 : ReadState) (hopen : openReadStream self opts = .ok st0) (A B : InputNode)
    (hA : A ∈ (readPulls opts rounds st0).1) (hB : B ∈ (readPulls opts rounds st0).1)
    (hne : A ≠ B) (hlte : A.lte B = true) :
    ∃ l1 l2 l3, (readPulls opts rounds st0).1 = l1 ++ A :: l2 ++ B :: l3 := by
  have hp := readPulls_pairwise opts rounds self st0
    (tracks_open opts self (hsteady.1 self (List.mem_cons_self _ _)).1 st0 hopen) hsteady
  exact pairwise_order _ _ hp B A hB hA (fun h => hne h.symm) (by simp [hlte])

/-- C4 (witness): a live read stream on the logs of the test 'causal writes' pushes a0, b0,
b1; then a1 is appended and pushed.  `a0.lte(a1)` holds and a0 is pushed before a1. -/
theorem read_stream_oldest_first_witness :
    Steady (Sample.causal :: statesOf Sample.causalRounds) ∧
    openReadStream Sample.causal Sample.liveOpts = .ok Sample.causalLive ∧
    Sample.node 10 0 [] ∈ (readPulls Sample.liveOpts Sample.causalRounds Sample.causalLive).1 ∧
    Sample.node 10 1 [(10, 0)] ∈
      (readPulls Sample.liveOpts Sample.causalRounds Sample.causalLive).1 ∧
    Sample.node 10 0 [] ≠ Sample.node 10 1 [(10, 0)] ∧
    (Sample.node 10 0 []).lte (Sample.node 10 1 [(10, 0)]) = true ∧
    ∃ l1 l2 l3, (readPulls Sample.liveOpts Sample.causalRounds Sample.causalLive).1 =
      l1 ++ Sample.node 10 0 [] :: l2 ++ Sample.node 10 1 [(10, 0)] :: l3 :=
  ⟨by decide, by decide, by decide, by decide, by decide, by decide,
    read_stream_oldest_first Sample.liveOpts Sample.causal Sample.causalRounds (by decide)
      Sample.causalLive (by decide) (Sample.node 10 0 []) (Sample.node 10 1 [(10, 0)])
      (by decide) (by decide) (by decide) (by decide)⟩

/-- C5 (counterexample): A (key 10) holds a0, a1 and B (key 20) holds b0, b1, b2, where b1 and
b2 were written with the clock `{A: 0}`.  The read stream pushes a0, b0, a1, b1, b2; for the
consecutive pair (a1, b1) `a1.lte(b1)` is false, and the clock of b1 has an entry for the id
of a1 (the entry 0, below the seq of a1). -/
theorem read_order_pair_not_lte_but_named :
    ((openReadStream Sample.crossed Sample.plain).map fun st =>
      (readPulls Sample.plain Sample.crossedRounds st).1) =
      .ok [Sample.node 10 0 [], Sample.node 20 0 [], Sample.node 10 1 [(10, 0)],
        Sample.node 20 1 [(10, 0), (20, 0)], Sample.node 20 2 [(10, 0), (20, 1)]] ∧
    (Sample.node 10 1 [(10, 0)]).lte (Sample.node 20 1 [(10, 0), (20, 0)]) = false ∧
    (Sample.node 20 1 [(10, 0), (20, 0)]).clock.get (Sample.node 10 1 [(10, 0)]).id = some 0 := by
  decide

/-- C5 (amended): in the sequence of nodes pushed by a read stream, live or not, over tracked
inputs that stay the same and only grow while it runs, whose blocks are all available and
where every entry of a clock for another tracked input names a node that is already in its
log, or an input to which nothing is appended any more, no consecutive pair (n1, n2) is
causally inverted: `n2.lte(n1)` is false. -/
theorem read_stream_pairs_not_inverted (opts : ReadOpts) (self : Bitstream)
    (rounds : List (List Bitstream × Bitstream)) (hsteady : Steady (self :: statesOf rounds))
    (st0 : ReadState) (hopen : openReadStream self opts = .ok st0) :
    List.Chain' (fun n1 n2 => n2.lte n1 = false) (readPulls opts rounds st0).1 :=
  (readPulls_pairwise opts rounds self st0
    (tracks_open opts self (hsteady.1 self (List.mem_cons_self _ _)).1 st0 hopen)
    hsteady).chain'

/-- C5 (witness): the amended statement on the logs `Sample.crossed`. -/
theorem read_stream_pairs_not_inverted_witness :
    Steady (Sample.crossed :: statesOf Sample.crossedRounds) ∧
    openReadStream Sample.crossed Sample.plain = .ok Sample.crossedOpen ∧
    List.Chain' (fun n1 n2 => n2.lte n1 = false)
      (readPulls Sample.plain Sample.crossedRounds Sample.crossedOpen).1 :=
  ⟨by decide, by decide,
    read_stream_pairs_not_inverted Sample.plain Sample.crossed Sample.crossedRounds (by decide)
      Sample.crossedOpen (by decide)⟩

/-! ## Membership: validation, commits and versions -/

theorem validateInput_ok_iff (input : Unichain) :
    Bitstream._validateInput input = .ok () ↔ input.Binary := by
  unfold Bitstream._validateInput Unichain.Binary
  cases h : input.valueEncoding with
  | none => simp
  | some enc => cases enc <;> simp

theorem validateInput_error_iff (input : Unichain) :
    Bitstream._validateInput input = .error Error.notBinary ↔ ¬ input.Binary := by
  unfold Bitstream._validateInput Unichain.Binary
  cases h : input.valueEncoding with
  | none => simp
  | some enc => cases enc <;> simp

namespace MemberBatch

theorem applyOp_opening (bitstream bitstream' : Bitstream) (op : MemberOp)
    (h : applyOp bitstream op = .ok bitstream') :
    bitstream'._opening = bitstream._opening ∧ bitstream'.opened = bitstream.opened ∧
      bitstream'.closed = bitstream.closed := by
  cases op with
  | ADD_INPUT chain =>
    simp only [applyOp, Bitstream._addInput] at h
    split at h
    · cases h
    · split at h <;> cases h <;> exact ⟨rfl, rfl, rfl⟩
  | ADD_OUTPUT chain =>
    simp only [applyOp, Bitstream._addOutput] at h
    split at h <;> cases h <;> exact ⟨rfl, rfl, rfl⟩
  | REMOVE_INPUT chain =>
    simp only [applyOp, Bitstream._removeInput] at h
    split at h <;> cases h <;> exact ⟨rfl, rfl, rfl⟩
  | REMOVE_OUTPUT chain =>
    simp only [applyOp, Bitstream._removeOutput] at h
    split at h <;> cases h <;> exact ⟨rfl, rfl, rfl⟩

theorem applyOps_opening (ops : List MemberOp) (bitstream : Bitstream) :
    (applyOps bitstream ops).1._opening = bitstream._opening ∧
      (applyOps bitstream ops).1.opened = bitstream.opened ∧
      (applyOps bitstream ops).1.closed = bitstream.closed := by
  induction ops generalizing bitstream with
  | nil => exact ⟨rfl, rfl, rfl⟩
  | cons op rest ih =>
    unfold applyOps
    cases hop : applyOp bitstream op with
    | error e => exact ⟨rfl, rfl, rfl⟩
    | ok bitstream' =>
      simp only
      obtain ⟨h1, h2, h3⟩ := applyOp_opening bitstream bitstream' op hop
      obtain ⟨i1, i2, i3⟩ := ih bitstream'
      exact ⟨i1.trans h1, i2.trans h2, i3.trans h3⟩

/-- What a commit does on an instance that opened: it is refused as out of date and changes
nothing, or it raises the version by one and then succeeds or stops at a rejected input. -/
theorem commit_cases (batch : MemberBatch) (bitstream : Bitstream)
    (hr : bitstream.ready = .ok ()) :
    (batch.batchId ≠ bitstream._batchId ∧
        commit batch bitstream = (bitstream, some Error.outOfDate)) ∨
    (batch.batchId = bitstream._batchId ∧
      (commit batch bitstream).1._batchId = bitstream._batchId + 1 ∧
      ((commit batch bitstream).2 = none ∨ (commit batch bitstream).2 = some Error.notBinary)) := by
  by_cases hb : batch.batchId = bitstream._batchId
  · right
    have hc : commit batch bitstream =
        applyOps { bitstream with _batchId := bitstream._batchId + 1 } batch._ops := by
      unfold commit
      rw [hr]
      simp [hb]
    rw [hc]
    refine ⟨hb, applyOps_batchId _ _, ?_⟩
    cases he : (applyOps { bitstream with _batchId := bitstream._batchId + 1 } batch._ops).2 with
    | none => exact Or.inl rfl
    | some e =>
      right
      rw [(applyOps_error _ _ e he).1]
  · left
    refine ⟨hb, ?_⟩
    unfold commit
    rw [hr]
    simp [hb]

theorem commit_ready (batch : MemberBatch) (bitstream : Bitstream) :
    (commit batch bitstream).1.ready = bitstream.ready := by
  have : (commit batch bitstream).1._opening = bitstream._opening := by
    unfold commit
    split
    · rfl
    · split
      · rfl
      · exact (applyOps_opening _ _).1
  unfold Bitstream.ready
  rw [this]

end MemberBatch

theorem commitAll_append (self : Bitstream) (l : List MemberBatch) (o : MemberBatch) :
    self.commitAll (l ++ [o]) = (o.commit (self.commitAll l)).1 := by
  simp [Bitstream.commitAll, List.foldl_append]

theorem commitAll_ready (self : Bitstream) (l : List MemberBatch) :
    (self.commitAll l).ready = self.ready := by
  induction l using List.reverseRecOn with
  | nil => rfl
  | append_singleton l o ih => rw [commitAll_append, MemberBatch.commit_ready, ih]

/-- The version after a run of commits: it never decreases, and it is unchanged exactly when
none of the commits got past the version check. -/
theorem commitAll_batchId (self : Bitstream) (hr : self.ready = .ok ()) (l : List MemberBatch) :
    self._batchId ≤ (self.commitAll l)._batchId ∧
    (self._batchId < (self.commitAll l)._batchId ↔
      ∃ pre o post, l = pre ++ o :: post ∧
        ((o.commit (self.commitAll pre)).2 = none ∨
          (o.commit (self.commitAll pre)).2 = some Error.notBinary)) := by
  induction l using List.reverseRecOn with
  | nil =>
    refine ⟨Nat.le_refl _, ?_⟩
    constructor
    · intro h
      exact absurd h (Nat.lt_irrefl _)
    · rintro ⟨pre, o, post, h, _⟩
      simp at h
  | append_singleton l o ih =>
    obtain ⟨hle, hiff⟩ := ih
    have hr' : (self.commitAll l).ready = .ok () := by rw [commitAll_ready, hr]
    rw [commitAll_append]
    have key : ∀ P : Prop, (P ↔ ((o.commit (self.commitAll l)).2 = none ∨
          (o.commit (self.commitAll l)).2 = some Error.notBinary)) →
        (self._batchId < (self.commitAll l)._batchId ∨ P ↔
          ∃ pre o' post, l ++ [o] = pre ++ o' :: post ∧
            ((o'.commit (self.commitAll pre)).2 = none ∨
              (o'.commit (self.commitAll pre)).2 = some Error.notBinary)) := by
      intro P hP
      constructor
      · rintro (h | h)
        · obtain ⟨pre, o', post, hl, ho⟩ := hiff.1 h
          exact ⟨pre, o', post ++ [o], by simp [hl], ho⟩
        · exact ⟨l, o, [], by simp, hP.1 h⟩
      · rintro ⟨pre, o', post, hl, ho⟩
        rcases List.eq_nil_or_concat post with hpost | ⟨post', x, hpost⟩
        · subst hpost
          have := List.append_inj' hl (by simp)
          obtain ⟨h1, h2⟩ := this
          simp only [List.cons.injEq, and_true] at h2
          subst h1 h2
          exact Or.inr (hP.2 ho)
        · subst hpost
          have hl' : l ++ [o] = (pre ++ o' :: post') ++ [x] := by simp [hl]
          have := List.append_inj' hl' (by simp)
          exact Or.inl (hiff.2 ⟨pre, o', post', this.1, ho⟩)
    rcases MemberBatch.commit_cases o (self.commitAll l) hr' with ⟨hne, hc⟩ | ⟨heq, hv, hres⟩
    · rw [hc]
      refine ⟨hle, ?_⟩
      have := key False (by rw [hc]; simp)
      simpa using this
    · refine ⟨by omega, ?_⟩
      have := key True (by simp [hres])
      constructor
      · intro _
        exact this.1 (Or.inr trivial)
      · intro _
        omega

/-! ## Membership batches: optimistic concurrency -/

/-- C11 (counterexample): two batches are created on the same instance; the commit of the
first is rejected for its `utf-8` input, so no batch has been committed, yet the commit of the
second fails as out of date. -/
theorem commit_out_of_date_after_rejected :
    Sample.outputBatch.batchId = Sample.fresh._batchId ∧
    (Sample.utf8Batch.commit Sample.fresh).2 = some Error.notBinary ∧
    (Sample.utf8Batch.commit Sample.fresh).1._inputsByKey = Sample.fresh._inputsByKey ∧
    (Sample.utf8Batch.commit Sample.fresh).1._outputsByKey = Sample.fresh._outputsByKey ∧
    (Sample.outputBatch.commit (Sample.utf8Batch.commit Sample.fresh).1).2 =
      some Error.outOfDate := by
  decide

/-- C11 (amended): on an instance that opened, the commit of a batch created at the state
`self` fails with the out-of-date error if and only if, between its creation and its commit,
the commit of some other batch got past the version check, that is succeeded or stopped at a
rejected input; on that failure the instance is unchanged; every successful commit raises the
version by exactly one; and of two batches created at the same version, once one has committed
the other never commits. -/
theorem commit_out_of_date_iff (self : Bitstream) (hr : self.ready = .ok ())
    (batch : MemberBatch) (hb : batch.batchId = self._batchId) (others : List MemberBatch) :
    ((batch.commit (self.commitAll others)).2 = some Error.outOfDate ↔
      ∃ pre o post, others = pre ++ o :: post ∧
        ((o.commit (self.commitAll pre)).2 = none ∨
          (o.commit (self.commitAll pre)).2 = some Error.notBinary)) ∧
    ((batch.commit (self.commitAll others)).2 = some Error.outOfDate →
      (batch.commit (self.commitAll others)).1 = self.commitAll others) ∧
    (∀ (b : MemberBatch) (s : Bitstream), (b.commit s).2 = none →
      (b.commit s).1._batchId = s._batchId + 1) ∧
    (∀ (b1 b2 : MemberBatch) (s : Bitstream) (more : List MemberBatch),
      b1.batchId = b2.batchId → (b1.commit s).2 = none →
        (b2.commit ((b1.commit s).1.commitAll more)).2 ≠ none) := by
  have hr' : (self.commitAll others).ready = .ok () := by rw [commitAll_ready, hr]
  obtain ⟨hle, hiff⟩ := commitAll_batchId self hr others
  have hsucc : ∀ (b : MemberBatch) (s : Bitstream), (b.commit s).2 = none →
      s.ready = .ok () ∧ b.batchId = s._batchId ∧ (b.commit s).1._batchId = s._batchId + 1 := by
    intro b s h
    by_cases hs : s.ready ≠ .ok () ∨ b.batchId ≠ s._batchId
    · exact absurd h (MemberBatch.commit_stale b s hs).2
    · simp only [not_or, not_not] at hs
      rcases MemberBatch.commit_cases b s hs.1 with ⟨hne, _⟩ | ⟨_, hv, _⟩
      · exact absurd hs.2 hne
      · exact ⟨hs.1, hs.2, hv⟩
  refine ⟨?_, ?_, fun b s h => (hsucc b s h).2.2, ?_⟩
  · rw [← hiff]
    rcases MemberBatch.commit_cases batch (self.commitAll others) hr' with
      ⟨hne, hc⟩ | ⟨heq, _, hres⟩
    · rw [hc]
      simp only [true_iff]
      rw [hb] at hne
      omega
    · constructor
      · intro h
        rcases hres with h' | h' <;> rw [h'] at h <;> cases h
      · intro h
        rw [hb] at heq
        omega
  · intro h
    rcases MemberBatch.commit_cases batch (self.commitAll others) hr' with
      ⟨_, hc⟩ | ⟨_, _, hres⟩
    · rw [hc]
    · rcases hres with h' | h' <;> rw [h'] at h <;> cases h
  · intro b1 b2 s more h12 h1
    obtain ⟨hrs, hb1, hv1⟩ := hsucc b1 s h1
    have hr1 : (b1.commit s).1.ready = .ok () := by rw [MemberBatch.commit_ready, hrs]
    have hmono := (commitAll_batchId (b1.commit s).1 hr1 more).1
    apply (MemberBatch.commit_stale b2 _ _).2
    right
    omega

/-- C11 (witness): the batch that adds an output, created on the fresh instance, whose commit
comes after the rejected commit of the batch that adds a `utf-8` input. -/
theorem commit_out_of_date_iff_witness :
    Sample.fresh.ready = .ok () ∧ Sample.outputBatch.batchId = Sample.fresh._batchId ∧
    (((Sample.outputBatch.commit (Sample.fresh.commitAll [Sample.utf8Batch])).2 =
        some Error.outOfDate ↔
      ∃ pre o post, [Sample.utf8Batch] = pre ++ o :: post ∧
        ((o.commit (Sample.fresh.commitAll pre)).2 = none ∨
          (o.commit (Sample.fresh.commitAll pre)).2 = some Error.notBinary)) ∧
    ((Sample.outputBatch.commit (Sample.fresh.commitAll [Sample.utf8Batch])).2 =
        some Error.outOfDate →
      (Sample.outputBatch.commit (Sample.fresh.commitAll [Sample.utf8Batch])).1 =
        Sample.fresh.commitAll [Sample.utf8Batch]) ∧
    (∀ (b : MemberBatch) (s : Bitstream), (b.commit s).2 = none →
      (b.commit s).1._batchId = s._batchId + 1) ∧
    (∀ (b1 b2 : MemberBatch) (s : Bitstream) (more : List MemberBatch),
      b1.batchId = b2.batchId → (b1.commit s).2 = none →
        (b2.commit ((b1.commit s).1.commitAll more)).2 ≠ none)) :=
  ⟨by decide, by decide,
    commit_out_of_date_iff Sample.fresh (by decide) Sample.outputBatch (by decide)
      [Sample.utf8Batch]⟩

/-! ## Membership batches: operations in submission order -/

theorem JsMap.delete_of_not_has {α : Type} (m : JsMap α) (k : Key) (h : m.has k = false) :
    JsMap.delete m k = m := by
  have hk : k ∉ JsMap.keys m := by
    rw [← JsMap.has_eq_true_iff, h]
    simp
  unfold JsMap.delete
  rw [List.filter_eq_self]
  intro e he
  simp only [ne_eq, decide_eq_true_eq]
  intro hek
  exact hk (hek ▸ List.mem_map_of_mem Prod.fst he)

theorem JsMap.set_of_not_has {α : Type} (m : JsMap α) (k : Key) (v : α) (h : m.has k = false) :
    JsMap.set m k v = m ++ [(k, v)] := by
  unfold JsMap.set
  rw [h]
  rfl

theorem JsMap.has_iff_mem_keys {α : Type} (m : JsMap α) (k : Key) :
    m.has k = false ↔ k ∉ JsMap.keys m := by
  rw [← JsMap.has_eq_true_iff]
  simp

/-- One operation of a batch does to the tracked inputs and outputs what `MemberOp.effect`
says. -/
theorem applyOp_effect (bitstream bitstream' : Bitstream) (op : MemberOp)
    (h : MemberBatch.applyOp bitstream op = .ok bitstream') :
    (bitstream'._inputsByKey, bitstream'._outputsByKey) =
      MemberOp.effect (bitstream._inputsByKey, bitstream._outputsByKey) op := by
  cases op with
  | ADD_INPUT chain =>
    simp only [MemberBatch.applyOp, Bitstream._addInput] at h
    split at h
    · cases h
    · by_cases hh : bitstream._inputsByKey.has chain.key = true
      · rw [if_pos hh] at h
        cases h
        simp only [MemberOp.effect]
        rw [if_pos ((JsMap.has_eq_true_iff _ _).1 hh)]
      · rw [if_neg hh] at h
        cases h
        simp only [Bool.not_eq_true] at hh
        simp only [MemberOp.effect]
        rw [if_neg ((JsMap.has_iff_mem_keys _ _).1 hh), JsMap.set_of_not_has _ _ _ hh]
  | ADD_OUTPUT chain =>
    simp only [MemberBatch.applyOp, Bitstream._addOutput] at h
    by_cases hh : bitstream._outputsByKey.has chain.key = true
    · rw [if_pos hh] at h
      cases h
      simp only [MemberOp.effect]
      rw [if_pos ((JsMap.has_eq_true_iff _ _).1 hh)]
    · rw [if_neg hh] at h
      cases h
      simp only [Bool.not_eq_true] at hh
      simp only [MemberOp.effect]
      rw [if_neg ((JsMap.has_iff_mem_keys _ _).1 hh), JsMap.set_of_not_has _ _ _ hh]
  | REMOVE_INPUT key =>
    simp only [MemberBatch.applyOp, Bitstream._removeInput] at h
    by_cases hh : bitstream._inputsByKey.has key = true
    · simp only [hh, Bool.not_true, Bool.false_eq_true, if_false, Except.ok.injEq] at h
      subst h
      rfl
    · simp only [Bool.not_eq_true] at hh
      simp only [hh, Bool.not_false, if_true, Except.ok.injEq] at h
      subst h
      simp only [MemberOp.effect]
      have := JsMap.delete_of_not_has _ _ hh
      unfold JsMap.delete at this
      rw [this]
  | REMOVE_OUTPUT key =>
    simp only [MemberBatch.applyOp, Bitstream._removeOutput] at h
    by_cases hh : bitstream._outputsByKey.has key = true
    · simp only [hh, Bool.not_true, Bool.false_eq_true, if_false, Except.ok.injEq] at h
      subst h
      rfl
    · simp only [Bool.not_eq_true] at hh
      simp only [hh, Bool.not_false, if_true, Except.ok.injEq] at h
      subst h
      simp only [MemberOp.effect]
      have := JsMap.delete_of_not_has _ _ hh
      unfold JsMap.delete at this
      rw [this]

theorem applyOps_effect (ops : List MemberOp) (bitstream : Bitstream)
    (h : (MemberBatch.applyOps bitstream ops).2 = none) :
    ((MemberBatch.applyOps bitstream ops).1._inputsByKey,
        (MemberBatch.applyOps bitstream ops).1._outputsByKey) =
      ops.foldl MemberOp.effect (bitstream._inputsByKey, bitstream._outputsByKey) := by
  induction ops generalizing bitstream with
  | nil => rfl
  | cons op rest ih =>
    unfold MemberBatch.applyOps at h ⊢
    cases hop : MemberBatch.applyOp bitstream op with
    | error e =>
      rw [hop] at h
      cases h
    | ok bitstream' =>
      rw [hop] at h
      simp only at h ⊢
      rw [ih bitstream' h, List.foldl_cons, applyOp_effect bitstream bitstream' op hop]

/-- A commit that succeeds is the run of its operations on the instance with the version
raised. -/
theorem commit_success (batch : MemberBatch) (bitstream : Bitstream)
    (h : (batch.commit bitstream).2 = none) :
    bitstream.ready = .ok () ∧ batch.batchId = bitstream._batchId ∧
      batch.commit bitstream =
        MemberBatch.applyOps { bitstream with _batchId := bitstream._batchId + 1 } batch._ops := by
  by_cases hs : bitstream.ready ≠ .ok () ∨ batch.batchId ≠ bitstream._batchId
  · exact absurd h (MemberBatch.commit_stale batch bitstream hs).2
  · simp only [not_or, not_not] at hs
    refine ⟨hs.1, hs.2, ?_⟩
    unfold MemberBatch.commit
    rw [hs.1]
    simp [hs.2]

/-- The commit of a batch created on the instance, when the instance opened. -/
theorem commit_created (bitstream : Bitstream) (hr : bitstream.ready = .ok ())
    (ops : List MemberOp) :
    MemberBatch.commit { batchId := bitstream._batchId, _ops := ops } bitstream =
      MemberBatch.applyOps { bitstream with _batchId := bitstream._batchId + 1 } ops := by
  unfold MemberBatch.commit
  rw [hr]
  simp

/-- C12: a commit that succeeds leaves the tracked inputs and outputs that the left fold of its
operations, in submission order, gives from those before the commit; on an instance where a
batch can commit, the batch that adds X and then removes X leaves X untracked, and the batch
that removes X and then adds X leaves X tracked. -/
theorem commit_in_submission_order (batch : MemberBatch) (bitstream : Bitstream)
    (h : (batch.commit bitstream).2 = none) (X : Unichain) (hX : X.Binary) :
    ((batch.commit bitstream).1._inputsByKey, (batch.commit bitstream).1._outputsByKey) =
      batch._ops.foldl MemberOp.effect (bitstream._inputsByKey, bitstream._outputsByKey) ∧
    ((((MemberBatch.create bitstream).addInput X).removeInput X.key).commit bitstream).2 = none ∧
    ((((MemberBatch.create bitstream).addInput X).removeInput X.key).commit
      bitstream).1._inputsByKey.has X.key = false ∧
    ((((MemberBatch.create bitstream).removeInput X.key).addInput X).commit bitstream).2 = none ∧
    ((((MemberBatch.create bitstream).removeInput X.key).addInput X).commit
      bitstream).1._inputsByKey.get X.key = some X := by
  obtain ⟨hr, _, hc⟩ := commit_success batch bitstream h
  have hv := (validateInput_ok_iff X).2 hX
  refine ⟨?_, ?_⟩
  · rw [hc] at h ⊢
    exact applyOps_effect _ _ h
  · have h1 := commit_created bitstream hr [MemberOp.ADD_INPUT X, MemberOp.REMOVE_INPUT X.key]
    have h2 := commit_created bitstream hr [MemberOp.REMOVE_INPUT X.key, MemberOp.ADD_INPUT X]
    have e1 : ((MemberBatch.create bitstream).addInput X).removeInput X.key =
        { batchId := bitstream._batchId,
          _ops := [MemberOp.ADD_INPUT X, MemberOp.REMOVE_INPUT X.key] } := rfl
    have e2 : ((MemberBatch.create bitstream).removeInput X.key).addInput X =
        { batchId := bitstream._batchId,
          _ops := [MemberOp.REMOVE_INPUT X.key, MemberOp.ADD_INPUT X] } := rfl
    rw [e1, e2, h1, h2]
    have a1 : ∀ s : Bitstream, ∃ s', MemberBatch.applyOp s (MemberOp.ADD_INPUT X) = .ok s' ∧
        s'._inputsByKey.get X.key = (s._inputsByKey.get X.key).orElse (fun _ => some X) := by
      intro s
      simp only [MemberBatch.applyOp, Bitstream._addInput, hv]
      by_cases hh : s._inputsByKey.has X.key = true
      · rw [if_pos hh]
        refine ⟨s, rfl, ?_⟩
        unfold JsMap.has at hh
        obtain ⟨v, hv'⟩ := Option.isSome_iff_exists.1 hh
        rw [hv']
        rfl
      · rw [if_neg hh]
        refine ⟨_, rfl, ?_⟩
        simp only [JsMap.get_set_self]
        simp only [Bool.not_eq_true] at hh
        rw [(JsMap.get_eq_none_iff _ _).2 ((JsMap.has_iff_mem_keys _ _).1 hh)]
        rfl
    have r1 : ∀ s : Bitstream, ∃ s', MemberBatch.applyOp s (MemberOp.REMOVE_INPUT X.key) = .ok s' ∧
        s'._inputsByKey.get X.key = none := by
      intro s
      simp only [MemberBatch.applyOp, Bitstream._removeInput]
      by_cases hh : s._inputsByKey.has X.key = true
      · refine ⟨_, rfl, ?_⟩
        simp only [hh, Bool.not_true, Bool.false_eq_true, if_false]
        exact JsMap.get_delete_self _ _
      · refine ⟨_, rfl, ?_⟩
        simp only [Bool.not_eq_true] at hh
        simp only [hh, Bool.not_false, if_true]
        exact (JsMap.get_eq_none_iff _ _).2 ((JsMap.has_iff_mem_keys _ _).1 hh)
    obtain ⟨s1, hs1, _⟩ := a1 { bitstream with _batchId := bitstream._batchId + 1 }
    obtain ⟨s2, hs2, hg2⟩ := r1 s1
    obtain ⟨s3, hs3, hg3⟩ := r1 { bitstream with _batchId := bitstream._batchId + 1 }
    obtain ⟨s4, hs4, hg4⟩ := a1 s3
    simp only [MemberBatch.applyOps, hs1, hs2, hs3, hs4]
    refine ⟨trivial, ?_, trivial, ?_⟩
    · unfold JsMap.has
      rw [hg2]
      rfl
    · rw [hg4, hg3]
      rfl

/-- C12 (witness): on the fresh instance, with the batch that adds the output 7 and the log
X with key 10. -/
theorem commit_in_submission_order_witness :
    (Sample.outputBatch.commit Sample.fresh).2 = none ∧ (Sample.chain 10 []).Binary ∧
    (((Sample.outputBatch.commit Sample.fresh).1._inputsByKey,
        (Sample.outputBatch.commit Sample.fresh).1._outputsByKey) =
      Sample.outputBatch._ops.foldl MemberOp.effect
        (Sample.fresh._inputsByKey, Sample.fresh._outputsByKey) ∧
    ((((MemberBatch.create Sample.fresh).addInput (Sample.chain 10 [])).removeInput
      (Sample.chain 10 []).key).commit Sample.fresh).2 = none ∧
    ((((MemberBatch.create Sample.fresh).addInput (Sample.chain 10 [])).removeInput
      (Sample.chain 10 []).key).commit Sample.fresh).1._inputsByKey.has
        (Sample.chain 10 []).key = false ∧
    ((((MemberBatch.create Sample.fresh).removeInput (Sample.chain 10 []).key).addInput
      (Sample.chain 10 [])).commit Sample.fresh).2 = none ∧
    ((((MemberBatch.create Sample.fresh).removeInput (Sample.chain 10 []).key).addInput
      (Sample.chain 10 [])).commit Sample.fresh).1._inputsByKey.get (Sample.chain 10 []).key =
        some (Sample.chain 10 [])) :=
  ⟨by decide, by decide,
    commit_in_submission_order Sample.outputBatch Sample.fresh (by decide) (Sample.chain 10 [])
      (by decide)⟩

/-! ## Membership: duplicate adds, removes of untracked logs, rejected inputs -/

/-- What `addInput` does to the tracked inputs and which error it gives, on an instance that
opened. -/
theorem addInput_cases (self : Bitstream) (hr : self.ready = .ok ()) (input : Unichain) :
    (¬ input.Binary ∧ (self.addInput input).2 = some Error.notBinary ∧
        (self.addInput input).1._inputsByKey = self._inputsByKey) ∨
    (input.Binary ∧ (self.addInput input).2 = none ∧
      (self.addInput input).1._inputsByKey =
        (if self._inputsByKey.has input.key then self._inputsByKey
         else JsMap.set self._inputsByKey input.key input)) := by
  have hc : self.addInput input =
      MemberBatch.applyOps { self with _batchId := self._batchId + 1 }
        [MemberOp.ADD_INPUT input] := commit_created self hr _
  rw [hc]
  by_cases hb : input.Binary
  · right
    have hv := (validateInput_ok_iff input).2 hb
    refine ⟨hb, ?_⟩
    simp only [MemberBatch.applyOps, MemberBatch.applyOp, Bitstream._addInput, hv]
    by_cases hh : self._inputsByKey.has input.key = true
    · simp [hh, MemberBatch.applyOps]
    · simp [hh, MemberBatch.applyOps]
  · left
    have hv := (validateInput_error_iff input).2 hb
    refine ⟨hb, ?_⟩
    simp [MemberBatch.applyOps, MemberBatch.applyOp, Bitstream._addInput, hv]

/-- A commit on an instance that did not open changes nothing. -/
theorem commitAll_not_ready (self : Bitstream) (hr : self.ready ≠ .ok ())
    (l : List MemberBatch) : self.commitAll l = self := by
  induction l using List.reverseRecOn with
  | nil => rfl
  | append_singleton l o ih =>
    rw [commitAll_append, ih]
    exact (MemberBatch.commit_stale o self (Or.inl hr)).1

theorem addInput_not_ready (self : Bitstream) (hr : self.ready ≠ .ok ()) (input : Unichain) :
    (self.addInput input).1 = self :=
  (MemberBatch.commit_stale _ self (Or.inl hr)).1

/-- The tracked inputs after `addInput`, in every case. -/
theorem addInput_inputs (self : Bitstream) (input : Unichain) :
    (self.addInput input).1._inputsByKey = self._inputsByKey ∨
    (self._inputsByKey.has input.key = false ∧
      (self.addInput input).1.ready = .ok () ∧
      (self.addInput input).1._inputsByKey = JsMap.set self._inputsByKey input.key input) := by
  by_cases hr : self.ready = .ok ()
  · have hr' : (self.addInput input).1.ready = .ok () := by
      unfold Bitstream.addInput
      rw [MemberBatch.commit_ready, hr]
    rcases addInput_cases self hr input with ⟨_, _, h⟩ | ⟨_, _, h⟩
    · exact Or.inl h
    · by_cases hh : self._inputsByKey.has input.key = true
      · rw [if_pos hh] at h
        exact Or.inl h
      · rw [if_neg hh] at h
        simp only [Bool.not_eq_true] at hh
        exact Or.inr ⟨hh, hr', h⟩
  · left
    rw [addInput_not_ready self hr]

theorem openInputs_eq (inputs : List Unichain) (self : Bitstream) :
    Bitstream._openInputs self inputs =
      MemberBatch.applyOps self (inputs.map MemberOp.ADD_INPUT) := by
  induction inputs generalizing self with
  | nil => rfl
  | cons input rest ih =>
    simp only [Bitstream._openInputs, List.map_cons, MemberBatch.applyOps, MemberBatch.applyOp]
    cases h : self._addInput input with
    | error e => rfl
    | ok self' => exact ih self'

/-- The loop of `_open()` over inputs that are all accepted. -/
theorem openInputs_binary (inputs : List Unichain) (self : Bitstream)
    (h : ∀ i ∈ inputs, i.Binary) : (Bitstream._openInputs self inputs).2 = none := by
  induction inputs generalizing self with
  | nil => rfl
  | cons input rest ih =>
    have hv := (validateInput_ok_iff input).2 (h input (List.mem_cons_self _ _))
    simp only [Bitstream._openInputs]
    cases ha : self._addInput input with
    | error e =>
      simp only [Bitstream._addInput, hv] at ha
      split at ha <;> cases ha
    | ok self' => exact ih self' (fun i hi => h i (List.mem_cons_of_mem _ hi))

/-- The loop of `_open()` stops with the non-binary error at the first input that is not
accepted, and only there. -/
theorem openInputs_error (inputs : List Unichain) (self : Bitstream) (e : Error)
    (h : (Bitstream._openInputs self inputs).2 = some e) :
    e = Error.notBinary ∧ ∃ i ∈ inputs, ¬ i.Binary := by
  rw [openInputs_eq] at h
  obtain ⟨he, pre, chain, post, hops, hv, _⟩ := MemberBatch.applyOps_error _ _ e h
  refine ⟨he, chain, ?_, (validateInput_error_iff chain).1 hv⟩
  have : MemberOp.ADD_INPUT chain ∈ inputs.map MemberOp.ADD_INPUT := by
    rw [hops]
    simp
  obtain ⟨i, hi, hic⟩ := List.mem_map.1 this
  cases hic
  exact hi

/-- Every input `_addInput` leaves tracked was tracked before or is accepted. -/
theorem applyOps_binary (ops : List MemberOp) (self : Bitstream)
    (h : ∀ e ∈ self._inputsByKey, e.2.Binary) :
    ∀ e ∈ (MemberBatch.applyOps self ops).1._inputsByKey, e.2.Binary := by
  induction ops generalizing self with
  | nil => exact h
  | cons op rest ih =>
    unfold MemberBatch.applyOps
    cases hop : MemberBatch.applyOp self op with
    | error e => exact h
    | ok self' =>
      simp only
      apply ih
      cases op with
      | ADD_INPUT chain =>
        simp only [MemberBatch.applyOp, Bitstream._addInput] at hop
        cases hv : Bitstream._validateInput chain with
        | error e =>
          rw [hv] at hop
          cases hop
        | ok u =>
          rw [hv] at hop
          simp only at hop
          split at hop
          · cases hop
            exact h
          · rename_i hh
            cases hop
            simp only [Bool.not_eq_true] at hh
            simp only [JsMap.set_of_not_has _ _ _ hh]
            intro e he
            rcases List.mem_append.1 he with he | he
            · exact h e he
            · simp only [List.mem_singleton] at he
              subst he
              exact (validateInput_ok_iff chain).1 hv
      | ADD_OUTPUT chain =>
        simp only [MemberBatch.applyOp, Bitstream._addOutput] at hop
        split at hop <;> cases hop <;> exact h
      | REMOVE_INPUT key =>
        simp only [MemberBatch.applyOp, Bitstream._removeInput] at hop
        split at hop
        · cases hop
          exact h
        · cases hop
          intro e he
          exact h e (List.mem_of_mem_filter he)
      | REMOVE_OUTPUT key =>
        simp only [MemberBatch.applyOp, Bitstream._removeOutput] at hop
        split at hop <;> cases hop <;> exact h

theorem foldl_addOutput_fields (outputs : List Unichain) (self : Bitstream) :
    (outputs.foldl Bitstream._addOutput self)._inputsByKey = self._inputsByKey ∧
      (outputs.foldl Bitstream._addOutput self)._opening = self._opening ∧
      (outputs.foldl Bitstream._addOutput self).appendListeners = self.appendListeners ∧
      (outputs.foldl Bitstream._addOutput self).closed = self.closed := by
  induction outputs generalizing self with
  | nil => exact ⟨rfl, rfl, rfl, rfl⟩
  | cons o rest ih =>
    simp only [List.foldl_cons]
    obtain ⟨h1, h2, h3, h4⟩ := ih (self._addOutput o)
    have : (self._addOutput o)._inputsByKey = self._inputsByKey ∧
        (self._addOutput o)._opening = self._opening ∧
        (self._addOutput o).appendListeners = self.appendListeners ∧
        (self._addOutput o).closed = self.closed := by
      unfold Bitstream._addOutput
      by_cases hh : self._outputsByKey.has o.key = true
      · simp [hh]
      · simp [hh]
    exact ⟨h1.trans this.1, h2.trans this.2.1, h3.trans this.2.2.1, h4.trans this.2.2.2⟩

/-- The outcome of the construction: the instance opens exactly when every input is
accepted; otherwise `_opening` is rejected with the non-binary error. -/
theorem create_cases (inputs outputs : List Unichain) :
    ((∀ i ∈ inputs, i.Binary) ∧ (Bitstream.create inputs outputs).opened = true ∧
        (Bitstream.create inputs outputs).ready = .ok () ∧
        (Bitstream.create inputs outputs)._inputsByKey =
          (Bitstream._openInputs Bitstream.initial inputs).1._inputsByKey) ∨
    ((∃ i ∈ inputs, ¬ i.Binary) ∧ (Bitstream.create inputs outputs).opened = false ∧
      (Bitstream.create inputs outputs).ready = .error Error.notBinary ∧
      (Bitstream.create inputs outputs)._inputsByKey =
        (Bitstream._openInputs Bitstream.initial inputs).1._inputsByKey) := by
  unfold Bitstream.create Bitstream._open
  cases h : (Bitstream._openInputs Bitstream.initial inputs) with
  | mk s oe =>
    have hopen : s.opened = false ∧ s._opening = none := by
      have := MemberBatch.applyOps_opening (inputs.map MemberOp.ADD_INPUT) Bitstream.initial
      rw [← openInputs_eq, h] at this
      exact ⟨this.2.1, this.1⟩
    cases oe with
    | none =>
      left
      have hall : ∀ i ∈ inputs, i.Binary := by
        intro i hi
        by_contra hb
        have hv := (validateInput_error_iff i).2 hb
        have key : ∀ (l : List Unichain) (t : Bitstream), i ∈ l →
            (Bitstream._openInputs t l).2 ≠ none := by
          intro l
          induction l with
          | nil => intro t hi; cases hi
          | cons a rest ih =>
            intro t hi
            simp only [Bitstream._openInputs]
            cases ha : t._addInput a with
            | error e => simp
            | ok t' =>
              simp only
              rcases List.mem_cons.1 hi with rfl | hi'
              · simp [Bitstream._addInput, hv] at ha
              · exact ih t' hi'
        exact key inputs Bitstream.initial hi (by rw [h])
      simp only
      refine ⟨hall, trivial, ?_, ?_⟩
      · unfold Bitstream.ready
        simp only
        rw [(foldl_addOutput_fields outputs s).2.1, hopen.2]
      · exact (foldl_addOutput_fields outputs s).1
    | some e =>
      right
      obtain ⟨he, hex⟩ := openInputs_error inputs Bitstream.initial e (by rw [h])
      subst he
      exact ⟨hex, hopen.1, rfl, rfl⟩

/-- The tracked outputs after `addOutput` of a key that is tracked, and the tracked inputs and
outputs after the removal of a key that is not. -/
theorem noop_calls (self : Bitstream) (chain : Unichain) (key : Key) :
    (self._outputsByKey.has chain.key = true →
      (self.addOutput chain).1._outputsByKey = self._outputsByKey) ∧
    (self._inputsByKey.has key = false →
      (self.removeInput key).1._inputsByKey = self._inputsByKey) ∧
    (self._outputsByKey.has key = false →
      (self.removeOutput key).1._outputsByKey = self._outputsByKey) := by
  by_cases hr : self.ready = .ok ()
  · refine ⟨?_, ?_, ?_⟩
    · intro hh
      have hc : self.addOutput chain =
          MemberBatch.applyOps { self with _batchId := self._batchId + 1 }
            [MemberOp.ADD_OUTPUT chain] := commit_created self hr _
      rw [hc]
      simp [MemberBatch.applyOps, MemberBatch.applyOp, Bitstream._addOutput, hh]
    · intro hh
      have hc : self.removeInput key =
          MemberBatch.applyOps { self with _batchId := self._batchId + 1 }
            [MemberOp.REMOVE_INPUT key] := commit_created self hr _
      rw [hc]
      simp [MemberBatch.applyOps, MemberBatch.applyOp, Bitstream._removeInput, hh]
    · intro hh
      have hc : self.removeOutput key =
          MemberBatch.applyOps { self with _batchId := self._batchId + 1 }
            [MemberOp.REMOVE_OUTPUT key] := commit_created self hr _
      rw [hc]
      simp [MemberBatch.applyOps, MemberBatch.applyOp, Bitstream._removeOutput, hh]
  · refine ⟨fun _ => ?_, fun _ => ?_, fun _ => ?_⟩
    · unfold Bitstream.addOutput
      rw [(MemberBatch.commit_stale _ self (Or.inl hr)).1]
    · unfold Bitstream.removeInput
      rw [(MemberBatch.commit_stale _ self (Or.inl hr)).1]
    · unfold Bitstream.removeOutput
      rw [(MemberBatch.commit_stale _ self (Or.inl hr)).1]

/-- C13: `addInput` and `addOutput` of a key that is tracked, and `removeInput` and
`removeOutput` of a key that is not, leave the tracked collection as it is, members and order;
a second `addInput` of the same log changes nothing; and an instance constructed with the
inputs `[A, A, B, B]` tracks A and B, once each. -/
theorem duplicate_add_is_noop (self : Bitstream) (chain : Unichain) (key : Key)
    (A B : Unichain) (outputs : List Unichain) (hA : A.Binary) (hB : B.Binary)
    (hne : A.key ≠ B.key) :
    (self._inputsByKey.has chain.key = true →
      (self.addInput chain).1._inputsByKey = self._inputsByKey) ∧
    (self._outputsByKey.has chain.key = true →
      (self.addOutput chain).1._outputsByKey = self._outputsByKey) ∧
    (self._inputsByKey.has key = false →
      (self.removeInput key).1._inputsByKey = self._inputsByKey) ∧
    (self._outputsByKey.has key = false →
      (self.removeOutput key).1._outputsByKey = self._outputsByKey) ∧
    ((self.addInput chain).1.addInput chain).1._inputsByKey =
      (self.addInput chain).1._inputsByKey ∧
    (Bitstream.create [A, A, B, B] outputs).inputs = [A, B] := by
  obtain ⟨n1, n2, n3⟩ := noop_calls self chain key
  refine ⟨?_, n1, n2, n3, ?_, ?_⟩
  · intro hh
    rcases addInput_inputs self chain with h | ⟨hf, _⟩
    · exact h
    · rw [hh] at hf
      cases hf
  · by_cases hr : self.ready = .ok ()
    · have hr' : (self.addInput chain).1.ready = .ok () := by
        unfold Bitstream.addInput
        rw [MemberBatch.commit_ready, hr]
      rcases addInput_cases self hr chain with ⟨hb, _, _⟩ | ⟨hb, _, h1⟩
      · rcases addInput_cases _ hr' chain with ⟨_, _, h2⟩ | ⟨hb', _, _⟩
        · exact h2
        · exact absurd hb' hb
      · rcases addInput_cases _ hr' chain with ⟨hb', _, _⟩ | ⟨_, _, h2⟩
        · exact absurd hb hb'
        · rw [h2, if_pos]
          rw [h1]
          by_cases hh : self._inputsByKey.has chain.key = true
          · rw [if_pos hh]
            exact hh
          · rw [if_neg hh]
            unfold JsMap.has
            rw [JsMap.get_set_self]
            rfl
    · rw [addInput_not_ready self hr, addInput_not_ready self hr]
  · have hvA := (validateInput_ok_iff A).2 hA
    have hvB := (validateInput_ok_iff B).2 hB
    have hAll : ∀ i ∈ [A, A, B, B], i.Binary := by
      intro i hi
      simp only [List.mem_cons, List.mem_singleton, List.not_mem_nil, or_false] at hi
      rcases hi with rfl | rfl | rfl | rfl <;> assumption
    have hin : (Bitstream.create [A, A, B, B] outputs)._inputsByKey =
        (Bitstream._openInputs Bitstream.initial [A, A, B, B]).1._inputsByKey := by
      rcases create_cases [A, A, B, B] outputs with ⟨_, _, _, h⟩ | ⟨_, _, _, h⟩ <;> exact h
    unfold Bitstream.inputs
    rw [hin]
    have hne' : ¬ B.key = A.key := fun h => hne h.symm
    simp [Bitstream._openInputs, Bitstream._addInput, hvA, hvB, Bitstream.initial, JsMap.has,
      JsMap.get, JsMap.set, JsMap.values, hne, hne']

/-- C13 (witness): on the instance of the test 'causal writes', with the tracked key 10 and
the untracked key 99, and the construction with the inputs `[A, A, B, B]`. -/
theorem duplicate_add_is_noop_witness :
    (Sample.chain 10 []).Binary ∧ (Sample.chain 20 []).Binary ∧
    (Sample.chain 10 []).key ≠ (Sample.chain 20 []).key ∧
    Sample.causal._inputsByKey.has (Sample.chain 10 []).key = true ∧
    Sample.causal._inputsByKey.has 99 = false ∧
    ((Sample.causal._inputsByKey.has (Sample.chain 10 []).key = true →
      (Sample.causal.addInput (Sample.chain 10 [])).1._inputsByKey =
        Sample.causal._inputsByKey) ∧
    (Sample.causal._outputsByKey.has (Sample.chain 10 []).key = true →
      (Sample.causal.addOutput (Sample.chain 10 [])).1._outputsByKey =
        Sample.causal._outputsByKey) ∧
    (Sample.causal._inputsByKey.has 99 = false →
      (Sample.causal.removeInput 99).1._inputsByKey = Sample.causal._inputsByKey) ∧
    (Sample.causal._outputsByKey.has 99 = false →
      (Sample.causal.removeOutput 99).1._outputsByKey = Sample.causal._outputsByKey) ∧
    ((Sample.causal.addInput (Sample.chain 10 [])).1.addInput
        (Sample.chain 10 [])).1._inputsByKey =
      (Sample.causal.addInput (Sample.chain 10 [])).1._inputsByKey ∧
    (Bitstream.create [Sample.chain 10 [], Sample.chain 10 [], Sample.chain 20 [],
        Sample.chain 20 []] []).inputs = [Sample.chain 10 [], Sample.chain 20 []]) :=
  ⟨by decide, by decide, by decide, by decide, by decide,
    duplicate_add_is_noop Sample.causal (Sample.chain 10 []) 99 (Sample.chain 10 [])
      (Sample.chain 20 []) [] (by decide) (by decide) (by decide)⟩

/-- The test 'adding duplicate inputs is a no-op': constructed with `[A, A, B, B]`, or with
`[A, B]` and then `addInput(A)` and `addInput(B)`, an instance tracks two inputs. -/
theorem duplicate_inputs_test :
    (Bitstream.create [Sample.chain 10 [], Sample.chain 10 [], Sample.chain 20 [],
      Sample.chain 20 []] []).inputs.length = 2 ∧
    (((Bitstream.create [Sample.chain 10 [], Sample.chain 20 []] []).addInput
      (Sample.chain 10 [])).1.addInput (Sample.chain 20 [])).1.inputs.length = 2 := by
  decide

/-- C14: an input is rejected exactly when it declares a value encoding other than the binary
one.  `addInput` on an instance that opened fails with the non-binary error exactly for such
an input, and then the tracked inputs are as before; any other input is accepted and tracked.
An instance constructed with inputs opens exactly when all of them are accepted; otherwise
`ready()` is rejected with the non-binary error, `opened` is false and stays false whatever is
committed afterwards.  No tracked input is ever a rejected one. -/
theorem input_rejected_iff_not_binary (input : Unichain) (self : Bitstream)
    (hr : self.ready = .ok ()) (inputs outputs : List Unichain) :
    (Bitstream._validateInput input = .error Error.notBinary ↔ ¬ input.Binary) ∧
    (Bitstream._validateInput input = .ok () ↔ input.Binary) ∧
    ((self.addInput input).2 = some Error.notBinary ↔ ¬ input.Binary) ∧
    (¬ input.Binary → (self.addInput input).1._inputsByKey = self._inputsByKey) ∧
    (input.Binary → (self.addInput input).2 = none ∧
      (self.addInput input).1._inputsByKey.has input.key = true) ∧
    ((Bitstream.create inputs outputs).opened = true ↔ ∀ i ∈ inputs, i.Binary) ∧
    ((∃ i ∈ inputs, ¬ i.Binary) →
      (Bitstream.create inputs outputs).ready = .error Error.notBinary ∧
      ∀ batches, ((Bitstream.create inputs outputs).commitAll batches).opened = false) ∧
    (∀ e ∈ (Bitstream.create inputs outputs)._inputsByKey, e.2.Binary) := by
  refine ⟨validateInput_error_iff input, validateInput_ok_iff input, ?_, ?_, ?_, ?_, ?_, ?_⟩
  · rcases addInput_cases self hr input with ⟨hb, he, _⟩ | ⟨hb, he, _⟩
    · simp [he, hb]
    · simp [he, hb]
  · intro hb
    rcases addInput_cases self hr input with ⟨_, _, h⟩ | ⟨hb', _, _⟩
    · exact h
    · exact absurd hb' hb
  · intro hb
    rcases addInput_cases self hr input with ⟨hb', _, _⟩ | ⟨_, he, h⟩
    · exact absurd hb hb'
    · refine ⟨he, ?_⟩
      rw [h]
      by_cases hh : self._inputsByKey.has input.key = true
      · rw [if_pos hh]
        exact hh
      · rw [if_neg hh]
        unfold JsMap.has
        rw [JsMap.get_set_self]
        rfl
  · rcases create_cases inputs outputs with ⟨hall, ho, _, _⟩ | ⟨⟨i, hi, hb⟩, ho, _, _⟩
    · exact ⟨fun _ => hall, fun _ => ho⟩
    · rw [ho]
      constructor
      · intro h
        cases h
      · intro h
        exact absurd (h i hi) hb
  · rintro ⟨i, hi, hb⟩
    rcases create_cases inputs outputs with ⟨hall, _, _, _⟩ | ⟨_, ho, hre, _⟩
    · exact absurd (hall i hi) hb
    · refine ⟨hre, ?_⟩
      intro batches
      rw [commitAll_not_ready _ (by rw [hre]; simp)]
      exact ho
  · have hin : (Bitstream.create inputs outputs)._inputsByKey =
        (Bitstream._openInputs Bitstream.initial inputs).1._inputsByKey := by
      rcases create_cases inputs outputs with ⟨_, _, _, h⟩ | ⟨_, _, _, h⟩ <;> exact h
    rw [hin, openInputs_eq]
    apply applyOps_binary
    intro e he
    cases he

/-- C14 (witness): `addInput` of a `utf-8` log on the fresh instance, and the construction
with that log as only input. -/
theorem input_rejected_iff_not_binary_witness :
    Sample.fresh.ready = .ok () ∧
    ((Bitstream._validateInput (Sample.utf8Chain 8) = .error Error.notBinary ↔
      ¬ (Sample.utf8Chain 8).Binary) ∧
    (Bitstream._validateInput (Sample.utf8Chain 8) = .ok () ↔ (Sample.utf8Chain 8).Binary) ∧
    ((Sample.fresh.addInput (Sample.utf8Chain 8)).2 = some Error.notBinary ↔
      ¬ (Sample.utf8Chain 8).Binary) ∧
    (¬ (Sample.utf8Chain 8).Binary →
      (Sample.fresh.addInput (Sample.utf8Chain 8)).1._inputsByKey = Sample.fresh._inputsByKey) ∧
    ((Sample.utf8Chain 8).Binary → (Sample.fresh.addInput (Sample.utf8Chain 8)).2 = none ∧
      (Sample.fresh.addInput (Sample.utf8Chain 8)).1._inputsByKey.has
        (Sample.utf8Chain 8).key = true) ∧
    ((Bitstream.create [Sample.utf8Chain 8] []).opened = true ↔
      ∀ i ∈ [Sample.utf8Chain 8], i.Binary) ∧
    ((∃ i ∈ [Sample.utf8Chain 8], ¬ i.Binary) →
      (Bitstream.create [Sample.utf8Chain 8] []).ready = .error Error.notBinary ∧
      ∀ batches, ((Bitstream.create [Sample.utf8Chain 8] []).commitAll batches).opened =
        false) ∧
    (∀ e ∈ (Bitstream.create [Sample.utf8Chain 8] [])._inputsByKey, e.2.Binary)) :=
  ⟨by decide,
    input_rejected_iff_not_binary (Sample.utf8Chain 8) Sample.fresh (by decide)
      [Sample.utf8Chain 8] []⟩

/-- The tests of `src/test/validation.js`: a `utf-8` or `json` input makes `ready()` fail with
the non-binary error, at construction and through `addInput`; a log without encoding is
accepted. -/
theorem validation_tests :
    (Bitstream.create [Sample.utf8Chain 8] []).ready = .error Error.notBinary ∧
    (Bitstream.create [{ Sample.utf8Chain 8 with valueEncoding := some Encoding.json }]
      []).ready = .error Error.notBinary ∧
    (Bitstream.create [Sample.chain 8 []] []).ready = .ok () ∧
    ((Bitstream.create [] []).addInput (Sample.utf8Chain 8)).2 = some Error.notBinary ∧
    ((Bitstream.create [] []).addInput
      { Sample.utf8Chain 8 with valueEncoding := some Encoding.json }).2 =
        some Error.notBinary ∧
    ((Bitstream.create [] []).addInput (Sample.chain 8 [])).2 = none := by
  decide

/-! ## Listeners -/

theorem registered_add (m : JsMap Unichain) (l : List Key) (c : Unichain)
    (h : Registered m l) (hh : m.has c.key = false) :
    Registered (JsMap.set m c.key c) (l ++ [c.key]) := by
  obtain ⟨hwf, hkey, hcount⟩ := h
  refine ⟨JsMap.wf_set m _ _ hwf, ?_, ?_⟩
  · rw [JsMap.set_of_not_has _ _ _ hh]
    intro e he
    rcases List.mem_append.1 he with he | he
    · exact hkey e he
    · simp only [List.mem_singleton] at he
      subst he
      rfl
  · intro k
    rw [List.count_append, hcount k, List.count_singleton]
    by_cases hk : c.key = k
    · subst hk
      have : (JsMap.set m c.key c).has c.key = true := by
        unfold JsMap.has
        rw [JsMap.get_set_self]
        rfl
      simp [this, hh]
    · have : (JsMap.set m c.key c).has k = m.has k := by
        unfold JsMap.has
        rw [JsMap.get_set_other _ _ _ _ (fun h => hk h.symm)]
      simp [this, hk]

theorem registered_remove (m : JsMap Unichain) (l : List Key) (key : Key)
    (h : Registered m l) : Registered (JsMap.delete m key) (l.erase key) := by
  obtain ⟨hwf, hkey, hcount⟩ := h
  refine ⟨JsMap.wf_delete m _ hwf, ?_, ?_⟩
  · intro e he
    exact hkey e (List.mem_of_mem_filter he)
  · intro k
    by_cases hk : k = key
    · subst hk
      have : (JsMap.delete m k).has k = false := by
        unfold JsMap.has
        rw [JsMap.get_delete_self]
        rfl
      rw [List.count_erase_self, hcount k, this]
      split <;> rfl
    · have : (JsMap.delete m key).has k = m.has k := by
        unfold JsMap.has
        rw [JsMap.get_delete_other _ _ _ hk]
      rw [List.count_erase_of_ne hk, hcount k, this]

theorem foldl_erase_count (ks : List Key) (hnd : ks.Nodup) (l : List Key) (k : Key) :
    (ks.foldl (fun l a => l.erase a) l).count k = l.count k - if k ∈ ks then 1 else 0 := by
  induction ks generalizing l with
  | nil => simp
  | cons a rest ih =>
    rw [List.nodup_cons] at hnd
    rw [List.foldl_cons, ih hnd.2]
    by_cases hk : k = a
    · subst hk
      rw [List.count_erase_self]
      simp [hnd.1]
    · rw [List.count_erase_of_ne hk]
      simp [hk]

/-- Taking the listener off every tracked log leaves no registration. -/
theorem registered_close (m : JsMap Unichain) (l : List Key) (h : Registered m l) (k : Key) :
    ((JsMap.values m).foldl (fun l log => l.erase log.key) l).count k = 0 := by
  obtain ⟨hwf, hkey, hcount⟩ := h
  have hkeys : (JsMap.values m).map Unichain.key = JsMap.keys m := by
    unfold JsMap.values JsMap.keys
    rw [List.map_map]
    apply List.map_congr_left
    intro e he
    exact hkey e he
  have := foldl_erase_count (JsMap.keys m) hwf l k
  rw [← hkeys, List.foldl_map] at this
  rw [this, hcount k]
  by_cases hh : m.has k = true
  · have hm := (JsMap.has_eq_true_iff m k).1 hh
    rw [← hkeys] at hm
    simp [hh, hm]
  · simp [hh]

/-- The tracked inputs and outputs of an instance, each with its listeners. -/
theorem registered_applyOp (s s' : Bitstream) (op : MemberOp)
    (h : MemberBatch.applyOp s op = .ok s')
    (hi : Registered s._inputsByKey s.appendListeners)
    (ho : Registered s._outputsByKey s.truncateListeners) :
    Registered s'._inputsByKey s'.appendListeners ∧
      Registered s'._outputsByKey s'.truncateListeners := by
  cases op with
  | ADD_INPUT chain =>
    simp only [MemberBatch.applyOp, Bitstream._addInput] at h
    split at h
    · cases h
    · by_cases hh : s._inputsByKey.has chain.key = true
      · rw [if_pos hh] at h
        cases h
        exact ⟨hi, ho⟩
      · rw [if_neg hh] at h
        cases h
        simp only [Bool.not_eq_true] at hh
        exact ⟨registered_add _ _ chain hi hh, ho⟩
  | ADD_OUTPUT chain =>
    simp only [MemberBatch.applyOp, Bitstream._addOutput] at h
    by_cases hh : s._outputsByKey.has chain.key = true
    · rw [if_pos hh] at h
      cases h
      exact ⟨hi, ho⟩
    · rw [if_neg hh] at h
      cases h
      simp only [Bool.not_eq_true] at hh
      exact ⟨hi, registered_add _ _ chain ho hh⟩
  | REMOVE_INPUT key =>
    simp only [MemberBatch.applyOp, Bitstream._removeInput] at h
    by_cases hh : s._inputsByKey.has key = true
    · simp only [hh, Bool.not_true, Bool.false_eq_true, if_false, Except.ok.injEq] at h
      subst h
      exact ⟨registered_remove _ _ key hi, ho⟩
    · simp only [Bool.not_eq_true] at hh
      simp only [hh, Bool.not_false, if_true, Except.ok.injEq] at h
      subst h
      exact ⟨hi, ho⟩
  | REMOVE_OUTPUT key =>
    simp only [MemberBatch.applyOp, Bitstream._removeOutput] at h
    by_cases hh : s._outputsByKey.has key = true
    · simp only [hh, Bool.not_true, Bool.false_eq_true, if_false, Except.ok.injEq] at h
      subst h
      exact ⟨hi, registered_remove _ _ key ho⟩
    · simp only [Bool.not_eq_true] at hh
      simp only [hh, Bool.not_false, if_true, Except.ok.injEq] at h
      subst h
      exact ⟨hi, ho⟩

theorem registered_applyOps (ops : List MemberOp) (s : Bitstream)
    (hi : Registered s._inputsByKey s.appendListeners)
    (ho : Registered s._outputsByKey s.truncateListeners) :
    Registered (MemberBatch.applyOps s ops).1._inputsByKey
        (MemberBatch.applyOps s ops).1.appendListeners ∧
      Registered (MemberBatch.applyOps s ops).1._outputsByKey
        (MemberBatch.applyOps s ops).1.truncateListeners := by
  induction ops generalizing s with
  | nil => exact ⟨hi, ho⟩
  | cons op rest ih =>
    unfold MemberBatch.applyOps
    cases hop : MemberBatch.applyOp s op with
    | error e => exact ⟨hi, ho⟩
    | ok s' =>
      simp only
      obtain ⟨hi', ho'⟩ := registered_applyOp s s' op hop hi ho
      exact ih s' hi' ho'

theorem registered_commit (batch : MemberBatch) (s : Bitstream)
    (hi : Registered s._inputsByKey s.appendListeners)
    (ho : Registered s._outputsByKey s.truncateListeners) :
    Registered (batch.commit s).1._inputsByKey (batch.commit s).1.appendListeners ∧
      Registered (batch.commit s).1._outputsByKey (batch.commit s).1.truncateListeners ∧
      (batch.commit s).1.closed = s.closed := by
  unfold MemberBatch.commit
  split
  · exact ⟨hi, ho, rfl⟩
  · split
    · exact ⟨hi, ho, rfl⟩
    · obtain ⟨h1, h2⟩ := registered_applyOps batch._ops
        { s with _batchId := s._batchId + 1 } hi ho
      exact ⟨h1, h2, (MemberBatch.applyOps_opening _ _).2.2⟩

theorem registered_commitAll (l : List MemberBatch) (s : Bitstream)
    (hi : Registered s._inputsByKey s.appendListeners)
    (ho : Registered s._outputsByKey s.truncateListeners) :
    Registered (s.commitAll l)._inputsByKey (s.commitAll l).appendListeners ∧
      Registered (s.commitAll l)._outputsByKey (s.commitAll l).truncateListeners ∧
      (s.commitAll l).closed = s.closed := by
  induction l using List.reverseRecOn with
  | nil => exact ⟨hi, ho, rfl⟩
  | append_singleton l o ih =>
    rw [commitAll_append]
    obtain ⟨h1, h2, h3⟩ := registered_commit o _ ih.1 ih.2.1
    exact ⟨h1, h2, h3.trans ih.2.2⟩

theorem foldl_addOutput_eq (outputs : List Unichain) (s : Bitstream) :
    (outputs.foldl Bitstream._addOutput s, none) =
      MemberBatch.applyOps s (outputs.map MemberOp.ADD_OUTPUT) := by
  induction outputs generalizing s with
  | nil => rfl
  | cons o rest ih =>
    simp only [List.foldl_cons, List.map_cons, MemberBatch.applyOps, MemberBatch.applyOp]
    exact ih _

theorem registered_create (inputs outputs : List Unichain) :
    Registered (Bitstream.create inputs outputs)._inputsByKey
        (Bitstream.create inputs outputs).appendListeners ∧
      Registered (Bitstream.create inputs outputs)._outputsByKey
        (Bitstream.create inputs outputs).truncateListeners ∧
      (Bitstream.create inputs outputs).closed = false := by
  have h0 : Registered Bitstream.initial._inputsByKey Bitstream.initial.appendListeners ∧
      Registered Bitstream.initial._outputsByKey Bitstream.initial.truncateListeners := by
    have : Registered ([] : JsMap Unichain) [] := by
      simp [Registered, JsMap.WF, JsMap.keys, ListenersFollow, JsMap.has, JsMap.get]
    exact ⟨this, this⟩
  obtain ⟨h1, h2⟩ := registered_applyOps (inputs.map MemberOp.ADD_INPUT) Bitstream.initial
    h0.1 h0.2
  have hc1 := (MemberBatch.applyOps_opening (inputs.map MemberOp.ADD_INPUT)
    Bitstream.initial).2.2
  rw [← openInputs_eq] at h1 h2 hc1
  unfold Bitstream.create Bitstream._open
  cases h : Bitstream._openInputs Bitstream.initial inputs with
  | mk s oe =>
    rw [h] at h1 h2 hc1
    cases oe with
    | some e => exact ⟨h1, h2, hc1⟩
    | none =>
      obtain ⟨h3, h4⟩ := registered_applyOps (outputs.map MemberOp.ADD_OUTPUT) s h1 h2
      have hc2 := (MemberBatch.applyOps_opening (outputs.map MemberOp.ADD_OUTPUT) s).2.2
      rw [← foldl_addOutput_eq] at h3 h4 hc2
      exact ⟨h3, h4, hc2.trans hc1⟩

/-- C20: in every state reached from the construction by commits of batches (those of
`addInput`, `addOutput`, `removeInput` and `removeOutput` among them), a log carries the append
listener of the instance once when it is a tracked input and not at all otherwise, and the
truncate listener once when it is a tracked output and not at all otherwise; after `close()`
no log carries a listener of the instance, the membership being as before; and a second
`close()` changes nothing. -/
theorem listeners_follow_membership (inputs outputs : List Unichain)
    (batches : List MemberBatch) :
    ListenersFollow ((Bitstream.create inputs outputs).commitAll batches)._inputsByKey
      ((Bitstream.create inputs outputs).commitAll batches).appendListeners ∧
    ListenersFollow ((Bitstream.create inputs outputs).commitAll batches)._outputsByKey
      ((Bitstream.create inputs outputs).commitAll batches).truncateListeners ∧
    (∀ k, ((Bitstream.create inputs outputs).commitAll batches).close.appendListeners.count k =
        0 ∧
      ((Bitstream.create inputs outputs).commitAll batches).close.truncateListeners.count k =
        0) ∧
    ((Bitstream.create inputs outputs).commitAll batches).close._inputsByKey =
      ((Bitstream.create inputs outputs).commitAll batches)._inputsByKey ∧
    ((Bitstream.create inputs outputs).commitAll batches).close._outputsByKey =
      ((Bitstream.create inputs outputs).commitAll batches)._outputsByKey ∧
    ((Bitstream.create inputs outputs).commitAll batches).close.close =
      ((Bitstream.create inputs outputs).commitAll batches).close := by
  obtain ⟨c1, c2, c3⟩ := registered_create inputs outputs
  obtain ⟨h1, h2, h3⟩ := registered_commitAll batches _ c1 c2
  rw [c3] at h3
  generalize (Bitstream.create inputs outputs).commitAll batches = s at h1 h2 h3
  have hclose : s.close =
      { s with
        appendListeners :=
          s.inputs.foldl (fun l input => l.erase input.key) s.appendListeners
        truncateListeners :=
          s.outputs.foldl (fun l output => l.erase output.key) s.truncateListeners
        closed := true } := by
    unfold Bitstream.close
    rw [h3]
    rfl
  refine ⟨h1.2.2, h2.2.2, ?_, ?_, ?_, ?_⟩
  · intro k
    rw [hclose]
    exact ⟨registered_close _ _ h1 k, registered_close _ _ h2 k⟩
  · rw [hclose]
  · rw [hclose]
  · have hcl : s.close.closed = true := by rw [hclose]
    have : ∀ t : Bitstream, t.closed = true → t.close = t := by
      intro t ht
      unfold Bitstream.close
      rw [if_pos ht]
    exact this _ hcl

/-- The test 'closing a view will cleanup event listeners', for one instance: the three
inputs and the output carry one listener each, and none after `close()`. -/
theorem close_listeners_test :
    (Bitstream.create [Sample.chain 10 [], Sample.chain 20 [], Sample.chain 30 []]
      [Sample.chain 7 []]).appendListeners = [10, 20, 30] ∧
    (Bitstream.create [Sample.chain 10 [], Sample.chain 20 [], Sample.chain 30 []]
      [Sample.chain 7 []]).truncateListeners = [7] ∧
    (Bitstream.create [Sample.chain 10 [], Sample.chain 20 [], Sample.chain 30 []]
      [Sample.chain 7 []]).close.appendListeners = [] ∧
    (Bitstream.create [Sample.chain 10 [], Sample.chain 20 [], Sample.chain 30 []]
      [Sample.chain 7 []]).close.truncateListeners = [] := by
  decide

/-! ## Header check -/

/-- C15: `isBitstream` never raises; it returns true exactly when the log is not empty, the
header of block 0 is read and decoded, and its protocol tag is the input tag or the output
tag; in every other case (an empty log, no header, another tag, a read or decode error) it
returns false. -/
theorem isBitstream_fails_closed
    (decodeHeader : Option Block → Except Error (Option Protocol)) (chain : Unichain) :
    (isBitstream decodeHeader chain = .ok true ↔
      chain.length ≠ 0 ∧ ∃ p, decodeHeader (chain.get 0) = .ok (some p) ∧
        (p = Protocol.input ∨ p = Protocol.output)) ∧
    (isBitstream decodeHeader chain = .ok true ∨ isBitstream decodeHeader chain = .ok false) ∧
    (chain.length = 0 → isBitstream decodeHeader chain = .ok false) ∧
    (decodeHeader (chain.get 0) = .ok none → isBitstream decodeHeader chain = .ok false) ∧
    (∀ tag, decodeHeader (chain.get 0) = .ok (some (Protocol.other tag)) →
      isBitstream decodeHeader chain = .ok false) ∧
    (∀ e, decodeHeader (chain.get 0) = .error e → isBitstream decodeHeader chain = .ok false) := by
  unfold isBitstream
  by_cases hl : chain.length = 0
  · simp [hl]
  · simp only [hl, if_false]
    cases hd : decodeHeader (chain.get 0) with
    | error e => simp
    | ok protocol =>
      cases protocol with
      | none => simp
      | some p => cases p <;> simp [hl]

/-- The test 'can parse headers': a log that starts with an input header or an output header
is recognised, one that starts with a block that is not a node is not, nor is an empty log. -/
theorem parse_headers_test :
    isBitstream Sample.decodeHeader (Sample.headed 1 (some Protocol.input)) = .ok true ∧
    isBitstream Sample.decodeHeader (Sample.headed 2 (some Protocol.output)) = .ok true ∧
    isBitstream Sample.decodeHeader
      { key := 3, length := 1, blocks := [some Block.malformed], valueEncoding := none } =
        .ok false ∧
    isBitstream Sample.decodeHeader (Sample.headed 4 none) = .ok false ∧
    isBitstream Sample.decodeHeader (Sample.chain 5 []) = .ok false := by
  decide

/-! ## Reading a node -/

/-- C18 (failing input): block 0 of the tracked log is the first node of a batch of two and
block 1, the batch terminator, is absent; `_getInputNode(id, 0)` is rejected with a
`TypeError` (`batchEnd.clock` on `null`), while the read of the absent block itself, of a
block that does not decode, of a negative seq and of an untracked id give no node. -/
theorem getInputNode_missing_terminator :
    (Sample.bitstream [Sample.cutBatch])._getInputNode 10 0 = .error Error.typeError ∧
    (Sample.bitstream [Sample.cutBatch])._getInputNode 10 1 = .ok none ∧
    (Sample.bitstream [{ Sample.cutBatch with blocks := [some Block.malformed] }])._getInputNode
      10 0 = .ok none ∧
    (Sample.bitstream [Sample.cutBatch])._getInputNode 10 (-1) = .ok none ∧
    (Sample.bitstream [Sample.cutBatch])._getInputNode 99 0 = .ok none := by
  decide

/-- Where `_getInputNode` gives no node without raising: a negative seq, an id that is not
tracked, a block that is absent or does not decode. -/
theorem getInputNode_absent (self : Bitstream) (id : Key) (seq : Int) :
    (seq < 0 → self._getInputNode id seq = .ok none) ∧
    (self._inputsByKey.get id = none → self._getInputNode id seq = .ok none) ∧
    (∀ input, self._inputsByKey.get id = some input →
      (input.get seq.toNat = none ∨ input.get seq.toNat = some Block.malformed) →
      self._getInputNode id seq = .ok none) := by
  refine ⟨?_, ?_, ?_⟩
  · intro h
    simp [Bitstream._getInputNode, h]
  · intro h
    unfold Bitstream._getInputNode
    split
    · rfl
    · rw [h]
  · intro input hget hblock
    unfold Bitstream._getInputNode
    split
    · rfl
    · rename_i hs
      rw [hget]
      simp only [getInputNodeOf, hs, if_false]
      cases hfuel : input.blocks.length + 1 - seq.toNat with
      | zero => rfl
      | succ n =>
        unfold getInputNodeAux
        rcases hblock with hb | hb <;> rw [hb]

/-! ## The causal stream is finite -/

theorem headsWeight_cons_none (l : List (Option InputNode)) :
    headsWeight (none :: l) = headsWeight l := by
  simp [headsWeight]

/-- A call of `read` that pushes a node leaves heads of a strictly smaller weight. -/
theorem causalRead_weight (self : Bitstream) (heads heads' : List (Option InputNode))
    (out : OutputNode) (h : causalRead self heads = .pushed out heads') :
    headsWeight heads' < headsWeight heads := by
  obtain ⟨_, _, _, hmem, hcase⟩ := causalRead_pushed self heads heads' out h
  have hw := headsWeight_erase heads out.node hmem
  rcases hcase with ⟨_, rfl⟩ | ⟨hpos, next, hnext, rfl⟩
  · omega
  · cases next with
    | none =>
      rw [headsWeight_perm _ _ (set_indexOfHead_perm heads (some out.node) none hmem),
        headsWeight_cons_none]
      omega
    | some m =>
      rw [headsWeight_set heads out.node m hmem]
      obtain ⟨input, _, hnode⟩ := self.getInputNode_some _ _ m hnext
      obtain ⟨_, _, hs, _⟩ := getInputNodeOf_some input _ m hnode
      omega

/-- C19: the causal stream is finite.  Whatever the states of the instance at the calls of
`read`, every call that pushes a node strictly decreases the sum over the non-null heads of
`seq + 1`, the stream pushes at most that many nodes, and it is over (a call found no fork and
ended it, or a call failed) within one call more than that. -/
theorem causal_stream_finite (selves : List Bitstream) (heads : List (Option InputNode))
    (h : headsWeight heads < selves.length) :
    (∀ self out heads', causalRead self heads = .pushed out heads' →
      headsWeight heads' < headsWeight heads) ∧
    (∀ more, (causalPulls (selves ++ more) heads).length ≤ headsWeight heads) ∧
    causalEnds selves heads = true := by
  refine ⟨fun self out heads' hp => causalRead_weight self heads heads' out hp, ?_, ?_⟩
  · intro more
    generalize selves ++ more = l
    clear h
    induction l generalizing heads with
    | nil => simp [causalPulls]
    | cons self rest ih =>
      unfold causalPulls
      cases hr : causalRead self heads with
      | ended => simp
      | failed out e =>
        simp only [List.length_singleton]
        have hmem : some out.node ∈ heads :=
          (selected_is_fork heads out.node (causalRead_failed self heads out e hr)).1
        have := headsWeight_erase heads out.node hmem
        omega
      | pushed out heads' =>
        simp only [List.length_cons]
        have := causalRead_weight self heads heads' out hr
        have := ih heads'
        omega
  · induction selves generalizing heads with
    | nil => simp at h
    | cons self rest ih =>
      unfold causalEnds
      cases hr : causalRead self heads with
      | ended => rfl
      | failed out e => rfl
      | pushed out heads' =>
        simp only
        apply ih
        have := causalRead_weight self heads heads' out hr
        simp only [List.length_cons] at h
        omega

/-- C19 (witness): the heads of the test 'causal writes' weigh 3, and the stream read on four
states of the instance is over. -/
theorem causal_stream_finite_witness :
    headsWeight [some (Sample.node 10 0 []), some (Sample.node 20 1 [(10, 0), (20, 0)])] <
      (List.replicate 4 Sample.causal).length ∧
    ((∀ self out heads',
      causalRead self [some (Sample.node 10 0 []), some (Sample.node 20 1 [(10, 0), (20, 0)])] =
        .pushed out heads' →
      headsWeight heads' <
        headsWeight [some (Sample.node 10 0 []), some (Sample.node 20 1 [(10, 0), (20, 0)])]) ∧
    (∀ more, (causalPulls (List.replicate 4 Sample.causal ++ more)
        [some (Sample.node 10 0 []), some (Sample.node 20 1 [(10, 0), (20, 0)])]).length ≤
      headsWeight [some (Sample.node 10 0 []), some (Sample.node 20 1 [(10, 0), (20, 0)])]) ∧
    causalEnds (List.replicate 4 Sample.causal)
      [some (Sample.node 10 0 []), some (Sample.node 20 1 [(10, 0), (20, 0)])] = true) :=
  ⟨by decide,
    causal_stream_finite (List.replicate 4 Sample.causal)
      [some (Sample.node 10 0 []), some (Sample.node 20 1 [(10, 0), (20, 0)])] (by decide)⟩

/-! ## Append: the stored clock -/

theorem inheritClock_get (inputId : Key) (l : List (Key × Nat)) (clock : Clock) (id : Key)
    (hid : id ≠ inputId) :
    (l.foldl
      (fun clock e => if e.1 = inputId ∨ clock.has e.1 then clock else JsMap.set clock e.1 e.2)
      clock).get id = (clock.get id).orElse (fun _ => JsMap.get l id) := by
  induction l generalizing clock with
  | nil =>
    simp only [List.foldl_nil, JsMap.get_nil]
    cases clock.get id <;> rfl
  | cons e rest ih =>
    obtain ⟨k, v⟩ := e
    rw [List.foldl_cons, ih, JsMap.get_cons]
    simp only
    by_cases hk : k = id
    · subst hk
      rw [if_pos rfl]
      by_cases hh : clock.has k = true
      · rw [if_pos (Or.inr hh)]
        unfold JsMap.has at hh
        obtain ⟨w, hw⟩ := Option.isSome_iff_exists.1 hh
        rw [hw]
        rfl
      · have hn : clock.get k = none :=
          (JsMap.get_eq_none_iff _ _).2 ((JsMap.has_iff_mem_keys _ _).1 (by simpa using hh))
        rw [if_neg (by simp [hid, hh]), JsMap.get_set_self, hn]
        rfl
    · rw [if_neg hk]
      split
      · rfl
      · rw [JsMap.get_set_other _ _ _ _ (fun h => hk h.symm)]

theorem inheritClock_own (inputId : Key) (l : List (Key × Nat)) (clock : Clock)
    (h : clock.get inputId = none) :
    (l.foldl
      (fun clock e => if e.1 = inputId ∨ clock.has e.1 then clock else JsMap.set clock e.1 e.2)
      clock).get inputId = none := by
  induction l generalizing clock with
  | nil => exact h
  | cons e rest ih =>
    rw [List.foldl_cons]
    apply ih
    split
    · exact h
    · rename_i hne
      simp only [not_or] at hne
      rw [JsMap.get_set_other _ _ _ _ (fun h => hne.1 h.symm)]
      exact h

/-- The clock `_append` stores: it has no entry for the input, and for every other id it has
the entry of the supplied clock, or else that of the clock of the head. -/
theorem storedClock_spec (self : Bitstream) (clock : Option (List (Key × Nat)))
    (input : Unichain) (stored : Clock) (h : self.storedClock clock input = .ok stored) :
    ∃ supplied head, self.suppliedClock clock = .ok supplied ∧
      getInputNodeOf input ((input.length : Int) - 1) = .ok head ∧
      stored.get input.key = none ∧
      ∀ id, id ≠ input.key →
        stored.get id =
          (supplied.get id).orElse
            (fun _ => match head with
              | none => none
              | some head => head.clock.get id) := by
  unfold Bitstream.storedClock at h
  cases hs : self.suppliedClock clock with
  | error e =>
    rw [hs] at h
    cases h
  | ok supplied =>
    rw [hs] at h
    simp only at h
    cases hh : getInputNodeOf input ((input.length : Int) - 1) with
    | error e =>
      rw [hh] at h
      cases h
    | ok head =>
      rw [hh] at h
      simp only [Except.ok.injEq] at h
      refine ⟨supplied, head, rfl, rfl, ?_, ?_⟩
      · rw [← h]
        have h0 : (if supplied.has input.key = true then JsMap.delete supplied input.key
            else supplied).get input.key = none := by
          split
          · exact JsMap.get_delete_self _ _
          · rename_i hn
            exact (JsMap.get_eq_none_iff _ _).2
              ((JsMap.has_iff_mem_keys _ _).1 (by simpa using hn))
        cases head with
        | none => exact h0
        | some hd =>
          simp only [Bitstream.inheritClock]
          exact inheritClock_own _ _ _ h0
      · intro id hid
        rw [← h]
        have h0 : (if supplied.has input.key = true then JsMap.delete supplied input.key
            else supplied).get id = supplied.get id := by
          split
          · exact JsMap.get_delete_other _ _ _ hid
          · rfl
        cases head with
        | none =>
          simp only [Bitstream.inheritClock, h0]
          cases supplied.get id <;> rfl
        | some hd =>
          simp only [Bitstream.inheritClock]
          rw [inheritClock_get _ _ _ _ hid, h0]

theorem mem_createInputBatch (input : Unichain) (value : List Bytes) (clock : Clock)
    (batch : List NodeSchema) (h : _createInputBatch input value clock = .ok batch)
    (d : NodeSchema) (hd : d ∈ batch) : d.clock = clock ∨ d.clock = [] := by
  unfold _createInputBatch at h
  have hnodes : ∀ (l : List Bytes) (f : Nat → Bytes → NodeSchema),
      (∀ i v, (f i v).clock = clock ∨ (f i v).clock = []) →
      ∀ d ∈ l.mapIdx f, d.clock = clock ∨ d.clock = [] := by
    intro l f hf d hd
    rw [List.mem_mapIdx] at hd
    obtain ⟨i, hi, rfl⟩ := hd
    exact hf _ _
  have hall := hnodes value (fun i v =>
    ({ header := none, value := v,
       batch := if value.length ≠ 1 then some (i, value.length - 1 - i) else none,
       clock := if i = value.length - 1 then clock else [] } : NodeSchema))
    (fun i v => by
      simp only
      split
      · exact Or.inl rfl
      · exact Or.inr rfl)
  simp only at h
  split at h
  · split at h
    · cases h
    · rename_i first rest heq
      cases h
      rcases List.mem_cons.1 hd with rfl | hd'
      · exact hall first (heq ▸ List.mem_cons_self _ _)
      · exact hall d (heq ▸ List.mem_cons_of_mem _ hd')
  · cases h
    exact hall d hd

/-- The nodes of `_createInputBatch`: as many as the values, the clock on the last one only,
and the batch position of each. -/
theorem createInputBatch_get (input : Unichain) (value : List Bytes) (clock : Clock)
    (batch : List NodeSchema) (h : _createInputBatch input value clock = .ok batch) :
    batch.length = value.length ∧
    ∀ i, i < value.length → ∃ d, batch.get? i = some d ∧
      d.clock = (if i = value.length - 1 then clock else []) ∧
      d.batch = (if value.length ≠ 1 then some (i, value.length - 1 - i) else none) := by
  unfold _createInputBatch at h
  simp only at h
  have hget : ∀ i, i < value.length → ∃ d,
      (value.mapIdx (fun i v =>
        ({ header := none, value := v,
           batch := if value.length ≠ 1 then some (i, value.length - 1 - i) else none,
           clock := if i = value.length - 1 then clock else [] } : NodeSchema))).get? i =
        some d ∧
      d.clock = (if i = value.length - 1 then clock else []) ∧
      d.batch = (if value.length ≠ 1 then some (i, value.length - 1 - i) else none) := by
    intro i hi
    rw [List.get?_eq_getElem?, List.getElem?_mapIdx, List.getElem?_eq_getElem hi]
    exact ⟨_, rfl, rfl, rfl⟩
  split at h
  · split at h
    · cases h
    · rename_i first rest heq
      cases h
      have hlen : (first :: rest).length = value.length := by
        rw [← heq, List.length_mapIdx]
      refine ⟨hlen, ?_⟩
      intro i hi
      obtain ⟨d, hd, hc, hb⟩ := hget i hi
      rw [heq] at hd
      cases i with
      | zero =>
        simp only [List.get?_cons_zero, Option.some.injEq] at hd
        subst hd
        exact ⟨_, rfl, hc, hb⟩
      | succ j => exact ⟨d, hd, hc, hb⟩
  · cases h
    exact ⟨List.length_mapIdx, hget⟩

theorem append_get (input : Unichain) (batch : List Block) (i : Nat) :
    (input.append batch).get (input.length + i) = batch.get? i := by
  unfold Unichain.append Unichain.get
  simp only
  rw [List.get?_eq_getElem?, List.getElem?_append_right (by simp)]
  simp only [List.length_map, List.length_range, Nat.add_sub_cancel_left, List.getElem?_map,
    List.get?_eq_getElem?]
  cases batch[i]? <;> rfl

/-- The head of a log after `_append` of at least one value: it resolves, and for every id
other than that of the input its clock has the entry of the stored clock. -/
theorem append_head (self : Bitstream) (value : List Bytes)
    (clock : Option (List (Key × Nat))) (input input' : Unichain)
    (h : self._append value clock input = .ok input') (hv : value ≠ []) :
    ∃ stored n', self.storedClock clock input = .ok stored ∧
      getInputNodeOf input' ((input'.length : Int) - 1) = .ok (some n') ∧
      n'.key = input.key ∧ n'.seq = input.length + value.length - 1 ∧
      ∀ id, id ≠ input.key → n'.clock.get id = stored.get id := by
  unfold Bitstream._append at h
  cases hs : self.storedClock clock input with
  | error e =>
    rw [hs] at h
    cases h
  | ok stored =>
    rw [hs] at h
    simp only at h
    cases hb : _createInputBatch input value stored with
    | error e =>
      rw [hb] at h
      cases h
    | ok batch =>
      rw [hb] at h
      simp only [Except.ok.injEq] at h
      obtain ⟨hlen, hget⟩ := createInputBatch_get input value stored batch hb
      have hpos : 0 < value.length := List.length_pos.2 hv
      obtain ⟨d, hd, hc, hba⟩ := hget (value.length - 1) (by omega)
      rw [if_pos rfl] at hc
      have hlen' : input'.length = input.length + value.length := by
        rw [← h]
        simp [Unichain.append, hlen]
      have hblocks : input'.blocks.length = input.length + value.length := by
        rw [← h]
        simp [Unichain.append, hlen]
      have hkey : input'.key = input.key := by
        rw [← h]
        rfl
      have hblock : input'.get (input.length + value.length - 1) = some (Block.encoded d) := by
        have := append_get input (batch.map Block.encoded) (value.length - 1)
        rw [h] at this
        have e : input.length + (value.length - 1) = input.length + value.length - 1 := by
          omega
        rw [e] at this
        rw [this, List.get?_eq_getElem?, List.getElem?_map, ← List.get?_eq_getElem?, hd]
        rfl
      have hb2 : (d.batch.getD (0, 0)).2 = 0 := by
        rw [hba]
        split
        · simp
        · rfl
      have hnode : getInputNodeOf input' ((input'.length : Int) - 1) =
          .ok (some
            { key := input'.key, seq := input.length + value.length - 1, value := d.value,
              batch := d.batch.getD (0, 0),
              clock := normalizeClock d.clock input'.key (input.length + value.length - 1),
              header := d.header }) := by
        unfold getInputNodeOf
        rw [hlen', hblocks]
        have hn : ¬ ((↑(input.length + value.length) : Int) - 1 < 0) := by omega
        rw [if_neg hn]
        have e1 : ((↑(input.length + value.length) : Int) - 1).toNat =
            input.length + value.length - 1 := by omega
        have e2 : input.length + value.length + 1 - (input.length + value.length - 1) =
            1 + 1 := by omega
        rw [e1, e2]
        unfold getInputNodeAux
        rw [hblock]
        simp only [hb2, ne_eq, not_true_eq_false, if_false]
      refine ⟨stored, _, rfl, hnode, hkey, rfl, ?_⟩
      intro id hid
      simp only [hc, hkey]
      unfold normalizeClock
      split
      · exact JsMap.get_set_other _ _ _ _ hid
      · exact JsMap.get_delete_other _ _ _ hid

/-! ## Append: no entry for the input itself -/

/-- C16: whatever clock the caller supplies and whatever the clock of the head holds, the
clock `_append` stores has no entry for the id of the input written to: the nodes written are
those of `_createInputBatch` on that clock, the last of them carries it and the others carry
none. -/
theorem append_stores_no_own_entry (self : Bitstream) (value : List Bytes)
    (clock : Option (List (Key × Nat))) (input input' : Unichain)
    (h : self._append value clock input = .ok input') :
    ∃ stored batch, self.storedClock clock input = .ok stored ∧
      _createInputBatch input value stored = .ok batch ∧
      input' = input.append (batch.map Block.encoded) ∧
      batch.length = value.length ∧
      stored.has input.key = false ∧
      (∀ i d, batch.get? i = some d →
        d.clock = if i = value.length - 1 then stored else []) ∧
      ∀ d ∈ batch, d.clock.has input.key = false := by
  unfold Bitstream._append at h
  cases hs : self.storedClock clock input with
  | error e =>
    rw [hs] at h
    cases h
  | ok stored =>
    rw [hs] at h
    simp only at h
    cases hb : _createInputBatch input value stored with
    | error e =>
      rw [hb] at h
      cases h
    | ok batch =>
      rw [hb] at h
      simp only [Except.ok.injEq] at h
      obtain ⟨_, _, _, _, hown, _⟩ := storedClock_spec self clock input stored hs
      have hhas : stored.has input.key = false := by
        unfold JsMap.has
        rw [hown]
        rfl
      obtain ⟨hlen, hget⟩ := createInputBatch_get input value stored batch hb
      refine ⟨stored, batch, rfl, hb, h.symm, hlen, hhas, ?_, ?_⟩
      · intro i d hd
        have hi : i < value.length := by
          rw [← hlen]
          exact (List.get?_eq_some.1 hd).1
        obtain ⟨d', hd', hc, _⟩ := hget i hi
        rw [hd] at hd'
        cases hd'
        exact hc
      · intro d hd
        rcases mem_createInputBatch input value stored batch hb d hd with hc | hc
        · rw [hc]
          exact hhas
        · rw [hc]
          rfl

/-- C16 (witness): the append of one value to the log B of the test 'manually specifying
clocks', with a clock that names B itself. -/
theorem append_stores_no_own_entry_witness :
    Sample.manual._append [[1]] (some [(20, 0), (10, 1)]) (Sample.chain 20 [[(10, 2)]]) =
      .ok ((Sample.chain 20 [[(10, 2)]]).append
        [Sample.written [1] [(10, 1)]]) ∧
    ∃ stored batch,
      Sample.manual.storedClock (some [(20, 0), (10, 1)]) (Sample.chain 20 [[(10, 2)]]) =
        .ok stored ∧
      _createInputBatch (Sample.chain 20 [[(10, 2)]]) [[1]] stored = .ok batch ∧
      (Sample.chain 20 [[(10, 2)]]).append
          [Sample.written [1] [(10, 1)]] =
        (Sample.chain 20 [[(10, 2)]]).append (batch.map Block.encoded) ∧
      batch.length = [[1]].length ∧
      stored.has (Sample.chain 20 [[(10, 2)]]).key = false ∧
      (∀ i d, batch.get? i = some d →
        d.clock = if i = [[1]].length - 1 then stored else []) ∧
      ∀ d ∈ batch, d.clock.has (Sample.chain 20 [[(10, 2)]]).key = false :=
  ⟨by decide,
    append_stores_no_own_entry Sample.manual [[1]] (some [(20, 0), (10, 1)])
      (Sample.chain 20 [[(10, 2)]]) _ (by decide)⟩

/-! ## Append: what the stored clock takes from the head -/

/-- C17 (counterexample): in the logs of the test 'manually specifying clocks', the head b0
of B carries the entry `A: 2`; an append to B with the latest clock, `{A: 1, B: 0}`, stores
the clock `{A: 1}`, whose entry for A is below that of the head. -/
theorem append_keeps_lower_entry :
    getInputNodeOf (Sample.chain 20 [[(10, 2)]]) 0 = .ok (some (Sample.node 20 0 [(10, 2)])) ∧
    Sample.manual.suppliedClock none = .ok [(10, 1), (20, 0)] ∧
    Sample.manual.storedClock none (Sample.chain 20 [[(10, 2)]]) = .ok [(10, 1)] ∧
    Sample.manual._append [[1]] none (Sample.chain 20 [[(10, 2)]]) =
      .ok ((Sample.chain 20 [[(10, 2)]]).append
        [Sample.written [1] [(10, 1)]]) := by
  decide

/-- C17 (amended): let an append write at least one value to an input whose head is h.  For
every id other than that of the input for which the clock of h has an entry, the stored clock
has an entry: that of the supplied clock when it has one, and that of h otherwise.  So the
entry is at least that of h whenever the entries of the supplied clock are at least those of
h for the ids they share, and then the clock of the new head dominates the clock of h. -/
theorem append_inherits_clock (self : Bitstream) (value : List Bytes)
    (clock : Option (List (Key × Nat))) (input input' : Unichain) (h : InputNode)
    (happ : self._append value clock input = .ok input') (hv : value ≠ [])
    (hh : getInputNodeOf input ((input.length : Int) - 1) = .ok (some h)) :
    ∃ supplied stored n', self.suppliedClock clock = .ok supplied ∧
      self.storedClock clock input = .ok stored ∧
      getInputNodeOf input' ((input'.length : Int) - 1) = .ok (some n') ∧
      (∀ id v, id ≠ input.key → h.clock.get id = some v →
        ∃ v', stored.get id = some v' ∧ n'.clock.get id = some v' ∧
          (supplied.get id = some v' ∨ (supplied.get id = none ∧ v' = v))) ∧
      ((∀ id v w, h.clock.get id = some v → supplied.get id = some w → v ≤ w) →
        Dominates n' h) := by
  obtain ⟨stored, n', hs, hn, _, _, hclock⟩ := append_head self value clock input input' happ hv
  obtain ⟨supplied, head, hsup, hhead, _, hget⟩ := storedClock_spec self clock input stored hs
  rw [hh] at hhead
  cases hhead
  have key : ∀ id v, id ≠ input.key → h.clock.get id = some v →
      ∃ v', stored.get id = some v' ∧ n'.clock.get id = some v' ∧
        (supplied.get id = some v' ∨ (supplied.get id = none ∧ v' = v)) := by
    intro id v hid hv'
    have h1 := hget id hid
    simp only [hv'] at h1
    cases hsg : supplied.get id with
    | none =>
      rw [hsg] at h1
      exact ⟨v, h1, (hclock id hid).trans h1, Or.inr ⟨rfl, rfl⟩⟩
    | some w =>
      rw [hsg] at h1
      exact ⟨w, h1, (hclock id hid).trans h1, Or.inl rfl⟩
  refine ⟨supplied, stored, n', hsup, hs, hn, key, ?_⟩
  intro hcond x v hx hv'
  have hk : h.key = input.key := (getInputNodeOf_some input _ h hh).2.1
  rw [hk] at hx
  obtain ⟨v', _, hn', hcase⟩ := key x v hx hv'
  refine ⟨v', hn', ?_⟩
  rcases hcase with hsg | ⟨_, rfl⟩
  · exact hcond x v v' hv' hsg
  · exact Nat.le_refl _

/-- C17 (witness): the append of b1 in the test 'manually specifying clocks', with the clock
`latest(writerB)`, that is `{B: 0}`: the stored clock takes the entry `A: 2` of the head. -/
theorem append_inherits_clock_witness :
    Sample.manual._append [[1]] (some [(20, 0)]) (Sample.chain 20 [[(10, 2)]]) =
      .ok ((Sample.chain 20 [[(10, 2)]]).append
        [Sample.written [1] [(10, 2)]]) ∧
    ([[1]] : List Bytes) ≠ [] ∧
    getInputNodeOf (Sample.chain 20 [[(10, 2)]])
      (((Sample.chain 20 [[(10, 2)]]).length : Int) - 1) =
        .ok (some (Sample.node 20 0 [(10, 2)])) ∧
    ∃ supplied stored n', Sample.manual.suppliedClock (some [(20, 0)]) = .ok supplied ∧
      Sample.manual.storedClock (some [(20, 0)]) (Sample.chain 20 [[(10, 2)]]) = .ok stored ∧
      getInputNodeOf ((Sample.chain 20 [[(10, 2)]]).append
          [Sample.written [1] [(10, 2)]])
        ((((Sample.chain 20 [[(10, 2)]]).append
          [Sample.written [1] [(10, 2)]]).length : Int) - 1) = .ok (some n') ∧
      (∀ id v, id ≠ (Sample.chain 20 [[(10, 2)]]).key →
        (Sample.node 20 0 [(10, 2)]).clock.get id = some v →
        ∃ v', stored.get id = some v' ∧ n'.clock.get id = some v' ∧
          (supplied.get id = some v' ∨ (supplied.get id = none ∧ v' = v))) ∧
      ((∀ id v w, (Sample.node 20 0 [(10, 2)]).clock.get id = some v →
          supplied.get id = some w → v ≤ w) →
        Dominates n' (Sample.node 20 0 [(10, 2)])) :=
  ⟨by decide, by decide, by decide,
    append_inherits_clock Sample.manual [[1]] (some [(20, 0)]) (Sample.chain 20 [[(10, 2)]]) _
      (Sample.node 20 0 [(10, 2)]) (by decide) (by decide) (by decide)⟩

/-! ## The fork resolver: forks, weights and the selection -/

theorem normalised_lte_self (h : InputNode) (hn : Normalised h) : h.lte h = false := by
  unfold InputNode.lte
  rw [show h.clock.get h.id = ownEntry h.seq from hn]
  unfold ownEntry
  by_cases hs : h.seq > 0
  · rw [if_pos hs]
    simp only [decide_eq_false_iff_not]
    omega
  · rw [if_neg hs]

theorem forks_eq_filter (heads : List (Option InputNode)) :
    (forkInfo heads).forks =
      (liveHeads heads).filter (fun h => isFork (some h) heads) := by
  have key : ∀ l : List (Option InputNode),
      l.filterMap (fun head => if isFork head heads then head else none) =
        (l.filterMap (fun head => head)).filter (fun h => isFork (some h) heads) := by
    intro l
    induction l with
    | nil => rfl
    | cons a rest ih =>
      cases a with
      | none =>
        rw [List.filterMap_cons, List.filterMap_cons]
        simp only [isFork_none, Bool.false_eq_true, if_false]
        exact ih
      | some h =>
        cases hf : isFork (some h) heads with
        | true => simp [List.filterMap_cons, List.filter_cons, hf, ih]
        | false => simp [List.filterMap_cons, List.filter_cons, hf, ih]
  exact key heads

/-- C23: for heads as `_getInputNode` returns them, `forkInfo(heads).forks` is the sub-list,
in the order of the heads, of the non-null heads h such that no other non-null head h2
satisfies `h.lte(h2)`. -/
theorem forks_are_undominated_heads (heads : List (Option InputNode))
    (hn : ∀ h ∈ liveHeads heads, Normalised h) :
    (forkInfo heads).forks =
      (liveHeads heads).filter
        (fun h => decide (∀ h2 ∈ liveHeads heads, h2 ≠ h → h.lte h2 = false)) := by
  rw [forks_eq_filter]
  apply List.filter_congr
  intro h hh
  rw [Bool.eq_iff_iff, isFork_some_iff, decide_eq_true_iff]
  constructor
  · intro hall h2 hh2 _
    exact hall h2 ((mem_liveHeads heads h2).1 hh2)
  · intro hall other ho
    by_cases heq : other = h
    · rw [heq]
      exact normalised_lte_self h (hn h hh)
    · exact hall other ((mem_liveHeads heads other).2 ho) heq

/-- C23 (witness): the heads of the test 'causal writes', a0 and b1: b1 is the only fork. -/
theorem forks_are_undominated_heads_witness :
    (∀ h ∈ liveHeads [some (Sample.node 10 0 []),
      some (Sample.node 20 1 [(10, 0), (20, 0)])], Normalised h) ∧
    (forkInfo [some (Sample.node 10 0 []),
        some (Sample.node 20 1 [(10, 0), (20, 0)])]).forks =
      (liveHeads [some (Sample.node 10 0 []),
        some (Sample.node 20 1 [(10, 0), (20, 0)])]).filter
        (fun h => decide (∀ h2 ∈ liveHeads [some (Sample.node 10 0 []),
          some (Sample.node 20 1 [(10, 0), (20, 0)])], h2 ≠ h → h.lte h2 = false)) :=
  ⟨by decide,
    forks_are_undominated_heads
      [some (Sample.node 10 0 []), some (Sample.node 20 1 [(10, 0), (20, 0)])] (by decide)⟩

/-- The function `forkSize` computes the weight of the contract relative to the list it is
given. -/
theorem forkSize_eq (node : InputNode) (i : Nat) (others : List InputNode) :
    forkSize node i others = weightAgainst others node := by
  unfold forkSize weightAgainst
  simp only
  have key : ∀ (c : Clock) (s : Nat),
      c.foldl
        (fun s e => if e.2 + 1 > forkHigh node others e.1
          then s + (e.2 + 1 - forkHigh node others e.1) else s) s =
      s + (c.map (fun e => (e.2 + 1) - highOf node others e.1)).sum := by
    intro c
    induction c with
    | nil => intro s; simp
    | cons e rest ih =>
      intro s
      rw [List.foldl_cons, ih, List.map_cons, List.sum_cons, forkHigh_eq]
      split
      · omega
      · omega
  have := key node.clock 0
  simpa using this

/-- The index `forkInfo` returns, as its loop computes it from the weights of the forks. -/
theorem smallest_eq (heads : List (Option InputNode)) :
    (forkInfo heads).smallest =
      (List.range' 1 ((forkInfo heads).forks.length - 1)).foldl
        (smallestStep
          ((forkInfo heads).forks.mapIdx (fun i fork => forkSize fork i (forkInfo heads).forks))
          (forkInfo heads).forks) 0 := by
  simp [forkInfo, List.length_mapIdx]

/-- C24 (counterexample): the heads are a0 (clock `{C: 5}`), b2 and c5; c5 is `lte` a0 and is
no fork.  `forkInfo` weighs the forks a0 and b2 against each other, 6 and 2, and picks b2;
weighed against all the other heads, as the claim has it, a0 weighs 1 (c5 records C up to 5)
and b2 weighs 2. -/
theorem fork_weight_ignores_other_heads :
    Sample.shadowed.heads = .ok Sample.shadowedHeads ∧
    (forkInfo Sample.shadowedHeads).forks =
      [Sample.node 10 0 [(30, 5)], Sample.node 20 2 [(20, 1)]] ∧
    (forkInfo Sample.shadowedHeads).smallest = 1 ∧
    ((forkInfo Sample.shadowedHeads).forks.mapIdx
      (fun i fork => forkSize fork i (forkInfo Sample.shadowedHeads).forks)) = [6, 2] ∧
    (forkInfo Sample.shadowedHeads).forks.map
      (weightAgainst (liveHeads Sample.shadowedHeads)) = [1, 2] := by
  decide

/-- C24 (amended): for every list of heads and every fork f of `forkInfo(heads).forks`, the
weight `forkInfo` uses to pick `smallest` is the sum, over every `(id, seq)` of `f.clock`, of
`max(0, (seq + 1) - H(id))`, where `H(id)` is the greatest `seq + 1` recorded for `id` in the
clocks of the other forks (0 when none of them records it): the heads that are no forks do
not count. -/
theorem fork_weight_among_forks (heads : List (Option InputNode)) :
    (forkInfo heads).forks.mapIdx (fun i fork => forkSize fork i (forkInfo heads).forks) =
      (forkInfo heads).forks.map (weightAgainst (forkInfo heads).forks) ∧
    (forkInfo heads).smallest =
      (List.range' 1 ((forkInfo heads).forks.length - 1)).foldl
        (smallestStep ((forkInfo heads).forks.map (weightAgainst (forkInfo heads).forks))
          (forkInfo heads).forks) 0 := by
  have h1 : (forkInfo heads).forks.mapIdx
      (fun i fork => forkSize fork i (forkInfo heads).forks) =
      (forkInfo heads).forks.map (weightAgainst (forkInfo heads).forks) := by
    apply List.ext_get?
    intro i
    rw [List.get?_eq_getElem?, List.get?_eq_getElem?, List.getElem?_mapIdx, List.getElem?_map]
    cases (forkInfo heads).forks[i]? with
    | none => rfl
    | some f => simp [forkSize_eq]
  refine ⟨h1, ?_⟩
  rw [← h1]
  exact smallest_eq heads

/-- C25 (counterexample): the heads x0 and y0 of the inputs X = 80 00 .. 00 and
Y = c2 80 00 .. 00 are two forks of weight 0.  X is the lexicographically smallest key, but
`forkInfo` returns `smallest = 1`, the index of y0: the string of Y compares smaller than that
of X. -/
theorem smallest_not_least_key :
    (forkInfo Sample.highHeads).forks =
      [Sample.node Sample.keyX 0 [], Sample.node Sample.keyY 0 []] ∧
    (forkInfo Sample.highHeads).forks.map (weightAgainst (forkInfo Sample.highHeads).forks) =
      [0, 0] ∧
    (forkInfo Sample.highHeads).smallest = 1 ∧
    Sample.keyX < Sample.keyY ∧ keyLess Sample.keyY Sample.keyX = true := by
  decide

/-- C25 (amended): when `forkInfo` finds a fork, `smallest` is an index of `forks`; the fork
there has the least weight among the forks; no fork of that weight has a key that compares
smaller than its key; and it is the first such fork: every fork before it has a greater
weight, or the same weight and a key than which its key compares smaller.  When there is no
fork `smallest` is 0. -/
theorem smallest_is_least (heads : List (Option InputNode))
    (hne : (forkInfo heads).forks ≠ []) :
    (forkInfo heads).smallest < (forkInfo heads).forks.length ∧
    (∃ n, (forkInfo heads).forks.get? (forkInfo heads).smallest = some n ∧
      (∀ f ∈ (forkInfo heads).forks,
        weightAgainst (forkInfo heads).forks n ≤ weightAgainst (forkInfo heads).forks f ∧
        (weightAgainst (forkInfo heads).forks f = weightAgainst (forkInfo heads).forks n →
          keyLess f.key n.key = false)) ∧
      ∀ j f, j < (forkInfo heads).smallest → (forkInfo heads).forks.get? j = some f →
        weightAgainst (forkInfo heads).forks n < weightAgainst (forkInfo heads).forks f ∨
        (weightAgainst (forkInfo heads).forks f = weightAgainst (forkInfo heads).forks n ∧
          keyLess n.key f.key = true)) ∧
    ∀ heads', (forkInfo heads').forks = [] → (forkInfo heads').smallest = 0 := by
  obtain ⟨f0, hf0⟩ := List.exists_mem_of_ne_nil _ hne
  obtain ⟨n, hn⟩ := selected_exists heads f0 hf0
  obtain ⟨_, hmin⟩ := selected_minimal heads n hn
  refine ⟨(List.get?_eq_some.1 hn).1, ⟨n, hn, ?_, ?_⟩, ?_⟩
  · intro f hf
    have := hmin f hf
    unfold forkLess forkWeight at this
    rw [forkSize_eq, forkSize_eq] at this
    simp only [not_or, not_and, Nat.not_lt, Bool.not_eq_true] at this
    exact ⟨this.2, this.1⟩
  · intro j f hj hf
    have := selected_first heads n hn j f hj hf
    unfold forkLess forkWeight at this
    rw [forkSize_eq, forkSize_eq] at this
    rcases this with ⟨e, l⟩ | l
    · exact Or.inr ⟨e.symm, l⟩
    · exact Or.inl l
  · intro heads' h'
    rw [smallest_eq, h']
    rfl

/-- C25 (witness): the heads x0 and y0, two forks of the same weight. -/
theorem smallest_is_least_witness :
    (forkInfo Sample.highHeads).forks ≠ [] ∧
    ((forkInfo Sample.highHeads).smallest < (forkInfo Sample.highHeads).forks.length ∧
    (∃ n, (forkInfo Sample.highHeads).forks.get? (forkInfo Sample.highHeads).smallest = some n ∧
      (∀ f ∈ (forkInfo Sample.highHeads).forks,
        weightAgainst (forkInfo Sample.highHeads).forks n ≤
          weightAgainst (forkInfo Sample.highHeads).forks f ∧
        (weightAgainst (forkInfo Sample.highHeads).forks f =
            weightAgainst (forkInfo Sample.highHeads).forks n →
          keyLess f.key n.key = false)) ∧
      ∀ j f, j < (forkInfo Sample.highHeads).smallest →
        (forkInfo Sample.highHeads).forks.get? j = some f →
        weightAgainst (forkInfo Sample.highHeads).forks n <
            weightAgainst (forkInfo Sample.highHeads).forks f ∨
        (weightAgainst (forkInfo Sample.highHeads).forks f =
            weightAgainst (forkInfo Sample.highHeads).forks n ∧
          keyLess n.key f.key = true)) ∧
    ∀ heads', (forkInfo heads').forks = [] → (forkInfo heads').smallest = 0) :=
  ⟨by decide, smallest_is_least Sample.highHeads (by decide)⟩

/-! ## One pull of the causal stream -/

theorem getInputNode_tracked (self : Bitstream) (id : Key) (input : Unichain) (seq : Int)
    (h : self._inputsByKey.get id = some input) :
    self._getInputNode id seq = getInputNodeOf input seq := by
  unfold Bitstream._getInputNode
  split
  · rename_i hs
    unfold getInputNodeOf
    rw [if_pos hs]
  · rw [h]

theorem get_indexOfHead (heads : List (Option InputNode)) (a : Option InputNode)
    (ha : a ∈ heads) : heads.get? (indexOfHead a heads) = some a := by
  induction heads with
  | nil => cases ha
  | cons x rest ih =>
    unfold indexOfHead
    by_cases hx : x = a
    · rw [if_pos hx, hx]
      rfl
    · rw [if_neg hx]
      rcases List.mem_cons.1 ha with h | h
      · exact absurd h.symm hx
      · exact ih h

/-- C26: one call of `read` on heads of pairwise distinct inputs.  Without fork the stream
ends and nothing is pushed.  Otherwise the node pushed is `forks[smallest]`, with `change` its
input key and `clock` the map from the id of every non-null head to its seq; the node stands in
the heads at the slot `indexOf` finds, and afterwards the heads are the same list with that
slot removed when the seq of the node is 0, and otherwise with that slot holding what
`_getInputNode(node.id, seq - 1)` gives, which is the node at `seq - 1` of the input tracked
under that id. -/
theorem causal_pull (self : Bitstream) (heads : List (Option InputNode))
    (hd : DistinctKeys heads) :
    ((forkInfo heads).forks = [] → causalRead self heads = .ended) ∧
    (forkInfo heads).clock = (liveHeads heads).map (fun h => (h.id, h.seq)) ∧
    ∀ node, (forkInfo heads).forks.get? (forkInfo heads).smallest = some node →
      heads.get? (indexOfHead (some node) heads) = some (some node) ∧
      (node.seq = 0 →
        causalRead self heads =
          .pushed { node := node, change := node.key, clock := (forkInfo heads).clock }
            (heads.eraseIdx (indexOfHead (some node) heads))) ∧
      (node.seq ≠ 0 → ∀ next, self._getInputNode node.id ((node.seq : Int) - 1) = .ok next →
        causalRead self heads =
          .pushed { node := node, change := node.key, clock := (forkInfo heads).clock }
            (heads.set (indexOfHead (some node) heads) next)) ∧
      ∀ input, self._inputsByKey.get node.id = some input →
        self._getInputNode node.id ((node.seq : Int) - 1) =
          getInputNodeOf input ((node.seq : Int) - 1) := by
  refine ⟨?_, snapshot_clock_eq heads hd, ?_⟩
  · intro h
    unfold causalRead
    simp only [h, List.get?_nil]
  · intro node hnode
    have hmem := (selected_is_fork heads node hnode).1
    refine ⟨get_indexOfHead heads _ hmem, ?_, ?_, ?_⟩
    · intro h0
      unfold causalRead
      simp only [hnode, h0, if_true]
    · intro h0 next hnext
      unfold causalRead
      simp only [hnode, h0, if_false, hnext]
    · intro input hin
      exact getInputNode_tracked self _ input _ hin

/-- C26 (witness): the first pull on the heads of the test 'causal writes' pushes b1 and puts
b0 in its slot. -/
theorem causal_pull_witness :
    DistinctKeys [some (Sample.node 10 0 []), some (Sample.node 20 1 [(10, 0), (20, 0)])] ∧
    causalRead Sample.causal
        [some (Sample.node 10 0 []), some (Sample.node 20 1 [(10, 0), (20, 0)])] =
      .pushed
        { node := Sample.node 20 1 [(10, 0), (20, 0)], change := 20,
          clock := [(10, 0), (20, 1)] }
        [some (Sample.node 10 0 []), some (Sample.node 20 0 [(10, 0)])] ∧
    (((forkInfo [some (Sample.node 10 0 []),
        some (Sample.node 20 1 [(10, 0), (20, 0)])]).forks = [] →
      causalRead Sample.causal
        [some (Sample.node 10 0 []), some (Sample.node 20 1 [(10, 0), (20, 0)])] = .ended) ∧
    (forkInfo [some (Sample.node 10 0 []),
        some (Sample.node 20 1 [(10, 0), (20, 0)])]).clock =
      (liveHeads [some (Sample.node 10 0 []),
        some (Sample.node 20 1 [(10, 0), (20, 0)])]).map (fun h => (h.id, h.seq)) ∧
    ∀ node, (forkInfo [some (Sample.node 10 0 []),
          some (Sample.node 20 1 [(10, 0), (20, 0)])]).forks.get?
        (forkInfo [some (Sample.node 10 0 []),
          some (Sample.node 20 1 [(10, 0), (20, 0)])]).smallest = some node →
      [some (Sample.node 10 0 []), some (Sample.node 20 1 [(10, 0), (20, 0)])].get?
          (indexOfHead (some node)
            [some (Sample.node 10 0 []), some (Sample.node 20 1 [(10, 0), (20, 0)])]) =
        some (some node) ∧
      (node.seq = 0 →
        causalRead Sample.causal
            [some (Sample.node 10 0 []), some (Sample.node 20 1 [(10, 0), (20, 0)])] =
          .pushed
            { node := node, change := node.key,
              clock := (forkInfo [some (Sample.node 10 0 []),
                some (Sample.node 20 1 [(10, 0), (20, 0)])]).clock }
            ([some (Sample.node 10 0 []),
              some (Sample.node 20 1 [(10, 0), (20, 0)])].eraseIdx
              (indexOfHead (some node)
                [some (Sample.node 10 0 []), some (Sample.node 20 1 [(10, 0), (20, 0)])]))) ∧
      (node.seq ≠ 0 →
        ∀ next, Sample.causal._getInputNode node.id ((node.seq : Int) - 1) = .ok next →
        causalRead Sample.causal
            [some (Sample.node 10 0 []), some (Sample.node 20 1 [(10, 0), (20, 0)])] =
          .pushed
            { node := node, change := node.key,
              clock := (forkInfo [some (Sample.node 10 0 []),
                some (Sample.node 20 1 [(10, 0), (20, 0)])]).clock }
            ([some (Sample.node 10 0 []),
              some (Sample.node 20 1 [(10, 0), (20, 0)])].set
              (indexOfHead (some node)
                [some (Sample.node 10 0 []), some (Sample.node 20 1 [(10, 0), (20, 0)])])
              next)) ∧
      ∀ input, Sample.causal._inputsByKey.get node.id = some input →
        Sample.causal._getInputNode node.id ((node.seq : Int) - 1) =
          getInputNodeOf input ((node.seq : Int) - 1)) :=
  ⟨by decide, by decide,
    causal_pull Sample.causal
      [some (Sample.node 10 0 []), some (Sample.node 20 1 [(10, 0), (20, 0)])] (by decide)⟩

/-- The test 'supports a local input and default latest clocks': the causal stream pushes a3,
b1, a2, b0, a1, a0, the first with `change` the key of A and the second with that of B. -/
theorem local_latest_test :
    ((createCausalStream Sample.localLatest).map fun out =>
      out.map fun o => (Sample.tag o.node, o.change)) =
      .ok [((10, 3), 10), ((20, 1), 20), ((10, 2), 10), ((20, 0), 20), ((10, 1), 10),
        ((10, 0), 10)] := by
  decide

/-! ## Resolved nodes are normalised -/

/-- The look-ahead of `_getInputNode` does not depend on the bound of the recursion, once the
bound reaches the end of the blocks. -/
theorem getInputNodeAux_fuel (input : Unichain) (fuel fuel' seq : Nat)
    (h1 : input.blocks.length + 1 - seq ≤ fuel) (h2 : input.blocks.length + 1 - seq ≤ fuel') :
    getInputNodeAux input fuel seq = getInputNodeAux input fuel' seq := by
  induction fuel generalizing fuel' seq with
  | zero =>
    rw [getInputNodeAux_none_of_le input 0 seq (by omega),
      getInputNodeAux_none_of_le input fuel' seq (by omega)]
  | succ fuel ih =>
    cases fuel' with
    | zero =>
      rw [getInputNodeAux_none_of_le input (fuel + 1) seq (by omega),
        getInputNodeAux_none_of_le input 0 seq (by omega)]
    | succ fuel' =>
      unfold getInputNodeAux
      cases hb : input.get seq with
      | none => rfl
      | some block =>
        cases block with
        | malformed => rfl
        | encoded d =>
          simp only
          by_cases hz : (d.batch.getD (0, 0)).2 = 0
          · simp only [hz, ne_eq, not_true_eq_false, if_false]
          · have hpos : 0 < (d.batch.getD (0, 0)).2 := Nat.pos_of_ne_zero hz
            rw [ih fuel' (seq + (d.batch.getD (0, 0)).2) (by omega) (by omega)]

/-- What the body of `_getInputNode` returns: the fields of the decoded block, and the clock
of the block or, when the batch position says that nodes follow, the clock of the node the
look-ahead resolves, normalised in both cases. -/
theorem getInputNodeAux_clock (input : Unichain) (fuel seq : Nat) (n : InputNode)
    (h : getInputNodeAux input fuel seq = .ok (some n)) :
    ∃ d, input.get seq = some (Block.encoded d) ∧
      (((d.batch.getD (0, 0)).2 = 0 ∧ n.clock = normalizeClock d.clock input.key seq) ∨
        ((d.batch.getD (0, 0)).2 ≠ 0 ∧ ∃ fuel0 batchEnd, fuel = fuel0 + 1 ∧
          getInputNodeAux input fuel0 (seq + (d.batch.getD (0, 0)).2) = .ok (some batchEnd) ∧
          n.clock = normalizeClock batchEnd.clock input.key seq)) := by
  cases fuel with
  | zero => simp [getInputNodeAux] at h
  | succ fuel =>
    unfold getInputNodeAux at h
    cases hb : input.get seq with
    | none =>
      rw [hb] at h
      cases h
    | some block =>
      rw [hb] at h
      cases block with
      | malformed => cases h
      | encoded d =>
        refine ⟨d, rfl, ?_⟩
        simp only at h
        by_cases hz : (d.batch.getD (0, 0)).2 = 0
        · left
          simp only [hz, ne_eq, not_true_eq_false, if_false, Except.ok.injEq,
            Option.some.injEq] at h
          exact ⟨hz, by rw [← h]⟩
        · right
          rw [if_pos hz] at h
          cases hin : getInputNodeAux input fuel (seq + (d.batch.getD (0, 0)).2) with
          | error e =>
            rw [hin] at h
            cases h
          | ok r =>
            rw [hin] at h
            cases r with
            | none => cases h
            | some batchEnd =>
              simp only [Except.ok.injEq, Option.some.injEq] at h
              exact ⟨hz, fuel, batchEnd, rfl, hin, by rw [← h]⟩

/-- The entries of a resolved clock for the other ids are those of the clock of a block that
ends a batch, at or after the node. -/
theorem getInputNodeAux_last (input : Unichain) (fuel seq : Nat) (n : InputNode)
    (h : getInputNodeAux input fuel seq = .ok (some n)) :
    ∃ t last, seq ≤ t ∧ input.get t = some (Block.encoded last) ∧
      (last.batch.getD (0, 0)).2 = 0 ∧
      ∀ k, k ≠ input.key → n.clock.get k = last.clock.get k := by
  induction fuel generalizing seq n with
  | zero => simp [getInputNodeAux] at h
  | succ fuel ih =>
    obtain ⟨d, hd, hcase⟩ := getInputNodeAux_clock input (fuel + 1) seq n h
    rcases hcase with ⟨hz, hc⟩ | ⟨_, fuel0, batchEnd, hf, hin, hc⟩
    · refine ⟨seq, d, Nat.le_refl _, hd, hz, ?_⟩
      intro k hk
      rw [hc, normalizeClock_get_other _ _ _ _ hk]
    · have hf' : fuel0 = fuel := by omega
      subst hf'
      obtain ⟨t, last, ht, hlast, hz, hget⟩ := ih _ batchEnd hin
      refine ⟨t, last, by omega, hlast, hz, ?_⟩
      intro k hk
      rw [hc, normalizeClock_get_other _ _ _ _ hk]
      exact hget k hk

/-- C27: every node `_getInputNode` returns is normalised.  Its clock maps its own id to
`seq - 1` when `seq > 0` and has no entry for it when `seq = 0`; its other entries are those
of the clock decoded from its own block when no node of the batch follows it, and otherwise
those of the clock of the node the look-ahead reads, `seq + remaining`; in both cases they are
the entries of the clock of a block that ends a batch. -/
theorem getInputNode_normalised (self : Bitstream) (hwf : self.WF) (id : Key) (seq : Int)
    (n : InputNode) (h : self._getInputNode id seq = .ok (some n)) :
    n.id = id ∧ (n.seq : Int) = seq ∧ Normalised n ∧
    (0 < n.seq → n.clock.get n.id = some (n.seq - 1)) ∧
    (n.seq = 0 → n.clock.get n.id = none) ∧
    ∃ input decoded, self._inputsByKey.get id = some input ∧
      input.get n.seq = some (Block.encoded decoded) ∧
      ((decoded.batch.getD (0, 0)).2 = 0 →
        ∀ k, k ≠ id → n.clock.get k = decoded.clock.get k) ∧
      ((decoded.batch.getD (0, 0)).2 ≠ 0 →
        ∃ batchEnd,
          self._getInputNode id (seq + ((decoded.batch.getD (0, 0)).2 : Nat)) =
            .ok (some batchEnd) ∧
          ∀ k, k ≠ id → n.clock.get k = batchEnd.clock.get k) ∧
      ∃ t last, n.seq ≤ t ∧ input.get t = some (Block.encoded last) ∧
        (last.batch.getD (0, 0)).2 = 0 ∧ ∀ k, k ≠ id → n.clock.get k = last.clock.get k := by
  obtain ⟨hk, hs, hc⟩ := self.getInputNode_key_seq hwf id seq n h
  obtain ⟨input, hget, hnode⟩ := self.getInputNode_some id seq n h
  have hik : input.key = id := hwf.2 (id, input) (JsMap.mem_of_get _ _ _ hget)
  have hn : Normalised n := hc
  refine ⟨hk, hs, hn, ?_, ?_, input, ?_⟩
  · intro hpos
    have := hc
    unfold ownEntry at this
    rw [if_pos hpos] at this
    exact this
  · intro h0
    have := hc
    unfold ownEntry at this
    rw [if_neg (by omega)] at this
    exact this
  · have hseq : seq.toNat = n.seq := by omega
    have hnn : ¬ seq < 0 := by omega
    unfold getInputNodeOf at hnode
    rw [if_neg hnn, hseq] at hnode
    obtain ⟨d, hd, hcase⟩ := getInputNodeAux_clock input _ n.seq n hnode
    obtain ⟨t, last, ht, hlast, hz, hl⟩ := getInputNodeAux_last input _ n.seq n hnode
    refine ⟨d, hget, hd, ?_, ?_, t, last, ht, hlast, hz, ?_⟩
    · intro hz0 k hkid
      rcases hcase with ⟨_, hcl⟩ | ⟨hnz, _⟩
      · rw [hcl, normalizeClock_get_other _ _ _ _ (by rw [hik]; exact hkid)]
      · exact absurd hz0 hnz
    · intro hnz
      rcases hcase with ⟨hz0, _⟩ | ⟨_, fuel0, batchEnd, hf, hin, hcl⟩
      · exact absurd hz0 hnz
      · refine ⟨batchEnd, ?_, ?_⟩
        · have hpos : 0 < (d.batch.getD (0, 0)).2 := Nat.pos_of_ne_zero hnz
          rw [getInputNode_tracked self id input _ hget]
          unfold getInputNodeOf
          have hnn' : ¬ (seq + ((d.batch.getD (0, 0)).2 : Nat) < 0) := by omega
          rw [if_neg hnn']
          have e : (seq + ((d.batch.getD (0, 0)).2 : Nat)).toNat =
              n.seq + (d.batch.getD (0, 0)).2 := by omega
          rw [e, ← hin]
          apply getInputNodeAux_fuel
          · omega
          · omega
        · intro k hkid
          rw [hcl, normalizeClock_get_other _ _ _ _ (by rw [hik]; exact hkid)]
    · intro k hkid
      exact hl k (by rw [hik]; exact hkid)

/-- C27 (witness): the node b1 of the test 'causal writes'. -/
theorem getInputNode_normalised_witness :
    Sample.causal.WF ∧
    Sample.causal._getInputNode 20 1 = .ok (some (Sample.node 20 1 [(10, 0), (20, 0)])) ∧
    ((Sample.node 20 1 [(10, 0), (20, 0)]).id = 20 ∧
    (((Sample.node 20 1 [(10, 0), (20, 0)]).seq : Nat) : Int) = 1 ∧
    Normalised (Sample.node 20 1 [(10, 0), (20, 0)]) ∧
    (0 < (Sample.node 20 1 [(10, 0), (20, 0)]).seq →
      (Sample.node 20 1 [(10, 0), (20, 0)]).clock.get (Sample.node 20 1 [(10, 0), (20, 0)]).id =
        some ((Sample.node 20 1 [(10, 0), (20, 0)]).seq - 1)) ∧
    ((Sample.node 20 1 [(10, 0), (20, 0)]).seq = 0 →
      (Sample.node 20 1 [(10, 0), (20, 0)]).clock.get (Sample.node 20 1 [(10, 0), (20, 0)]).id =
        none) ∧
    ∃ input decoded, Sample.causal._inputsByKey.get 20 = some input ∧
      input.get (Sample.node 20 1 [(10, 0), (20, 0)]).seq = some (Block.encoded decoded) ∧
      ((decoded.batch.getD (0, 0)).2 = 0 →
        ∀ k, k ≠ 20 →
          (Sample.node 20 1 [(10, 0), (20, 0)]).clock.get k = decoded.clock.get k) ∧
      ((decoded.batch.getD (0, 0)).2 ≠ 0 →
        ∃ batchEnd,
          Sample.causal._getInputNode 20 (1 + ((decoded.batch.getD (0, 0)).2 : Nat)) =
            .ok (some batchEnd) ∧
          ∀ k, k ≠ 20 →
            (Sample.node 20 1 [(10, 0), (20, 0)]).clock.get k = batchEnd.clock.get k) ∧
      ∃ t last, (Sample.node 20 1 [(10, 0), (20, 0)]).seq ≤ t ∧
        input.get t = some (Block.encoded last) ∧
        (last.batch.getD (0, 0)).2 = 0 ∧
        ∀ k, k ≠ 20 → (Sample.node 20 1 [(10, 0), (20, 0)]).clock.get k = last.clock.get k) :=
  ⟨by decide, by decide,
    getInputNode_normalised Sample.causal (by decide) 20 1
      (Sample.node 20 1 [(10, 0), (20, 0)]) (by decide)⟩

/-! ## Batches: what is written and what is read back -/

/-- C29: on n >= 1 values `_createInputBatch` does not throw and yields n nodes in the order
of the values, node i carrying value i; the last node carries the clock and the others none;
for n > 1 node i carries the batch position `[i, n - 1 - i]` and for n = 1 none; node 0
carries the input header exactly when the input is empty, and no other node carries a
header. -/
theorem createInputBatch_nodes (input : Unichain) (value : List Bytes) (clock : Clock)
    (hv : value ≠ []) :
    ∃ batch, _createInputBatch input value clock = .ok batch ∧
      batch.length = value.length ∧
      ∀ i v, value.get? i = some v → ∃ d, batch.get? i = some d ∧
        d.value = v ∧
        d.clock = (if i = value.length - 1 then clock else []) ∧
        d.batch = (if value.length ≠ 1 then some (i, value.length - 1 - i) else none) ∧
        d.header = (if i = 0 ∧ input.length = 0 then some Protocol.input else none) := by
  have hget : ∀ i v, value.get? i = some v → ∃ d,
      (value.mapIdx (fun i v =>
        ({ header := none, value := v,
           batch := if value.length ≠ 1 then some (i, value.length - 1 - i) else none,
           clock := if i = value.length - 1 then clock else [] } : NodeSchema))).get? i =
        some d ∧
      d.value = v ∧
      d.clock = (if i = value.length - 1 then clock else []) ∧
      d.batch = (if value.length ≠ 1 then some (i, value.length - 1 - i) else none) ∧
      d.header = none := by
    intro i v hi
    rw [List.get?_eq_getElem?] at hi
    rw [List.get?_eq_getElem?, List.getElem?_mapIdx, hi]
    exact ⟨_, rfl, rfl, rfl, rfl, rfl⟩
  unfold _createInputBatch
  simp only
  by_cases hl : input.length = 0
  · rw [if_pos hl]
    cases hn : value.mapIdx (fun i v =>
        ({ header := none, value := v,
           batch := if value.length ≠ 1 then some (i, value.length - 1 - i) else none,
           clock := if i = value.length - 1 then clock else [] } : NodeSchema)) with
    | nil =>
      have := congrArg List.length hn
      rw [List.length_mapIdx] at this
      exact absurd (List.length_eq_zero.1 this) hv
    | cons first rest =>
      refine ⟨_, rfl, ?_, ?_⟩
      · have := congrArg List.length hn
        rw [List.length_mapIdx] at this
        rw [this]
        rfl
      · intro i v hi
        obtain ⟨d, hd, h1, h2, h3, h4⟩ := hget i v hi
        rw [hn] at hd
        cases i with
        | zero =>
          simp only [List.get?_cons_zero, Option.some.injEq] at hd
          subst hd
          exact ⟨_, rfl, h1, h2, h3, by simp [hl]⟩
        | succ j =>
          exact ⟨d, hd, h1, h2, h3, by simp [h4]⟩
  · rw [if_neg hl]
    refine ⟨_, rfl, List.length_mapIdx, ?_⟩
    intro i v hi
    obtain ⟨d, hd, h1, h2, h3, h4⟩ := hget i v hi
    exact ⟨d, hd, h1, h2, h3, by simp [h4, hl]⟩

/-- C29 (witness): a batch of two values on an empty log. -/
theorem createInputBatch_nodes_witness :
    ([[1], [2]] : List Bytes) ≠ [] ∧
    ∃ batch, _createInputBatch (Sample.chain 10 []) [[1], [2]] [(20, 0)] = .ok batch ∧
      batch.length = ([[1], [2]] : List Bytes).length ∧
      ∀ i v, ([[1], [2]] : List Bytes).get? i = some v → ∃ d, batch.get? i = some d ∧
        d.value = v ∧
        d.clock = (if i = ([[1], [2]] : List Bytes).length - 1 then [(20, 0)] else []) ∧
        d.batch = (if ([[1], [2]] : List Bytes).length ≠ 1
          then some (i, ([[1], [2]] : List Bytes).length - 1 - i) else none) ∧
        d.header = (if i = 0 ∧ (Sample.chain 10 []).length = 0 then some Protocol.input
          else none) :=
  ⟨by decide, createInputBatch_nodes (Sample.chain 10 []) [[1], [2]] [(20, 0)] (by decide)⟩

/-- The nodes of a batch, evaluated: two values on an empty log, and one value on a log that
holds a node. -/
theorem createInputBatch_samples :
    _createInputBatch (Sample.chain 10 []) [[1], [2]] [(20, 0)] =
      .ok [{ header := some Protocol.input, value := [1], batch := some (0, 1), clock := [] },
        { header := none, value := [2], batch := some (1, 0), clock := [(20, 0)] }] ∧
    _createInputBatch (Sample.chain 10 [[]]) [[1]] [(20, 0)] =
      .ok [{ header := none, value := [1], batch := none, clock := [(20, 0)] }] := by
  decide

/-- C28: batch write and read agree.  After the append of n >= 1 values to an input of length
L, the seq handed to the clock codec on write is L + n - 1; the node at seq L + i (i < n) is
stored with a remaining count that leads from L + i to exactly L + n - 1; and every one of the
n nodes resolves, normalised, with the entries of the stored clock for all ids but its own. -/
theorem batch_write_read_agree (self : Bitstream) (value : List Bytes)
    (clock : Option (List (Key × Nat))) (input input' : Unichain)
    (happ : self._append value clock input = .ok input') (hv : value ≠ []) :
    compressSeq input value = ((input.length + value.length - 1 : Nat) : Int) ∧
    input'.length = input.length + value.length ∧
    ∃ stored, self.storedClock clock input = .ok stored ∧
      ∀ i, i < value.length → ∃ d n,
        input'.get (input.length + i) = some (Block.encoded d) ∧
        input.length + i + (d.batch.getD (0, 0)).2 = input.length + value.length - 1 ∧
        getInputNodeOf input' ((input.length + i : Nat) : Int) = .ok (some n) ∧
        n.seq = input.length + i ∧ Normalised n ∧
        ∀ k, k ≠ input.key → n.clock.get k = stored.get k := by
  have hpos : 0 < value.length := List.length_pos.2 hv
  obtain ⟨stored, n', hs, hn', _, _, hcl'⟩ := append_head self value clock input input' happ hv
  unfold Bitstream._append at happ
  rw [hs] at happ
  simp only at happ
  cases hb : _createInputBatch input value stored with
  | error e =>
    rw [hb] at happ
    cases happ
  | ok batch =>
    rw [hb] at happ
    simp only [Except.ok.injEq] at happ
    obtain ⟨hlen, hget⟩ := createInputBatch_get input value stored batch hb
    have hlen' : input'.length = input.length + value.length := by
      rw [← happ]
      simp [Unichain.append, hlen]
    have hblocks : input'.blocks.length = input.length + value.length := by
      rw [← happ]
      simp [Unichain.append, hlen]
    have hkey : input'.key = input.key := by
      rw [← happ]
      rfl
    refine ⟨?_, hlen', stored, hs, ?_⟩
    · unfold compressSeq
      omega
    · intro i hi
      obtain ⟨d, hd, hc, hba⟩ := hget i hi
      have hblock : input'.get (input.length + i) = some (Block.encoded d) := by
        have := append_get input (batch.map Block.encoded) i
        rw [happ] at this
        rw [this, List.get?_eq_getElem?, List.getElem?_map, ← List.get?_eq_getElem?, hd]
        rfl
      have hrem : (d.batch.getD (0, 0)).2 = value.length - 1 - i := by
        rw [hba]
        split
        · rfl
        · rename_i h1
          simp only [ne_eq, not_not] at h1
          simp only [Option.getD_none]
          omega
      have hterm : getInputNodeAux input' 2 (input.length + value.length - 1) =
          .ok (some n') := by
        unfold getInputNodeOf at hn'
        rw [hlen', hblocks] at hn'
        have hnn : ¬ ((↑(input.length + value.length) : Int) - 1 < 0) := by omega
        rw [if_neg hnn] at hn'
        have e1 : ((↑(input.length + value.length) : Int) - 1).toNat =
            input.length + value.length - 1 := by omega
        have e2 : input.length + value.length + 1 - (input.length + value.length - 1) = 2 := by
          omega
        rw [e1, e2] at hn'
        exact hn'
      have hnode : ∃ n, getInputNodeOf input' ((input.length + i : Nat) : Int) =
          .ok (some n) ∧ ∀ k, k ≠ input.key → n.clock.get k = stored.get k := by
        unfold getInputNodeOf
        have hnn : ¬ (((input.length + i : Nat) : Int) < 0) := by omega
        rw [if_neg hnn, Int.toNat_ofNat, hblocks]
        have e2 : input.length + value.length + 1 - (input.length + i) =
            (value.length - i) + 1 := by omega
        rw [e2]
        unfold getInputNodeAux
        rw [hblock]
        simp only
        by_cases hz : (d.batch.getD (0, 0)).2 = 0
        · simp only [hz, ne_eq, not_true_eq_false, if_false]
          refine ⟨_, rfl, ?_⟩
          intro k hk
          have hi' : i = value.length - 1 := by omega
          rw [if_pos hi'] at hc
          simp only [hc, hkey]
          exact normalizeClock_get_other _ _ _ _ hk
        · rw [if_pos hz]
          have htarget : input.length + i + (d.batch.getD (0, 0)).2 =
              input.length + value.length - 1 := by omega
          rw [htarget, getInputNodeAux_fuel input' (value.length - i) 2
            (input.length + value.length - 1) (by omega) (by omega), hterm]
          refine ⟨_, rfl, ?_⟩
          intro k hk
          simp only [hkey]
          rw [normalizeClock_get_other _ _ _ _ hk]
          exact hcl' k hk
      obtain ⟨n, hn, hcl⟩ := hnode
      obtain ⟨_, hnk, hns, hnc⟩ := getInputNodeOf_some input' _ n hn
      refine ⟨d, n, hblock, by omega, hn, by omega, ?_, hcl⟩
      unfold Normalised InputNode.id
      rw [hnk]
      exact hnc

/-- C28 (witness): a batch of two values appended to the log B of the test 'manually
specifying clocks'. -/
theorem batch_write_read_agree_witness :
    Sample.manual._append [[1], [2]] (some [(20, 0)]) (Sample.chain 20 [[(10, 2)]]) =
      .ok ((Sample.chain 20 [[(10, 2)]]).append
        [Block.encoded { header := none, value := [1], batch := some (0, 1), clock := [] },
          Block.encoded
            { header := none, value := [2], batch := some (1, 0), clock := [(10, 2)] }]) ∧
    ([[1], [2]] : List Bytes) ≠ [] ∧
    (compressSeq (Sample.chain 20 [[(10, 2)]]) [[1], [2]] =
      (((Sample.chain 20 [[(10, 2)]]).length + ([[1], [2]] : List Bytes).length - 1 : Nat) :
        Int) ∧
    ((Sample.chain 20 [[(10, 2)]]).append
        [Block.encoded { header := none, value := [1], batch := some (0, 1), clock := [] },
          Block.encoded
            { header := none, value := [2], batch := some (1, 0), clock := [(10, 2)] }]).length =
      (Sample.chain 20 [[(10, 2)]]).length + ([[1], [2]] : List Bytes).length ∧
    ∃ stored,
      Sample.manual.storedClock (some [(20, 0)]) (Sample.chain 20 [[(10, 2)]]) = .ok stored ∧
      ∀ i, i < ([[1], [2]] : List Bytes).length → ∃ d n,
        ((Sample.chain 20 [[(10, 2)]]).append
          [Block.encoded { header := none, value := [1], batch := some (0, 1), clock := [] },
            Block.encoded
              { header := none, value := [2], batch := some (1, 0), clock := [(10, 2)] }]).get
            ((Sample.chain 20 [[(10, 2)]]).length + i) = some (Block.encoded d) ∧
        (Sample.chain 20 [[(10, 2)]]).length + i + (d.batch.getD (0, 0)).2 =
          (Sample.chain 20 [[(10, 2)]]).length + ([[1], [2]] : List Bytes).length - 1 ∧
        getInputNodeOf
            ((Sample.chain 20 [[(10, 2)]]).append
              [Block.encoded { header := none, value := [1], batch := some (0, 1), clock := [] },
                Block.encoded
                  { header := none, value := [2], batch := some (1, 0), clock := [(10, 2)] }])
            (((Sample.chain 20 [[(10, 2)]]).length + i : Nat) : Int) = .ok (some n) ∧
        n.seq = (Sample.chain 20 [[(10, 2)]]).length + i ∧ Normalised n ∧
        ∀ k, k ≠ (Sample.chain 20 [[(10, 2)]]).key → n.clock.get k = stored.get k) :=
  ⟨by decide, by decide,
    batch_write_read_agree Sample.manual [[1], [2]] (some [(20, 0)])
      (Sample.chain 20 [[(10, 2)]]) _ (by decide) (by decide)⟩

/-! ## The latest clock -/

theorem JsMap.has_set {α : Type} (m : JsMap α) (k k' : Key) (v : α) :
    (JsMap.set m k v).has k' = true ↔ k' = k ∨ m.has k' = true := by
  unfold JsMap.has
  by_cases h : k' = k
  · subst h
    rw [JsMap.get_set_self]
    simp
  · rw [JsMap.get_set_other _ _ _ _ h]
    simp [h]

/-- The loop of `_getLatestClock` on inputs that are all tracked. -/
theorem getLatestClockLoop_ok (self : Bitstream) (l : List Unichain) (clock : Clock)
    (hall : ∀ i ∈ l, self._inputsByKey.has i.key = true) (hwf : JsMap.WF clock) :
    ∃ c, self._getLatestClockLoop l clock = .ok c ∧ JsMap.WF c ∧
      (∀ k, c.has k = true ↔ clock.has k = true ∨ ∃ i ∈ l, i.key = k ∧ i.length ≠ 0) ∧
      ∀ k v, c.get k = some v →
        clock.get k = some v ∨ ∃ i ∈ l, i.key = k ∧ i.length ≠ 0 ∧ v = i.length - 1 := by
  induction l generalizing clock with
  | nil =>
    refine ⟨clock, rfl, hwf, ?_, ?_⟩
    · intro k
      simp
    · intro k v h
      exact Or.inl h
  | cons a rest ih =>
    have ha := hall a (List.mem_cons_self _ _)
    have hrest : ∀ i ∈ rest, self._inputsByKey.has i.key = true :=
      fun i hi => hall i (List.mem_cons_of_mem _ hi)
    unfold Bitstream._getLatestClockLoop
    simp only [ha, Bool.not_true, Bool.false_eq_true, if_false]
    by_cases hl : a.length = 0
    · rw [if_pos hl]
      obtain ⟨c, hc, hw, hhas, hget⟩ := ih clock hrest hwf
      refine ⟨c, hc, hw, ?_, ?_⟩
      · intro k
        rw [hhas k]
        constructor
        · rintro (h | ⟨i, hi, h⟩)
          · exact Or.inl h
          · exact Or.inr ⟨i, List.mem_cons_of_mem _ hi, h⟩
        · rintro (h | ⟨i, hi, h⟩)
          · exact Or.inl h
          · rcases List.mem_cons.1 hi with rfl | hi'
            · exact absurd hl h.2
            · exact Or.inr ⟨i, hi', h⟩
      · intro k v h
        rcases hget k v h with h' | ⟨i, hi, h'⟩
        · exact Or.inl h'
        · exact Or.inr ⟨i, List.mem_cons_of_mem _ hi, h'⟩
    · rw [if_neg hl]
      obtain ⟨c, hc, hw, hhas, hget⟩ :=
        ih (JsMap.set clock a.key (a.length - 1)) hrest (JsMap.wf_set _ _ _ hwf)
      refine ⟨c, hc, hw, ?_, ?_⟩
      · intro k
        rw [hhas k, JsMap.has_set]
        constructor
        · rintro ((h | h) | ⟨i, hi, h⟩)
          · exact Or.inr ⟨a, List.mem_cons_self _ _, h.symm, hl⟩
          · exact Or.inl h
          · exact Or.inr ⟨i, List.mem_cons_of_mem _ hi, h⟩
        · rintro (h | ⟨i, hi, h⟩)
          · exact Or.inl (Or.inr h)
          · rcases List.mem_cons.1 hi with rfl | hi'
            · exact Or.inl (Or.inl h.1.symm)
            · exact Or.inr ⟨i, hi', h⟩
      · intro k v h
        rcases hget k v h with h' | ⟨i, hi, h'⟩
        · by_cases hk : k = a.key
          · subst hk
            rw [JsMap.get_set_self] at h'
            cases h'
            exact Or.inr ⟨a, List.mem_cons_self _ _, rfl, hl, rfl⟩
          · rw [JsMap.get_set_other _ _ _ _ hk] at h'
            exact Or.inl h'
        · exact Or.inr ⟨i, List.mem_cons_of_mem _ hi, h'⟩

/-- The loop of `_getLatestClock` throws when it meets an input that is not tracked. -/
theorem getLatestClockLoop_error (self : Bitstream) (l : List Unichain) (clock : Clock)
    (h : ∃ i ∈ l, self._inputsByKey.has i.key = false) :
    self._getLatestClockLoop l clock = .error Error.notAnInput := by
  induction l generalizing clock with
  | nil =>
    obtain ⟨i, hi, _⟩ := h
    cases hi
  | cons a rest ih =>
    unfold Bitstream._getLatestClockLoop
    by_cases ha : self._inputsByKey.has a.key = true
    · have hrest : ∃ i ∈ rest, self._inputsByKey.has i.key = false := by
        obtain ⟨i, hi, hf⟩ := h
        rcases List.mem_cons.1 hi with rfl | hi'
        · rw [ha] at hf
          cases hf
        · exact ⟨i, hi', hf⟩
      simp only [ha, Bool.not_true, Bool.false_eq_true, if_false]
      split
      · exact ih clock hrest
      · exact ih _ hrest
    · simp [ha]

/-- C21: on an instance that opened, `latest(inputs)` visits the tracked inputs when no input
is named, the one input when a single one is named, and the inputs of the array otherwise.  If
all of them are tracked it returns, and caches, a clock that has an entry exactly for the ids
of those of non-zero length, each entry being the length minus one of such an input (of the
input itself when the requested inputs have distinct keys).  If one of them is not tracked it
fails with the error 'Unichain is not an input of the Bitstream' and the cached clock is as
before. -/
theorem latest_clock (self : Bitstream) (hr : self.ready = .ok ()) (cached : Option Clock)
    (inputs : InputsArg) :
    ((∀ i ∈ self.requestedInputs inputs, self._inputsByKey.has i.key = true) →
      ∃ clock, self.latest cached inputs = (.ok clock, some clock) ∧ JsMap.WF clock ∧
        (∀ k, clock.has k = true ↔
          ∃ i ∈ self.requestedInputs inputs, i.key = k ∧ i.length ≠ 0) ∧
        (∀ k v, clock.get k = some v →
          ∃ i ∈ self.requestedInputs inputs, i.key = k ∧ i.length ≠ 0 ∧ v = i.length - 1) ∧
        (((self.requestedInputs inputs).map Unichain.key).Nodup →
          ∀ i ∈ self.requestedInputs inputs, i.length ≠ 0 →
            clock.get i.key = some (i.length - 1))) ∧
    ((∃ i ∈ self.requestedInputs inputs, self._inputsByKey.has i.key = false) →
      self.latest cached inputs = (.error Error.notAnInput, cached)) ∧
    self.requestedInputs InputsArg.undefined = self.inputs ∧
    ∀ input, self.requestedInputs (InputsArg.one input) = [input] := by
  refine ⟨?_, ?_, rfl, fun _ => rfl⟩
  · intro hall
    obtain ⟨c, hc, hw, hhas, hget⟩ :=
      getLatestClockLoop_ok self (self.requestedInputs inputs) [] hall List.nodup_nil
    have hhas' : ∀ k, c.has k = true ↔
        ∃ i ∈ self.requestedInputs inputs, i.key = k ∧ i.length ≠ 0 := by
      intro k
      rw [hhas k]
      simp [JsMap.has, JsMap.get]
    have hget' : ∀ k v, c.get k = some v →
        ∃ i ∈ self.requestedInputs inputs, i.key = k ∧ i.length ≠ 0 ∧ v = i.length - 1 := by
      intro k v h
      rcases hget k v h with h' | h'
      · simp [JsMap.get] at h'
      · exact h'
    refine ⟨c, ?_, hw, hhas', hget', ?_⟩
    · unfold Bitstream.latest Bitstream._getLatestClock
      rw [hr]
      simp only [Option.getD_some, hc]
    · intro hnd i hi hl
      have hh : c.has i.key = true := (hhas' i.key).2 ⟨i, hi, rfl, hl⟩
      unfold JsMap.has at hh
      obtain ⟨v, hv⟩ := Option.isSome_iff_exists.1 hh
      obtain ⟨j, hj, hjk, _, hjv⟩ := hget' i.key v hv
      have hij : j = i := List.inj_on_of_nodup_map hnd hj hi hjk
      rw [hv, hjv, hij]
  · intro hex
    unfold Bitstream.latest Bitstream._getLatestClock
    rw [hr]
    simp only [Option.getD_some, getLatestClockLoop_error self _ [] hex]

/-- C21 (witness): on the logs of the test 'manually specifying clocks', `latest()`,
`latest(writerB)` and `latest` of a log that is not tracked. -/
theorem latest_clock_witness :
    Sample.manual.ready = .ok () ∧
    Sample.manual.latest none InputsArg.undefined = (.ok [(10, 1), (20, 0)],
      some [(10, 1), (20, 0)]) ∧
    Sample.manual.latest none (InputsArg.one (Sample.chain 20 [[(10, 2)]])) =
      (.ok [(20, 0)], some [(20, 0)]) ∧
    Sample.manual.latest (some [(10, 1)]) (InputsArg.one (Sample.chain 30 [[]])) =
      (.error Error.notAnInput, some [(10, 1)]) ∧
    (((∀ i ∈ Sample.manual.requestedInputs InputsArg.undefined,
        Sample.manual._inputsByKey.has i.key = true) →
      ∃ clock, Sample.manual.latest none InputsArg.undefined = (.ok clock, some clock) ∧
        JsMap.WF clock ∧
        (∀ k, clock.has k = true ↔
          ∃ i ∈ Sample.manual.requestedInputs InputsArg.undefined, i.key = k ∧ i.length ≠ 0) ∧
        (∀ k v, clock.get k = some v →
          ∃ i ∈ Sample.manual.requestedInputs InputsArg.undefined,
            i.key = k ∧ i.length ≠ 0 ∧ v = i.length - 1) ∧
        (((Sample.manual.requestedInputs InputsArg.undefined).map Unichain.key).Nodup →
          ∀ i ∈ Sample.manual.requestedInputs InputsArg.undefined, i.length ≠ 0 →
            clock.get i.key = some (i.length - 1))) ∧
    ((∃ i ∈ Sample.manual.requestedInputs InputsArg.undefined,
        Sample.manual._inputsByKey.has i.key = false) →
      Sample.manual.latest none InputsArg.undefined = (.error Error.notAnInput, none)) ∧
    Sample.manual.requestedInputs InputsArg.undefined = Sample.manual.inputs ∧
    ∀ input, Sample.manual.requestedInputs (InputsArg.one input) = [input]) :=
  ⟨by decide, by decide, by decide, by decide,
    latest_clock Sample.manual (by decide) none InputsArg.undefined⟩

/-! ## The arguments of append -/

/-- C30 (failing input): the instance has the local input A; `append(value, undefined, B)`
writes to A, not to the third argument B, and `append(value, A, B)`, with a log as second
argument, writes to A as well.  With `null`, an array or a `Map` as second argument the third
argument is the log written to. -/
theorem append_undefined_clock_drops_input :
    Bitstream.appendArguments (some (Sample.chain 10 [[], []])) ClockArg.undefined
      (some (Sample.chain 20 [[(10, 2)]])) = (none, some (Sample.chain 10 [[], []])) ∧
    Sample.manual.appendWith (some (Sample.chain 10 [[], []])) [[1]] ClockArg.undefined
        (some (Sample.chain 20 [[(10, 2)]])) =
      .ok ((Sample.chain 10 [[], []]).append [Sample.written [1] [(20, 0)]]) ∧
    Bitstream.appendArguments none (ClockArg.log (Sample.chain 10 [[], []]))
      (some (Sample.chain 20 [[(10, 2)]])) = (none, some (Sample.chain 10 [[], []])) ∧
    Bitstream.appendArguments (some (Sample.chain 10 [[], []])) ClockArg.null
      (some (Sample.chain 20 [[(10, 2)]])) = (none, some (Sample.chain 20 [[(10, 2)]])) ∧
    Bitstream.appendArguments (some (Sample.chain 10 [[], []])) (ClockArg.array [])
      (some (Sample.chain 20 [[(10, 2)]])) = (some [], some (Sample.chain 20 [[(10, 2)]])) := by
  decide

/-- The log `_append` writes to, for every shape of the arguments: the second argument when
it is a log; the local input when the second argument is `undefined`; and otherwise (`null`,
an array, a `Map`) the third argument when there is one and the local input when not. -/
theorem appendArguments_target (localInput : Option Unichain) (clock : ClockArg)
    (input : Option Unichain) :
    (Bitstream.appendArguments localInput clock input).2 =
      match clock with
      | .log chain => some chain
      | .undefined => localInput
      | _ => input.orElse (fun _ => localInput) := by
  cases clock <;> cases input <;> rfl

/-! ## The linearized view -/

theorem commonPrefix_take (l1 l2 : List OutputNode) :
    l1.take (commonPrefix l1 l2) = l2.take (commonPrefix l1 l2) := by
  induction l1 generalizing l2 with
  | nil => cases l2 <;> simp [commonPrefix]
  | cons a as ih =>
    cases l2 with
    | nil => simp [commonPrefix]
    | cons b bs =>
      unfold commonPrefix
      by_cases h : a = b
      · rw [if_pos h, List.take_succ_cons, List.take_succ_cons, ih bs, h]
      · rw [if_neg h]
        rfl

theorem commonPrefix_self (l : List OutputNode) : commonPrefix l l = l.length := by
  induction l with
  | nil => rfl
  | cons a as ih =>
    unfold commonPrefix
    rw [if_pos rfl, ih]
    rfl

theorem commonPrefix_le (l1 l2 : List OutputNode) :
    commonPrefix l1 l2 ≤ l1.length ∧ commonPrefix l1 l2 ≤ l2.length := by
  induction l1 generalizing l2 with
  | nil => cases l2 <;> simp [commonPrefix]
  | cons a as ih =>
    cases l2 with
    | nil => simp [commonPrefix]
    | cons b bs =>
      unfold commonPrefix
      by_cases h : a = b
      · rw [if_pos h]
        have := ih bs
        simp only [List.length_cons]
        omega
      · rw [if_neg h]
        simp

/-- C22: after a recompute pass on an instance whose causal stream is `stream`, whatever the
output held before, the output of the view read from index 0 upward is the causal stream
reversed; the pass kept the entries up to the first point where the old output and the new
order differ, removed the entries the old output had from there on and added those of the new
order; and a second pass with no change of the inputs leaves the output as it is and reports
added 0 and removed 0. -/
theorem view_is_reversed_stream (self : Bitstream) (view : LinearizedView)
    (stream : List OutputNode) (h : createCausalStream self = .ok stream) :
    ∃ view', view.update self = .ok view' ∧
      view'.output = stream.reverse ∧
      view'.status.added = stream.length - commonPrefix view.output stream.reverse ∧
      view'.status.removed = view.output.length - commonPrefix view.output stream.reverse ∧
      view'.output.take (commonPrefix view.output stream.reverse) =
        view.output.take (commonPrefix view.output stream.reverse) ∧
      view'.update self =
        .ok { output := stream.reverse, status := { added := 0, removed := 0 } } := by
  have hout : view.output.take (commonPrefix view.output stream.reverse) ++
      stream.reverse.drop (commonPrefix view.output stream.reverse) = stream.reverse := by
    rw [commonPrefix_take, List.take_append_drop]
  refine ⟨_, by unfold LinearizedView.update; rw [h], ?_, ?_, rfl, ?_, ?_⟩
  · exact hout
  · simp
  · simp only
    rw [hout, commonPrefix_take]
  · unfold LinearizedView.update
    rw [h]
    simp only [hout, commonPrefix_self, List.take_length, List.drop_length, List.append_nil,
      Nat.sub_self]

/-- C22 (witness): the view of the test 'linearizing - three independent forks' at its first
recompute, started on an empty output. -/
theorem view_is_reversed_stream_witness :
    createCausalStream Sample.threeForks = .ok Sample.threeForksStream ∧
    ∃ view',
      LinearizedView.update { output := [], status := { added := 0, removed := 0 } }
        Sample.threeForks = .ok view' ∧
      view'.output = Sample.threeForksStream.reverse ∧
      view'.status.added = Sample.threeForksStream.length -
        commonPrefix
          (LinearizedView.mk [] { added := 0, removed := 0 }).output
          Sample.threeForksStream.reverse ∧
      view'.status.removed =
        (LinearizedView.mk [] { added := 0, removed := 0 }).output.length -
          commonPrefix (LinearizedView.mk [] { added := 0, removed := 0 }).output
            Sample.threeForksStream.reverse ∧
      view'.output.take
          (commonPrefix (LinearizedView.mk [] { added := 0, removed := 0 }).output
            Sample.threeForksStream.reverse) =
        (LinearizedView.mk [] { added := 0, removed := 0 }).output.take
          (commonPrefix (LinearizedView.mk [] { added := 0, removed := 0 }).output
            Sample.threeForksStream.reverse) ∧
      view'.update Sample.threeForks =
        .ok { output := Sample.threeForksStream.reverse,
              status := { added := 0, removed := 0 } } :=
  ⟨by decide,
    view_is_reversed_stream Sample.threeForks
      { output := [], status := { added := 0, removed := 0 } } Sample.threeForksStream
      (by decide)⟩

/-- The tests 'linearizing - three independent forks' and 'linearizing - double-linearizing is
a no-op': the first recompute gives the reversed content a0, b1, b0, c2, c1, c0 with added 6
and removed 0, a second one added 0 and removed 0, and the recompute after three more entries
on A added 9 and removed 6. -/
theorem three_forks_view_test :
    ((Bitstream.start none).bind fun v => v.update Sample.threeForks).map
        (fun v => (v.output.reverse.map fun o => Sample.tag o.node, v.status)) =
      .ok ([(10, 0), (20, 1), (20, 0), (30, 2), (30, 1), (30, 0)],
        { added := 6, removed := 0 }) ∧
    (((Bitstream.start none).bind fun v => v.update Sample.threeForks).bind
        fun v => v.update Sample.threeForks).map (fun v => v.status) =
      .ok { added := 0, removed := 0 } ∧
    (((Bitstream.start none).bind fun v => v.update Sample.threeForks).bind
        fun v => v.update Sample.threeForksLater).map
        (fun v => (v.output.reverse.map fun o => Sample.tag o.node, v.status)) =
      .ok ([(20, 1), (20, 0), (30, 2), (30, 1), (30, 0), (10, 3), (10, 2), (10, 1), (10, 0)],
        { added := 9, removed := 6 }) ∧
    Bitstream.start (some { output := [], status := { added := 0, removed := 0 } }) =
      .error Error.startTwice := by
  decide

/-- The test 'linearizing - does not over-truncate': after three more entries on A the
recompute reports added 6 and removed 3, and after one more on B added 1 and removed 0. -/
theorem over_truncate_view_test :
    ((((Bitstream.start none).bind fun v => v.update (Sample.overTruncate 1 2)).bind
        fun v => v.update (Sample.overTruncate 4 2)).map fun v => v.status) =
      .ok { added := 6, removed := 3 } ∧
    (((((Bitstream.start none).bind fun v => v.update (Sample.overTruncate 1 2)).bind
        fun v => v.update (Sample.overTruncate 4 2)).bind
        fun v => v.update (Sample.overTruncate 4 3)).map fun v => v.status) =
      .ok { added := 1, removed := 0 } := by
  decide

end Autobase
